import Mathlib

/-!
# concurrent-hash: the priority turn scheduler and the store

Shallow embedding of `src/scheduler.c`, `src/hash_table.c` and of
`command_worker` of `src/chash.c` (with the types of `src/commands.h`,
`src/scheduler.h` and `src/hash_table.h`), and the properties of the turn
scheduler, of the worker and of the store.

The scheduler's mutex makes every stretch of code between two points where the
mutex is released atomic.  A call of `scheduler_wait_for_turn` is therefore cut
into its entry step (lines 59-77, and 88-92 when the loop is not entered) and
one step per return of `pthread_cond_wait` (lines 78-86 followed by the loop
test of line 77, and 88-92 when the loop is left); `scheduler_finish_turn` is a
single step.  Commands are addressed by their index in the command list: the
pointer `&command_list->commands[i]` is the index `i`, a NULL command is an
index outside the list.

The store is used under the table lock, one call at a time, so its functions
are plain functions of the table.
-/

namespace ConcurrentHash

/-! ## Types of `commands.h` and `scheduler.h` -/

/-- The value of `INT_MAX` for the 32-bit `int` of the source. -/
def INT_MAX : Int := 2147483647

/-- The value of `INT_MIN` for the 32-bit `int` of the source. -/
def INT_MIN : Int := -2147483648

/-- The value of `SIZE_MAX` for the 64-bit `size_t` of the source. -/
def SIZE_MAX : Nat := 18446744073709551615

/-- The enumeration `command_type_t` of `commands.h`. -/
inductive command_type_t where
  | COMMAND_INSERT
  | COMMAND_UPDATE
  | COMMAND_DELETE
  | COMMAND_SEARCH
  | COMMAND_PRINT
  | COMMAND_UNKNOWN
  deriving DecidableEq

/-- The enumeration `command_state_t` of `commands.h`. -/
inductive command_state_t where
  | CMD_STATE_PENDING
  | CMD_STATE_WAITING
  | CMD_STATE_ACTIVE
  | CMD_STATE_FINISHED
  deriving DecidableEq

open command_type_t command_state_t

/-- The struct `command_t` of `commands.h`; `name` is the byte string held in
`name[128]`, `raw_line` the one held in `raw_line[256]`. -/
structure command_t where
  type : command_type_t
  state : command_state_t
  name : List Nat
  salary : Nat
  priority : Int
  raw_line : List Nat
  deriving DecidableEq

/-- The struct `scheduler_t` of `scheduler.h`.  `command_list` is the array the
scheduler points to.  The mutex is not represented (steps are atomic).  The
condition variable is represented by `cond`, the indices of the workers that a
broadcast has released from `pthread_cond_wait` and that have not yet run
again, and by `broadcasts`, the number of `pthread_cond_broadcast` calls made so
far. -/
structure scheduler_t where
  current_priority : Int
  active_threads : Nat
  command_list : List command_t
  cond : List Nat
  broadcasts : Nat
  deriving DecidableEq

/-! ## `scheduler.c` -/

/-- The body of the `for` loop of `scheduler_waiting_min_priority_locked`
(lines 13-18): one command folded into the running minimum. -/
def waiting_min_step (min_priority : Int) (cmd : command_t) : Int :=
  if cmd.state = CMD_STATE_WAITING then
    if cmd.priority < min_priority then cmd.priority else min_priority
  else min_priority

/-- The function `scheduler_waiting_min_priority_locked` (lines 5-22), on the
command array of the scheduler.  The scheduler and its command list are not
NULL once `scheduler_init` has run, so the guard of lines 8-10 is not taken. -/
def scheduler_waiting_min_priority_locked (scheduler : scheduler_t) : Int :=
  scheduler.command_list.foldl waiting_min_step INT_MAX

/-- The function `scheduler_init` (lines 24-43), on the path where the mutex and
the condition variable are created. -/
def scheduler_init (command_list : List command_t) : scheduler_t :=
  { current_priority := INT_MAX
    active_threads := 0
    command_list := command_list
    cond := []
    broadcasts := 0 }

/-- The call `pthread_cond_broadcast(&scheduler->cond)` made by the worker of
command `caller`: every other worker whose command is WAITING is blocked in
`pthread_cond_wait` or already released, and is released now. -/
def pthread_cond_broadcast (scheduler : scheduler_t) (caller : Nat) : scheduler_t :=
  { scheduler with
    cond := (List.range scheduler.command_list.length).filter (fun j =>
      decide (j ≠ caller) &&
        decide ((scheduler.command_list[j]?).map command_t.state = some CMD_STATE_WAITING))
    broadcasts := scheduler.broadcasts + 1 }

/-- The loop test of line 77 and what follows it.  When the priorities differ
the worker calls `pthread_cond_wait` and blocks (`false`); otherwise lines 88-92
run: the command becomes ACTIVE, `active_threads` is incremented (a `size_t`)
and the function returns (`true`). -/
def turn_gate (scheduler : scheduler_t) (i : Nat) (command : command_t) :
    scheduler_t × Bool :=
  if command.priority ≠ scheduler.current_priority then
    (scheduler, false)
  else
    ({ scheduler with
        command_list :=
          scheduler.command_list.set i { command with state := CMD_STATE_ACTIVE }
        active_threads := (scheduler.active_threads + 1) % (SIZE_MAX + 1) }, true)

/-- Lines 61-75 of `scheduler_wait_for_turn`, for the command `c` found at index
`i`: the command is marked WAITING, then the priority of the round is chosen
when no worker is active, or seeded when it is still the sentinel. -/
def wait_for_turn_entry (scheduler : scheduler_t) (i : Nat) (c : command_t) : scheduler_t :=
  let command : command_t := { c with state := CMD_STATE_WAITING }
  let s1 : scheduler_t :=
    { scheduler with command_list := scheduler.command_list.set i command }
  if s1.active_threads = 0 then
    let min_pri := scheduler_waiting_min_priority_locked s1
    if min_pri = INT_MAX ∨ command.priority < min_pri then
      pthread_cond_broadcast { s1 with current_priority := command.priority } i
    else
      pthread_cond_broadcast { s1 with current_priority := min_pri } i
  else if s1.current_priority = INT_MAX then
    pthread_cond_broadcast { s1 with current_priority := command.priority } i
  else s1

/-- Lines 78-85 of `scheduler_wait_for_turn`: `pthread_cond_wait` returns for
worker `i` (its pending wake-up, if any, is used up), and the priority of the
round is chosen again when no worker is active. -/
def wait_for_turn_recheck (scheduler : scheduler_t) (i : Nat) : scheduler_t :=
  let s0 : scheduler_t :=
    { scheduler with cond := scheduler.cond.filter (fun j => decide (j ≠ i)) }
  if s0.active_threads = 0 then
    let min_pri := scheduler_waiting_min_priority_locked s0
    if min_pri ≠ INT_MAX then
      pthread_cond_broadcast { s0 with current_priority := min_pri } i
    else s0
  else s0

/-- The entry step of `scheduler_wait_for_turn` (lines 55-77, then 88-92 or
the first `pthread_cond_wait`).  The Boolean tells whether the call returned; a
NULL command makes it return at once (line 56). -/
def scheduler_wait_for_turn_enter (scheduler : scheduler_t) (i : Nat) :
    scheduler_t × Bool :=
  match scheduler.command_list[i]? with
  | none => (scheduler, true)
  | some c =>
    turn_gate (wait_for_turn_entry scheduler i c) i { c with state := CMD_STATE_WAITING }

/-- One return of `pthread_cond_wait` inside `scheduler_wait_for_turn` (lines
78-86, the loop test of line 77, then 88-92 or `pthread_cond_wait` again).  The
Boolean tells whether the call returned. -/
def scheduler_wait_for_turn_wake (scheduler : scheduler_t) (i : Nat) :
    scheduler_t × Bool :=
  match scheduler.command_list[i]? with
  | none => (scheduler, false)
  | some command => turn_gate (wait_for_turn_recheck scheduler i) i command

/-- The function `scheduler_finish_turn` (lines 95-118). -/
def scheduler_finish_turn (scheduler : scheduler_t) (i : Nat) : scheduler_t :=
  match scheduler.command_list[i]? with
  | none => scheduler
  | some c =>
    let s1 : scheduler_t :=
      { scheduler with
        command_list := scheduler.command_list.set i { c with state := CMD_STATE_FINISHED } }
    let s2 : scheduler_t :=
      if s1.active_threads > 0 then { s1 with active_threads := s1.active_threads - 1 } else s1
    if s2.active_threads = 0 then
      let min_pri := scheduler_waiting_min_priority_locked s2
      if min_pri = INT_MAX then
        pthread_cond_broadcast { s2 with current_priority := INT_MAX } i
      else
        pthread_cond_broadcast { s2 with current_priority := min_pri } i
    else s2

/-! ## Interleavings of the workers

`command_worker` (chash.c, lines 138-185) calls `scheduler_wait_for_turn` once
and then `scheduler_finish_turn` once on its own command, so the state of the
command tells where its worker stands: PENDING before the call of
`scheduler_wait_for_turn`, WAITING inside `pthread_cond_wait`, ACTIVE between
the two calls, FINISHED after `scheduler_finish_turn`. -/

/-- What the thread scheduler of the platform can do: let worker `i` take its
next atomic step (`run`), or make `pthread_cond_wait` of worker `i` return
without a broadcast (`spurious`, which POSIX allows). -/
inductive sched_event where
  | run (i : Nat)
  | spurious (i : Nat)
  deriving DecidableEq

/-- One atomic step of the system.  A `run` of a worker that is blocked with no
pending wake-up, or that has finished, changes nothing.  What `command_worker`
does between its two calls (the table lock and the store operation) does not
touch the scheduler and is part of the step that finishes the turn. -/
def command_worker_step (s : scheduler_t) : sched_event → scheduler_t
  | sched_event.run i =>
    match s.command_list[i]? with
    | none => s
    | some c =>
      match c.state with
      | CMD_STATE_PENDING => (scheduler_wait_for_turn_enter s i).1
      | CMD_STATE_WAITING => if i ∈ s.cond then (scheduler_wait_for_turn_wake s i).1 else s
      | CMD_STATE_ACTIVE => scheduler_finish_turn s i
      | CMD_STATE_FINISHED => s
  | sched_event.spurious i =>
    match s.command_list[i]? with
    | none => s
    | some c =>
      if c.state = CMD_STATE_WAITING then (scheduler_wait_for_turn_wake s i).1 else s

/-- The state after the events of an interleaving, in order. -/
def run_events (s : scheduler_t) (events : List sched_event) : scheduler_t :=
  events.foldl command_worker_step s

/-- The states the program can be in: those an interleaving reaches from
`scheduler_init` on the parsed command list. -/
def reachable (command_list : List command_t) (s : scheduler_t) : Prop :=
  ∃ events : List sched_event, s = run_events (scheduler_init command_list) events

/-- A command as `parse_commands_file` builds it (commands.c, lines 193-195):
its state is PENDING. -/
def parsed (command_list : List command_t) : Prop :=
  ∀ c ∈ command_list, c.state = CMD_STATE_PENDING

/-- The priorities of a command list are values of the type `int`. -/
def int_priorities (command_list : List command_t) : Prop :=
  ∀ c ∈ command_list, INT_MIN ≤ c.priority ∧ c.priority ≤ INT_MAX

/-- A command with the given type and priority, as the parser leaves it. -/
def mk_command (t : command_type_t) (priority : Int) : command_t :=
  { type := t, state := CMD_STATE_PENDING, name := [], salary := 0,
    priority := priority, raw_line := [] }


/-! ## Vocabulary of the properties -/

/-- The value `m` is the least priority among the WAITING commands of the list,
or `INT_MAX` when no command of the list is WAITING. -/
def least_waiting (l : List command_t) (m : Int) : Prop :=
  (∃ c ∈ l, c.state = CMD_STATE_WAITING ∧ c.priority = m ∧
      ∀ d ∈ l, d.state = CMD_STATE_WAITING → m ≤ d.priority) ∨
    ((∀ c ∈ l, c.state ≠ CMD_STATE_WAITING) ∧ m = INT_MAX)

/-- The number of commands of the list whose state is ACTIVE. -/
def active_count (l : List command_t) : Nat :=
  l.countP (fun c => decide (c.state = CMD_STATE_ACTIVE))

/-- How many atomic steps a command in this state still has to take at least:
the states are ordered PENDING, WAITING, ACTIVE, FINISHED. -/
def state_rank : command_state_t → Nat
  | CMD_STATE_PENDING => 3
  | CMD_STATE_WAITING => 2
  | CMD_STATE_ACTIVE => 1
  | CMD_STATE_FINISHED => 0

/-- The sum of the ranks of the commands of a list. -/
def list_rank (l : List command_t) : Nat :=
  (l.map (fun c => state_rank c.state)).sum

/-- The state after the first `n` events of an infinite schedule. -/
def run_schedule (s : scheduler_t) (schedule : Nat → sched_event) : Nat → scheduler_t
  | 0 => s
  | n + 1 => command_worker_step (run_schedule s schedule n) (schedule n)

/-- A schedule is fair for `n` workers when each of them is run again and again. -/
def fair_schedule (n : Nat) (schedule : Nat → sched_event) : Prop :=
  ∀ i, i < n → ∀ t, ∃ u, t ≤ u ∧ schedule u = sched_event.run i

/-- The facts that hold in every state the program reaches: `active_threads`
counts the ACTIVE commands; when it is zero, `current_priority` is the least
waiting priority and every waiting command of that priority has a pending
wake-up; the list fits a `size_t` count and its priorities are `int` values. -/
structure scheduler_inv (s : scheduler_t) : Prop where
  count : s.active_threads = active_count s.command_list
  least : s.active_threads = 0 → least_waiting s.command_list s.current_priority
  woken : s.active_threads = 0 → ∀ j c, s.command_list[j]? = some c →
    c.state = CMD_STATE_WAITING → c.priority = s.current_priority → j ∈ s.cond
  size : s.command_list.length ≤ SIZE_MAX
  ints : int_priorities s.command_list

/-- A command list as `parse_commands_file` hands it to `scheduler_init`: every
command PENDING, every priority an `int`, and a number of commands that fits
the `size_t` field `count`. -/
def valid_command_list (command_list : List command_t) : Prop :=
  parsed command_list ∧ int_priorities command_list ∧ command_list.length ≤ SIZE_MAX

/-- Every ACTIVE command of the state has the priority `current_priority`. -/
def active_at_current (s : scheduler_t) : Prop :=
  ∀ c ∈ s.command_list, c.state = CMD_STATE_ACTIVE → c.priority = s.current_priority

/-- Every priority of the list is below the sentinel `INT_MAX`. -/
def below_sentinel (l : List command_t) : Prop :=
  ∀ c ∈ l, c.priority < INT_MAX

/-- Worker `k` can take a step that moves its command forward: its command is
PENDING (it enters), ACTIVE (it finishes), or WAITING with a pending wake-up
while no worker is active and the priority of the round is its own (it is
admitted). -/
def can_advance (s : scheduler_t) (k : Nat) : Prop :=
  ∃ c, s.command_list[k]? = some c ∧
    (c.state = CMD_STATE_PENDING ∨ c.state = CMD_STATE_ACTIVE ∨
      (c.state = CMD_STATE_WAITING ∧ k ∈ s.cond ∧ s.active_threads = 0 ∧
        c.priority = s.current_priority))

/-- A state in which the waiting workers can never move again: some command is
WAITING, every WAITING command is blocked in `pthread_cond_wait` with no pending
wake-up, no command is ACTIVE, and `current_priority` is the priority of no
WAITING command. -/
def stuck (s : scheduler_t) : Prop :=
  (∃ c ∈ s.command_list, c.state = CMD_STATE_WAITING) ∧
    (∀ j c, s.command_list[j]? = some c → c.state = CMD_STATE_WAITING → j ∉ s.cond) ∧
    (∀ c ∈ s.command_list, c.state ≠ CMD_STATE_ACTIVE) ∧
    (∀ c ∈ s.command_list, c.state = CMD_STATE_WAITING → c.priority ≠ s.current_priority)

/-! ## Sample inputs -/

/-- Three commands: two of priority 5 and one of priority 3. -/
def sample_commands : List command_t :=
  [mk_command COMMAND_INSERT 5, mk_command COMMAND_SEARCH 5, mk_command COMMAND_PRINT 3]

/-- The state reached from `sample_commands` when the worker of priority 3
enters first, both workers of priority 5 enter and block, the first finishes
and the worker of command 0 wakes up and is admitted: command 0 is ACTIVE,
command 1 is WAITING with the priority of the round, command 2 is FINISHED. -/
def sample_state : scheduler_t :=
  run_events (scheduler_init sample_commands)
    [sched_event.run 2, sched_event.run 0, sched_event.run 1, sched_event.run 2,
      sched_event.run 0]

/-- Two commands with the priorities 0 and 1, in this order. -/
def two_commands : List command_t :=
  [mk_command COMMAND_INSERT 0, mk_command COMMAND_INSERT 1]

/-- Two commands, the first with the priority `INT_MAX`, the second with 3. -/
def sentinel_commands : List command_t :=
  [mk_command COMMAND_PRINT INT_MAX, mk_command COMMAND_PRINT 3]

/-- The state reached from `sample_commands` when the worker of priority 3
enters, the worker of command 0 enters and blocks, and the first finishes: no
worker is active, command 0 is WAITING, command 1 is still PENDING. -/
def sample_idle_state : scheduler_t :=
  run_events (scheduler_init sample_commands)
    [sched_event.run 2, sched_event.run 0, sched_event.run 2]

/-- The state reached from `sentinel_commands` when the worker of the command
of priority `INT_MAX` enters first: it is admitted at once. -/
def sentinel_state : scheduler_t :=
  run_events (scheduler_init sentinel_commands) [sched_event.run 0]

/-- The schedule that runs the workers `0..n-1` in turn, again and again. -/
def round_robin (n : Nat) : Nat → sched_event :=
  fun t => sched_event.run (t % n)

/-! ## `hash_table.h` and `hash_table.c`

A C string is the list of its bytes before the terminating NUL.  A chain of
records linked by `next` is the list of the records in chain order.  The array
`buckets` is a function of the index; only the indices below
`HASH_TABLE_SIZE` are ever read or written. -/

/-- The constant `HASH_TABLE_SIZE` of `hash_table.h`. -/
def HASH_TABLE_SIZE : Nat := 1024

/-- The constant `HASH_NAME_MAX` of `hash_table.h`. -/
def HASH_NAME_MAX : Nat := 64

/-- The number of values of the type `uint32_t`. -/
def UINT32_MOD : Nat := 4294967296

/-- The struct `hash_record_t` of `hash_table.h`; the field `next` is the
position of the record in its chain. -/
structure hash_record_t where
  hash : Nat
  name : List Nat
  salary : Nat
  deriving DecidableEq

/-- The struct `hash_table_t` of `hash_table.h`. -/
structure hash_table_t where
  buckets : Nat → List hash_record_t

/-- The enumeration `hash_insert_status_t` of `hash_table.h`. -/
inductive hash_insert_status_t where
  | HASH_INSERTED
  | HASH_UPDATED
  | HASH_NOOP
  deriving DecidableEq

open hash_insert_status_t

/-- The C library function `strcmp` on two strings, with the results -1, 0
and 1: the bytes are compared as `unsigned char`, and a string that ends first
is the smaller one. -/
def strcmp : List Nat → List Nat → Int
  | [], [] => 0
  | [], _ :: _ => -1
  | _ :: _, [] => 1
  | a :: s1, b :: s2 => if a < b then -1 else if b < a then 1 else strcmp s1 s2

/-- One round of the loop of `jenkins_one_at_a_time_hash` (lines 225-227), in
`uint32_t` arithmetic. -/
def jenkins_step (hash : Nat) (byte : Nat) : Nat :=
  let h1 := (hash + byte) % UINT32_MOD
  let h2 := (h1 + (h1 <<< 10) % UINT32_MOD) % UINT32_MOD
  h2 ^^^ (h2 >>> 6)

/-- The function `jenkins_one_at_a_time_hash` (lines 221-235). -/
def jenkins_one_at_a_time_hash (key : List Nat) : Nat :=
  let hash := key.foldl jenkins_step 0
  let h1 := (hash + (hash <<< 3) % UINT32_MOD) % UINT32_MOD
  let h2 := h1 ^^^ (h1 >>> 11)
  (h2 + (h2 <<< 15) % UINT32_MOD) % UINT32_MOD

/-- The function `bucket_index` (lines 6-8). -/
def bucket_index (hash : Nat) : Nat :=
  hash % HASH_TABLE_SIZE

/-- The function `hash_table_init` (lines 10-16): every bucket is NULL. -/
def hash_table_init : hash_table_t :=
  { buckets := fun _ => [] }

/-- What `hash_table_insert` hands back: the status, the table after the call
and what was written through `out_record` and `out_previous_salary` (`none`
when nothing was written). -/
structure insert_result where
  status : hash_insert_status_t
  table : hash_table_t
  out_record : Option hash_record_t
  out_previous_salary : Option Nat

/-- The loop of `hash_table_insert` (lines 31-43) on a chain.  On a match it
gives the copy of `*current` taken at line 34, before the salary is assigned at
line 39, and the chain after the assignment. -/
def insert_chain (name : List Nat) (salary : Nat) :
    List hash_record_t → Option (hash_record_t × List hash_record_t)
  | [] => none
  | current :: next =>
    if strcmp current.name name = 0 then
      some (current, { current with salary := salary } :: next)
    else
      match insert_chain name salary next with
      | none => none
      | some (found, rest) => some (found, current :: rest)

/-- The function `hash_table_insert` (lines 18-66) on a table and a name that
are not NULL, with `out_record` and `out_previous_salary` not NULL;
`calloc_ok` tells whether the allocation of line 45 succeeds. -/
def hash_table_insert (table : hash_table_t) (name : List Nat) (salary : Nat)
    (calloc_ok : Bool) : insert_result :=
  let hash := jenkins_one_at_a_time_hash name
  let index := bucket_index hash
  match insert_chain name salary (table.buckets index) with
  | some (current, chain) =>
    { status := HASH_UPDATED
      table := { buckets := Function.update table.buckets index chain }
      out_record := some current
      out_previous_salary := some current.salary }
  | none =>
    if calloc_ok then
      let node : hash_record_t :=
        { hash := hash, name := name.take (HASH_NAME_MAX - 1), salary := salary }
      { status := HASH_INSERTED
        table := { buckets := Function.update table.buckets index (node :: table.buckets index) }
        out_record := some node
        out_previous_salary := some 0 }
    else
      { status := HASH_NOOP, table := table, out_record := none, out_previous_salary := none }

/-- What `hash_table_update` hands back: the returned `int`, the table after
the call and what was written through the two out-parameters. -/
structure update_result where
  ret : Int
  table : hash_table_t
  out_record : Option hash_record_t
  out_previous_salary : Option Nat

/-- The loop of `hash_table_update` (lines 81-98) on a chain.  On a match it
gives the previous salary, the record after lines 84-85 and the chain that
holds it. -/
def update_chain (name : List Nat) (salary : Nat) (hash : Nat) :
    List hash_record_t → Option (Nat × hash_record_t × List hash_record_t)
  | [] => none
  | current :: next =>
    if strcmp current.name name = 0 then
      some (current.salary, { current with salary := salary, hash := hash },
        { current with salary := salary, hash := hash } :: next)
    else
      match update_chain name salary hash next with
      | none => none
      | some (prev, found, rest) => some (prev, found, current :: rest)

/-- The function `hash_table_update` (lines 68-101) on a table and a name that
are not NULL, with the out-parameters not NULL. -/
def hash_table_update (table : hash_table_t) (name : List Nat) (salary : Nat) :
    update_result :=
  let hash := jenkins_one_at_a_time_hash name
  let index := bucket_index hash
  match update_chain name salary hash (table.buckets index) with
  | some (prev, current, chain) =>
    { ret := 1
      table := { buckets := Function.update table.buckets index chain }
      out_record := some current
      out_previous_salary := some prev }
  | none => { ret := 0, table := table, out_record := none, out_previous_salary := none }

/-- What `hash_table_delete` hands back: the returned `int`, the table after
the call and what was written through `out_record`. -/
structure delete_result where
  ret : Int
  table : hash_table_t
  out_record : Option hash_record_t

/-- The loop of `hash_table_delete` (lines 116-134) on a chain.  On a match it
gives the record that is unlinked and the chain without it. -/
def delete_chain (name : List Nat) :
    List hash_record_t → Option (hash_record_t × List hash_record_t)
  | [] => none
  | current :: next =>
    if strcmp current.name name = 0 then
      some (current, next)
    else
      match delete_chain name next with
      | none => none
      | some (found, rest) => some (found, current :: rest)

/-- The function `hash_table_delete` (lines 103-137) on a table and a name that
are not NULL, with `out_record` not NULL. -/
def hash_table_delete (table : hash_table_t) (name : List Nat) : delete_result :=
  let hash := jenkins_one_at_a_time_hash name
  let index := bucket_index hash
  match delete_chain name (table.buckets index) with
  | some (current, chain) =>
    { ret := 1
      table := { buckets := Function.update table.buckets index chain }
      out_record := some current }
  | none => { ret := 0, table := table, out_record := none }

/-- The loop of `hash_table_search` (lines 150-158) on a chain. -/
def search_chain (name : List Nat) : List hash_record_t → Option hash_record_t
  | [] => none
  | current :: next =>
    if strcmp current.name name = 0 then some current else search_chain name next

/-- The function `hash_table_search` (lines 139-161) on a table and a name that
are not NULL, with `out_record` not NULL: the returned `int` and what was
written through `out_record`.  The table is only read. -/
def hash_table_search (table : hash_table_t) (name : List Nat) :
    Int × Option hash_record_t :=
  let hash := jenkins_one_at_a_time_hash name
  let index := bucket_index hash
  match search_chain name (table.buckets index) with
  | some current => (1, some current)
  | none => (0, none)

/-- The function `compare_records` (lines 163-174). -/
def compare_records (ra rb : hash_record_t) : Int :=
  if ra.hash < rb.hash then -1
  else if ra.hash > rb.hash then 1
  else strcmp ra.name rb.name

/-- The C library function `qsort` on an array of records with a comparison
function: the result holds the same records in ascending order of the
comparison.  The order the library gives to records that compare equal is not
specified; this model keeps their order. -/
def qsort (base : List hash_record_t) (compar : hash_record_t → hash_record_t → Int) :
    List hash_record_t :=
  base.insertionSort (fun a b => compar a b ≤ 0)

/-- The counting loops of `hash_table_snapshot` (lines 181-188). -/
def hash_table_count (table : hash_table_t) : Nat :=
  ((List.range HASH_TABLE_SIZE).map (fun i => (table.buckets i).length)).sum

/-- The copying loops of `hash_table_snapshot` (lines 201-208): the records of
the buckets 0, 1, ... in chain order. -/
def hash_table_records (table : hash_table_t) : List hash_record_t :=
  (List.range HASH_TABLE_SIZE).flatMap table.buckets

/-- The function `hash_table_snapshot` (lines 176-214) on a table and an
`out_count` that are not NULL: the returned array (`none` for NULL) and the
value written to `*out_count`; `calloc_ok` tells whether the allocation of line
195 succeeds. -/
def hash_table_snapshot (table : hash_table_t) (calloc_ok : Bool) :
    Option (List hash_record_t) × Nat :=
  let count := hash_table_count table
  if count = 0 then (none, 0)
  else if calloc_ok = false then (none, 0)
  else (some (qsort (hash_table_records table) compare_records), count)

/-! ## Vocabulary of the store properties -/

/-- One call on the store, as a worker makes it. -/
inductive store_op where
  | insert (name : List Nat) (salary : Nat) (calloc_ok : Bool)
  | update (name : List Nat) (salary : Nat)
  | delete (name : List Nat)

/-- The name a call carries. -/
def store_op.name : store_op → List Nat
  | store_op.insert name _ _ => name
  | store_op.update name _ => name
  | store_op.delete name => name

/-- The table after a call. -/
def apply_op (table : hash_table_t) : store_op → hash_table_t
  | store_op.insert name salary calloc_ok => (hash_table_insert table name salary calloc_ok).table
  | store_op.update name salary => (hash_table_update table name salary).table
  | store_op.delete name => (hash_table_delete table name).table

/-- The table after a sequence of calls on the empty table. -/
def build_table (ops : List store_op) : hash_table_t :=
  ops.foldl apply_op hash_table_init

/-- A table built from the empty table by calls of `hash_table_insert`,
`hash_table_update` and `hash_table_delete` whose names are shorter than
`HASH_NAME_MAX` bytes. -/
def reachable_table (table : hash_table_t) : Prop :=
  ∃ ops : List store_op,
    (∀ op ∈ ops, op.name.length < HASH_NAME_MAX) ∧ table = build_table ops

/-- The chain of the bucket in which the store operations look a name up. -/
def name_chain (table : hash_table_t) (name : List Nat) : List hash_record_t :=
  table.buckets (bucket_index (jenkins_one_at_a_time_hash name))

/-- The byte-lexicographic order of two strings: a string is below every
string it starts, and otherwise the first differing byte decides. -/
def bytes_le : List Nat → List Nat → Prop
  | [], _ => True
  | _ :: _, [] => False
  | a :: s1, b :: s2 => a < b ∨ (a = b ∧ bytes_le s1 s2)

/-- The order of the snapshot: ascending hash, ties broken by name. -/
def record_order (a b : hash_record_t) : Prop :=
  a.hash < b.hash ∨ (a.hash = b.hash ∧ bytes_le a.name b.name)

/-- What holds of every table built with names shorter than `HASH_NAME_MAX`:
each record lies in the bucket of its own name, carries the hash of its name,
has a name shorter than `HASH_NAME_MAX`, and no chain holds a name twice. -/
structure table_inv (table : hash_table_t) : Prop where
  placed : ∀ i, ∀ r ∈ table.buckets i,
    bucket_index (jenkins_one_at_a_time_hash r.name) = i
  hashed : ∀ i, ∀ r ∈ table.buckets i, r.hash = jenkins_one_at_a_time_hash r.name
  short : ∀ i, ∀ r ∈ table.buckets i, r.name.length < HASH_NAME_MAX
  unique : ∀ i, ((table.buckets i).map hash_record_t.name).Nodup

/-! ## Sample stores -/

/-- The string "alice". -/
def alice : List Nat := [97, 108, 105, 99, 101]

/-- The string "bob". -/
def bob : List Nat := [98, 111, 98]

/-- A name of 64 bytes, each of them the letter a. -/
def long_name : List Nat := List.replicate 64 97

/-- The table after `hash_table_insert` of "alice" with the salary 100 on the
empty table. -/
def sample_table : hash_table_t :=
  (hash_table_insert hash_table_init alice 100 true).table

/-! ## `command_worker` of `chash.c` -/

/-- The calls `command_worker` makes, in the vocabulary of its source: the two
scheduler calls, the calls on the table lock, the logging calls and the branch
of the `switch` that runs. -/
inductive worker_event where
  | log_command_start
  | scheduler_wait_for_turn
  | pthread_rwlock_rdlock
  | pthread_rwlock_wrlock
  | logger_log_line
  | perform_insert
  | perform_update
  | perform_delete
  | perform_search
  | perform_print
  | printf_unknown
  | pthread_rwlock_unlock
  | scheduler_finish_turn
  deriving DecidableEq

/-- The local `is_read_operation` of `command_worker` (line 145). -/
def is_read_operation (command : command_t) : Bool :=
  decide (command.type = COMMAND_SEARCH) || decide (command.type = COMMAND_PRINT)

/-- The function `command_worker` (chash.c, lines 138-185) as the sequence of
the calls it makes for its command, in program order.  Each call returns before
the next is made; `scheduler_wait_for_turn` returns when the command is
admitted. -/
def command_worker (command : command_t) : List worker_event :=
  [worker_event.log_command_start, worker_event.scheduler_wait_for_turn] ++
    (if is_read_operation command = true then
      [worker_event.pthread_rwlock_rdlock, worker_event.logger_log_line]
    else
      [worker_event.pthread_rwlock_wrlock, worker_event.logger_log_line]) ++
    [match command.type with
      | COMMAND_INSERT => worker_event.perform_insert
      | COMMAND_UPDATE => worker_event.perform_update
      | COMMAND_DELETE => worker_event.perform_delete
      | COMMAND_SEARCH => worker_event.perform_search
      | COMMAND_PRINT => worker_event.perform_print
      | COMMAND_UNKNOWN => worker_event.printf_unknown] ++
    [worker_event.pthread_rwlock_unlock, worker_event.logger_log_line,
      worker_event.scheduler_finish_turn]

/-- The calls of a worker that are not logging calls. -/
def is_logging (e : worker_event) : Bool :=
  decide (e = worker_event.log_command_start) || decide (e = worker_event.logger_log_line)

/-- The state reached from `sample_commands` when both workers of priority 5
enter and are admitted, and the worker of priority 3 then enters and blocks:
two commands are ACTIVE and command 2 is WAITING with no pending wake-up. -/
def sample_busy_state : scheduler_t :=
  run_events (scheduler_init sample_commands)
    [sched_event.run 0, sched_event.run 1, sched_event.run 2]

/-- The table after `hash_table_insert` of "bob" with the salary 200 on
`sample_table`. -/
def two_record_table : hash_table_t :=
  (hash_table_insert sample_table bob 200 true).table

/-! ## The one-at-a-time reference of the specification -/

/-- The per-byte mixing of the specification, in its words: `h += b`, then
`h += h<<10`, then `h ^= h>>6`, each on unsigned 32-bit values with wraparound
modulo 2^32.  The shifts are written as the multiplication and the division
they stand for. -/
def one_at_a_time_mix (h : Nat) (b : Nat) : Nat :=
  let h1 := (h + b) % 2 ^ 32
  let h2 := (h1 + h1 * 2 ^ 10) % 2 ^ 32
  Nat.xor h2 (h2 / 2 ^ 6) % 2 ^ 32

/-- The loop of the specification over the bytes of the string, in order,
each byte taken as an unsigned value 0..255. -/
def one_at_a_time_loop : Nat → List Nat → Nat
  | h, [] => h
  | h, b :: rest => one_at_a_time_loop (one_at_a_time_mix h (b % 256)) rest

/-- The one-at-a-time reference of the specification: start with `h = 0`, mix
every byte in, and finalize with `h += h<<3`, `h ^= h>>11`, `h += h<<15`, all
modulo 2^32. -/
def one_at_a_time_reference (key : List Nat) : Nat :=
  let h := one_at_a_time_loop 0 key
  let h1 := (h + h * 2 ^ 3) % 2 ^ 32
  let h2 := Nat.xor h1 (h1 / 2 ^ 11) % 2 ^ 32
  (h2 + h2 * 2 ^ 15) % 2 ^ 32

/-! ## The history of a store -/

/-- Whether a call adds a record: 1 for a `hash_table_insert` that returns
`HASH_INSERTED`, 0 for every other call. -/
def op_inserted (table : hash_table_t) : store_op → Nat
  | store_op.insert name salary calloc_ok =>
    if (hash_table_insert table name salary calloc_ok).status = HASH_INSERTED then 1 else 0
  | _ => 0

/-- Whether a call removes a record: 1 for a `hash_table_delete` that returns
1, 0 for every other call. -/
def op_deleted (table : hash_table_t) : store_op → Nat
  | store_op.delete name => if (hash_table_delete table name).ret = 1 then 1 else 0
  | _ => 0

/-- The number of records a sequence of calls inserts, starting at `table`. -/
def count_inserted : hash_table_t → List store_op → Nat
  | _, [] => 0
  | table, op :: ops => op_inserted table op + count_inserted (apply_op table op) ops

/-- The number of records a sequence of calls deletes, starting at `table`. -/
def count_deleted : hash_table_t → List store_op → Nat
  | _, [] => 0
  | table, op :: ops => op_deleted table op + count_deleted (apply_op table op) ops

/-- The records of a snapshot as a sequence: the records of the returned
array, none when the array is NULL. -/
def snapshot_sequence (result : Option (List hash_record_t) × Nat) : List hash_record_t :=
  match result.1 with
  | none => []
  | some records => records

/-! ## More sample stores -/

/-- The string "a". -/
def name_a : List Nat := [97]

/-- The string "ba", whose hash falls in the bucket of "a" (bucket 66). -/
def name_ba : List Nat := [98, 97]

/-- The table of the scenario insert("alice",100), insert("bob",200),
update("alice",150), delete("bob") on the empty table. -/
def scenario_table : hash_table_t :=
  build_table
    [store_op.insert alice 100 true, store_op.insert bob 200 true,
      store_op.update alice 150, store_op.delete bob]

/-- The table after two calls of `hash_table_insert` with the same name of 64
bytes on the empty table. -/
def twice_long_table : hash_table_t :=
  build_table [store_op.insert long_name 1 true, store_op.insert long_name 2 true]

/-- The table after `hash_table_insert` of "a" and of "ba" on the empty
table: two names in one bucket. -/
def collision_table : hash_table_t :=
  (hash_table_insert (hash_table_insert hash_table_init name_a 1 true).table name_ba 2 true).table

/-! ## The reference finite map -/

/-- The result a call on the store returns: the status of `hash_table_insert`
or the `int` of `hash_table_update` and `hash_table_delete`. -/
inductive op_result where
  | inserted (status : hash_insert_status_t)
  | updated (ret : Int)
  | deleted (ret : Int)
  deriving DecidableEq

/-- The result of one call on the root store. -/
def store_result (table : hash_table_t) : store_op → op_result
  | store_op.insert name salary calloc_ok =>
    op_result.inserted (hash_table_insert table name salary calloc_ok).status
  | store_op.update name salary => op_result.updated (hash_table_update table name salary).ret
  | store_op.delete name => op_result.deleted (hash_table_delete table name).ret

/-- The results of a sequence of calls on the root store, in order. -/
def store_results : hash_table_t → List store_op → List op_result
  | _, [] => []
  | table, op :: ops => store_result table op :: store_results (apply_op table op) ops

/-- The allocation of a call succeeds. -/
def op_allocates : store_op → Prop
  | store_op.insert _ _ calloc_ok => calloc_ok = true
  | _ => True

/-- The reference finite map from name to value after a call, in the words of
the specification: insert is set, update is set if present, delete is
erase. -/
def reference_apply (m : AList (fun _ : List Nat => Nat)) :
    store_op → AList (fun _ : List Nat => Nat)
  | store_op.insert name salary _ => m.insert name salary
  | store_op.update name salary => if (m.lookup name).isSome then m.insert name salary else m
  | store_op.delete name => m.erase name

/-- The result of a call on the reference map: an insert tells whether the
name was new, an update and a delete tell whether the name was present. -/
def reference_result (m : AList (fun _ : List Nat => Nat)) : store_op → op_result
  | store_op.insert name _ _ =>
    op_result.inserted (if (m.lookup name).isSome then HASH_UPDATED else HASH_INSERTED)
  | store_op.update name _ => op_result.updated (if (m.lookup name).isSome then 1 else 0)
  | store_op.delete name => op_result.deleted (if (m.lookup name).isSome then 1 else 0)

/-- The results of a sequence of calls on the reference map, in order. -/
def reference_results :
    AList (fun _ : List Nat => Nat) → List store_op → List op_result
  | _, [] => []
  | m, op :: ops => reference_result m op :: reference_results (reference_apply m op) ops

/-- The reference map after a sequence of calls on the empty map. -/
def reference_build (ops : List store_op) : AList (fun _ : List Nat => Nat) :=
  ops.foldl reference_apply ∅

/-- The search of a name in the reference map: found with the record made of
the hash of the name, the name and the value of the map, or not found. -/
def reference_search (m : AList (fun _ : List Nat => Nat)) (name : List Nat) :
    Int × Option hash_record_t :=
  match m.lookup name with
  | some value => (1, some ⟨jenkins_one_at_a_time_hash name, name, value⟩)
  | none => (0, none)

/-- The entries of the reference map as records: the hash of the name, the
name and the value. -/
def reference_entries (m : AList (fun _ : List Nat => Nat)) : List hash_record_t :=
  m.entries.map (fun e => ⟨jenkins_one_at_a_time_hash e.1, e.1, e.2⟩)

/-- The store holds what the map holds: every search agrees. -/
def abstracts (table : hash_table_t) (m : AList (fun _ : List Nat => Nat)) : Prop :=
  ∀ name : List Nat, hash_table_search table name = reference_search m name

/-- The calls insert("alice",100), insert("bob",200), update("alice",150),
delete("bob"), with every allocation succeeding. -/
def scenario_ops : List store_op :=
  [store_op.insert alice 100 true, store_op.insert bob 200 true,
    store_op.update alice 150, store_op.delete bob]

/-! ## Commands on either store -/

/-- A command on a store, as both programs read it from the command file. -/
inductive store_command where
  | insert (name : List Nat) (value : Nat)
  | update (name : List Nat) (value : Nat)
  | delete (name : List Nat)
  | find (name : List Nat)
  | snapshot

/-- The names a sequence of commands carries. -/
def command_names : List store_command → List (List Nat)
  | [] => []
  | store_command.insert name _ :: rest => name :: command_names rest
  | store_command.update name _ :: rest => name :: command_names rest
  | store_command.delete name :: rest => name :: command_names rest
  | store_command.find name :: rest => name :: command_names rest
  | store_command.snapshot :: rest => command_names rest

/-- What a command shows of a store: whether an insert added a record;
whether an update found the name, the previous value and the record after it;
whether a delete found the name and the record it removed; whether a find
found the name and the record; the sequence of a snapshot.  A record is shown
as (hash, name, value). -/
inductive observation where
  | inserted (added : Bool)
  | updated (found : Bool) (previous : Option Nat) (record : Option (Nat × List Nat × Nat))
  | deleted (found : Bool) (record : Option (Nat × List Nat × Nat))
  | found (found : Bool) (record : Option (Nat × List Nat × Nat))
  | listing (records : List (Nat × List Nat × Nat))
  deriving DecidableEq

/-- A record of the root store as (hash, name, value). -/
def record_triple (r : hash_record_t) : Nat × List Nat × Nat :=
  (r.hash, r.name, r.salary)

/-- A command on the root store, every allocation succeeding: the table it
leaves and what it shows. -/
def root_command (table : hash_table_t) : store_command → hash_table_t × observation
  | store_command.insert name value =>
    ((hash_table_insert table name value true).table,
      observation.inserted
        (decide ((hash_table_insert table name value true).status = HASH_INSERTED)))
  | store_command.update name value =>
    ((hash_table_update table name value).table,
      observation.updated (decide ((hash_table_update table name value).ret = 1))
        (hash_table_update table name value).out_previous_salary
        ((hash_table_update table name value).out_record.map record_triple))
  | store_command.delete name =>
    ((hash_table_delete table name).table,
      observation.deleted (decide ((hash_table_delete table name).ret = 1))
        ((hash_table_delete table name).out_record.map record_triple))
  | store_command.find name =>
    (table,
      observation.found (decide ((hash_table_search table name).1 = 1))
        ((hash_table_search table name).2.map record_triple))
  | store_command.snapshot =>
    (table,
      observation.listing
        ((snapshot_sequence (hash_table_snapshot table true)).map record_triple))

/-- What a sequence of commands shows of the root store, in order. -/
def root_observations : hash_table_t → List store_command → List observation
  | _, [] => []
  | table, command :: rest =>
    (root_command table command).2 :: root_observations (root_command table command).1 rest

/-- No insert of the sequence targets a name the root store holds when the
insert is made. -/
def fresh_inserts : hash_table_t → List store_command → Prop
  | _, [] => True
  | table, store_command.insert name value :: rest =>
    hash_table_search table name = (0, none) ∧
      fresh_inserts (root_command table (store_command.insert name value)).1 rest
  | table, command :: rest => fresh_inserts (root_command table command).1 rest

/-- The commands insert("alice",100), find("alice"), insert("bob",200),
update("alice",150), snapshot, delete("bob"), find("bob"), snapshot. -/
def sample_store_commands : List store_command :=
  [store_command.insert alice 100, store_command.find alice, store_command.insert bob 200,
    store_command.update alice 150, store_command.snapshot, store_command.delete bob,
    store_command.find bob, store_command.snapshot]

/-! ## The alternate program of `src/src`

The directory `src/src` holds a second program with its own store
(`src/src/hash_table.c`, one list sorted by hash) and its own scheduler (the
turn gate of `worker_main` in `src/src/chash.c`).  Its definitions live in the
namespace `Alt`, under the names of their source. -/

namespace Alt

/-- The constant `MAX_NAME_LEN` of `include/hash_table.h`. -/
def MAX_NAME_LEN : Nat := 50

/-- The struct `hash_record_t` of `include/hash_table.h`; the field `next` is
the tail of the list the record stands in. -/
structure hash_record_t where
  hash : Nat
  name : List Nat
  salary : Nat
  deriving DecidableEq

/-- The struct `hash_table_t` of `include/hash_table.h`: `head` is the linked
list, `[]` for NULL. -/
structure hash_table_t where
  head : List hash_record_t

/-- The struct `record_snapshot_t` of `include/hash_table.h`. -/
structure record_snapshot_t where
  hash : Nat
  name : List Nat
  salary : Nat
  deriving DecidableEq

/-- The enum `table_status_t` of `include/hash_table.h`. -/
inductive table_status_t where
  | TABLE_OK
  | TABLE_DUPLICATE
  | TABLE_NOT_FOUND
  deriving DecidableEq

open table_status_t

/-- The function `create_record` (hash_table.c, lines 8-21): NULL when `malloc`
fails, else a record whose name holds the first `MAX_NAME_LEN - 1` bytes of
`name` (`strncpy` and the NUL of line 17). -/
def create_record (hash : Nat) (name : List Nat) (salary : Nat) (malloc_ok : Bool) :
    Option hash_record_t :=
  if malloc_ok = false then none
  else some { hash := hash, name := name.take (MAX_NAME_LEN - 1), salary := salary }

/-- The function `hash_table_init` (hash_table.c, lines 23-25). -/
def hash_table_init : hash_table_t :=
  { head := [] }

/-- The body of `hash_table_insert` (hash_table.c, lines 39-63) on the list
that starts at `current`: the loop of lines 42-45 steps over the records whose
hash is below `hash`; where it stops, a record of the same hash gives
`TABLE_DUPLICATE`, and otherwise the new record is linked in before `current`,
or `TABLE_NOT_FOUND` is returned when `create_record` fails. -/
def insert_list (hash : Nat) (name : List Nat) (salary : Nat) (malloc_ok : Bool) :
    List hash_record_t → table_status_t × List hash_record_t
  | [] =>
    match create_record hash name salary malloc_ok with
    | none => (TABLE_NOT_FOUND, [])
    | some record => (TABLE_OK, [record])
  | current :: next =>
    if current.hash < hash then
      ((insert_list hash name salary malloc_ok next).1,
        current :: (insert_list hash name salary malloc_ok next).2)
    else if current.hash = hash then
      (TABLE_DUPLICATE, current :: next)
    else
      match create_record hash name salary malloc_ok with
      | none => (TABLE_NOT_FOUND, current :: next)
      | some record => (TABLE_OK, record :: current :: next)

/-- The function `hash_table_insert` (hash_table.c, lines 37-64): the status
it returns and the table it leaves. -/
def hash_table_insert (table : hash_table_t) (hash : Nat) (name : List Nat) (salary : Nat)
    (malloc_ok : Bool) : table_status_t × hash_table_t :=
  ((insert_list hash name salary malloc_ok table.head).1,
    { head := (insert_list hash name salary malloc_ok table.head).2 })

/-- The function `hash_table_snapshot` (hash_table.c, lines 145-173): the
count it returns and the array it stores in `*records_out` (`none` for NULL).
The array is allocated only when the list is not empty; `calloc_ok` tells
whether that allocation succeeds.  Each name is copied with
`strncpy(..., MAX_NAME_LEN)`. -/
def hash_table_snapshot (table : hash_table_t) (calloc_ok : Bool) :
    Nat × Option (List record_snapshot_t) :=
  let count := table.head.length
  if count > 0 ∧ calloc_ok = false then (SIZE_MAX, none)
  else if count = 0 then (0, none)
  else
    (count, some (table.head.map fun current =>
      { hash := current.hash, name := current.name.take MAX_NAME_LEN,
        salary := current.salary }))

/-- A list in ascending order of hash. -/
def ascending (records : List hash_record_t) : Prop :=
  records.Pairwise (fun a b => a.hash ≤ b.hash)

/-- A list of three records with the hashes 10, 20 and 30. -/
def sample_list : List hash_record_t :=
  [{ hash := 10, name := [97], salary := 1 }, { hash := 20, name := [98], salary := 2 },
    { hash := 30, name := [99], salary := 3 }]

/-- The enum `command_type_t` of `src/src/chash.c` (lines 17-23). -/
inductive command_type_t where
  | CMD_INSERT
  | CMD_DELETE
  | CMD_UPDATE
  | CMD_SEARCH
  | CMD_PRINT
  deriving DecidableEq

/-- The struct `command_t` of `src/src/chash.c` (lines 25-30). -/
structure command_t where
  type : command_type_t
  name : List Nat
  value : Nat
  priority : Int

/-- Where the worker of a command stands in `worker_main`: before it takes
`sched_mutex` at line 156 (`idle`), inside `pthread_cond_wait` of line 158
(`blocked`), between the gate and line 165, where `execute_command` runs
(`running`), or after line 168 (`done`). -/
inductive worker_phase where
  | idle
  | blocked
  | running
  | done
  deriving DecidableEq

/-- The scheduling part of the struct `app_context_t` (chash.c, lines 32-43):
the field `next_priority`, and for `sched_cond` and the threads what the C
program keeps in the thread library: the phase of each worker, by the index of
its command, and the workers a broadcast has released and that have not yet
run again. -/
structure app_context_t where
  next_priority : Int
  workers : List worker_phase
  sched_cond : List Nat

/-- The state `main` sets up (chash.c, lines 77-84 and 113-117):
`next_priority` is 0 and one worker per command is created. -/
def app_init (commands : List command_t) : app_context_t :=
  { next_priority := 0
    workers := List.replicate commands.length worker_phase.idle
    sched_cond := [] }

/-- The call `pthread_cond_broadcast(&app->sched_cond)`: every worker blocked
in `pthread_cond_wait` is released. -/
def pthread_cond_broadcast (app : app_context_t) : app_context_t :=
  { app with
    sched_cond :=
      (List.range app.workers.length).filter
        (fun j => decide (app.workers[j]? = some worker_phase.blocked)) }

/-- The test of the turn gate (chash.c, line 157) and what follows it: the
worker blocks in `pthread_cond_wait` while its priority is not
`next_priority`, and goes on to `execute_command` otherwise. -/
def turn_gate (app : app_context_t) (command : command_t) (i : Nat) : app_context_t :=
  if command.priority ≠ app.next_priority then
    { app with workers := app.workers.set i worker_phase.blocked }
  else
    { app with workers := app.workers.set i worker_phase.running }

/-- The first atomic step of `worker_main` (lines 156-161): the worker takes
the mutex and tests the gate. -/
def worker_main_enter (app : app_context_t) (command : command_t) (i : Nat) :
    app_context_t :=
  turn_gate app command i

/-- The return of `pthread_cond_wait` (line 158): the wake-up is used up and
the gate is tested again. -/
def worker_main_wake (app : app_context_t) (command : command_t) (i : Nat) :
    app_context_t :=
  turn_gate { app with sched_cond := app.sched_cond.filter (fun j => decide (j ≠ i)) }
    command i

/-- The last atomic step of `worker_main` (lines 165-168), after
`execute_command` has returned: `next_priority++` and the broadcast.  The
counter is an `int`; it counts the workers that are done, so it stays within
the range of `int` for every command list the loader accepts. -/
def worker_main_finish (app : app_context_t) (i : Nat) : app_context_t :=
  pthread_cond_broadcast
    { app with
      next_priority := app.next_priority + 1
      workers := app.workers.set i worker_phase.done }

/-- One atomic step of the alternate program.  A `run` of a worker that is
blocked with no pending wake-up, or that is done, changes nothing; a
`spurious` event makes `pthread_cond_wait` of a blocked worker return without
a broadcast. -/
def worker_step (commands : List command_t) (app : app_context_t) :
    sched_event → app_context_t
  | sched_event.run i =>
    match commands[i]?, app.workers[i]? with
    | some command, some worker_phase.idle => worker_main_enter app command i
    | some command, some worker_phase.blocked =>
      if i ∈ app.sched_cond then worker_main_wake app command i else app
    | some _, some worker_phase.running => worker_main_finish app i
    | _, _ => app
  | sched_event.spurious i =>
    match commands[i]?, app.workers[i]? with
    | some command, some worker_phase.blocked => worker_main_wake app command i
    | _, _ => app

/-- The state after the events of an interleaving, in order. -/
def run_workers (commands : List command_t) (app : app_context_t)
    (events : List sched_event) : app_context_t :=
  events.foldl (worker_step commands) app

/-- The number of commands that have completed. -/
def completed (app : app_context_t) : Nat :=
  app.workers.count worker_phase.done

/-- The priorities of a command list are a permutation of 0..N-1. -/
def permutation_priorities (commands : List command_t) : Prop :=
  (commands.map command_t.priority).Perm
    ((List.range commands.length).map Int.ofNat)

/-- Worker `i` can take a step: it has not started, it is executing its
command, or it is blocked with a pending wake-up. -/
def can_step (app : app_context_t) (i : Nat) : Prop :=
  app.workers[i]? = some worker_phase.idle ∨ app.workers[i]? = some worker_phase.running ∨
    (app.workers[i]? = some worker_phase.blocked ∧ i ∈ app.sched_cond)

/-- A state with an unfinished command in which no worker can take a step. -/
def gate_stuck (app : app_context_t) : Prop :=
  (∃ i, i < app.workers.length ∧ app.workers[i]? ≠ some worker_phase.done) ∧
    ∀ i, i < app.workers.length → ¬ can_step app i

/-- A command of the alternate program with a given priority. -/
def mk_command (priority : Int) : command_t :=
  { type := command_type_t.CMD_PRINT, name := [], value := 0, priority := priority }

/-- Three commands with the priorities 1, 2 and 0. -/
def sample_commands : List command_t :=
  [mk_command 1, mk_command 2, mk_command 0]

/-- Two commands with the priorities 0 and 2: a gap. -/
def gap_commands : List command_t :=
  [mk_command 0, mk_command 2]

/-- Two commands that both have the priority 0. -/
def repeated_commands : List command_t :=
  [mk_command 0, mk_command 0]

/-- The interleaving in which the first worker runs to its end before the
second worker reaches the gate. -/
def first_then_second : List sched_event :=
  [sched_event.run 0, sched_event.run 0, sched_event.run 1]

/-- What holds of every state of the alternate program, whatever the
priorities: one worker per command, `next_priority` is the number of completed
commands, and a worker that is blocked with no pending wake-up has a priority
other than `next_priority`. -/
structure gate_inv (commands : List command_t) (app : app_context_t) : Prop where
  size : app.workers.length = commands.length
  count : app.next_priority = (completed app : Int)
  woken : ∀ (i : Nat) (command : command_t), commands[i]? = some command →
    app.workers[i]? = some worker_phase.blocked → i ∉ app.sched_cond →
    command.priority ≠ app.next_priority

/-- What holds in addition when the priorities are distinct and not negative:
a worker that executes its command has the priority `next_priority`, and the
completed commands are those of a priority below `next_priority`. -/
structure turn_inv (commands : List command_t) (app : app_context_t) : Prop where
  running : ∀ (i : Nat) (command : command_t), commands[i]? = some command →
    app.workers[i]? = some worker_phase.running → command.priority = app.next_priority
  done : ∀ (i : Nat) (command : command_t), commands[i]? = some command →
    (app.workers[i]? = some worker_phase.done ↔ command.priority < app.next_priority)

/-- The priorities of a command list are distinct and not negative. -/
def distinct_priorities (commands : List command_t) : Prop :=
  (commands.map command_t.priority).Nodup ∧ ∀ command ∈ commands, 0 ≤ command.priority

/-- The state reached from `sample_commands` when the worker of priority 1
enters and blocks, the worker of priority 0 enters, executes and finishes, and
the worker of priority 1 wakes up and passes the gate. -/
def sample_app : app_context_t :=
  run_workers sample_commands (app_init sample_commands)
    [sched_event.run 0, sched_event.run 2, sched_event.run 2, sched_event.run 0]

/-- The loop of `jenkins_hash` (chash.c, lines 293-298) from the byte `key`
points to, with the value of `hash` so far; every statement is on `uint32_t`
and wraps modulo 2^32. -/
def jenkins_hash_loop : Nat → List Nat → Nat
  | hash, [] => hash
  | hash, byte :: key =>
    let h1 := (hash + byte) % UINT32_MOD
    let h2 := (h1 + (h1 <<< 10) % UINT32_MOD) % UINT32_MOD
    jenkins_hash_loop (h2 ^^^ (h2 >>> 6)) key

/-- The function `jenkins_hash` (chash.c, lines 291-303). -/
def jenkins_hash (key : List Nat) : Nat :=
  let hash := jenkins_hash_loop 0 key
  let h1 := (hash + (hash <<< 3) % UINT32_MOD) % UINT32_MOD
  let h2 := h1 ^^^ (h1 >>> 11)
  (h2 + (h2 <<< 15) % UINT32_MOD) % UINT32_MOD

/-- The calls `execute_command` makes on behalf of a command, in the
vocabulary of `chash.c`: the logging and output calls, the four lock helpers
and the call on the table. -/
inductive app_call where
  | jenkins_hash
  | logger_thread_log
  | acquire_read_lock
  | release_read_lock
  | acquire_write_lock
  | release_write_lock
  | hash_table_insert
  | hash_table_delete
  | hash_table_update
  | hash_table_find
  | hash_table_snapshot
  | printf
  deriving DecidableEq

/-- The function `execute_command` (chash.c, lines 172-193) with the bodies of
`perform_insert`, `perform_delete`, `perform_update`, `perform_search` and
`perform_print` (lines 195-289): the calls made for a command, in program
order. -/
def execute_command (cmd : command_t) : List app_call :=
  match cmd.type with
  | command_type_t.CMD_INSERT =>
    [app_call.jenkins_hash, app_call.logger_thread_log, app_call.acquire_write_lock,
      app_call.hash_table_insert, app_call.release_write_lock, app_call.printf]
  | command_type_t.CMD_DELETE =>
    [app_call.jenkins_hash, app_call.logger_thread_log, app_call.acquire_write_lock,
      app_call.hash_table_delete, app_call.release_write_lock, app_call.printf]
  | command_type_t.CMD_UPDATE =>
    [app_call.jenkins_hash, app_call.logger_thread_log, app_call.acquire_write_lock,
      app_call.hash_table_update, app_call.release_write_lock, app_call.printf]
  | command_type_t.CMD_SEARCH =>
    [app_call.jenkins_hash, app_call.logger_thread_log, app_call.acquire_read_lock,
      app_call.hash_table_find, app_call.release_read_lock, app_call.printf]
  | command_type_t.CMD_PRINT =>
    [app_call.logger_thread_log, app_call.acquire_read_lock, app_call.hash_table_snapshot,
      app_call.release_read_lock, app_call.printf]

/-- The four lock counters of the struct `app_context_t` (chash.c, lines
35-38), each a `size_t`. -/
structure lock_counters where
  read_lock_acq : Nat
  read_lock_rel : Nat
  write_lock_acq : Nat
  write_lock_rel : Nat
  deriving DecidableEq

/-- The counters as `main` sets them (chash.c, lines 82-83). -/
def lock_counters_init : lock_counters :=
  { read_lock_acq := 0, read_lock_rel := 0, write_lock_acq := 0, write_lock_rel := 0 }

/-- The two totals `log_final_summary` reports (chash.c, lines 538-541):
acquisitions and releases, each a `size_t` sum. -/
def log_final_summary (counters : lock_counters) : Nat × Nat :=
  ((counters.read_lock_acq + counters.write_lock_acq) % (SIZE_MAX + 1),
    (counters.read_lock_rel + counters.write_lock_rel) % (SIZE_MAX + 1))

/-- The command `final_print` of `main` (chash.c, lines 128-133). -/
def final_print (command_count : Nat) : command_t :=
  { type := command_type_t.CMD_PRINT, name := [], value := 0, priority := command_count }

/-- The calls on the table lock among the calls of a command. -/
def lock_calls (calls : List app_call) : List app_call :=
  calls.filter (fun call =>
    decide (call = app_call.acquire_read_lock ∨ call = app_call.release_read_lock ∨
      call = app_call.acquire_write_lock ∨ call = app_call.release_write_lock))

/-- Three commands of the alternate program: an insert, a search and a
delete, with the priorities 0, 1 and 2. -/
def mixed_commands : List command_t :=
  [{ type := command_type_t.CMD_INSERT, name := [97], value := 1, priority := 0 },
    { type := command_type_t.CMD_SEARCH, name := [97], value := 0, priority := 1 },
    { type := command_type_t.CMD_DELETE, name := [97], value := 0, priority := 2 }]

/-- The copy of a record into a `record_snapshot_t`, as every function of
`hash_table.c` makes it: the hash, the name through
`strncpy(..., MAX_NAME_LEN)` and the salary. -/
def copy_record (current : hash_record_t) : record_snapshot_t :=
  { hash := current.hash, name := current.name.take MAX_NAME_LEN, salary := current.salary }

/-- The body of `hash_table_update` (hash_table.c, lines 69-92) on the list
that starts at `current`: the loop of lines 70-72 steps over the records whose
hash is below `hash`; where it stops, a record of another hash (or the end of
the list) gives `none`, and otherwise the record as it was and the list with
the new salary stored in it. -/
def update_list (hash : Nat) (salary : Nat) :
    List hash_record_t → Option (hash_record_t × List hash_record_t)
  | [] => none
  | current :: next =>
    if current.hash < hash then
      match update_list hash salary next with
      | none => none
      | some (found, rest) => some (found, current :: rest)
    else if current.hash ≠ hash then none
    else some (current, { current with salary := salary } :: next)

/-- The function `hash_table_update` (hash_table.c, lines 66-93) with `before`
and `after` not NULL: the status, the table it leaves and what it writes to
`*before` and `*after`. -/
def hash_table_update (table : hash_table_t) (hash : Nat) (salary : Nat) :
    table_status_t × hash_table_t × Option record_snapshot_t × Option record_snapshot_t :=
  match update_list hash salary table.head with
  | none => (TABLE_NOT_FOUND, table, none, none)
  | some (current, head) =>
    (TABLE_OK, { head := head }, some (copy_record current),
      some (copy_record { current with salary := salary }))

/-- The body of `hash_table_delete` (hash_table.c, lines 97-122) on the list
that starts at `current`: the record that is unlinked and the list without it,
or `none` when the loop stops at a record of another hash or at the end. -/
def delete_list (hash : Nat) :
    List hash_record_t → Option (hash_record_t × List hash_record_t)
  | [] => none
  | current :: next =>
    if current.hash < hash then
      match delete_list hash next with
      | none => none
      | some (found, rest) => some (found, current :: rest)
    else if current.hash ≠ hash then none
    else some (current, next)

/-- The function `hash_table_delete` (hash_table.c, lines 95-123) with
`removed` not NULL: the status, the table it leaves and what it writes to
`*removed`. -/
def hash_table_delete (table : hash_table_t) (hash : Nat) :
    table_status_t × hash_table_t × Option record_snapshot_t :=
  match delete_list hash table.head with
  | none => (TABLE_NOT_FOUND, table, none)
  | some (current, head) => (TABLE_OK, { head := head }, some (copy_record current))

/-- The loop of `hash_table_find` (hash_table.c, lines 127-134) on the list
that starts at `current`. -/
def find_list (hash : Nat) : List hash_record_t → Option hash_record_t
  | [] => none
  | current :: next =>
    if current.hash < hash then find_list hash next
    else if current.hash ≠ hash then none
    else some current

/-- The function `hash_table_find` (hash_table.c, lines 125-143) with `result`
not NULL: the returned `bool` and what it writes to `*result`. -/
def hash_table_find (table : hash_table_t) (hash : Nat) :
    Bool × Option record_snapshot_t :=
  match find_list hash table.head with
  | none => (false, none)
  | some current => (true, some (copy_record current))

/-- One call on the alternate store. -/
inductive table_op where
  | insert (hash : Nat) (name : List Nat) (salary : Nat) (malloc_ok : Bool)
  | update (hash : Nat) (salary : Nat)
  | delete (hash : Nat)

/-- The table after a call. -/
def apply_op (table : hash_table_t) : table_op → hash_table_t
  | table_op.insert hash name salary malloc_ok =>
    (hash_table_insert table hash name salary malloc_ok).2
  | table_op.update hash salary => (hash_table_update table hash salary).2.1
  | table_op.delete hash => (hash_table_delete table hash).2.1

/-- The table after a sequence of calls on the table of `hash_table_init`. -/
def build_table (ops : List table_op) : hash_table_t :=
  ops.foldl apply_op hash_table_init

/-- A list in strictly ascending order of hash. -/
def strictly_ascending (records : List hash_record_t) : Prop :=
  records.Pairwise (fun a b => a.hash < b.hash)

/-- The records of a snapshot as a sequence: the records of the array stored
in `*records_out`, none when it is NULL. -/
def snapshot_sequence (result : Nat × Option (List record_snapshot_t)) :
    List record_snapshot_t :=
  match result.2 with
  | none => []
  | some records => records

/-- What holds of every list the alternate store builds: strictly ascending
hashes, and names of at most `MAX_NAME_LEN - 1` bytes. -/
structure list_inv (records : List hash_record_t) : Prop where
  sorted : strictly_ascending records
  short : ∀ r ∈ records, r.name.length ≤ MAX_NAME_LEN - 1

/-- The calls insert(30,"c",3), insert(10,"a",1), insert(20,"b",2),
update(10,5), delete(30). -/
def sample_ops : List table_op :=
  [table_op.insert 30 [99] 3 true, table_op.insert 10 [97] 1 true,
    table_op.insert 20 [98] 2 true, table_op.update 10 5, table_op.delete 30]

/-- A record of a snapshot of the alternate store as (hash, name, value). -/
def snapshot_triple (r : record_snapshot_t) : Nat × List Nat × Nat :=
  (r.hash, r.name, r.salary)

/-- A command on the alternate store as `perform_insert`, `perform_delete`,
`perform_update`, `perform_search` and `perform_print` run it (chash.c, lines
195-289), every allocation succeeding: the hash is `jenkins_hash` of the name
of the command; the table the call leaves and what the function shows. -/
def perform_command (table : hash_table_t) : store_command → hash_table_t × observation
  | store_command.insert name value =>
    ((hash_table_insert table (jenkins_hash name) name value true).2,
      observation.inserted
        (decide ((hash_table_insert table (jenkins_hash name) name value true).1 = TABLE_OK)))
  | store_command.update name value =>
    ((hash_table_update table (jenkins_hash name) value).2.1,
      observation.updated
        (decide ((hash_table_update table (jenkins_hash name) value).1 = TABLE_OK))
        ((hash_table_update table (jenkins_hash name) value).2.2.1.map
          record_snapshot_t.salary)
        ((hash_table_update table (jenkins_hash name) value).2.2.2.map snapshot_triple))
  | store_command.delete name =>
    ((hash_table_delete table (jenkins_hash name)).2.1,
      observation.deleted
        (decide ((hash_table_delete table (jenkins_hash name)).1 = TABLE_OK))
        ((hash_table_delete table (jenkins_hash name)).2.2.map snapshot_triple))
  | store_command.find name =>
    (table,
      observation.found (hash_table_find table (jenkins_hash name)).1
        ((hash_table_find table (jenkins_hash name)).2.map snapshot_triple))
  | store_command.snapshot =>
    (table,
      observation.listing
        ((snapshot_sequence (hash_table_snapshot table true)).map snapshot_triple))

/-- What a sequence of commands shows of the alternate store, in order. -/
def perform_observations : hash_table_t → List store_command → List observation
  | _, [] => []
  | table, command :: rest =>
    (perform_command table command).2 ::
      perform_observations (perform_command table command).1 rest

/-- The list holds what the map holds: a record stands in the list exactly
when the map takes its name to its value and its hash is the hash of its
name. -/
def list_abstracts (records : List hash_record_t)
    (m : AList (fun _ : List Nat => Nat)) : Prop :=
  ∀ a : hash_record_t, a ∈ records ↔
    (m.lookup a.name = some a.salary ∧ a.hash = jenkins_one_at_a_time_hash a.name)

/-- The four lock counters of `app_context_t`, by the name of their field. -/
inductive counter_id where
  | read_lock_acq
  | read_lock_rel
  | write_lock_acq
  | write_lock_rel
  deriving DecidableEq

/-- The value of a lock counter. -/
def lock_counters.get (counters : lock_counters) : counter_id → Nat
  | counter_id.read_lock_acq => counters.read_lock_acq
  | counter_id.read_lock_rel => counters.read_lock_rel
  | counter_id.write_lock_acq => counters.write_lock_acq
  | counter_id.write_lock_rel => counters.write_lock_rel

/-- The counters after a write to one of them. -/
def lock_counters.set (counters : lock_counters) (c : counter_id) (value : Nat) :
    lock_counters :=
  match c with
  | counter_id.read_lock_acq => { counters with read_lock_acq := value }
  | counter_id.read_lock_rel => { counters with read_lock_rel := value }
  | counter_id.write_lock_acq => { counters with write_lock_acq := value }
  | counter_id.write_lock_rel => { counters with write_lock_rel := value }

/-- The state of the `pthread_rwlock_t` field `table_lock`: how many threads
hold it for reading and whether a thread holds it for writing. -/
structure rwlock_t where
  readers : Nat
  writer : Bool
  deriving DecidableEq

/-- The table lock when no thread holds it. -/
def rwlock_free : rwlock_t :=
  { readers := 0, writer := false }

/-- The steps a thread takes inside `execute_command`, each of them one access
to the shared state: the three calls on `table_lock`, the read and the write
that make up a `++` on a lock counter (a plain `size_t` field: the value is
read, and the value read plus one is written back), and every other call. -/
inductive thread_step where
  | pthread_rwlock_rdlock
  | pthread_rwlock_wrlock
  | pthread_rwlock_unlock
  | load (c : counter_id)
  | store (c : counter_id)
  | call (c : app_call)
  deriving DecidableEq

/-- The bodies of the four lock helpers (chash.c, lines 513-535): the call on
`table_lock`, the `++` of the counter of the helper, and the log line.  Any
other call is one step. -/
def lock_helper : app_call → List thread_step
  | app_call.acquire_read_lock =>
    [thread_step.pthread_rwlock_rdlock, thread_step.load counter_id.read_lock_acq,
      thread_step.store counter_id.read_lock_acq, thread_step.call app_call.logger_thread_log]
  | app_call.release_read_lock =>
    [thread_step.pthread_rwlock_unlock, thread_step.load counter_id.read_lock_rel,
      thread_step.store counter_id.read_lock_rel, thread_step.call app_call.logger_thread_log]
  | app_call.acquire_write_lock =>
    [thread_step.pthread_rwlock_wrlock, thread_step.load counter_id.write_lock_acq,
      thread_step.store counter_id.write_lock_acq, thread_step.call app_call.logger_thread_log]
  | app_call.release_write_lock =>
    [thread_step.pthread_rwlock_unlock, thread_step.load counter_id.write_lock_rel,
      thread_step.store counter_id.write_lock_rel, thread_step.call app_call.logger_thread_log]
  | c => [thread_step.call c]

/-- The steps of `execute_command` for a command, in program order. -/
def command_steps (cmd : command_t) : List thread_step :=
  (execute_command cmd).flatMap lock_helper

/-- The steps of `execute_command` for a command of a given type; they do not
depend on the other fields of the command. -/
def type_steps (type : command_type_t) : List thread_step :=
  command_steps { type := type, name := [], value := 0, priority := 0 }

/-- What a step does to the table lock; `none` when the thread has to wait:
`pthread_rwlock_rdlock` waits while a writer holds the lock,
`pthread_rwlock_wrlock` while any thread holds it. -/
def rwlock_step (lock : rwlock_t) : thread_step → Option rwlock_t
  | thread_step.pthread_rwlock_rdlock =>
    if lock.writer = true then none else some { lock with readers := lock.readers + 1 }
  | thread_step.pthread_rwlock_wrlock =>
    if lock.writer = true ∨ lock.readers > 0 then none else some { lock with writer := true }
  | thread_step.pthread_rwlock_unlock =>
    if lock.writer = true then some { lock with writer := false }
    else some { lock with readers := lock.readers - 1 }
  | _ => some lock

/-- The state of the alternate program while its workers execute: the
scheduling state, the lock counters and the table lock of `app_context_t`, and
for each worker the steps of `execute_command` it has left and the value its
pending `++` has read. -/
structure exec_state where
  app : app_context_t
  counters : lock_counters
  table_lock : rwlock_t
  todo : List (List thread_step)
  regs : List Nat

/-- One step of worker `i` inside `execute_command`, with the steps it has
left after it.  A step that has to wait for the table lock changes nothing.  A
`load` keeps the value of the counter for the worker, a `store` writes the
value kept plus one, a `size_t` that wraps at `SIZE_MAX`. -/
def thread_step_run (s : exec_state) (i : Nat) (op : thread_step)
    (rest : List thread_step) : exec_state :=
  match rwlock_step s.table_lock op with
  | none => s
  | some lock =>
    match op with
    | thread_step.load c =>
      { s with
        table_lock := lock, regs := s.regs.set i (s.counters.get c), todo := s.todo.set i rest }
    | thread_step.store c =>
      { s with
        table_lock := lock
        counters := s.counters.set c ((s.regs[i]?.getD 0 + 1) % (SIZE_MAX + 1))
        todo := s.todo.set i rest }
    | _ => { s with table_lock := lock, todo := s.todo.set i rest }

/-- One atomic step of the alternate program with the workers executing their
commands: a worker past the gate takes the next step of `execute_command`,
and when none is left it runs lines 165-168; every other event is a step of
the scheduler. -/
def exec_step (commands : List command_t) (s : exec_state) : sched_event → exec_state
  | sched_event.run i =>
    match s.app.workers[i]?, s.todo[i]? with
    | some worker_phase.running, some (op :: rest) => thread_step_run s i op rest
    | _, _ => { s with app := worker_step commands s.app (sched_event.run i) }
  | sched_event.spurious i =>
    { s with app := worker_step commands s.app (sched_event.spurious i) }

/-- The state `main` sets up (chash.c, lines 77-84 and 113-117): the counters
at 0, the table lock free, and each worker with all of `execute_command`
before it. -/
def exec_init (commands : List command_t) : exec_state :=
  { app := app_init commands
    counters := lock_counters_init
    table_lock := rwlock_free
    todo := commands.map command_steps
    regs := List.replicate commands.length 0 }

/-- The state after the events of an interleaving, in order. -/
def exec_run (commands : List command_t) (events : List sched_event) : exec_state :=
  events.foldl (exec_step commands) (exec_init commands)

/-- Every worker has returned: `main` is past the loop of `pthread_join`
(chash.c, lines 124-126). -/
def all_joined (s : exec_state) : Prop :=
  ∀ phase ∈ s.app.workers, phase = worker_phase.done

instance (s : exec_state) : Decidable (all_joined s) := by
  unfold all_joined
  infer_instance

/-- The steps of one thread that runs alone, from the counters, the table lock
and the value its `++` has read; `none` when it has to wait for the table lock
for ever. -/
def run_alone :
    lock_counters × rwlock_t × Nat → List thread_step → Option (lock_counters × rwlock_t × Nat)
  | state, [] => some state
  | (counters, lock, reg), op :: rest =>
    match rwlock_step lock op with
    | none => none
    | some lock2 =>
      match op with
      | thread_step.load c => run_alone (counters, lock2, counters.get c) rest
      | thread_step.store c =>
        run_alone (counters.set c ((reg + 1) % (SIZE_MAX + 1)), lock2, reg) rest
      | _ => run_alone (counters, lock2, reg) rest

/-- What `main` does after the workers have returned (chash.c, lines 128-136):
it executes the final print itself and `log_final_summary` reports the two
totals; `none` when the final print never returns. -/
def final_report (commands : List command_t) (s : exec_state) : Option (Nat × Nat) :=
  (run_alone (s.counters, s.table_lock, 0)
    (command_steps (final_print commands.length))).map (fun r => log_final_summary r.1)

/-- The table lock as the one executing worker leaves it with these steps
still before it: held from its call of `pthread_rwlock_rdlock` or
`pthread_rwlock_wrlock` to its call of `pthread_rwlock_unlock`, which the `++`
of a release counter follows. -/
def lock_of_todo : List thread_step → rwlock_t
  | [] => rwlock_free
  | thread_step.pthread_rwlock_rdlock :: _ => rwlock_free
  | thread_step.pthread_rwlock_wrlock :: _ => rwlock_free
  | thread_step.pthread_rwlock_unlock :: thread_step.load counter_id.write_lock_rel :: _ =>
    { readers := 0, writer := true }
  | thread_step.pthread_rwlock_unlock :: _ => { readers := 1, writer := false }
  | _ :: rest => lock_of_todo rest

/-- The shape of what a worker has left of `execute_command`: its next step
takes the table lock from the state that goes with these steps to the state
that goes with the steps after it, without waiting, and a `store` is the step
right after the `load` of the same counter. -/
def shape_ok : List thread_step → Bool
  | [] => true
  | op :: rest =>
    decide (rwlock_step (lock_of_todo (op :: rest)) op = some (lock_of_todo rest)) &&
      (match rest with
        | thread_step.store c :: _ => decide (op = thread_step.load c)
        | _ => true)

/-- How many writes to a counter the workers have left. -/
def pending (c : counter_id) (todo : List (List thread_step)) : Nat :=
  (todo.map (fun steps => steps.count (thread_step.store c))).sum

/-- What holds of every state of the executing alternate program when the
priorities are a permutation of 0..N-1: the facts of the turn gate; a worker
that has not passed the gate has all of `execute_command` before it and a
worker that is done has none of it; the one worker that executes holds the
table lock as its remaining steps say, and when its next step is a `store` the
value it has read is the value of the counter; the table lock is free when no
worker executes; and each counter plus the writes to it that are left is the
number of writes to it in all commands. -/
structure exec_inv (commands : List command_t) (s : exec_state) : Prop where
  gate : gate_inv commands s.app
  turn : turn_inv commands s.app
  todo_size : s.todo.length = commands.length
  regs_size : s.regs.length = commands.length
  waiting : ∀ (i : Nat) (cmd : command_t), commands[i]? = some cmd →
    (s.app.workers[i]? = some worker_phase.idle ∨
      s.app.workers[i]? = some worker_phase.blocked) →
    s.todo[i]? = some (command_steps cmd)
  finished : ∀ i : Nat, s.app.workers[i]? = some worker_phase.done → s.todo[i]? = some []
  executing : ∀ (i : Nat) (cmd : command_t), commands[i]? = some cmd →
    s.app.workers[i]? = some worker_phase.running →
    ∃ steps, s.todo[i]? = some steps ∧ steps ∈ (command_steps cmd).tails ∧
      s.table_lock = lock_of_todo steps ∧
      ∀ (c : counter_id) (rest : List thread_step), steps = thread_step.store c :: rest →
        s.regs[i]?.getD 0 = s.counters.get c
  idle_lock : (∀ i : Nat, s.app.workers[i]? ≠ some worker_phase.running) →
    s.table_lock = rwlock_free
  balance : ∀ c : counter_id,
    s.counters.get c + pending c s.todo = pending c (commands.map command_steps)

/-- Two searches that both have the priority 0. -/
def racing_searches : List command_t :=
  [{ type := command_type_t.CMD_SEARCH, name := [97], value := 0, priority := 0 },
    { type := command_type_t.CMD_SEARCH, name := [98], value := 0, priority := 0 }]

/-- An interleaving of `racing_searches`: both workers pass the gate while
`next_priority` is 0; worker 0 goes as far as the read of `read_lock_acq`,
worker 1 does the same and reads the same value, and then each of them runs to
its end. -/
def racing_events : List sched_event :=
  [sched_event.run 0, sched_event.run 1] ++ List.replicate 4 (sched_event.run 0) ++
    List.replicate 4 (sched_event.run 1) ++ List.replicate 9 (sched_event.run 0) ++
    List.replicate 9 (sched_event.run 1)

/-- The interleaving of three commands with the priorities 0, 1 and 2 in which
each worker in turn passes the gate, executes its command and finishes. -/
def serial_events : List sched_event :=
  List.replicate 14 (sched_event.run 0) ++ List.replicate 14 (sched_event.run 1) ++
    List.replicate 14 (sched_event.run 2)

end Alt

/-! ## The names of the command kinds (`commands.c`) -/

/-- The library function `tolower` in the C locale, on a byte. -/
def tolower (c : Nat) : Nat :=
  if 65 ≤ c ∧ c ≤ 90 then c + 32 else c

/-- The library function `strcasecmp` in the C locale: the strings are
compared byte by byte after `tolower`; the result is negative, zero or
positive, given here as -1, 0 or 1. -/
def strcasecmp : List Nat → List Nat → Int
  | [], [] => 0
  | [], _ :: _ => -1
  | _ :: _, [] => 1
  | a :: s1, b :: s2 =>
    if tolower a < tolower b then -1
    else if tolower b < tolower a then 1
    else strcasecmp s1 s2

/-- The string "insert". -/
def str_insert : List Nat := [105, 110, 115, 101, 114, 116]

/-- The string "update". -/
def str_update : List Nat := [117, 112, 100, 97, 116, 101]

/-- The string "updatesalary". -/
def str_updatesalary : List Nat :=
  [117, 112, 100, 97, 116, 101, 115, 97, 108, 97, 114, 121]

/-- The string "delete". -/
def str_delete : List Nat := [100, 101, 108, 101, 116, 101]

/-- The string "search". -/
def str_search : List Nat := [115, 101, 97, 114, 99, 104]

/-- The string "print". -/
def str_print : List Nat := [112, 114, 105, 110, 116]

/-- The function `command_type_from_string` (commands.c, lines 72-94); `none`
is the NULL pointer. -/
def command_type_from_string (str : Option (List Nat)) : command_type_t :=
  match str with
  | none => COMMAND_UNKNOWN
  | some str =>
    if strcasecmp str str_insert = 0 then COMMAND_INSERT
    else if strcasecmp str str_update = 0 ∨ strcasecmp str str_updatesalary = 0 then
      COMMAND_UPDATE
    else if strcasecmp str str_delete = 0 then COMMAND_DELETE
    else if strcasecmp str str_search = 0 then COMMAND_SEARCH
    else if strcasecmp str str_print = 0 then COMMAND_PRINT
    else COMMAND_UNKNOWN

/-- The function `command_type_to_string` (commands.c, lines 96-105): the
strings "INSERT", "UPDATE", "DELETE", "SEARCH", "PRINT" and "UNKNOWN". -/
def command_type_to_string (type : command_type_t) : List Nat :=
  match type with
  | COMMAND_INSERT => [73, 78, 83, 69, 82, 84]
  | COMMAND_UPDATE => [85, 80, 68, 65, 84, 69]
  | COMMAND_DELETE => [68, 69, 76, 69, 84, 69]
  | COMMAND_SEARCH => [83, 69, 65, 82, 67, 72]
  | COMMAND_PRINT => [80, 82, 73, 78, 84]
  | COMMAND_UNKNOWN => [85, 78, 75, 78, 79, 87, 78]

/-- A string in lower case: every byte after `tolower`. -/
def lower_case (str : List Nat) : List Nat :=
  str.map tolower

/-- The six names `command_type_from_string` knows, in lower case. -/
def known_names : List (List Nat) :=
  [str_insert, str_update, str_updatesalary, str_delete, str_search, str_print]

/-- The string "UpdateSalary", in mixed case. -/
def str_mixed_case : List Nat :=
  [85, 112, 100, 97, 116, 101, 83, 97, 108, 97, 114, 121]

/-! ## The two stores side by side -/

/-- A collision-free set of names: every name is shorter than `MAX_NAME_LEN`
(50) bytes and no two distinct names have the same hash. -/
def collision_free (names : List (List Nat)) : Prop :=
  (∀ n ∈ names, n.length < Alt.MAX_NAME_LEN) ∧
    ∀ n1 ∈ names, ∀ n2 ∈ names,
      jenkins_one_at_a_time_hash n1 = jenkins_one_at_a_time_hash n2 → n1 = n2

/-- The root store and the alternate store hold the same map, whose names are
among `names`. -/
structure stores_agree (names : List (List Nat)) (table : hash_table_t)
    (alt : Alt.hash_table_t) (m : AList (fun _ : List Nat => Nat)) : Prop where
  root_inv : table_inv table
  root_abs : abstracts table m
  alt_inv : Alt.list_inv alt.head
  alt_abs : Alt.list_abstracts alt.head m
  keys : ∀ k : List Nat, m.lookup k ≠ none → k ∈ names

/-! ## Stores built with a name that does not fit -/

/-- The first 63 bytes of `long_name`: what the store keeps of it. -/
def long_prefix : List Nat := List.replicate 63 97

/-- The table after `hash_table_insert` of `long_name` (64 bytes) with the
salary 1 on the empty table: its one record carries the name `long_prefix` and
lies in the bucket of the hash of `long_name` (789), not in the bucket of the
hash of `long_prefix` (848). -/
def long_table : hash_table_t :=
  (hash_table_insert hash_table_init long_name 1 true).table

/-- A name of 65 bytes, `long_prefix` followed by "za", whose hash falls in
the bucket of the hash of `long_prefix` (848). -/
def colliding_long_name : List Nat := List.replicate 63 97 ++ [122, 97]

/-- The table after `hash_table_insert` of `colliding_long_name` with the
salary 1 on the empty table: its one record carries the name `long_prefix` and
the hash of `colliding_long_name`. -/
def colliding_long_table : hash_table_t :=
  (hash_table_insert hash_table_init colliding_long_name 1 true).table

/-! ## The minimum over the waiting commands -/

theorem foldl_waiting_min_le_acc (l : List command_t) (acc : Int) :
    l.foldl waiting_min_step acc ≤ acc := by
  induction l generalizing acc with
  | nil => simp
  | cons c l ih =>
    simp only [List.foldl_cons]
    refine le_trans (ih _) ?_
    unfold waiting_min_step
    split_ifs <;> omega

theorem foldl_waiting_min_le (l : List command_t) (acc : Int) (c : command_t)
    (hc : c ∈ l) (hw : c.state = CMD_STATE_WAITING) :
    l.foldl waiting_min_step acc ≤ c.priority := by
  induction l generalizing acc with
  | nil => simp at hc
  | cons d l ih =>
    simp only [List.foldl_cons]
    rcases List.mem_cons.mp hc with h | h
    · subst h
      refine le_trans (foldl_waiting_min_le_acc l _) ?_
      unfold waiting_min_step
      rw [if_pos hw]
      split_ifs <;> omega
    · exact ih _ h

theorem foldl_waiting_min_attained (l : List command_t) (acc : Int) :
    l.foldl waiting_min_step acc = acc ∨
      ∃ c ∈ l, c.state = CMD_STATE_WAITING ∧ c.priority = l.foldl waiting_min_step acc := by
  induction l generalizing acc with
  | nil => simp
  | cons d l ih =>
    simp only [List.foldl_cons]
    rcases ih (waiting_min_step acc d) with h | ⟨c, hc, hw, hp⟩
    · by_cases hd : d.state = CMD_STATE_WAITING ∧ d.priority < acc
      · right
        refine ⟨d, List.mem_cons_self _ _, hd.1, ?_⟩
        rw [h]
        unfold waiting_min_step
        rw [if_pos hd.1, if_pos hd.2]
      · left
        rw [h]
        unfold waiting_min_step
        split_ifs <;> first | rfl | (exfalso; exact hd ⟨by assumption, by assumption⟩)
    · exact Or.inr ⟨c, List.mem_cons_of_mem _ hc, hw, hp⟩

theorem waiting_min_is_least (s : scheduler_t) (hi : int_priorities s.command_list) :
    least_waiting s.command_list (scheduler_waiting_min_priority_locked s) := by
  unfold scheduler_waiting_min_priority_locked
  by_cases hex : ∃ c ∈ s.command_list, c.state = CMD_STATE_WAITING
  · left
    obtain ⟨c, hc, hw⟩ := hex
    rcases foldl_waiting_min_attained s.command_list INT_MAX with h | ⟨d, hd, hdw, hdp⟩
    · refine ⟨c, hc, hw, ?_, fun d hd hdw => foldl_waiting_min_le _ _ d hd hdw⟩
      have h1 := foldl_waiting_min_le s.command_list INT_MAX c hc hw
      have h2 := (hi c hc).2
      rw [h] at h1 ⊢
      omega
    · exact ⟨d, hd, hdw, hdp, fun e he hew => foldl_waiting_min_le _ _ e he hew⟩
  · right
    refine ⟨fun c hc hw => hex ⟨c, hc, hw⟩, ?_⟩
    rcases foldl_waiting_min_attained s.command_list INT_MAX with h | ⟨d, hd, hdw, _⟩
    · exact h
    · exact absurd ⟨d, hd, hdw⟩ hex

theorem least_waiting_unique (l : List command_t) (m n : Int)
    (hm : least_waiting l m) (hn : least_waiting l n) : m = n := by
  rcases hm with ⟨c, hc, hcw, hcp, hcl⟩ | ⟨hnone, hm⟩
  · rcases hn with ⟨d, hd, hdw, hdp, hdl⟩ | ⟨hnone, _⟩
    · have h1 := hcl d hd hdw
      have h2 := hdl c hc hcw
      omega
    · exact absurd hcw (hnone c hc)
  · rcases hn with ⟨d, hd, hdw, _, _⟩ | ⟨_, hn⟩
    · exact absurd hdw (hnone d hd)
    · rw [hm, hn]

/-! ## Lists of commands under an update of one command -/

theorem mem_set_iff (l : List command_t) (i : Nat) (a d : command_t) :
    d ∈ l.set i a ↔ (i < l.length ∧ d = a) ∨ ∃ j, j ≠ i ∧ l[j]? = some d := by
  constructor
  · intro h
    obtain ⟨j, hj⟩ := List.mem_iff_getElem?.mp h
    rw [List.getElem?_set] at hj
    by_cases hij : i = j
    · rw [if_pos hij] at hj
      by_cases hlt : i < l.length
      · rw [if_pos hlt] at hj
        exact Or.inl ⟨hlt, (Option.some.inj hj).symm⟩
      · rw [if_neg hlt] at hj
        exact absurd hj (by simp)
    · rw [if_neg hij] at hj
      exact Or.inr ⟨j, fun h => hij h.symm, hj⟩
  · rintro (⟨hlt, rfl⟩ | ⟨j, hji, hj⟩)
    · exact List.mem_set l i hlt d
    · refine List.mem_iff_getElem?.mpr ⟨j, ?_⟩
      rw [List.getElem?_set, if_neg (fun h => hji h.symm)]
      exact hj

theorem lt_length_of_getElem? (l : List command_t) (i : Nat) (c : command_t)
    (h : l[i]? = some c) : i < l.length := by
  obtain ⟨hlt, _⟩ := List.getElem?_eq_some.mp h
  exact hlt

theorem getElem?_set_self_some (l : List command_t) (i : Nat) (c a : command_t)
    (h : l[i]? = some c) : (l.set i a)[i]? = some a := by
  rw [List.getElem?_set, if_pos rfl, if_pos (lt_length_of_getElem? l i c h)]

theorem active_count_set (l : List command_t) (i : Nat) (c a : command_t)
    (h : l[i]? = some c) :
    active_count (l.set i a) + (if c.state = CMD_STATE_ACTIVE then 1 else 0) =
      active_count l + (if a.state = CMD_STATE_ACTIVE then 1 else 0) := by
  induction l generalizing i with
  | nil => simp at h
  | cons d l ih =>
    cases i with
    | zero =>
      simp only [List.getElem?_cons_zero, Option.some.injEq] at h
      subst h
      simp only [List.set_cons_zero, active_count, List.countP_cons, decide_eq_true_eq]
      omega
    | succ i =>
      simp only [List.getElem?_cons_succ] at h
      have := ih i h
      simp only [List.set_cons_succ, active_count, List.countP_cons, decide_eq_true_eq] at this ⊢
      omega

theorem list_rank_set (l : List command_t) (i : Nat) (c a : command_t)
    (h : l[i]? = some c) :
    list_rank (l.set i a) + state_rank c.state = list_rank l + state_rank a.state := by
  induction l generalizing i with
  | nil => simp at h
  | cons d l ih =>
    cases i with
    | zero =>
      simp only [List.getElem?_cons_zero, Option.some.injEq] at h
      subst h
      simp only [List.set_cons_zero, list_rank, List.map_cons, List.sum_cons]
      omega
    | succ i =>
      simp only [List.getElem?_cons_succ] at h
      have := ih i h
      simp only [List.set_cons_succ, list_rank, List.map_cons, List.sum_cons] at this ⊢
      omega

theorem map_priority_set (l : List command_t) (i : Nat) (c : command_t)
    (st : command_state_t) (h : l[i]? = some c) :
    (l.set i { c with state := st }).map command_t.priority = l.map command_t.priority := by
  induction l generalizing i with
  | nil => simp at h
  | cons d l ih =>
    cases i with
    | zero =>
      simp only [List.getElem?_cons_zero, Option.some.injEq] at h
      subst h
      simp
    | succ i =>
      simp only [List.getElem?_cons_succ] at h
      simp only [List.set_cons_succ, List.map_cons, ih i h]

theorem active_count_le_length (l : List command_t) : active_count l ≤ l.length :=
  List.countP_le_length _

theorem active_count_eq_zero (l : List command_t) :
    active_count l = 0 ↔ ∀ c ∈ l, c.state ≠ CMD_STATE_ACTIVE := by
  unfold active_count
  rw [List.countP_eq_zero]
  simp

theorem exists_active_of_pos (l : List command_t) (h : 0 < active_count l) :
    ∃ c ∈ l, c.state = CMD_STATE_ACTIVE := by
  by_contra hne
  have : active_count l = 0 := (active_count_eq_zero l).mpr
    (fun c hc hs => hne ⟨c, hc, hs⟩)
  omega

theorem list_rank_eq_zero (l : List command_t) :
    list_rank l = 0 ↔ ∀ c ∈ l, c.state = CMD_STATE_FINISHED := by
  induction l with
  | nil => simp [list_rank]
  | cons d l ih =>
    have hd : state_rank d.state = 0 ↔ d.state = CMD_STATE_FINISHED := by
      cases hs : d.state <;> simp [state_rank]
    simp only [list_rank, List.map_cons, List.sum_cons, List.mem_cons, forall_eq_or_imp] at ih ⊢
    rw [← ih, ← hd]
    omega

theorem int_priorities_set (l : List command_t) (i : Nat) (c : command_t)
    (st : command_state_t) (h : l[i]? = some c) (hi : int_priorities l) :
    int_priorities (l.set i { c with state := st }) := by
  intro d hd
  rcases List.mem_or_eq_of_mem_set hd with hd | hd
  · exact hi d hd
  · subst hd
    exact hi c (List.getElem?_mem h)

/-! ## What each part of a step does to the fields -/

theorem mem_broadcast_cond (s : scheduler_t) (i j : Nat) :
    j ∈ (pthread_cond_broadcast s i).cond ↔
      j ≠ i ∧ ∃ c, s.command_list[j]? = some c ∧ c.state = CMD_STATE_WAITING := by
  simp only [pthread_cond_broadcast, List.mem_filter, List.mem_range, Bool.and_eq_true,
    decide_eq_true_eq, Option.map_eq_some']
  constructor
  · rintro ⟨_, hne, c, hc, hs⟩
    exact ⟨hne, c, hc, hs⟩
  · rintro ⟨hne, c, hc, hs⟩
    exact ⟨lt_length_of_getElem? _ _ _ hc, hne, c, hc, hs⟩

theorem entry_command_list (s : scheduler_t) (i : Nat) (c : command_t) :
    (wait_for_turn_entry s i c).command_list =
      s.command_list.set i { c with state := CMD_STATE_WAITING } := by
  unfold wait_for_turn_entry
  simp only [pthread_cond_broadcast]
  split_ifs <;> rfl

theorem entry_active_threads (s : scheduler_t) (i : Nat) (c : command_t) :
    (wait_for_turn_entry s i c).active_threads = s.active_threads := by
  unfold wait_for_turn_entry
  simp only [pthread_cond_broadcast]
  split_ifs <;> rfl

theorem entry_priority_pos (s : scheduler_t) (i : Nat) (c : command_t)
    (h : s.active_threads ≠ 0) :
    (wait_for_turn_entry s i c).current_priority =
      if s.current_priority = INT_MAX then c.priority else s.current_priority := by
  unfold wait_for_turn_entry
  simp only [pthread_cond_broadcast, if_neg h]
  split_ifs <;> rfl

theorem entry_priority_zero (s : scheduler_t) (i : Nat) (c : command_t)
    (h : s.active_threads = 0) (hc : s.command_list[i]? = some c)
    (hi : int_priorities s.command_list) :
    least_waiting (s.command_list.set i { c with state := CMD_STATE_WAITING })
      (wait_for_turn_entry s i c).current_priority := by
  have hi1 := int_priorities_set _ i c CMD_STATE_WAITING hc hi
  have hl := waiting_min_is_least
    { s with command_list := s.command_list.set i { c with state := CMD_STATE_WAITING } } hi1
  have hle := foldl_waiting_min_le
    (s.command_list.set i { c with state := CMD_STATE_WAITING }) INT_MAX
    { c with state := CMD_STATE_WAITING }
    (List.mem_set _ i (lt_length_of_getElem? _ _ _ hc) _) rfl
  have hub := (hi c (List.getElem?_mem hc)).2
  unfold wait_for_turn_entry
  simp only [pthread_cond_broadcast, if_pos h]
  simp only [scheduler_waiting_min_priority_locked] at hl hle ⊢
  split_ifs with hcase
  · rcases hcase with hcase | hcase
    · have : c.priority = List.foldl waiting_min_step INT_MAX
          (s.command_list.set i { c with state := CMD_STATE_WAITING }) := by
        rw [hcase] at hle ⊢
        omega
      exact (congrArg (least_waiting _) this).mpr hl
    · omega
  · exact hl

theorem entry_cond_zero (s : scheduler_t) (i j : Nat) (c : command_t)
    (h : s.active_threads = 0) :
    j ∈ (wait_for_turn_entry s i c).cond ↔
      j ≠ i ∧ ∃ d, (s.command_list.set i { c with state := CMD_STATE_WAITING })[j]? = some d ∧
        d.state = CMD_STATE_WAITING := by
  unfold wait_for_turn_entry
  simp only [if_pos h]
  split_ifs <;> rw [mem_broadcast_cond]

theorem recheck_command_list (s : scheduler_t) (i : Nat) :
    (wait_for_turn_recheck s i).command_list = s.command_list := by
  unfold wait_for_turn_recheck
  simp only [pthread_cond_broadcast]
  split_ifs <;> rfl

theorem recheck_active_threads (s : scheduler_t) (i : Nat) :
    (wait_for_turn_recheck s i).active_threads = s.active_threads := by
  unfold wait_for_turn_recheck
  simp only [pthread_cond_broadcast]
  split_ifs <;> rfl

theorem recheck_priority_pos (s : scheduler_t) (i : Nat) (h : s.active_threads ≠ 0) :
    (wait_for_turn_recheck s i).current_priority = s.current_priority := by
  unfold wait_for_turn_recheck
  simp only [if_neg h]

theorem recheck_priority_zero (s : scheduler_t) (i : Nat) (h : s.active_threads = 0) :
    (wait_for_turn_recheck s i).current_priority =
      if scheduler_waiting_min_priority_locked s ≠ INT_MAX then
        scheduler_waiting_min_priority_locked s
      else s.current_priority := by
  unfold wait_for_turn_recheck
  simp only [pthread_cond_broadcast, if_pos h, scheduler_waiting_min_priority_locked]
  split_ifs <;> rfl

theorem recheck_cond_keeps (s : scheduler_t) (i j : Nat) (c : command_t) (hji : j ≠ i)
    (hc : s.command_list[j]? = some c) (hw : c.state = CMD_STATE_WAITING)
    (hj : j ∈ s.cond) : j ∈ (wait_for_turn_recheck s i).cond := by
  unfold wait_for_turn_recheck
  simp only
  split_ifs
  · rw [mem_broadcast_cond]
    exact ⟨hji, c, hc, hw⟩
  · simp only [List.mem_filter, decide_eq_true_eq]
    exact ⟨hj, hji⟩
  · simp only [List.mem_filter, decide_eq_true_eq]
    exact ⟨hj, hji⟩

/-! ## The steps keep the invariant -/

theorem gate_blocked (s : scheduler_t) (i : Nat) (c : command_t)
    (h : c.priority ≠ s.current_priority) : turn_gate s i c = (s, false) := by
  unfold turn_gate
  rw [if_pos h]

theorem gate_admitted (s : scheduler_t) (i : Nat) (c : command_t)
    (h : c.priority = s.current_priority) :
    turn_gate s i c =
      ({ s with
          command_list := s.command_list.set i { c with state := CMD_STATE_ACTIVE }
          active_threads := (s.active_threads + 1) % (SIZE_MAX + 1) }, true) := by
  unfold turn_gate
  rw [if_neg (not_not.mpr h)]

theorem enter_eq (s : scheduler_t) (i : Nat) (c : command_t)
    (hc : s.command_list[i]? = some c) :
    scheduler_wait_for_turn_enter s i =
      turn_gate (wait_for_turn_entry s i c) i { c with state := CMD_STATE_WAITING } := by
  unfold scheduler_wait_for_turn_enter
  rw [hc]

theorem wake_eq (s : scheduler_t) (i : Nat) (c : command_t)
    (hc : s.command_list[i]? = some c) :
    scheduler_wait_for_turn_wake s i = turn_gate (wait_for_turn_recheck s i) i c := by
  unfold scheduler_wait_for_turn_wake
  rw [hc]

theorem succ_mod_size (n : Nat) (h : n + 1 ≤ SIZE_MAX) : (n + 1) % (SIZE_MAX + 1) = n + 1 :=
  Nat.mod_eq_of_lt (by omega)

theorem admit_count (l : List command_t) (i : Nat) (c : command_t)
    (hc : l[i]? = some c) (hs : c.state ≠ CMD_STATE_ACTIVE) (hsz : l.length ≤ SIZE_MAX) :
    active_count (l.set i { c with state := CMD_STATE_ACTIVE }) = active_count l + 1 ∧
      active_count l + 1 ≤ SIZE_MAX := by
  have h1 := active_count_set l i c { c with state := CMD_STATE_ACTIVE } hc
  rw [if_neg hs] at h1
  simp only [if_true] at h1
  have h2 := active_count_le_length (l.set i { c with state := CMD_STATE_ACTIVE })
  rw [List.length_set] at h2
  omega

theorem enter_preserves_inv (s : scheduler_t) (i : Nat) (c : command_t)
    (hinv : scheduler_inv s) (hc : s.command_list[i]? = some c)
    (hs : c.state = CMD_STATE_PENDING) :
    scheduler_inv (scheduler_wait_for_turn_enter s i).1 := by
  have hna : c.state ≠ CMD_STATE_ACTIVE := by rw [hs]; decide
  rw [enter_eq s i c hc]
  by_cases hg : c.priority = (wait_for_turn_entry s i c).current_priority
  · rw [gate_admitted _ i { c with state := CMD_STATE_WAITING } hg]
    obtain ⟨hcnt, hbound⟩ := admit_count s.command_list i c hc hna hinv.size
    have hat : (s.active_threads + 1) % (SIZE_MAX + 1) = s.active_threads + 1 :=
      succ_mod_size _ (by rw [hinv.count]; exact hbound)
    constructor
    · simp only [entry_command_list, entry_active_threads, List.set_set]
      rw [hat, hcnt, hinv.count]
    · simp only [entry_active_threads]
      intro h
      omega
    · simp only [entry_active_threads]
      intro h
      omega
    · simp only [entry_command_list, List.length_set]
      exact hinv.size
    · simp only [entry_command_list, List.set_set]
      exact int_priorities_set _ i c CMD_STATE_ACTIVE hc hinv.ints
  · rw [gate_blocked _ i { c with state := CMD_STATE_WAITING } hg]
    constructor
    · rw [entry_command_list, entry_active_threads, hinv.count]
      have h1 := active_count_set s.command_list i c { c with state := CMD_STATE_WAITING } hc
      rw [if_neg hna] at h1
      simp only [reduceCtorEq, if_false] at h1
      omega
    · rw [entry_active_threads, entry_command_list]
      intro h0
      exact entry_priority_zero s i c h0 hc hinv.ints
    · rw [entry_active_threads, entry_command_list]
      intro h0 j d hd hw hp
      rw [entry_cond_zero s i j c h0]
      refine ⟨?_, d, hd, hw⟩
      intro hji
      subst hji
      rw [getElem?_set_self_some _ _ c _ hc] at hd
      have := Option.some.inj hd
      subst this
      exact hg hp
    · rw [entry_command_list, List.length_set]
      exact hinv.size
    · rw [entry_command_list]
      exact int_priorities_set _ i c CMD_STATE_WAITING hc hinv.ints

theorem recheck_priority_inv (s : scheduler_t) (i : Nat) (hinv : scheduler_inv s) :
    (wait_for_turn_recheck s i).current_priority = s.current_priority := by
  by_cases h0 : s.active_threads = 0
  · rw [recheck_priority_zero s i h0]
    split_ifs with hm
    · exact least_waiting_unique _ _ _ (waiting_min_is_least s hinv.ints) (hinv.least h0)
    · rfl
  · exact recheck_priority_pos s i h0

theorem wake_preserves_inv (s : scheduler_t) (i : Nat) (c : command_t)
    (hinv : scheduler_inv s) (hc : s.command_list[i]? = some c)
    (hs : c.state = CMD_STATE_WAITING) :
    scheduler_inv (scheduler_wait_for_turn_wake s i).1 := by
  have hna : c.state ≠ CMD_STATE_ACTIVE := by rw [hs]; decide
  rw [wake_eq s i c hc]
  by_cases hg : c.priority = (wait_for_turn_recheck s i).current_priority
  · rw [gate_admitted _ _ _ hg]
    obtain ⟨hcnt, hbound⟩ := admit_count s.command_list i c hc hna hinv.size
    have hat : (s.active_threads + 1) % (SIZE_MAX + 1) = s.active_threads + 1 :=
      succ_mod_size _ (by rw [hinv.count]; exact hbound)
    constructor
    · simp only [recheck_command_list, recheck_active_threads]
      rw [hat, hcnt, hinv.count]
    · simp only [recheck_active_threads]
      intro h
      omega
    · simp only [recheck_active_threads]
      intro h
      omega
    · simp only [recheck_command_list, List.length_set]
      exact hinv.size
    · simp only [recheck_command_list]
      exact int_priorities_set _ i c CMD_STATE_ACTIVE hc hinv.ints
  · rw [gate_blocked _ _ _ hg]
    rw [recheck_priority_inv s i hinv] at hg
    constructor
    · rw [recheck_command_list, recheck_active_threads]
      exact hinv.count
    · rw [recheck_active_threads, recheck_command_list, recheck_priority_inv s i hinv]
      exact hinv.least
    · rw [recheck_active_threads, recheck_command_list, recheck_priority_inv s i hinv]
      intro h0 j d hd hw hp
      have hji : j ≠ i := by
        intro hji
        subst hji
        rw [hc] at hd
        have := Option.some.inj hd
        subst this
        exact hg hp
      exact recheck_cond_keeps s i j d hji hd hw (hinv.woken h0 j d hd hw hp)
    · rw [recheck_command_list]
      exact hinv.size
    · rw [recheck_command_list]
      exact hinv.ints

theorem finish_command_list (s : scheduler_t) (i : Nat) (c : command_t)
    (hc : s.command_list[i]? = some c) :
    (scheduler_finish_turn s i).command_list =
      s.command_list.set i { c with state := CMD_STATE_FINISHED } := by
  unfold scheduler_finish_turn
  rw [hc]
  simp only [pthread_cond_broadcast]
  split_ifs <;> rfl

theorem finish_active_threads (s : scheduler_t) (i : Nat) (c : command_t)
    (hc : s.command_list[i]? = some c) :
    (scheduler_finish_turn s i).active_threads = s.active_threads - 1 := by
  unfold scheduler_finish_turn
  rw [hc]
  simp only [pthread_cond_broadcast]
  split_ifs <;> simp only <;> omega

theorem finish_priority_zero (s : scheduler_t) (i : Nat) (c : command_t)
    (hc : s.command_list[i]? = some c) (h : s.active_threads - 1 = 0) :
    (scheduler_finish_turn s i).current_priority =
      scheduler_waiting_min_priority_locked
        { s with command_list := s.command_list.set i { c with state := CMD_STATE_FINISHED } } := by
  unfold scheduler_finish_turn
  rw [hc]
  simp only [pthread_cond_broadcast, scheduler_waiting_min_priority_locked]
  split_ifs <;> simp only at * <;> first | rfl | omega

theorem finish_priority_pos (s : scheduler_t) (i : Nat) (c : command_t)
    (hc : s.command_list[i]? = some c) (h : s.active_threads - 1 ≠ 0) :
    (scheduler_finish_turn s i).current_priority = s.current_priority := by
  unfold scheduler_finish_turn
  rw [hc]
  simp only [pthread_cond_broadcast]
  split_ifs <;> simp only at * <;> first | rfl | omega

theorem finish_cond_zero (s : scheduler_t) (i j : Nat) (c : command_t)
    (hc : s.command_list[i]? = some c) (h : s.active_threads - 1 = 0) :
    j ∈ (scheduler_finish_turn s i).cond ↔
      j ≠ i ∧ ∃ d, (s.command_list.set i { c with state := CMD_STATE_FINISHED })[j]? = some d ∧
        d.state = CMD_STATE_WAITING := by
  unfold scheduler_finish_turn
  rw [hc]
  simp only
  split_ifs <;> simp only at * <;> first | (rw [mem_broadcast_cond]) | omega

theorem finish_preserves_inv (s : scheduler_t) (i : Nat) (c : command_t)
    (hinv : scheduler_inv s) (hc : s.command_list[i]? = some c)
    (hs : c.state = CMD_STATE_ACTIVE) :
    scheduler_inv (scheduler_finish_turn s i) := by
  have h1 := active_count_set s.command_list i c { c with state := CMD_STATE_FINISHED } hc
  rw [if_pos hs] at h1
  simp only [reduceCtorEq, if_false] at h1
  have hi1 := int_priorities_set _ i c CMD_STATE_FINISHED hc hinv.ints
  constructor
  · rw [finish_command_list s i c hc, finish_active_threads s i c hc, hinv.count]
    omega
  · rw [finish_command_list s i c hc, finish_active_threads s i c hc]
    intro h0
    rw [finish_priority_zero s i c hc h0]
    exact waiting_min_is_least
      { s with command_list := s.command_list.set i { c with state := CMD_STATE_FINISHED } } hi1
  · rw [finish_command_list s i c hc, finish_active_threads s i c hc]
    intro h0 j d hd hw _
    rw [finish_cond_zero s i j c hc h0]
    refine ⟨?_, d, hd, hw⟩
    intro hji
    subst hji
    rw [getElem?_set_self_some _ _ c _ hc] at hd
    have := Option.some.inj hd
    subst this
    exact absurd hw (by simp)
  · rw [finish_command_list s i c hc, List.length_set]
    exact hinv.size
  · rw [finish_command_list s i c hc]
    exact hi1

theorem step_run_none (s : scheduler_t) (i : Nat) (hc : s.command_list[i]? = none) :
    command_worker_step s (sched_event.run i) = s := by
  simp only [command_worker_step, hc]

theorem step_run_pending (s : scheduler_t) (i : Nat) (c : command_t)
    (hc : s.command_list[i]? = some c) (hs : c.state = CMD_STATE_PENDING) :
    command_worker_step s (sched_event.run i) = (scheduler_wait_for_turn_enter s i).1 := by
  simp only [command_worker_step, hc, hs]

theorem step_run_waiting (s : scheduler_t) (i : Nat) (c : command_t)
    (hc : s.command_list[i]? = some c) (hs : c.state = CMD_STATE_WAITING) :
    command_worker_step s (sched_event.run i) =
      if i ∈ s.cond then (scheduler_wait_for_turn_wake s i).1 else s := by
  simp only [command_worker_step, hc, hs]

theorem step_run_active (s : scheduler_t) (i : Nat) (c : command_t)
    (hc : s.command_list[i]? = some c) (hs : c.state = CMD_STATE_ACTIVE) :
    command_worker_step s (sched_event.run i) = scheduler_finish_turn s i := by
  simp only [command_worker_step, hc, hs]

theorem step_run_finished (s : scheduler_t) (i : Nat) (c : command_t)
    (hc : s.command_list[i]? = some c) (hs : c.state = CMD_STATE_FINISHED) :
    command_worker_step s (sched_event.run i) = s := by
  simp only [command_worker_step, hc, hs]

theorem step_spurious_none (s : scheduler_t) (i : Nat) (hc : s.command_list[i]? = none) :
    command_worker_step s (sched_event.spurious i) = s := by
  simp only [command_worker_step, hc]

theorem step_spurious (s : scheduler_t) (i : Nat) (c : command_t)
    (hc : s.command_list[i]? = some c) :
    command_worker_step s (sched_event.spurious i) =
      if c.state = CMD_STATE_WAITING then (scheduler_wait_for_turn_wake s i).1 else s := by
  simp only [command_worker_step, hc]

theorem step_preserves_inv (s : scheduler_t) (e : sched_event) (hinv : scheduler_inv s) :
    scheduler_inv (command_worker_step s e) := by
  cases e with
  | run i =>
    cases hc : s.command_list[i]? with
    | none => rw [step_run_none s i hc]; exact hinv
    | some c =>
      cases hs : c.state with
      | CMD_STATE_PENDING =>
        rw [step_run_pending s i c hc hs]
        exact enter_preserves_inv s i c hinv hc hs
      | CMD_STATE_WAITING =>
        rw [step_run_waiting s i c hc hs]
        split_ifs
        · exact wake_preserves_inv s i c hinv hc hs
        · exact hinv
      | CMD_STATE_ACTIVE =>
        rw [step_run_active s i c hc hs]
        exact finish_preserves_inv s i c hinv hc hs
      | CMD_STATE_FINISHED => rw [step_run_finished s i c hc hs]; exact hinv
  | spurious i =>
    cases hc : s.command_list[i]? with
    | none => rw [step_spurious_none s i hc]; exact hinv
    | some c =>
      rw [step_spurious s i c hc]
      split_ifs with hs
      · exact wake_preserves_inv s i c hinv hc hs
      · exact hinv

theorem init_inv (command_list : List command_t) (hp : parsed command_list)
    (hi : int_priorities command_list) (hsz : command_list.length ≤ SIZE_MAX) :
    scheduler_inv (scheduler_init command_list) := by
  have hnw : ∀ c ∈ command_list, c.state ≠ CMD_STATE_WAITING := by
    intro c hc
    rw [hp c hc]
    decide
  constructor
  · simp only [scheduler_init]
    symm
    rw [active_count_eq_zero]
    intro c hc
    rw [hp c hc]
    decide
  · intro _
    exact Or.inr ⟨hnw, rfl⟩
  · intro _ j c hc hw _
    exact absurd hw (hnw c (List.getElem?_mem hc))
  · exact hsz
  · exact hi

theorem run_events_inv (s : scheduler_t) (events : List sched_event)
    (hinv : scheduler_inv s) : scheduler_inv (run_events s events) := by
  induction events generalizing s with
  | nil => exact hinv
  | cons e es ih => exact ih _ (step_preserves_inv s e hinv)

theorem reachable_inv (command_list : List command_t) (s : scheduler_t)
    (hp : parsed command_list) (hi : int_priorities command_list)
    (hsz : command_list.length ≤ SIZE_MAX) (hr : reachable command_list s) :
    scheduler_inv s := by
  obtain ⟨events, rfl⟩ := hr
  exact run_events_inv _ events (init_inv command_list hp hi hsz)

/-! ## The outcome of each step -/

theorem enter_admitted (s : scheduler_t) (i : Nat) (c : command_t)
    (hc : s.command_list[i]? = some c)
    (hg : c.priority = (wait_for_turn_entry s i c).current_priority) :
    scheduler_wait_for_turn_enter s i =
      ({ wait_for_turn_entry s i c with
          command_list := s.command_list.set i { c with state := CMD_STATE_ACTIVE }
          active_threads := (s.active_threads + 1) % (SIZE_MAX + 1) }, true) := by
  rw [enter_eq s i c hc, gate_admitted _ i { c with state := CMD_STATE_WAITING } hg]
  simp only [entry_command_list, entry_active_threads, List.set_set]

theorem enter_blocked (s : scheduler_t) (i : Nat) (c : command_t)
    (hc : s.command_list[i]? = some c)
    (hg : c.priority ≠ (wait_for_turn_entry s i c).current_priority) :
    scheduler_wait_for_turn_enter s i = (wait_for_turn_entry s i c, false) := by
  rw [enter_eq s i c hc, gate_blocked _ i { c with state := CMD_STATE_WAITING } hg]

theorem wake_admitted (s : scheduler_t) (i : Nat) (c : command_t)
    (hc : s.command_list[i]? = some c)
    (hg : c.priority = (wait_for_turn_recheck s i).current_priority) :
    scheduler_wait_for_turn_wake s i =
      ({ wait_for_turn_recheck s i with
          command_list := s.command_list.set i { c with state := CMD_STATE_ACTIVE }
          active_threads := (s.active_threads + 1) % (SIZE_MAX + 1) }, true) := by
  rw [wake_eq s i c hc, gate_admitted _ i c hg]
  simp only [recheck_command_list, recheck_active_threads]

theorem wake_blocked (s : scheduler_t) (i : Nat) (c : command_t)
    (hc : s.command_list[i]? = some c)
    (hg : c.priority ≠ (wait_for_turn_recheck s i).current_priority) :
    scheduler_wait_for_turn_wake s i = (wait_for_turn_recheck s i, false) := by
  rw [wake_eq s i c hc, gate_blocked _ i c hg]

/-- Every step of the system is a stutter, an entry of a PENDING command, a
wake-up of a WAITING command or the finish of an ACTIVE command. -/
theorem step_cases (s : scheduler_t) (e : sched_event) :
    command_worker_step s e = s ∨
      ∃ i c, (e = sched_event.run i ∨ e = sched_event.spurious i) ∧
        s.command_list[i]? = some c ∧
        ((c.state = CMD_STATE_PENDING ∧
            command_worker_step s e = (scheduler_wait_for_turn_enter s i).1) ∨
          (c.state = CMD_STATE_WAITING ∧
            command_worker_step s e = (scheduler_wait_for_turn_wake s i).1) ∨
          (c.state = CMD_STATE_ACTIVE ∧
            command_worker_step s e = scheduler_finish_turn s i)) := by
  cases e with
  | run i =>
    cases hc : s.command_list[i]? with
    | none => exact Or.inl (step_run_none s i hc)
    | some c =>
      cases hs : c.state with
      | CMD_STATE_PENDING =>
        exact Or.inr ⟨i, c, Or.inl rfl, hc, Or.inl ⟨hs, step_run_pending s i c hc hs⟩⟩
      | CMD_STATE_WAITING =>
        by_cases hm : i ∈ s.cond
        · refine Or.inr ⟨i, c, Or.inl rfl, hc, Or.inr (Or.inl ⟨hs, ?_⟩)⟩
          rw [step_run_waiting s i c hc hs, if_pos hm]
        · left
          rw [step_run_waiting s i c hc hs, if_neg hm]
      | CMD_STATE_ACTIVE =>
        exact Or.inr ⟨i, c, Or.inl rfl, hc, Or.inr (Or.inr ⟨hs, step_run_active s i c hc hs⟩)⟩
      | CMD_STATE_FINISHED => exact Or.inl (step_run_finished s i c hc hs)
  | spurious i =>
    cases hc : s.command_list[i]? with
    | none => exact Or.inl (step_spurious_none s i hc)
    | some c =>
      by_cases hs : c.state = CMD_STATE_WAITING
      · refine Or.inr ⟨i, c, Or.inr rfl, hc, Or.inr (Or.inl ⟨hs, ?_⟩)⟩
        rw [step_spurious s i c hc, if_pos hs]
      · left
        rw [step_spurious s i c hc, if_neg hs]

/-! ## Active commands hold the current priority -/

theorem active_of_mem_set (l : List command_t) (i : Nat) (c d : command_t)
    (st : command_state_t) (hst : st ≠ CMD_STATE_ACTIVE)
    (hd : d ∈ l.set i { c with state := st }) (ha : d.state = CMD_STATE_ACTIVE) : d ∈ l := by
  rcases List.mem_or_eq_of_mem_set hd with h | h
  · exact h
  · subst h
    exact absurd ha hst

theorem enter_preserves_active (s : scheduler_t) (i : Nat) (c : command_t)
    (hinv : scheduler_inv s) (hb : below_sentinel s.command_list) (ha : active_at_current s)
    (hc : s.command_list[i]? = some c) :
    active_at_current (scheduler_wait_for_turn_enter s i).1 := by
  have hkeep : s.active_threads ≠ 0 →
      (wait_for_turn_entry s i c).current_priority = s.current_priority := by
    intro h0
    rw [entry_priority_pos s i c h0]
    obtain ⟨d, hd, hda⟩ := exists_active_of_pos s.command_list (by rw [← hinv.count]; omega)
    have h1 := ha d hd hda
    have h2 := hb d hd
    rw [if_neg (by omega)]
  have hnone : s.active_threads = 0 → ∀ d ∈ s.command_list, d.state ≠ CMD_STATE_ACTIVE := by
    intro h0
    exact (active_count_eq_zero _).mp (by rw [← hinv.count]; exact h0)
  by_cases hg : c.priority = (wait_for_turn_entry s i c).current_priority
  · rw [enter_admitted s i c hc hg]
    intro d hd hda
    simp only at hd ⊢
    rcases List.mem_or_eq_of_mem_set hd with h | h
    · by_cases h0 : s.active_threads = 0
      · exact absurd hda (hnone h0 d h)
      · rw [hkeep h0]
        exact ha d h hda
    · subst h
      exact hg
  · rw [enter_blocked s i c hc hg]
    intro d hd hda
    simp only [entry_command_list] at hd ⊢
    have hd' := active_of_mem_set _ i c d CMD_STATE_WAITING (by decide) hd hda
    by_cases h0 : s.active_threads = 0
    · exact absurd hda (hnone h0 d hd')
    · rw [hkeep h0]
      exact ha d hd' hda

theorem wake_preserves_active (s : scheduler_t) (i : Nat) (c : command_t)
    (hinv : scheduler_inv s) (ha : active_at_current s)
    (hc : s.command_list[i]? = some c) :
    active_at_current (scheduler_wait_for_turn_wake s i).1 := by
  by_cases hg : c.priority = (wait_for_turn_recheck s i).current_priority
  · rw [wake_admitted s i c hc hg]
    intro d hd hda
    simp only at hd ⊢
    rcases List.mem_or_eq_of_mem_set hd with h | h
    · rw [recheck_priority_inv s i hinv]
      exact ha d h hda
    · subst h
      exact hg
  · rw [wake_blocked s i c hc hg]
    intro d hd hda
    rw [recheck_command_list] at hd
    rw [recheck_priority_inv s i hinv]
    exact ha d hd hda

theorem finish_preserves_active (s : scheduler_t) (i : Nat) (c : command_t)
    (hinv : scheduler_inv s) (ha : active_at_current s)
    (hc : s.command_list[i]? = some c) (hs : c.state = CMD_STATE_ACTIVE) :
    active_at_current (scheduler_finish_turn s i) := by
  intro d hd hda
  rw [finish_command_list s i c hc] at hd
  have hd' := active_of_mem_set _ i c d CMD_STATE_FINISHED (by decide) hd hda
  by_cases h0 : s.active_threads - 1 = 0
  · have hfin := finish_preserves_inv s i c hinv hc hs
    have hcnt := hfin.count
    rw [finish_active_threads s i c hc, h0, finish_command_list s i c hc] at hcnt
    exact absurd hda ((active_count_eq_zero _).mp hcnt.symm d hd)
  · rw [finish_priority_pos s i c hc h0]
    exact ha d hd' hda

theorem step_preserves_active (s : scheduler_t) (e : sched_event)
    (hinv : scheduler_inv s) (hb : below_sentinel s.command_list) (ha : active_at_current s) :
    active_at_current (command_worker_step s e) := by
  rcases step_cases s e with h | ⟨i, c, _, hc, h | h | h⟩
  · rw [h]; exact ha
  · rw [h.2]; exact enter_preserves_active s i c hinv hb ha hc
  · rw [h.2]; exact wake_preserves_active s i c hinv ha hc
  · rw [h.2]; exact finish_preserves_active s i c hinv ha hc h.1

theorem step_map_priority (s : scheduler_t) (e : sched_event) :
    (command_worker_step s e).command_list.map command_t.priority =
      s.command_list.map command_t.priority := by
  rcases step_cases s e with h | ⟨i, c, _, hc, h | h | h⟩
  · rw [h]
  · rw [h.2]
    by_cases hg : c.priority = (wait_for_turn_entry s i c).current_priority
    · rw [enter_admitted s i c hc hg]
      exact map_priority_set _ i c _ hc
    · rw [enter_blocked s i c hc hg, entry_command_list]
      exact map_priority_set _ i c _ hc
  · rw [h.2]
    by_cases hg : c.priority = (wait_for_turn_recheck s i).current_priority
    · rw [wake_admitted s i c hc hg]
      exact map_priority_set _ i c _ hc
    · rw [wake_blocked s i c hc hg, recheck_command_list]
  · rw [h.2, finish_command_list s i c hc]
    exact map_priority_set _ i c _ hc

theorem run_events_map_priority (s : scheduler_t) (events : List sched_event) :
    (run_events s events).command_list.map command_t.priority =
      s.command_list.map command_t.priority := by
  induction events generalizing s with
  | nil => rfl
  | cons e es ih =>
    show (run_events (command_worker_step s e) es).command_list.map command_t.priority = _
    rw [ih, step_map_priority]

theorem below_sentinel_of_map (l l' : List command_t)
    (h : l'.map command_t.priority = l.map command_t.priority) (hb : below_sentinel l) :
    below_sentinel l' := by
  intro c hc
  have : c.priority ∈ l'.map command_t.priority := List.mem_map_of_mem _ hc
  rw [h] at this
  obtain ⟨d, hd, hdp⟩ := List.mem_map.mp this
  rw [← hdp]
  exact hb d hd

theorem run_events_active (s : scheduler_t) (events : List sched_event)
    (hinv : scheduler_inv s) (hb : below_sentinel s.command_list) (ha : active_at_current s) :
    active_at_current (run_events s events) := by
  induction events generalizing s with
  | nil => exact ha
  | cons e es ih =>
    exact ih _ (step_preserves_inv s e hinv)
      (below_sentinel_of_map _ _ (step_map_priority s e) hb)
      (step_preserves_active s e hinv hb ha)

theorem reachable_active (command_list : List command_t) (s : scheduler_t)
    (hv : valid_command_list command_list) (hb : below_sentinel command_list)
    (hr : reachable command_list s) : active_at_current s := by
  obtain ⟨events, rfl⟩ := hr
  refine run_events_active _ events (init_inv command_list hv.1 hv.2.1 hv.2.2) hb ?_
  intro c hc hs
  have := hv.1 c hc
  rw [this] at hs
  exact absurd hs (by decide)

/-! ## Progress -/

theorem enter_rank (s : scheduler_t) (i : Nat) (c : command_t)
    (hc : s.command_list[i]? = some c) (hs : c.state = CMD_STATE_PENDING) :
    list_rank (scheduler_wait_for_turn_enter s i).1.command_list < list_rank s.command_list := by
  by_cases hg : c.priority = (wait_for_turn_entry s i c).current_priority
  · rw [enter_admitted s i c hc hg]
    have := list_rank_set s.command_list i c { c with state := CMD_STATE_ACTIVE } hc
    simp only [hs, state_rank] at this ⊢
    omega
  · rw [enter_blocked s i c hc hg, entry_command_list]
    have := list_rank_set s.command_list i c { c with state := CMD_STATE_WAITING } hc
    simp only [hs, state_rank] at this ⊢
    omega

theorem finish_rank (s : scheduler_t) (i : Nat) (c : command_t)
    (hc : s.command_list[i]? = some c) (hs : c.state = CMD_STATE_ACTIVE) :
    list_rank (scheduler_finish_turn s i).command_list < list_rank s.command_list := by
  rw [finish_command_list s i c hc]
  have := list_rank_set s.command_list i c { c with state := CMD_STATE_FINISHED } hc
  simp only [hs, state_rank] at this ⊢
  omega

theorem wake_admitted_rank (s : scheduler_t) (i : Nat) (c : command_t)
    (hc : s.command_list[i]? = some c) (hs : c.state = CMD_STATE_WAITING)
    (hg : c.priority = (wait_for_turn_recheck s i).current_priority) :
    list_rank (scheduler_wait_for_turn_wake s i).1.command_list < list_rank s.command_list := by
  rw [wake_admitted s i c hc hg]
  have := list_rank_set s.command_list i c { c with state := CMD_STATE_ACTIVE } hc
  simp only [hs, state_rank] at this ⊢
  omega

theorem step_rank_le (s : scheduler_t) (e : sched_event) :
    list_rank (command_worker_step s e).command_list ≤ list_rank s.command_list := by
  rcases step_cases s e with h | ⟨i, c, _, hc, h | h | h⟩
  · rw [h]
  · rw [h.2]
    exact le_of_lt (enter_rank s i c hc h.1)
  · rw [h.2]
    by_cases hg : c.priority = (wait_for_turn_recheck s i).current_priority
    · exact le_of_lt (wake_admitted_rank s i c hc h.1 hg)
    · rw [wake_blocked s i c hc hg, recheck_command_list]
  · rw [h.2]
    exact le_of_lt (finish_rank s i c hc h.1)

theorem advance_decreases (s : scheduler_t) (k : Nat) (hinv : scheduler_inv s)
    (hk : can_advance s k) :
    list_rank (command_worker_step s (sched_event.run k)).command_list <
      list_rank s.command_list := by
  obtain ⟨c, hc, hs | hs | ⟨hs, hmem, _, hp⟩⟩ := hk
  · rw [step_run_pending s k c hc hs]
    exact enter_rank s k c hc hs
  · rw [step_run_active s k c hc hs]
    exact finish_rank s k c hc hs
  · rw [step_run_waiting s k c hc hs, if_pos hmem]
    refine wake_admitted_rank s k c hc hs ?_
    rw [recheck_priority_inv s k hinv]
    exact hp

theorem advance_persists (s : scheduler_t) (k : Nat) (e : sched_event)
    (hinv : scheduler_inv s) (hk : can_advance s k)
    (hr : list_rank (command_worker_step s e).command_list = list_rank s.command_list) :
    can_advance (command_worker_step s e) k := by
  rcases step_cases s e with h | ⟨i, c, _, hc, h | h | h⟩
  · rw [h]; exact hk
  · rw [h.2] at hr
    have := enter_rank s i c hc h.1
    omega
  · rw [h.2] at hr ⊢
    by_cases hg : c.priority = (wait_for_turn_recheck s i).current_priority
    · have := wake_admitted_rank s i c hc h.1 hg
      omega
    · rw [wake_blocked s i c hc hg]
      obtain ⟨d, hd, hcase⟩ := hk
      refine ⟨d, by rw [recheck_command_list]; exact hd, ?_⟩
      rcases hcase with hs | hs | ⟨hs, hmem, h0, hp⟩
      · exact Or.inl hs
      · exact Or.inr (Or.inl hs)
      · have hki : k ≠ i := by
          intro hki
          subst hki
          rw [hc] at hd
          have := Option.some.inj hd
          subst this
          rw [recheck_priority_inv s k hinv] at hg
          exact hg hp
        refine Or.inr (Or.inr ⟨hs, recheck_cond_keeps s i k d hki hd hs hmem, ?_, ?_⟩)
        · rw [recheck_active_threads]; exact h0
        · rw [recheck_priority_inv s i hinv]; exact hp
  · rw [h.2] at hr
    have := finish_rank s i c hc h.1
    omega

theorem exists_advance (s : scheduler_t) (hinv : scheduler_inv s)
    (hun : ∃ c ∈ s.command_list, c.state ≠ CMD_STATE_FINISHED) :
    ∃ k, k < s.command_list.length ∧ can_advance s k := by
  by_cases hpa : ∃ c ∈ s.command_list,
      c.state = CMD_STATE_PENDING ∨ c.state = CMD_STATE_ACTIVE
  · obtain ⟨c, hc, hs⟩ := hpa
    obtain ⟨k, hk⟩ := List.mem_iff_getElem?.mp hc
    refine ⟨k, lt_length_of_getElem? _ _ _ hk, c, hk, ?_⟩
    rcases hs with hs | hs
    · exact Or.inl hs
    · exact Or.inr (Or.inl hs)
  · have hnone : ∀ c ∈ s.command_list, c.state ≠ CMD_STATE_ACTIVE :=
      fun c hc hs => hpa ⟨c, hc, Or.inr hs⟩
    have h0 : s.active_threads = 0 := by
      rw [hinv.count]
      exact (active_count_eq_zero _).mpr hnone
    obtain ⟨u, hu, hus⟩ := hun
    have huw : u.state = CMD_STATE_WAITING := by
      cases hst : u.state with
      | CMD_STATE_PENDING => exact absurd ⟨u, hu, Or.inl hst⟩ hpa
      | CMD_STATE_WAITING => rfl
      | CMD_STATE_ACTIVE => exact absurd ⟨u, hu, Or.inr hst⟩ hpa
      | CMD_STATE_FINISHED => exact absurd hst hus
    rcases hinv.least h0 with ⟨c, hc, hcw, hcp, _⟩ | ⟨hnw, _⟩
    · obtain ⟨k, hk⟩ := List.mem_iff_getElem?.mp hc
      exact ⟨k, lt_length_of_getElem? _ _ _ hk, c, hk,
        Or.inr (Or.inr ⟨hcw, hinv.woken h0 k c hk hcw hcp, h0, hcp⟩)⟩
    · exact absurd huw (hnw u hu)

theorem not_stuck_of_inv (s : scheduler_t) (hinv : scheduler_inv s) : ¬ stuck s := by
  rintro ⟨⟨u, hu, huw⟩, hblocked, hnone, hmatch⟩
  have h0 : s.active_threads = 0 := by
    rw [hinv.count]
    exact (active_count_eq_zero _).mpr hnone
  rcases hinv.least h0 with ⟨c, hc, hcw, hcp, _⟩ | ⟨hnw, _⟩
  · exact hmatch c hc hcw hcp
  · exact absurd huw (hnw u hu)

/-! ## Fair schedules finish every command -/

theorem run_schedule_inv (s : scheduler_t) (schedule : Nat → sched_event)
    (hinv : scheduler_inv s) (t : Nat) : scheduler_inv (run_schedule s schedule t) := by
  induction t with
  | zero => exact hinv
  | succ t ih => exact step_preserves_inv _ _ ih

theorem run_schedule_reachable (command_list : List command_t)
    (schedule : Nat → sched_event) (t : Nat) :
    reachable command_list (run_schedule (scheduler_init command_list) schedule t) := by
  induction t with
  | zero => exact ⟨[], rfl⟩
  | succ t ih =>
    obtain ⟨events, he⟩ := ih
    refine ⟨events ++ [schedule t], ?_⟩
    simp only [run_schedule, run_events, List.foldl_append, List.foldl_cons, List.foldl_nil]
    rw [he]
    rfl

theorem run_schedule_length (s : scheduler_t) (schedule : Nat → sched_event) (t : Nat) :
    (run_schedule s schedule t).command_list.length = s.command_list.length := by
  induction t with
  | zero => rfl
  | succ t ih =>
    have := congrArg List.length (step_map_priority (run_schedule s schedule t) (schedule t))
    simp only [List.length_map] at this
    simp only [run_schedule]
    omega

theorem run_schedule_rank_mono (s : scheduler_t) (schedule : Nat → sched_event) (t d : Nat) :
    list_rank (run_schedule s schedule (t + d)).command_list ≤
      list_rank (run_schedule s schedule t).command_list := by
  induction d with
  | zero => exact le_refl _
  | succ d ih => exact le_trans (step_rank_le _ _) ih

theorem rank_drops (s : scheduler_t) (schedule : Nat → sched_event)
    (hinv : scheduler_inv s) (hfair : fair_schedule s.command_list.length schedule) (t : Nat)
    (hpos : list_rank (run_schedule s schedule t).command_list ≠ 0) :
    ∃ u, t ≤ u ∧ list_rank (run_schedule s schedule u).command_list <
      list_rank (run_schedule s schedule t).command_list := by
  have hun : ∃ c ∈ (run_schedule s schedule t).command_list, c.state ≠ CMD_STATE_FINISHED := by
    by_contra hne
    exact hpos ((list_rank_eq_zero _).mpr (fun c hc => by
      by_contra hs
      exact hne ⟨c, hc, hs⟩))
  obtain ⟨k, hklt, hk⟩ := exists_advance _ (run_schedule_inv s schedule hinv t) hun
  rw [run_schedule_length] at hklt
  obtain ⟨u, htu, hu⟩ := hfair k hklt t
  have key : ∀ d, t + d ≤ u →
      list_rank (run_schedule s schedule (t + d)).command_list <
          list_rank (run_schedule s schedule t).command_list ∨
        (list_rank (run_schedule s schedule (t + d)).command_list =
            list_rank (run_schedule s schedule t).command_list ∧
          can_advance (run_schedule s schedule (t + d)) k) := by
    intro d
    induction d with
    | zero => intro _; exact Or.inr ⟨rfl, hk⟩
    | succ d ih =>
      intro hle
      have hsucc : run_schedule s schedule (t + (d + 1)) =
          command_worker_step (run_schedule s schedule (t + d)) (schedule (t + d)) := rfl
      rw [hsucc]
      have hstep := step_rank_le (run_schedule s schedule (t + d)) (schedule (t + d))
      rcases ih (by omega) with h | ⟨heq, hadv⟩
      · left
        omega
      · by_cases hlt : list_rank (command_worker_step (run_schedule s schedule (t + d))
            (schedule (t + d))).command_list <
            list_rank (run_schedule s schedule (t + d)).command_list
        · left
          omega
        · right
          have heq2 : list_rank (command_worker_step (run_schedule s schedule (t + d))
              (schedule (t + d))).command_list =
              list_rank (run_schedule s schedule (t + d)).command_list := by omega
          exact ⟨by omega,
            advance_persists _ k _ (run_schedule_inv s schedule hinv _) hadv heq2⟩
  obtain ⟨d, hd⟩ : ∃ d, u = t + d := ⟨u - t, by omega⟩
  subst hd
  rcases key d (le_refl _) with h | ⟨heq, hadv⟩
  · exact ⟨t + d, by omega, h⟩
  · refine ⟨t + d + 1, by omega, ?_⟩
    have := advance_decreases _ k (run_schedule_inv s schedule hinv _) hadv
    rw [← hu] at this
    have hsucc : run_schedule s schedule (t + d + 1) =
        command_worker_step (run_schedule s schedule (t + d)) (schedule (t + d)) := rfl
    rw [hsucc]
    omega

theorem rank_reaches_zero (s : scheduler_t) (schedule : Nat → sched_event)
    (hinv : scheduler_inv s) (hfair : fair_schedule s.command_list.length schedule) :
    ∀ n t, list_rank (run_schedule s schedule t).command_list ≤ n →
      ∃ u, t ≤ u ∧ list_rank (run_schedule s schedule u).command_list = 0 := by
  intro n
  induction n with
  | zero => intro t h; exact ⟨t, le_refl _, by omega⟩
  | succ n ih =>
    intro t h
    by_cases h0 : list_rank (run_schedule s schedule t).command_list = 0
    · exact ⟨t, le_refl _, h0⟩
    · obtain ⟨u, htu, hu⟩ := rank_drops s schedule hinv hfair t h0
      obtain ⟨v, huv, hv⟩ := ih u (by omega)
      exact ⟨v, by omega, hv⟩

theorem fair_schedule_finishes (s : scheduler_t) (schedule : Nat → sched_event)
    (hinv : scheduler_inv s) (hfair : fair_schedule s.command_list.length schedule) :
    ∃ t, ∀ u, t ≤ u →
      ∀ c ∈ (run_schedule s schedule u).command_list, c.state = CMD_STATE_FINISHED := by
  obtain ⟨t, _, ht⟩ := rank_reaches_zero s schedule hinv hfair _ 0 (le_refl _)
  refine ⟨t, fun u htu => (list_rank_eq_zero _).mp ?_⟩
  obtain ⟨d, hd⟩ : ∃ d, u = t + d := ⟨u - t, by omega⟩
  subst hd
  have := run_schedule_rank_mono s schedule t d
  omega

/-! ## Sample inputs are well formed -/

theorem sample_commands_valid : valid_command_list sample_commands := by
  refine ⟨?_, ?_, ?_⟩
  · intro c hc
    simp only [sample_commands, mk_command, List.mem_cons, List.mem_singleton,
      List.not_mem_nil, or_false] at hc
    rcases hc with rfl | rfl | rfl <;> rfl
  · intro c hc
    simp only [sample_commands, mk_command, List.mem_cons, List.mem_singleton,
      List.not_mem_nil, or_false] at hc
    rcases hc with rfl | rfl | rfl <;> simp [INT_MIN, INT_MAX]
  · simp [sample_commands, SIZE_MAX]

theorem sample_state_eq :
    sample_state =
      { current_priority := 5
        active_threads := 1
        command_list :=
          [{ mk_command COMMAND_INSERT 5 with state := CMD_STATE_ACTIVE },
            { mk_command COMMAND_SEARCH 5 with state := CMD_STATE_WAITING },
            { mk_command COMMAND_PRINT 3 with state := CMD_STATE_FINISHED }]
        cond := [1]
        broadcasts := 3 } := by
  decide

theorem sample_state_ints : int_priorities sample_state.command_list := by
  rw [sample_state_eq]
  intro c hc
  simp only [mk_command, List.mem_cons, List.mem_singleton, List.not_mem_nil, or_false] at hc
  rcases hc with rfl | rfl | rfl <;> simp [INT_MIN, INT_MAX]

/-! ## The minimum is blind to commands that are not waiting -/

theorem foldl_waiting_min_set (l : List command_t) (acc : Int) (i : Nat) (c : command_t)
    (p : Int) (hc : l[i]? = some c) (hs : c.state ≠ CMD_STATE_WAITING) :
    (l.set i { c with priority := p }).foldl waiting_min_step acc =
      l.foldl waiting_min_step acc := by
  induction l generalizing acc i with
  | nil => simp at hc
  | cons d l ih =>
    cases i with
    | zero =>
      simp only [List.getElem?_cons_zero, Option.some.injEq] at hc
      subst hc
      simp only [List.set_cons_zero, List.foldl_cons, waiting_min_step, if_neg hs]
    | succ i =>
      simp only [List.getElem?_cons_succ] at hc
      simp only [List.set_cons_succ, List.foldl_cons]
      exact ih _ i hc

theorem int_priorities_eraseIdx (l : List command_t) (i : Nat) (hi : int_priorities l) :
    int_priorities (l.eraseIdx i) := by
  intro d hd
  obtain ⟨j, _, hj⟩ := List.mem_eraseIdx_iff_getElem?.mp hd
  exact hi d (List.getElem?_mem hj)

theorem least_waiting_with_caller (l : List command_t) (i : Nat) (c : command_t) (m : Int)
    (hc : l[i]? = some c) (hub : c.priority ≤ INT_MAX)
    (hm : least_waiting (l.eraseIdx i) m) :
    least_waiting (l.set i { c with state := CMD_STATE_WAITING }) (min c.priority m) := by
  have hlt := lt_length_of_getElem? l i c hc
  have hothers : ∀ d ∈ l.set i { c with state := CMD_STATE_WAITING },
      d = { c with state := CMD_STATE_WAITING } ∨ d ∈ l.eraseIdx i := by
    intro d hd
    rcases (mem_set_iff l i _ d).mp hd with ⟨_, h⟩ | ⟨j, hji, hj⟩
    · exact Or.inl h
    · exact Or.inr (List.mem_eraseIdx_iff_getElem?.mpr ⟨j, hji, hj⟩)
  have hback : ∀ d ∈ l.eraseIdx i, d ∈ l.set i { c with state := CMD_STATE_WAITING } := by
    intro d hd
    obtain ⟨j, hji, hj⟩ := List.mem_eraseIdx_iff_getElem?.mp hd
    exact (mem_set_iff l i _ d).mpr (Or.inr ⟨j, hji, hj⟩)
  have hself : ({ c with state := CMD_STATE_WAITING } : command_t) ∈
      l.set i { c with state := CMD_STATE_WAITING } := List.mem_set l i hlt _
  left
  rcases hm with ⟨d0, hd0, hd0w, hd0p, hd0l⟩ | ⟨hnone, hmax⟩
  · by_cases hle : c.priority ≤ m
    · refine ⟨_, hself, rfl, by simp only; omega, ?_⟩
      intro d hd hdw
      rcases hothers d hd with h | h
      · subst h
        simp only
        omega
      · have := hd0l d h hdw
        omega
    · refine ⟨d0, hback d0 hd0, hd0w, by omega, ?_⟩
      intro d hd hdw
      rcases hothers d hd with h | h
      · subst h
        simp only
        omega
      · have := hd0l d h hdw
        omega
  · refine ⟨_, hself, rfl, by simp only; omega, ?_⟩
    intro d hd hdw
    rcases hothers d hd with h | h
    · subst h
      simp only
      omega
    · exact absurd hdw (hnone d h)

/-! ## Claims: single steps -/

/-- C9: `scheduler_waiting_min_priority_locked` returns the least priority among
the commands whose state is WAITING, and `INT_MAX` when no command is WAITING;
giving another priority to a command whose state is PENDING, ACTIVE or FINISHED
does not change its result. -/
theorem waiting_min_priority_spec (s : scheduler_t)
    (hi : int_priorities s.command_list) :
    least_waiting s.command_list (scheduler_waiting_min_priority_locked s) ∧
      ∀ (i : Nat) (c : command_t) (p : Int), s.command_list[i]? = some c →
        (c.state = CMD_STATE_PENDING ∨ c.state = CMD_STATE_ACTIVE ∨
          c.state = CMD_STATE_FINISHED) →
        scheduler_waiting_min_priority_locked
            { s with command_list := s.command_list.set i { c with priority := p } } =
          scheduler_waiting_min_priority_locked s := by
  refine ⟨waiting_min_is_least s hi, ?_⟩
  intro i c p hc hs
  unfold scheduler_waiting_min_priority_locked
  refine foldl_waiting_min_set _ _ i c p hc ?_
  rcases hs with h | h | h <;> rw [h] <;> decide

theorem waiting_min_priority_spec_witness :
    int_priorities sample_state.command_list ∧
      least_waiting sample_state.command_list
        (scheduler_waiting_min_priority_locked sample_state) ∧
      ∀ (i : Nat) (c : command_t) (p : Int), sample_state.command_list[i]? = some c →
        (c.state = CMD_STATE_PENDING ∨ c.state = CMD_STATE_ACTIVE ∨
          c.state = CMD_STATE_FINISHED) →
        scheduler_waiting_min_priority_locked
            { sample_state with
              command_list := sample_state.command_list.set i { c with priority := p } } =
          scheduler_waiting_min_priority_locked sample_state :=
  ⟨sample_state_ints, waiting_min_priority_spec sample_state sample_state_ints⟩

/-- C7: `scheduler_finish_turn(command)` marks the command FINISHED and
decrements `active_threads` by one (the counter is positive whenever the caller
was admitted; the guard of line 103 leaves a zero counter at zero); when the
result is zero, `current_priority` becomes the least priority among the
commands in state WAITING, or `INT_MAX` when none is waiting; when the result is
not zero, `current_priority` is left unchanged. -/
theorem finish_turn_spec (s : scheduler_t) (i : Nat) (c : command_t)
    (hc : s.command_list[i]? = some c) (hi : int_priorities s.command_list) :
    (scheduler_finish_turn s i).command_list =
        s.command_list.set i { c with state := CMD_STATE_FINISHED } ∧
      (0 < s.active_threads →
        (scheduler_finish_turn s i).active_threads + 1 = s.active_threads) ∧
      (s.active_threads = 0 → (scheduler_finish_turn s i).active_threads = 0) ∧
      ((scheduler_finish_turn s i).active_threads = 0 →
        least_waiting (scheduler_finish_turn s i).command_list
          (scheduler_finish_turn s i).current_priority) ∧
      ((scheduler_finish_turn s i).active_threads ≠ 0 →
        (scheduler_finish_turn s i).current_priority = s.current_priority) := by
  have hat := finish_active_threads s i c hc
  refine ⟨finish_command_list s i c hc, ?_, ?_, ?_, ?_⟩
  · intro h; omega
  · intro h; omega
  · intro h0
    rw [hat] at h0
    rw [finish_priority_zero s i c hc h0, finish_command_list s i c hc]
    exact waiting_min_is_least
      { s with command_list := s.command_list.set i { c with state := CMD_STATE_FINISHED } }
      (int_priorities_set _ i c CMD_STATE_FINISHED hc hi)
  · intro h0
    rw [hat] at h0
    exact finish_priority_pos s i c hc h0

theorem finish_turn_spec_witness :
    sample_state.command_list[0]? =
        some { mk_command COMMAND_INSERT 5 with state := CMD_STATE_ACTIVE } ∧
      int_priorities sample_state.command_list ∧
      0 < sample_state.active_threads ∧
      (scheduler_finish_turn sample_state 0).command_list =
        sample_state.command_list.set 0
          { mk_command COMMAND_INSERT 5 with state := CMD_STATE_FINISHED } ∧
      (scheduler_finish_turn sample_state 0).active_threads + 1 =
        sample_state.active_threads ∧
      (scheduler_finish_turn sample_state 0).active_threads = 0 ∧
      least_waiting (scheduler_finish_turn sample_state 0).command_list
        (scheduler_finish_turn sample_state 0).current_priority :=
  have h := finish_turn_spec sample_state 0
    { mk_command COMMAND_INSERT 5 with state := CMD_STATE_ACTIVE } (by decide)
    sample_state_ints
  ⟨by decide, sample_state_ints, by decide, h.1, h.2.1 (by decide), by decide,
    h.2.2.2.1 (by decide)⟩

/-- C8: when `scheduler_wait_for_turn(command)` is entered in a state with
`active_threads == 0`, the command is first marked WAITING and
`current_priority` is then set to the minimum of the command's priority and the
least priority among all other WAITING commands (`INT_MAX` when there is
none), which is the least waiting priority, the caller included; the rest of
the entry step does not change it. -/
theorem wait_for_turn_entry_selects_minimum (s : scheduler_t) (i : Nat) (c : command_t)
    (hc : s.command_list[i]? = some c) (hi : int_priorities s.command_list)
    (h0 : s.active_threads = 0) :
    (wait_for_turn_entry s i c).command_list[i]? =
        some { c with state := CMD_STATE_WAITING } ∧
      (∃ m, least_waiting (s.command_list.eraseIdx i) m ∧
        (wait_for_turn_entry s i c).current_priority = min c.priority m) ∧
      least_waiting (wait_for_turn_entry s i c).command_list
        (wait_for_turn_entry s i c).current_priority ∧
      (scheduler_wait_for_turn_enter s i).1.current_priority =
        (wait_for_turn_entry s i c).current_priority := by
  have hentry := entry_priority_zero s i c h0 hc hi
  refine ⟨?_, ?_, ?_, ?_⟩
  · rw [entry_command_list]
    exact getElem?_set_self_some _ i c _ hc
  · refine ⟨scheduler_waiting_min_priority_locked
      { s with command_list := s.command_list.eraseIdx i }, ?_, ?_⟩
    · exact waiting_min_is_least { s with command_list := s.command_list.eraseIdx i }
        (int_priorities_eraseIdx _ i hi)
    · refine least_waiting_unique _ _ _ hentry ?_
      exact least_waiting_with_caller _ i c _ hc (hi c (List.getElem?_mem hc)).2
        (waiting_min_is_least { s with command_list := s.command_list.eraseIdx i }
          (int_priorities_eraseIdx _ i hi))
  · rw [entry_command_list]
    exact hentry
  · by_cases hg : c.priority = (wait_for_turn_entry s i c).current_priority
    · rw [enter_admitted s i c hc hg]
    · rw [enter_blocked s i c hc hg]

theorem wait_for_turn_entry_selects_minimum_witness :
    sample_idle_state.command_list[1]? = some (mk_command COMMAND_SEARCH 5) ∧
      int_priorities sample_idle_state.command_list ∧
      sample_idle_state.active_threads = 0 ∧
      (wait_for_turn_entry sample_idle_state 1 (mk_command COMMAND_SEARCH 5)).command_list[1]? =
        some { mk_command COMMAND_SEARCH 5 with state := CMD_STATE_WAITING } ∧
      (∃ m, least_waiting (sample_idle_state.command_list.eraseIdx 1) m ∧
        (wait_for_turn_entry sample_idle_state 1
            (mk_command COMMAND_SEARCH 5)).current_priority =
          min (mk_command COMMAND_SEARCH 5).priority m) ∧
      least_waiting
        (wait_for_turn_entry sample_idle_state 1 (mk_command COMMAND_SEARCH 5)).command_list
        (wait_for_turn_entry sample_idle_state 1
          (mk_command COMMAND_SEARCH 5)).current_priority ∧
      (scheduler_wait_for_turn_enter sample_idle_state 1).1.current_priority =
        (wait_for_turn_entry sample_idle_state 1
          (mk_command COMMAND_SEARCH 5)).current_priority :=
  have hints : int_priorities sample_idle_state.command_list := by
    intro c hc
    have hs : sample_idle_state.command_list =
        [{ mk_command COMMAND_INSERT 5 with state := CMD_STATE_WAITING },
          mk_command COMMAND_SEARCH 5,
          { mk_command COMMAND_PRINT 3 with state := CMD_STATE_FINISHED }] := by decide
    rw [hs] at hc
    simp only [mk_command, List.mem_cons, List.mem_singleton, List.not_mem_nil,
      or_false] at hc
    rcases hc with rfl | rfl | rfl <;> simp [INT_MIN, INT_MAX]
  ⟨by decide, hints, by decide,
    wait_for_turn_entry_selects_minimum sample_idle_state 1 (mk_command COMMAND_SEARCH 5)
      (by decide) hints (by decide)⟩

/-- C3 as stated fails: in the state reached when the worker of a command of
priority `INT_MAX` has been admitted (`active_threads` is 1 and
`current_priority` is the sentinel), the entry of a command of priority 3 runs
lines 72-74: `current_priority` becomes 3 although `active_threads` is positive
before (1) and after (2) the step. -/
theorem current_priority_changes_while_active :
    sentinel_state.active_threads = 1 ∧
      sentinel_state.current_priority = 2147483647 ∧
      (scheduler_wait_for_turn_enter sentinel_state 1).1.active_threads = 2 ∧
      (scheduler_wait_for_turn_enter sentinel_state 1).1.current_priority = 3 := by
  decide

/-- C3 (amended): for every scheduler state and every step of
`scheduler_wait_for_turn` (entry or wake-up recheck) or `scheduler_finish_turn`,
if `active_threads > 0` both before and after the step then `current_priority`
is unchanged by it, except for an entry made while `current_priority` is the
sentinel `INT_MAX` (lines 72-74), which sets it to the priority of the entering
command. -/
theorem current_priority_stable_while_active (s : scheduler_t) (i : Nat)
    (hpos : 0 < s.active_threads) :
    (0 < (scheduler_wait_for_turn_enter s i).1.active_threads →
        (s.current_priority ≠ INT_MAX →
          (scheduler_wait_for_turn_enter s i).1.current_priority = s.current_priority) ∧
        (s.current_priority = INT_MAX → ∀ c, s.command_list[i]? = some c →
          (scheduler_wait_for_turn_enter s i).1.current_priority = c.priority)) ∧
      (0 < (scheduler_wait_for_turn_wake s i).1.active_threads →
        (scheduler_wait_for_turn_wake s i).1.current_priority = s.current_priority) ∧
      (0 < (scheduler_finish_turn s i).active_threads →
        (scheduler_finish_turn s i).current_priority = s.current_priority) := by
  have hne : s.active_threads ≠ 0 := by omega
  refine ⟨fun _ => ?_, fun _ => ?_, fun hpost => ?_⟩
  · cases hc : s.command_list[i]? with
    | none =>
      have hsame : (scheduler_wait_for_turn_enter s i).1 = s := by
        simp only [scheduler_wait_for_turn_enter, hc]
      rw [hsame]
      exact ⟨fun _ => rfl, fun _ c hc' => absurd hc' (by simp)⟩
    | some c =>
      have hcp : (scheduler_wait_for_turn_enter s i).1.current_priority =
          (wait_for_turn_entry s i c).current_priority := by
        by_cases hg : c.priority = (wait_for_turn_entry s i c).current_priority
        · rw [enter_admitted s i c hc hg]
        · rw [enter_blocked s i c hc hg]
      rw [hcp, entry_priority_pos s i c hne]
      refine ⟨fun h => by rw [if_neg h], fun h d hd => ?_⟩
      rw [if_pos h]
      exact congrArg command_t.priority (Option.some.inj hd)
  · cases hc : s.command_list[i]? with
    | none =>
      have hsame : (scheduler_wait_for_turn_wake s i).1 = s := by
        simp only [scheduler_wait_for_turn_wake, hc]
      rw [hsame]
    | some c =>
      by_cases hg : c.priority = (wait_for_turn_recheck s i).current_priority
      · rw [wake_admitted s i c hc hg]
        exact recheck_priority_pos s i hne
      · rw [wake_blocked s i c hc hg]
        exact recheck_priority_pos s i hne
  · cases hc : s.command_list[i]? with
    | none =>
      have hsame : scheduler_finish_turn s i = s := by
        simp only [scheduler_finish_turn, hc]
      rw [hsame]
    | some c =>
      rw [finish_active_threads s i c hc] at hpost
      exact finish_priority_pos s i c hc (by omega)

theorem current_priority_stable_while_active_witness :
    0 < sample_state.active_threads ∧
      0 < (scheduler_wait_for_turn_wake sample_state 1).1.active_threads ∧
      (scheduler_wait_for_turn_wake sample_state 1).1.current_priority =
        sample_state.current_priority ∧
      0 < (scheduler_wait_for_turn_enter sample_state 1).1.active_threads ∧
      sample_state.current_priority ≠ INT_MAX ∧
      (scheduler_wait_for_turn_enter sample_state 1).1.current_priority =
        sample_state.current_priority :=
  have h := current_priority_stable_while_active sample_state 1 (by decide)
  ⟨by decide, by decide, h.2.1 (by decide), by decide, by decide,
    (h.1 (by decide)).1 (by decide)⟩

/-! ## Claims: reachable states -/

theorem sample_state_reachable : reachable sample_commands sample_state :=
  ⟨[sched_event.run 2, sched_event.run 0, sched_event.run 1, sched_event.run 2,
    sched_event.run 0], rfl⟩

theorem sample_commands_below : below_sentinel sample_commands := by
  intro c hc
  simp only [sample_commands, mk_command, List.mem_cons, List.mem_singleton,
    List.not_mem_nil, or_false] at hc
  rcases hc with rfl | rfl | rfl <;> simp [INT_MAX]

theorem active_count_pos_of_mem (l : List command_t) (c : command_t) (hc : c ∈ l)
    (hs : c.state = CMD_STATE_ACTIVE) : 0 < active_count l := by
  by_contra h
  have h0 : active_count l = 0 := by omega
  exact (active_count_eq_zero l).mp h0 c hc hs

/-- C2: for every command list in which every priority is below `INT_MAX`, in
every state reachable from `scheduler_init` in which `active_threads > 0`, every
ACTIVE command has priority equal to `current_priority`; so two commands with
different priorities are never ACTIVE at the same time. -/
theorem active_commands_hold_current_priority (command_list : List command_t)
    (hv : valid_command_list command_list) (hb : below_sentinel command_list)
    (s : scheduler_t) (hr : reachable command_list s) :
    (0 < s.active_threads →
        ∀ c ∈ s.command_list, c.state = CMD_STATE_ACTIVE →
          c.priority = s.current_priority) ∧
      ∀ c ∈ s.command_list, ∀ d ∈ s.command_list,
        c.state = CMD_STATE_ACTIVE → d.state = CMD_STATE_ACTIVE →
          c.priority = d.priority := by
  have ha := reachable_active command_list s hv hb hr
  refine ⟨fun _ c hc hs => ha c hc hs, fun c hc d hd hcs hds => ?_⟩
  rw [ha c hc hcs, ha d hd hds]

theorem active_commands_hold_current_priority_witness :
    valid_command_list sample_commands ∧ below_sentinel sample_commands ∧
      reachable sample_commands sample_state ∧
      0 < sample_state.active_threads ∧
      (∀ c ∈ sample_state.command_list, c.state = CMD_STATE_ACTIVE →
        c.priority = sample_state.current_priority) ∧
      ∀ c ∈ sample_state.command_list, ∀ d ∈ sample_state.command_list,
        c.state = CMD_STATE_ACTIVE → d.state = CMD_STATE_ACTIVE →
          c.priority = d.priority :=
  have h := active_commands_hold_current_priority sample_commands sample_commands_valid
    sample_commands_below sample_state sample_state_reachable
  ⟨sample_commands_valid, sample_commands_below, sample_state_reachable, by decide,
    h.1 (by decide), h.2⟩

/-- C4: in every state reachable from `scheduler_init` (each worker calling
`scheduler_wait_for_turn` once and then `scheduler_finish_turn` once) with
`active_threads == 0`, `current_priority` equals the least priority among the
WAITING commands, or `INT_MAX` when no command is WAITING; hence, while some
command is waiting, `current_priority` is the priority of a waiting command. -/
theorem idle_priority_is_least_waiting (command_list : List command_t)
    (hv : valid_command_list command_list) (s : scheduler_t)
    (hr : reachable command_list s) (h0 : s.active_threads = 0) :
    least_waiting s.command_list s.current_priority ∧
      ((∃ c ∈ s.command_list, c.state = CMD_STATE_WAITING) →
        ∃ c ∈ s.command_list, c.state = CMD_STATE_WAITING ∧
          c.priority = s.current_priority) := by
  have hinv := reachable_inv command_list s hv.1 hv.2.1 hv.2.2 hr
  refine ⟨hinv.least h0, ?_⟩
  rintro ⟨u, hu, huw⟩
  rcases hinv.least h0 with ⟨c, hc, hcw, hcp, _⟩ | ⟨hnone, _⟩
  · exact ⟨c, hc, hcw, hcp⟩
  · exact absurd huw (hnone u hu)

theorem idle_priority_is_least_waiting_witness :
    valid_command_list sample_commands ∧
      reachable sample_commands sample_idle_state ∧
      sample_idle_state.active_threads = 0 ∧
      least_waiting sample_idle_state.command_list sample_idle_state.current_priority ∧
      (∃ c ∈ sample_idle_state.command_list, c.state = CMD_STATE_WAITING) ∧
      ∃ c ∈ sample_idle_state.command_list, c.state = CMD_STATE_WAITING ∧
        c.priority = sample_idle_state.current_priority :=
  have h := idle_priority_is_least_waiting sample_commands sample_commands_valid
    sample_idle_state ⟨[sched_event.run 2, sched_event.run 0, sched_event.run 2], rfl⟩
    (by decide)
  have hw : ∃ c ∈ sample_idle_state.command_list, c.state = CMD_STATE_WAITING :=
    ⟨{ mk_command COMMAND_INSERT 5 with state := CMD_STATE_WAITING }, by decide, rfl⟩
  ⟨sample_commands_valid,
    ⟨[sched_event.run 2, sched_event.run 0, sched_event.run 2], rfl⟩, by decide,
    h.1, hw, h.2 hw⟩

/-- C6: whenever `scheduler_wait_for_turn(command)` returns, at its entry step
or at a wake-up recheck, `command.state` is ACTIVE, `current_priority` equalled
`command.priority` at the loop test that admitted the command (and still does
on return), and `active_threads` is exactly one greater than it was immediately
before the admitting step. -/
theorem wait_for_turn_return_spec (command_list : List command_t)
    (hv : valid_command_list command_list) (s : scheduler_t)
    (hr : reachable command_list s) (i : Nat) (c : command_t)
    (hc : s.command_list[i]? = some c) (s' : scheduler_t) :
    (c.state = CMD_STATE_PENDING → scheduler_wait_for_turn_enter s i = (s', true) →
        s'.command_list[i]? = some { c with state := CMD_STATE_ACTIVE } ∧
          (wait_for_turn_entry s i c).current_priority = c.priority ∧
          s'.current_priority = c.priority ∧
          s'.active_threads = s.active_threads + 1) ∧
      (c.state = CMD_STATE_WAITING → scheduler_wait_for_turn_wake s i = (s', true) →
        s'.command_list[i]? = some { c with state := CMD_STATE_ACTIVE } ∧
          (wait_for_turn_recheck s i).current_priority = c.priority ∧
          s'.current_priority = c.priority ∧
          s'.active_threads = s.active_threads + 1) := by
  have hinv := reachable_inv command_list s hv.1 hv.2.1 hv.2.2 hr
  have hat : c.state ≠ CMD_STATE_ACTIVE →
      (s.active_threads + 1) % (SIZE_MAX + 1) = s.active_threads + 1 := by
    intro hna
    obtain ⟨_, hbound⟩ := admit_count s.command_list i c hc hna hinv.size
    exact succ_mod_size _ (by rw [hinv.count]; exact hbound)
  constructor
  · intro hs hret
    by_cases hg : c.priority = (wait_for_turn_entry s i c).current_priority
    · rw [enter_admitted s i c hc hg] at hret
      have hs' := (Prod.mk.inj hret).1
      subst hs'
      refine ⟨getElem?_set_self_some _ i c _ hc, hg.symm, hg.symm, ?_⟩
      exact hat (by rw [hs]; decide)
    · rw [enter_blocked s i c hc hg] at hret
      exact absurd (Prod.mk.inj hret).2 (by decide)
  · intro hs hret
    by_cases hg : c.priority = (wait_for_turn_recheck s i).current_priority
    · rw [wake_admitted s i c hc hg] at hret
      have hs' := (Prod.mk.inj hret).1
      subst hs'
      refine ⟨getElem?_set_self_some _ i c _ hc, hg.symm, hg.symm, ?_⟩
      exact hat (by rw [hs]; decide)
    · rw [wake_blocked s i c hc hg] at hret
      exact absurd (Prod.mk.inj hret).2 (by decide)

theorem wait_for_turn_return_spec_witness :
    valid_command_list sample_commands ∧ reachable sample_commands sample_state ∧
      sample_state.command_list[1]? =
        some { mk_command COMMAND_SEARCH 5 with state := CMD_STATE_WAITING } ∧
      scheduler_wait_for_turn_wake sample_state 1 =
        ((scheduler_wait_for_turn_wake sample_state 1).1, true) ∧
      (scheduler_wait_for_turn_wake sample_state 1).1.command_list[1]? =
        some { mk_command COMMAND_SEARCH 5 with state := CMD_STATE_ACTIVE } ∧
      (wait_for_turn_recheck sample_state 1).current_priority = 5 ∧
      (scheduler_wait_for_turn_wake sample_state 1).1.current_priority = 5 ∧
      (scheduler_wait_for_turn_wake sample_state 1).1.active_threads =
        sample_state.active_threads + 1 :=
  ⟨sample_commands_valid, sample_state_reachable, by decide, by decide,
    (wait_for_turn_return_spec sample_commands sample_commands_valid sample_state
      sample_state_reachable 1
      { mk_command COMMAND_SEARCH 5 with state := CMD_STATE_WAITING } (by decide)
      (scheduler_wait_for_turn_wake sample_state 1).1).2 rfl (by decide)⟩

/-- C10: in every reachable state in which a command is WAITING with priority
equal to `current_priority` while another command of that same priority is
ACTIVE (so `active_threads > 0`), the wake-up recheck of the waiting command
admits it: the call returns, the command is ACTIVE and `active_threads` is one
greater, nothing else but the used-up wake-up changes, and the command that was
ACTIVE still is; commands sharing the selected priority are thus ACTIVE at the
same time. -/
theorem same_priority_waiter_is_admitted (command_list : List command_t)
    (hv : valid_command_list command_list) (s : scheduler_t)
    (hr : reachable command_list s) (i j : Nat) (c d : command_t)
    (hc : s.command_list[i]? = some c) (hw : c.state = CMD_STATE_WAITING)
    (hp : c.priority = s.current_priority)
    (hd : s.command_list[j]? = some d) (hda : d.state = CMD_STATE_ACTIVE)
    (hdp : d.priority = c.priority) :
    0 < s.active_threads ∧
      scheduler_wait_for_turn_wake s i =
        ({ s with
            command_list := s.command_list.set i { c with state := CMD_STATE_ACTIVE }
            active_threads := s.active_threads + 1
            cond := s.cond.filter (fun k => decide (k ≠ i)) }, true) ∧
      (scheduler_wait_for_turn_wake s i).1.command_list[i]? =
        some { c with state := CMD_STATE_ACTIVE } ∧
      (scheduler_wait_for_turn_wake s i).1.command_list[j]? = some d := by
  have hinv := reachable_inv command_list s hv.1 hv.2.1 hv.2.2 hr
  have hpos : 0 < s.active_threads := by
    rw [hinv.count]
    exact active_count_pos_of_mem _ d (List.getElem?_mem hd) hda
  have hne : s.active_threads ≠ 0 := by omega
  have hna : c.state ≠ CMD_STATE_ACTIVE := by rw [hw]; decide
  have hji : i ≠ j := by
    intro hij
    subst hij
    rw [hc] at hd
    have := Option.some.inj hd
    subst this
    exact hna hda
  have hre : wait_for_turn_recheck s i =
      { s with cond := s.cond.filter (fun k => decide (k ≠ i)) } := by
    unfold wait_for_turn_recheck
    simp only [if_neg hne]
  have hg : c.priority = (wait_for_turn_recheck s i).current_priority := by
    rw [recheck_priority_pos s i hne]
    exact hp
  obtain ⟨_, hbound⟩ := admit_count s.command_list i c hc hna hinv.size
  have hat : (s.active_threads + 1) % (SIZE_MAX + 1) = s.active_threads + 1 :=
    succ_mod_size _ (by rw [hinv.count]; exact hbound)
  have heq := wake_admitted s i c hc hg
  rw [hre, hat] at heq
  refine ⟨hpos, heq, ?_, ?_⟩
  · rw [heq]
    exact getElem?_set_self_some _ i c _ hc
  · rw [heq]
    simp only
    rw [List.getElem?_set_ne hji]
    exact hd

theorem same_priority_waiter_is_admitted_witness :
    valid_command_list sample_commands ∧ reachable sample_commands sample_state ∧
      sample_state.command_list[1]? =
        some { mk_command COMMAND_SEARCH 5 with state := CMD_STATE_WAITING } ∧
      sample_state.command_list[0]? =
        some { mk_command COMMAND_INSERT 5 with state := CMD_STATE_ACTIVE } ∧
      sample_state.current_priority = 5 ∧
      0 < sample_state.active_threads ∧
      scheduler_wait_for_turn_wake sample_state 1 =
        ({ sample_state with
            command_list := sample_state.command_list.set 1
              { mk_command COMMAND_SEARCH 5 with state := CMD_STATE_ACTIVE }
            active_threads := sample_state.active_threads + 1
            cond := sample_state.cond.filter (fun k => decide (k ≠ 1)) }, true) ∧
      (scheduler_wait_for_turn_wake sample_state 1).1.command_list[1]? =
        some { mk_command COMMAND_SEARCH 5 with state := CMD_STATE_ACTIVE } ∧
      (scheduler_wait_for_turn_wake sample_state 1).1.command_list[0]? =
        some { mk_command COMMAND_INSERT 5 with state := CMD_STATE_ACTIVE } :=
  ⟨sample_commands_valid, sample_state_reachable, by decide, by decide, by decide,
    same_priority_waiter_is_admitted sample_commands sample_commands_valid sample_state
      sample_state_reachable 1 0
      { mk_command COMMAND_SEARCH 5 with state := CMD_STATE_WAITING }
      { mk_command COMMAND_INSERT 5 with state := CMD_STATE_ACTIVE }
      (by decide) rfl (by decide) (by decide) rfl rfl⟩

/-! ## Admission and the order of priorities -/

theorem entry_admission (s : scheduler_t) (i : Nat) (c : command_t)
    (hinv : scheduler_inv s) (hb : below_sentinel s.command_list)
    (ha : active_at_current s) (hc : s.command_list[i]? = some c)
    (hs : c.state = CMD_STATE_PENDING)
    (hg : c.priority = (wait_for_turn_entry s i c).current_priority) :
    (s.active_threads = 0 ∧ (∀ d ∈ s.command_list, d.state ≠ CMD_STATE_ACTIVE) ∧
        ∀ d ∈ s.command_list, d.state = CMD_STATE_WAITING → c.priority ≤ d.priority) ∨
      ∃ j d, j ≠ i ∧ s.command_list[j]? = some d ∧ d.state = CMD_STATE_ACTIVE ∧
        d.priority = c.priority := by
  by_cases h0 : s.active_threads = 0
  · left
    refine ⟨h0, (active_count_eq_zero _).mp (by rw [← hinv.count]; exact h0), ?_⟩
    intro d hd hdw
    obtain ⟨j, hj⟩ := List.mem_iff_getElem?.mp hd
    have hji : j ≠ i := by
      intro hji
      subst hji
      rw [hc] at hj
      have := Option.some.inj hj
      subst this
      rw [hs] at hdw
      exact absurd hdw (by decide)
    have hd1 : d ∈ s.command_list.set i { c with state := CMD_STATE_WAITING } :=
      (mem_set_iff _ i _ d).mpr (Or.inr ⟨j, hji, hj⟩)
    rcases entry_priority_zero s i c h0 hc hinv.ints with ⟨_, _, _, _, hl⟩ | ⟨hnone, _⟩
    · rw [hg]
      exact hl d hd1 hdw
    · exact absurd hdw (hnone d hd1)
  · right
    obtain ⟨d, hd, hda⟩ := exists_active_of_pos s.command_list (by rw [← hinv.count]; omega)
    obtain ⟨j, hj⟩ := List.mem_iff_getElem?.mp hd
    have hji : j ≠ i := by
      intro hji
      subst hji
      rw [hc] at hj
      have := Option.some.inj hj
      subst this
      rw [hs] at hda
      exact absurd hda (by decide)
    refine ⟨j, d, hji, hj, hda, ?_⟩
    have h1 := ha d hd hda
    have h2 := hb d hd
    rw [hg, entry_priority_pos s i c h0, if_neg (by omega)]
    exact h1

theorem wake_admission (s : scheduler_t) (i : Nat) (c : command_t)
    (hinv : scheduler_inv s) (ha : active_at_current s)
    (hc : s.command_list[i]? = some c) (hs : c.state = CMD_STATE_WAITING)
    (hg : c.priority = (wait_for_turn_recheck s i).current_priority) :
    (s.active_threads = 0 ∧ (∀ d ∈ s.command_list, d.state ≠ CMD_STATE_ACTIVE) ∧
        ∀ d ∈ s.command_list, d.state = CMD_STATE_WAITING → c.priority ≤ d.priority) ∨
      ∃ j d, j ≠ i ∧ s.command_list[j]? = some d ∧ d.state = CMD_STATE_ACTIVE ∧
        d.priority = c.priority := by
  rw [recheck_priority_inv s i hinv] at hg
  by_cases h0 : s.active_threads = 0
  · left
    refine ⟨h0, (active_count_eq_zero _).mp (by rw [← hinv.count]; exact h0), ?_⟩
    intro d hd hdw
    rcases hinv.least h0 with ⟨_, _, _, _, hl⟩ | ⟨hnone, _⟩
    · rw [hg]
      exact hl d hd hdw
    · exact absurd hdw (hnone d hd)
  · right
    obtain ⟨d, hd, hda⟩ := exists_active_of_pos s.command_list (by rw [← hinv.count]; omega)
    obtain ⟨j, hj⟩ := List.mem_iff_getElem?.mp hd
    have hji : j ≠ i := by
      intro hji
      subst hji
      rw [hc] at hj
      have := Option.some.inj hj
      subst this
      rw [hs] at hda
      exact absurd hda (by decide)
    exact ⟨j, d, hji, hj, hda, by rw [hg]; exact ha d hd hda⟩

/-- What holds when a step marks command `i` ACTIVE: either no worker was
active and no waiting command had a lower priority, or a command of the same
priority was already ACTIVE. -/
theorem admission_facts (s : scheduler_t) (e : sched_event) (i : Nat) (c c' : command_t)
    (hinv : scheduler_inv s) (hb : below_sentinel s.command_list)
    (ha : active_at_current s) (hc : s.command_list[i]? = some c)
    (hna : c.state ≠ CMD_STATE_ACTIVE)
    (hc' : (command_worker_step s e).command_list[i]? = some c')
    (hact : c'.state = CMD_STATE_ACTIVE) :
    (s.active_threads = 0 ∧ (∀ d ∈ s.command_list, d.state ≠ CMD_STATE_ACTIVE) ∧
        ∀ d ∈ s.command_list, d.state = CMD_STATE_WAITING → c.priority ≤ d.priority) ∨
      ∃ j d, j ≠ i ∧ s.command_list[j]? = some d ∧ d.state = CMD_STATE_ACTIVE ∧
        d.priority = c.priority := by
  have hsame : (command_worker_step s e).command_list[i]? = s.command_list[i]? → False := by
    intro h
    rw [h, hc] at hc'
    have := Option.some.inj hc'
    subst this
    exact hna hact
  rcases step_cases s e with h | ⟨k, ck, _, hck, h | h | h⟩
  · exact absurd (by rw [h]) hsame
  · by_cases hki : k = i
    · subst hki
      rw [hc] at hck
      have := Option.some.inj hck
      subst this
      by_cases hg : c.priority = (wait_for_turn_entry s k c).current_priority
      · exact entry_admission s k c hinv hb ha hc h.1 hg
      · rw [h.2, enter_blocked s k c hc hg, entry_command_list,
          getElem?_set_self_some _ k c _ hc] at hc'
        have := Option.some.inj hc'
        subst this
        exact absurd hact (by simp)
    · refine absurd ?_ hsame
      rw [h.2]
      by_cases hg : ck.priority = (wait_for_turn_entry s k ck).current_priority
      · rw [enter_admitted s k ck hck hg]
        exact List.getElem?_set_ne hki
      · rw [enter_blocked s k ck hck hg, entry_command_list]
        exact List.getElem?_set_ne hki
  · by_cases hg : ck.priority = (wait_for_turn_recheck s k).current_priority
    · by_cases hki : k = i
      · subst hki
        rw [hc] at hck
        have := Option.some.inj hck
        subst this
        exact wake_admission s k c hinv ha hc h.1 hg
      · refine absurd ?_ hsame
        rw [h.2, wake_admitted s k ck hck hg]
        exact List.getElem?_set_ne hki
    · refine absurd ?_ hsame
      rw [h.2, wake_blocked s k ck hck hg, recheck_command_list]
  · by_cases hki : k = i
    · subst hki
      rw [hc] at hck
      have := Option.some.inj hck
      subst this
      exact absurd h.1 hna
    · refine absurd ?_ hsame
      rw [h.2, finish_command_list s k ck hck]
      exact List.getElem?_set_ne hki

theorem distinct_priorities_index (l : List command_t)
    (hnd : (l.map command_t.priority).Nodup) (i j : Nat) (c d : command_t)
    (hc : l[i]? = some c) (hd : l[j]? = some d) (hp : d.priority = c.priority) : j = i := by
  have hci : (l.map command_t.priority)[i]? = some c.priority := by
    rw [List.getElem?_map, hc]; rfl
  have hdj : (l.map command_t.priority)[j]? = some c.priority := by
    rw [List.getElem?_map, hd, ← hp]; rfl
  have hil : i < (l.map command_t.priority).length := by
    rw [List.length_map]; exact lt_length_of_getElem? l i c hc
  have hjl : j < (l.map command_t.priority).length := by
    rw [List.length_map]; exact lt_length_of_getElem? l j d hd
  by_contra hne
  rcases Nat.lt_or_gt_of_ne hne with h | h
  · exact List.nodup_iff_getElem?_ne_getElem?.mp hnd j i h hil (by rw [hci, hdj])
  · exact List.nodup_iff_getElem?_ne_getElem?.mp hnd i j h hjl (by rw [hci, hdj])

/-- A parsed list whose priorities are `0..n-1` in some order, all of them
`int` values: what follows for the list. -/
theorem range_priorities (command_list : List command_t) (n : Nat)
    (hperm : (command_list.map command_t.priority).Perm ((List.range n).map Int.ofNat)) :
    (∀ c ∈ command_list, 0 ≤ c.priority ∧ c.priority < n) ∧
      command_list.length = n ∧ (command_list.map command_t.priority).Nodup := by
  refine ⟨?_, ?_, ?_⟩
  · intro c hc
    have h1 : c.priority ∈ command_list.map command_t.priority := List.mem_map_of_mem _ hc
    rw [hperm.mem_iff] at h1
    obtain ⟨k, hk, hkp⟩ := List.mem_map.mp h1
    rw [List.mem_range] at hk
    rw [← hkp]
    constructor
    · exact Int.ofNat_nonneg k
    · exact Int.ofNat_lt.mpr hk
  · have := hperm.length_eq
    simpa using this
  · rw [hperm.nodup_iff]
    exact (List.nodup_range n).map (fun a b h => Int.ofNat.inj h)

theorem range_priorities_valid (command_list : List command_t) (n : Nat)
    (hp : parsed command_list)
    (hperm : (command_list.map command_t.priority).Perm ((List.range n).map Int.ofNat))
    (hn : (n : Int) ≤ INT_MAX + 1) : valid_command_list command_list := by
  obtain ⟨hrange, hlen, _⟩ := range_priorities command_list n hperm
  refine ⟨hp, ?_, ?_⟩
  · intro c hc
    have := hrange c hc
    simp only [INT_MIN, INT_MAX] at hn ⊢
    omega
  · rw [hlen]
    simp only [INT_MAX, SIZE_MAX] at hn ⊢
    omega

theorem two_commands_parsed : parsed two_commands := by
  intro c hc
  simp only [two_commands, mk_command, List.mem_cons, List.mem_singleton,
    List.not_mem_nil, or_false] at hc
  rcases hc with rfl | rfl <;> rfl

theorem two_commands_range :
    (two_commands.map command_t.priority).Perm ((List.range 2).map Int.ofNat) := by
  decide

/-! ## Claims: order and liveness -/

/-- C1 as stated fails: with the two parsed commands of priorities 0 and 1, the
interleaving in which the worker of the command of priority 1 runs first admits
it at once (no worker is active and it is the only waiting command): the
command of priority 1 is ACTIVE while the command of priority 0 is still
PENDING, hence not FINISHED. -/
theorem priority_order_counterexample :
    parsed two_commands ∧
      two_commands.map command_t.priority = (List.range 2).map Int.ofNat ∧
      (run_events (scheduler_init two_commands) [sched_event.run 1]).command_list.map
          (fun c => (c.priority, c.state)) =
        [(0, CMD_STATE_PENDING), (1, CMD_STATE_ACTIVE)] :=
  ⟨two_commands_parsed, by decide, by decide⟩

/-- C1 (amended): for every command list whose priorities are `0..N-1` (in any
order, all below `INT_MAX`) and every interleaving of the scheduler's atomic
steps starting from `scheduler_init`, a command of priority k is never marked
ACTIVE while some command of priority less than k is WAITING or ACTIVE: at the
step that marks it ACTIVE every command of lower priority is PENDING (its worker
has not entered `scheduler_wait_for_turn` yet) or FINISHED. -/
theorem admission_respects_entered_priorities (command_list : List command_t) (n : Nat)
    (hp : parsed command_list)
    (hperm : (command_list.map command_t.priority).Perm ((List.range n).map Int.ofNat))
    (hn : (n : Int) ≤ INT_MAX)
    (s : scheduler_t) (hr : reachable command_list s) (e : sched_event)
    (i : Nat) (c c' : command_t) (hc : s.command_list[i]? = some c)
    (hna : c.state ≠ CMD_STATE_ACTIVE)
    (hc' : (command_worker_step s e).command_list[i]? = some c')
    (hact : c'.state = CMD_STATE_ACTIVE) :
    ∀ d ∈ s.command_list, d.priority < c.priority →
      d.state = CMD_STATE_PENDING ∨ d.state = CMD_STATE_FINISHED := by
  have hv := range_priorities_valid command_list n hp hperm (by omega)
  obtain ⟨hrange, _, hnd⟩ := range_priorities command_list n hperm
  have hb : below_sentinel command_list := by
    intro d hd
    have := (hrange d hd).2
    omega
  have hinv := reachable_inv command_list s hv.1 hv.2.1 hv.2.2 hr
  have ha := reachable_active command_list s hv hb hr
  obtain ⟨events, hs⟩ := hr
  have hmap : s.command_list.map command_t.priority =
      command_list.map command_t.priority := by
    rw [hs]
    exact run_events_map_priority _ events
  have hbs : below_sentinel s.command_list := below_sentinel_of_map _ _ hmap hb
  have hnds : (s.command_list.map command_t.priority).Nodup := by rw [hmap]; exact hnd
  rcases admission_facts s e i c c' hinv hbs ha hc hna hc' hact with
    ⟨_, hnone, hleast⟩ | ⟨j, d, hji, hj, _, hdp⟩
  · intro d hd hlt
    cases hst : d.state with
    | CMD_STATE_PENDING => exact Or.inl rfl
    | CMD_STATE_WAITING =>
      have := hleast d hd hst
      omega
    | CMD_STATE_ACTIVE => exact absurd hst (hnone d hd)
    | CMD_STATE_FINISHED => exact Or.inr rfl
  · exact absurd (distinct_priorities_index s.command_list hnds i j c d hc hj hdp) hji

theorem admission_respects_entered_priorities_witness :
    parsed two_commands ∧
      (two_commands.map command_t.priority).Perm ((List.range 2).map Int.ofNat) ∧
      ((2 : Nat) : Int) ≤ INT_MAX ∧
      reachable two_commands (scheduler_init two_commands) ∧
      (scheduler_init two_commands).command_list[1]? = some (mk_command COMMAND_INSERT 1) ∧
      (mk_command COMMAND_INSERT 1).state ≠ CMD_STATE_ACTIVE ∧
      (command_worker_step (scheduler_init two_commands)
          (sched_event.run 1)).command_list[1]? =
        some { mk_command COMMAND_INSERT 1 with state := CMD_STATE_ACTIVE } ∧
      ∀ d ∈ (scheduler_init two_commands).command_list,
        d.priority < (mk_command COMMAND_INSERT 1).priority →
          d.state = CMD_STATE_PENDING ∨ d.state = CMD_STATE_FINISHED :=
  ⟨two_commands_parsed, two_commands_range, by decide, ⟨[], rfl⟩, by decide, by decide,
    by decide,
    admission_respects_entered_priorities two_commands 2 two_commands_parsed
      two_commands_range (by decide) (scheduler_init two_commands) ⟨[], rfl⟩
      (sched_event.run 1) 1 (mk_command COMMAND_INSERT 1)
      { mk_command COMMAND_INSERT 1 with state := CMD_STATE_ACTIVE }
      (by decide) (by decide) (by decide) rfl⟩

/-- C5: for any N and any arrangement of the distinct priorities `0..N-1`,
under every fair interleaving (every worker is run again and again, spurious
wake-ups allowed) there is a time from which all N commands are FINISHED, so
every worker has returned from `scheduler_wait_for_turn` and finished; in
safety form, in every reachable state with an unfinished command some worker
has a step that moves its command forward, and no reachable state is stuck
(some command WAITING, every WAITING command blocked with no pending wake-up,
no ACTIVE command, and `current_priority` matching none of them). -/
theorem scheduler_deadlock_free (command_list : List command_t) (n : Nat)
    (hp : parsed command_list)
    (hperm : (command_list.map command_t.priority).Perm ((List.range n).map Int.ofNat))
    (hn : (n : Int) ≤ INT_MAX + 1) :
    (∀ schedule : Nat → sched_event, fair_schedule n schedule →
        ∃ t, ∀ u, t ≤ u →
          ∀ c ∈ (run_schedule (scheduler_init command_list) schedule u).command_list,
            c.state = CMD_STATE_FINISHED) ∧
      (∀ s, reachable command_list s →
        (∃ c ∈ s.command_list, c.state ≠ CMD_STATE_FINISHED) →
          ∃ k, k < n ∧
            list_rank (command_worker_step s (sched_event.run k)).command_list <
              list_rank s.command_list) ∧
      (∀ s, reachable command_list s → ¬ stuck s) := by
  have hv := range_priorities_valid command_list n hp hperm hn
  obtain ⟨_, hlen, _⟩ := range_priorities command_list n hperm
  have hinit := init_inv command_list hv.1 hv.2.1 hv.2.2
  refine ⟨?_, ?_, ?_⟩
  · intro schedule hfair
    refine fair_schedule_finishes (scheduler_init command_list) schedule hinit ?_
    show fair_schedule command_list.length schedule
    rw [hlen]
    exact hfair
  · intro s hr hun
    have hinv := reachable_inv command_list s hv.1 hv.2.1 hv.2.2 hr
    obtain ⟨k, hk, hadv⟩ := exists_advance s hinv hun
    refine ⟨k, ?_, advance_decreases s k hinv hadv⟩
    obtain ⟨events, hs⟩ := hr
    have hmap := congrArg List.length (run_events_map_priority
      (scheduler_init command_list) events)
    simp only [List.length_map] at hmap
    rw [hs, hmap] at hk
    rw [← hlen]
    exact hk
  · intro s hr
    exact not_stuck_of_inv s (reachable_inv command_list s hv.1 hv.2.1 hv.2.2 hr)

theorem scheduler_deadlock_free_witness :
    parsed two_commands ∧
      (two_commands.map command_t.priority).Perm ((List.range 2).map Int.ofNat) ∧
      ((2 : Nat) : Int) ≤ INT_MAX + 1 ∧
      fair_schedule 2 (round_robin 2) ∧
      (∃ t, ∀ u, t ≤ u →
        ∀ c ∈ (run_schedule (scheduler_init two_commands) (round_robin 2) u).command_list,
          c.state = CMD_STATE_FINISHED) ∧
      reachable two_commands (scheduler_init two_commands) ∧
      (∃ c ∈ (scheduler_init two_commands).command_list, c.state ≠ CMD_STATE_FINISHED) ∧
      (∃ k, k < 2 ∧
        list_rank (command_worker_step (scheduler_init two_commands)
            (sched_event.run k)).command_list <
          list_rank (scheduler_init two_commands).command_list) ∧
      ¬ stuck (scheduler_init two_commands) :=
  have h := scheduler_deadlock_free two_commands 2 two_commands_parsed two_commands_range
    (by decide)
  have hfair : fair_schedule 2 (round_robin 2) := fun i hi t =>
    ⟨2 * t + i, by omega, by
      show sched_event.run ((2 * t + i) % 2) = sched_event.run i
      rw [Nat.mul_add_mod, Nat.mod_eq_of_lt hi]⟩
  have hun : ∃ c ∈ (scheduler_init two_commands).command_list,
      c.state ≠ CMD_STATE_FINISHED :=
    ⟨mk_command COMMAND_INSERT 0, by decide, by decide⟩
  ⟨two_commands_parsed, two_commands_range, by decide, hfair, h.1 (round_robin 2) hfair,
    ⟨[], rfl⟩, hun, h.2.1 _ ⟨[], rfl⟩ hun, h.2.2 _ ⟨[], rfl⟩⟩

/-! ## Strings and chains -/

theorem strcmp_eq_zero_iff (s1 s2 : List Nat) : strcmp s1 s2 = 0 ↔ s1 = s2 := by
  induction s1 generalizing s2 with
  | nil =>
    cases s2 with
    | nil => simp [strcmp]
    | cons b s2 => simp [strcmp]
  | cons a s1 ih =>
    cases s2 with
    | nil => simp [strcmp]
    | cons b s2 =>
      simp only [strcmp, List.cons.injEq]
      split_ifs with h1 h2
      · constructor
        · intro h; exact absurd h (by decide)
        · intro h; exact absurd h.1 (by omega)
      · constructor
        · intro h; exact absurd h (by decide)
        · intro h; exact absurd h.1 (by omega)
      · rw [ih s2]
        constructor
        · intro h; exact ⟨by omega, h⟩
        · rintro ⟨_, h⟩; exact h

/-- A chain either holds no record of the name, or splits at the first record
of the name. -/
theorem chain_split (name : List Nat) (chain : List hash_record_t) :
    (∀ r ∈ chain, r.name ≠ name) ∨
      ∃ l1 cur l2, chain = l1 ++ cur :: l2 ∧ (∀ r ∈ l1, r.name ≠ name) ∧ cur.name = name := by
  induction chain with
  | nil => left; simp
  | cons c chain ih =>
    by_cases hc : c.name = name
    · right
      exact ⟨[], c, chain, rfl, by simp, hc⟩
    · rcases ih with h | ⟨l1, cur, l2, hsplit, hl1, hcur⟩
      · left
        intro r hr
        rcases List.mem_cons.mp hr with h1 | h1
        · rw [h1]; exact hc
        · exact h r h1
      · right
        refine ⟨c :: l1, cur, l2, by rw [hsplit]; rfl, ?_, hcur⟩
        intro r hr
        rcases List.mem_cons.mp hr with h1 | h1
        · rw [h1]; exact hc
        · exact hl1 r h1

theorem insert_chain_none (name : List Nat) (salary : Nat) (chain : List hash_record_t)
    (h : ∀ r ∈ chain, r.name ≠ name) : insert_chain name salary chain = none := by
  induction chain with
  | nil => rfl
  | cons c chain ih =>
    have hc : ¬ strcmp c.name name = 0 := by
      rw [strcmp_eq_zero_iff]; exact h c (List.mem_cons_self _ _)
    simp only [insert_chain, if_neg hc, ih (fun r hr => h r (List.mem_cons_of_mem _ hr))]

theorem insert_chain_found (name : List Nat) (salary : Nat) (l1 l2 : List hash_record_t)
    (cur : hash_record_t) (h1 : ∀ r ∈ l1, r.name ≠ name) (hcur : cur.name = name) :
    insert_chain name salary (l1 ++ cur :: l2) =
      some (cur, l1 ++ { cur with salary := salary } :: l2) := by
  induction l1 with
  | nil =>
    have hc : strcmp cur.name name = 0 := (strcmp_eq_zero_iff _ _).mpr hcur
    simp only [List.nil_append, insert_chain, if_pos hc]
  | cons c l1 ih =>
    have hc : ¬ strcmp c.name name = 0 := by
      rw [strcmp_eq_zero_iff]; exact h1 c (List.mem_cons_self _ _)
    simp only [List.cons_append, insert_chain, if_neg hc, List.append_eq,
      ih (fun r hr => h1 r (List.mem_cons_of_mem _ hr))]

theorem update_chain_none (name : List Nat) (salary hash : Nat) (chain : List hash_record_t)
    (h : ∀ r ∈ chain, r.name ≠ name) : update_chain name salary hash chain = none := by
  induction chain with
  | nil => rfl
  | cons c chain ih =>
    have hc : ¬ strcmp c.name name = 0 := by
      rw [strcmp_eq_zero_iff]; exact h c (List.mem_cons_self _ _)
    simp only [update_chain, if_neg hc, ih (fun r hr => h r (List.mem_cons_of_mem _ hr))]

theorem update_chain_found (name : List Nat) (salary hash : Nat) (l1 l2 : List hash_record_t)
    (cur : hash_record_t) (h1 : ∀ r ∈ l1, r.name ≠ name) (hcur : cur.name = name) :
    update_chain name salary hash (l1 ++ cur :: l2) =
      some (cur.salary, { cur with salary := salary, hash := hash },
        l1 ++ { cur with salary := salary, hash := hash } :: l2) := by
  induction l1 with
  | nil =>
    have hc : strcmp cur.name name = 0 := (strcmp_eq_zero_iff _ _).mpr hcur
    simp only [List.nil_append, update_chain, if_pos hc]
  | cons c l1 ih =>
    have hc : ¬ strcmp c.name name = 0 := by
      rw [strcmp_eq_zero_iff]; exact h1 c (List.mem_cons_self _ _)
    simp only [List.cons_append, update_chain, if_neg hc, List.append_eq,
      ih (fun r hr => h1 r (List.mem_cons_of_mem _ hr))]

theorem delete_chain_none (name : List Nat) (chain : List hash_record_t)
    (h : ∀ r ∈ chain, r.name ≠ name) : delete_chain name chain = none := by
  induction chain with
  | nil => rfl
  | cons c chain ih =>
    have hc : ¬ strcmp c.name name = 0 := by
      rw [strcmp_eq_zero_iff]; exact h c (List.mem_cons_self _ _)
    simp only [delete_chain, if_neg hc, ih (fun r hr => h r (List.mem_cons_of_mem _ hr))]

theorem delete_chain_found (name : List Nat) (l1 l2 : List hash_record_t)
    (cur : hash_record_t) (h1 : ∀ r ∈ l1, r.name ≠ name) (hcur : cur.name = name) :
    delete_chain name (l1 ++ cur :: l2) = some (cur, l1 ++ l2) := by
  induction l1 with
  | nil =>
    have hc : strcmp cur.name name = 0 := (strcmp_eq_zero_iff _ _).mpr hcur
    simp only [List.nil_append, delete_chain, if_pos hc]
  | cons c l1 ih =>
    have hc : ¬ strcmp c.name name = 0 := by
      rw [strcmp_eq_zero_iff]; exact h1 c (List.mem_cons_self _ _)
    simp only [List.cons_append, delete_chain, if_neg hc, List.append_eq,
      ih (fun r hr => h1 r (List.mem_cons_of_mem _ hr))]

theorem search_chain_none (name : List Nat) (chain : List hash_record_t)
    (h : ∀ r ∈ chain, r.name ≠ name) : search_chain name chain = none := by
  induction chain with
  | nil => rfl
  | cons c chain ih =>
    have hc : ¬ strcmp c.name name = 0 := by
      rw [strcmp_eq_zero_iff]; exact h c (List.mem_cons_self _ _)
    simp only [search_chain, if_neg hc, ih (fun r hr => h r (List.mem_cons_of_mem _ hr))]

theorem search_chain_found (name : List Nat) (l1 l2 : List hash_record_t)
    (cur : hash_record_t) (h1 : ∀ r ∈ l1, r.name ≠ name) (hcur : cur.name = name) :
    search_chain name (l1 ++ cur :: l2) = some cur := by
  induction l1 with
  | nil =>
    have hc : strcmp cur.name name = 0 := (strcmp_eq_zero_iff _ _).mpr hcur
    simp only [List.nil_append, search_chain, if_pos hc]
  | cons c l1 ih =>
    have hc : ¬ strcmp c.name name = 0 := by
      rw [strcmp_eq_zero_iff]; exact h1 c (List.mem_cons_self _ _)
    simp only [List.cons_append, search_chain, if_neg hc, List.append_eq,
      ih (fun r hr => h1 r (List.mem_cons_of_mem _ hr))]

/-! ## Counting the records -/

theorem sum_range_update (f : Nat → List hash_record_t) (i : Nat)
    (b : List hash_record_t) (n : Nat) :
    ((List.range n).map (fun j => (Function.update f i b j).length)).sum +
        (if i < n then (f i).length else 0) =
      ((List.range n).map (fun j => (f j).length)).sum + (if i < n then b.length else 0) := by
  induction n with
  | zero => simp
  | succ n ih =>
    simp only [List.range_succ, List.map_append, List.sum_append, List.map_cons, List.map_nil,
      List.sum_cons, List.sum_nil, Nat.add_zero]
    by_cases hin : i = n
    · subst hin
      simp only [Function.update_same, Nat.lt_irrefl, if_false, Nat.add_zero,
        Nat.lt_succ_self, if_true] at ih ⊢
      omega
    · rw [Function.update_noteq (fun h => hin h.symm)]
      by_cases hlt : i < n
      · rw [if_pos hlt, if_pos hlt] at ih
        rw [if_pos (by omega), if_pos (by omega)]
        omega
      · rw [if_neg hlt, if_neg hlt] at ih
        rw [if_neg (by omega), if_neg (by omega)]
        omega

theorem bucket_index_lt (hash : Nat) : bucket_index hash < HASH_TABLE_SIZE :=
  Nat.mod_lt _ (by decide)

theorem count_update (table : hash_table_t) (hash : Nat) (b : List hash_record_t) :
    hash_table_count { buckets := Function.update table.buckets (bucket_index hash) b } +
        (table.buckets (bucket_index hash)).length =
      hash_table_count table + b.length := by
  have h := sum_range_update table.buckets (bucket_index hash) b HASH_TABLE_SIZE
  rw [if_pos (bucket_index_lt hash), if_pos (bucket_index_lt hash)] at h
  exact h

theorem mem_records (table : hash_table_t) (r : hash_record_t) :
    r ∈ hash_table_records table ↔ ∃ i, i < HASH_TABLE_SIZE ∧ r ∈ table.buckets i := by
  simp only [hash_table_records, List.mem_flatMap, List.mem_range]

theorem length_records (table : hash_table_t) :
    (hash_table_records table).length = hash_table_count table := by
  unfold hash_table_records hash_table_count
  induction List.range HASH_TABLE_SIZE with
  | nil => rfl
  | cons i l ih => simp only [List.flatMap_cons, List.length_append, List.map_cons,
      List.sum_cons, ih]

/-! ## The store operations on a chain that holds the name, or does not -/

theorem insert_found (table : hash_table_t) (name : List Nat) (salary : Nat)
    (calloc_ok : Bool) (l1 l2 : List hash_record_t) (cur : hash_record_t)
    (hsplit : name_chain table name = l1 ++ cur :: l2)
    (h1 : ∀ r ∈ l1, r.name ≠ name) (hcur : cur.name = name) :
    hash_table_insert table name salary calloc_ok =
      { status := HASH_UPDATED
        table := { buckets := (Function.update table.buckets
          (bucket_index (jenkins_one_at_a_time_hash name))
          (l1 ++ { cur with salary := salary } :: l2)) }
        out_record := some cur
        out_previous_salary := some cur.salary } := by
  unfold name_chain at hsplit
  unfold hash_table_insert
  simp only [hsplit, insert_chain_found name salary l1 l2 cur h1 hcur]

theorem insert_fresh (table : hash_table_t) (name : List Nat) (salary : Nat)
    (hnone : ∀ r ∈ name_chain table name, r.name ≠ name) :
    hash_table_insert table name salary true =
      { status := HASH_INSERTED
        table := { buckets := (Function.update table.buckets
          (bucket_index (jenkins_one_at_a_time_hash name))
          ({ hash := jenkins_one_at_a_time_hash name
             name := name.take (HASH_NAME_MAX - 1)
             salary := salary } :: name_chain table name)) }
        out_record := some { hash := jenkins_one_at_a_time_hash name
                             name := name.take (HASH_NAME_MAX - 1)
                             salary := salary }
        out_previous_salary := some 0 } := by
  unfold name_chain at hnone ⊢
  unfold hash_table_insert
  simp only [insert_chain_none name salary _ hnone, if_true]

theorem insert_failed (table : hash_table_t) (name : List Nat) (salary : Nat)
    (hnone : ∀ r ∈ name_chain table name, r.name ≠ name) :
    hash_table_insert table name salary false =
      { status := HASH_NOOP, table := table, out_record := none,
        out_previous_salary := none } := by
  unfold name_chain at hnone
  unfold hash_table_insert
  simp only [insert_chain_none name salary _ hnone, Bool.false_eq_true, if_false]

theorem update_found (table : hash_table_t) (name : List Nat) (salary : Nat)
    (l1 l2 : List hash_record_t) (cur : hash_record_t)
    (hsplit : name_chain table name = l1 ++ cur :: l2)
    (h1 : ∀ r ∈ l1, r.name ≠ name) (hcur : cur.name = name) :
    hash_table_update table name salary =
      { ret := 1
        table := { buckets := (Function.update table.buckets
          (bucket_index (jenkins_one_at_a_time_hash name))
          (l1 ++ { cur with salary := salary, hash := jenkins_one_at_a_time_hash name } :: l2)) }
        out_record :=
          some { cur with salary := salary, hash := jenkins_one_at_a_time_hash name }
        out_previous_salary := some cur.salary } := by
  unfold name_chain at hsplit
  unfold hash_table_update
  simp only [hsplit, update_chain_found name salary _ l1 l2 cur h1 hcur]

theorem update_missing (table : hash_table_t) (name : List Nat) (salary : Nat)
    (hnone : ∀ r ∈ name_chain table name, r.name ≠ name) :
    hash_table_update table name salary =
      { ret := 0, table := table, out_record := none, out_previous_salary := none } := by
  unfold name_chain at hnone
  unfold hash_table_update
  simp only [update_chain_none name salary _ _ hnone]

theorem delete_found (table : hash_table_t) (name : List Nat)
    (l1 l2 : List hash_record_t) (cur : hash_record_t)
    (hsplit : name_chain table name = l1 ++ cur :: l2)
    (h1 : ∀ r ∈ l1, r.name ≠ name) (hcur : cur.name = name) :
    hash_table_delete table name =
      { ret := 1
        table := { buckets := (Function.update table.buckets
          (bucket_index (jenkins_one_at_a_time_hash name))
          (l1 ++ l2)) }
        out_record := some cur } := by
  unfold name_chain at hsplit
  unfold hash_table_delete
  simp only [hsplit, delete_chain_found name l1 l2 cur h1 hcur]

theorem delete_missing (table : hash_table_t) (name : List Nat)
    (hnone : ∀ r ∈ name_chain table name, r.name ≠ name) :
    hash_table_delete table name = { ret := 0, table := table, out_record := none } := by
  unfold name_chain at hnone
  unfold hash_table_delete
  simp only [delete_chain_none name _ hnone]

theorem search_found (table : hash_table_t) (name : List Nat)
    (l1 l2 : List hash_record_t) (cur : hash_record_t)
    (hsplit : name_chain table name = l1 ++ cur :: l2)
    (h1 : ∀ r ∈ l1, r.name ≠ name) (hcur : cur.name = name) :
    hash_table_search table name = (1, some cur) := by
  unfold name_chain at hsplit
  unfold hash_table_search
  simp only [hsplit, search_chain_found name l1 l2 cur h1 hcur]

theorem search_missing (table : hash_table_t) (name : List Nat)
    (hnone : ∀ r ∈ name_chain table name, r.name ≠ name) :
    hash_table_search table name = (0, none) := by
  unfold name_chain at hnone
  unfold hash_table_search
  simp only [search_chain_none name _ hnone]

theorem buckets_update_ne (f : Nat → List hash_record_t) (a i : Nat)
    (b : List hash_record_t) (hi : i ≠ a) :
    ({ buckets := Function.update f a b } : hash_table_t).buckets i = f i :=
  Function.update_noteq hi _ _

theorem count_update_found (table : hash_table_t) (hash : Nat) (l1 l2 : List hash_record_t)
    (cur new : hash_record_t) (hsplit : table.buckets (bucket_index hash) = l1 ++ cur :: l2) :
    hash_table_count
        { buckets := Function.update table.buckets (bucket_index hash) (l1 ++ new :: l2) } =
      hash_table_count table := by
  have h := count_update table hash (l1 ++ new :: l2)
  rw [hsplit] at h
  simp only [List.length_append, List.length_cons] at h
  omega

theorem count_update_cons (table : hash_table_t) (hash : Nat) (new : hash_record_t) :
    hash_table_count
        { buckets := Function.update table.buckets (bucket_index hash)
            (new :: table.buckets (bucket_index hash)) } =
      hash_table_count table + 1 := by
  have h := count_update table hash (new :: table.buckets (bucket_index hash))
  simp only [List.length_cons] at h
  omega

theorem count_update_erase (table : hash_table_t) (hash : Nat) (l1 l2 : List hash_record_t)
    (cur : hash_record_t) (hsplit : table.buckets (bucket_index hash) = l1 ++ cur :: l2) :
    hash_table_count
        { buckets := Function.update table.buckets (bucket_index hash) (l1 ++ l2) } + 1 =
      hash_table_count table := by
  have h := count_update table hash (l1 ++ l2)
  rw [hsplit] at h
  simp only [List.length_append, List.length_cons] at h
  omega

theorem name_chain_update (table : hash_table_t) (name : List Nat)
    (b : List hash_record_t) :
    name_chain { buckets := (Function.update table.buckets
      (bucket_index (jenkins_one_at_a_time_hash name)) b) } name = b := by
  unfold name_chain
  simp only [Function.update_same]

theorem name_chain_subset (table : hash_table_t) (name : List Nat) (r : hash_record_t)
    (hr : r ∈ name_chain table name) : r ∈ hash_table_records table :=
  (mem_records table r).mpr ⟨_, bucket_index_lt _, hr⟩

theorem take_short (name : List Nat) (h : name.length < HASH_NAME_MAX) :
    name.take (HASH_NAME_MAX - 1) = name := by
  apply List.take_of_length_le
  simp only [HASH_NAME_MAX] at h ⊢
  omega

/-! ## Claims: the store, one call at a time -/

set_option maxRecDepth 100000 in
/-- C13 as stated fails: on the empty store, `hash_table_insert` of a name of 64
bytes returns HASH_INSERTED (line 51 stores only the first 63 bytes), and the
`hash_table_search` of the same name that follows compares the stored 63 bytes
with the 64 bytes of the name and returns 0. -/
theorem insert_then_search_long_name :
    long_name.length = 64 ∧
      (hash_table_insert hash_table_init long_name 1 true).status = HASH_INSERTED ∧
      hash_table_search (hash_table_insert hash_table_init long_name 1 true).table
        long_name = (0, none) := by
  decide

/-- C13 (amended): for every store, every name shorter than 64 bytes and every
value v, if `hash_table_insert(name, v)` returns HASH_INSERTED or HASH_UPDATED
then an immediately following `hash_table_search(name)` returns found with a
record of that name whose salary is v. -/
theorem insert_then_search (table : hash_table_t) (name : List Nat) (salary : Nat)
    (calloc_ok : Bool) (hshort : name.length < HASH_NAME_MAX)
    (hstatus : (hash_table_insert table name salary calloc_ok).status = HASH_INSERTED ∨
      (hash_table_insert table name salary calloc_ok).status = HASH_UPDATED) :
    ∃ r, hash_table_search (hash_table_insert table name salary calloc_ok).table name =
        (1, some r) ∧ r.salary = salary ∧ r.name = name := by
  rcases chain_split name (name_chain table name) with hnone | ⟨l1, cur, l2, hsplit, h1, hcur⟩
  · cases calloc_ok with
    | false =>
      rw [insert_failed table name salary hnone] at hstatus
      rcases hstatus with h | h <;> exact absurd h (by simp)
    | true =>
      rw [insert_fresh table name salary hnone]
      refine ⟨{ hash := jenkins_one_at_a_time_hash name
                name := name.take (HASH_NAME_MAX - 1)
                salary := salary },
        search_found _ name [] (name_chain table name) _ ?_ (by simp) ?_, rfl, ?_⟩
      · rw [name_chain_update]
        rfl
      · exact take_short name hshort
      · exact take_short name hshort
  · rw [insert_found table name salary calloc_ok l1 l2 cur hsplit h1 hcur]
    refine ⟨{ cur with salary := salary }, search_found _ name l1 l2 _ ?_ h1 ?_, rfl, hcur⟩
    · rw [name_chain_update]
    · exact hcur

theorem insert_then_search_witness :
    alice.length < HASH_NAME_MAX ∧
      (hash_table_insert sample_table alice 150 true).status = HASH_UPDATED ∧
      ∃ r, hash_table_search (hash_table_insert sample_table alice 150 true).table alice =
        (1, some r) ∧ r.salary = 150 ∧ r.name = alice :=
  ⟨by decide, by decide,
    insert_then_search sample_table alice 150 true (by decide) (Or.inr (by decide))⟩

/-- C15: the code at the failing input.  On the store that holds "alice" with
the salary 100, `hash_table_insert("alice", 150)` returns HASH_UPDATED and sets
`*out_previous_salary` to 100, but the record it writes to `*out_record` is the
copy taken at line 34, before line 39 assigns the new salary: it carries 100,
not 150, while the stored record carries 150 afterwards. -/
theorem insert_update_reports_old_salary :
    (hash_table_insert sample_table alice 150 true).status = HASH_UPDATED ∧
      (hash_table_insert sample_table alice 150 true).out_previous_salary = some 100 ∧
      (hash_table_insert sample_table alice 150 true).out_record =
        some { hash := jenkins_one_at_a_time_hash alice, name := alice, salary := 100 } ∧
      hash_table_search (hash_table_insert sample_table alice 150 true).table alice =
        (1, some { hash := jenkins_one_at_a_time_hash alice, name := alice, salary := 150 }) ∧
      (hash_table_update sample_table alice 150).out_record =
        some { hash := jenkins_one_at_a_time_hash alice, name := alice, salary := 150 } := by
  decide

/-- Whenever `hash_table_insert` returns HASH_UPDATED, the salary of the record
written to `*out_record` is the value written to `*out_previous_salary`. -/
theorem insert_updated_out_record (table : hash_table_t) (name : List Nat) (salary : Nat)
    (calloc_ok : Bool)
    (hstatus : (hash_table_insert table name salary calloc_ok).status = HASH_UPDATED) :
    ∃ cur, (hash_table_insert table name salary calloc_ok).out_record = some cur ∧
      (hash_table_insert table name salary calloc_ok).out_previous_salary =
        some cur.salary ∧
      cur ∈ name_chain table name := by
  rcases chain_split name (name_chain table name) with hnone | ⟨l1, cur, l2, hsplit, h1, hcur⟩
  · cases calloc_ok with
    | false =>
      rw [insert_failed table name salary hnone] at hstatus
      exact absurd hstatus (by simp)
    | true =>
      rw [insert_fresh table name salary hnone] at hstatus
      exact absurd hstatus (by simp)
  · rw [insert_found table name salary calloc_ok l1 l2 cur hsplit h1 hcur]
    refine ⟨cur, rfl, rfl, ?_⟩
    rw [hsplit]
    simp

/-- C16: `hash_table_insert(name, v)` on a store holding no record for the
name, the allocation succeeding, returns HASH_INSERTED, reports a record with
hash `jenkins_one_at_a_time_hash(name)`, the first 63 bytes of the name (the
whole name when it is shorter) and salary v, sets `*out_previous_salary` to 0,
and increases the number of records by exactly one: the new record is put at
the head of the chain of the name, whose other records, like all other
buckets, are unchanged. -/
theorem insert_absent_adds_record (table : hash_table_t) (name : List Nat) (salary : Nat)
    (habsent : ∀ r ∈ hash_table_records table, r.name ≠ name) :
    (hash_table_insert table name salary true).status = HASH_INSERTED ∧
      (hash_table_insert table name salary true).out_record =
        some { hash := jenkins_one_at_a_time_hash name
               name := name.take (HASH_NAME_MAX - 1)
               salary := salary } ∧
      (name.take (HASH_NAME_MAX - 1)).length ≤ 63 ∧
      (name.length < HASH_NAME_MAX → name.take (HASH_NAME_MAX - 1) = name) ∧
      (hash_table_insert table name salary true).out_previous_salary = some 0 ∧
      hash_table_count (hash_table_insert table name salary true).table =
        hash_table_count table + 1 ∧
      name_chain (hash_table_insert table name salary true).table name =
        { hash := jenkins_one_at_a_time_hash name
          name := name.take (HASH_NAME_MAX - 1)
          salary := salary } :: name_chain table name ∧
      (∀ i, i ≠ bucket_index (jenkins_one_at_a_time_hash name) →
        (hash_table_insert table name salary true).table.buckets i = table.buckets i) := by
  have hnone : ∀ r ∈ name_chain table name, r.name ≠ name :=
    fun r hr => habsent r (name_chain_subset table name r hr)
  rw [insert_fresh table name salary hnone]
  refine ⟨rfl, rfl, ?_, take_short name, rfl, ?_, name_chain_update _ _ _, ?_⟩
  · rw [List.length_take]
    simp only [HASH_NAME_MAX]
    omega
  · exact count_update_cons table _ _
  · intro i hi
    exact buckets_update_ne _ _ _ _ hi

theorem sample_table_chain :
    name_chain sample_table alice =
      [{ hash := jenkins_one_at_a_time_hash alice, name := alice, salary := 100 }] := by
  decide

theorem sample_table_holds_alice : ∃ r ∈ name_chain sample_table alice, r.name = alice :=
  ⟨{ hash := jenkins_one_at_a_time_hash alice, name := alice, salary := 100 },
    by rw [sample_table_chain]; exact List.mem_singleton_self _, rfl⟩

theorem insert_absent_adds_record_witness :
    (∀ r ∈ hash_table_records hash_table_init, r.name ≠ alice) ∧
      (hash_table_insert hash_table_init alice 100 true).status = HASH_INSERTED ∧
      (hash_table_insert hash_table_init alice 100 true).out_record =
        some { hash := jenkins_one_at_a_time_hash alice
               name := alice.take (HASH_NAME_MAX - 1)
               salary := 100 } ∧
      (hash_table_insert hash_table_init alice 100 true).out_previous_salary = some 0 ∧
      hash_table_count (hash_table_insert hash_table_init alice 100 true).table =
        hash_table_count hash_table_init + 1 :=
  have habsent : ∀ r ∈ hash_table_records hash_table_init, r.name ≠ alice := by
    intro r hr
    obtain ⟨i, _, hi⟩ := (mem_records _ r).mp hr
    exact absurd hi (List.not_mem_nil r)
  have h := insert_absent_adds_record hash_table_init alice 100 habsent
  ⟨habsent, h.1, h.2.1, h.2.2.2.2.1, h.2.2.2.2.2.1⟩

/-- C19: for every store and every name that has no record, `hash_table_delete`,
`hash_table_update` and `hash_table_search` each return 0 and leave the store
unchanged, so the snapshot taken after a failed delete equals the snapshot
taken before it, and a second delete fails the same way. -/
theorem missing_name_is_not_found (table : hash_table_t) (name : List Nat) (salary : Nat)
    (habsent : ∀ r ∈ hash_table_records table, r.name ≠ name) :
    hash_table_delete table name = { ret := 0, table := table, out_record := none } ∧
      hash_table_update table name salary =
        { ret := 0, table := table, out_record := none, out_previous_salary := none } ∧
      hash_table_search table name = (0, none) ∧
      (∀ calloc_ok, hash_table_snapshot (hash_table_delete table name).table calloc_ok =
        hash_table_snapshot table calloc_ok) ∧
      hash_table_delete (hash_table_delete table name).table name =
        hash_table_delete table name := by
  have hnone : ∀ r ∈ name_chain table name, r.name ≠ name :=
    fun r hr => habsent r (name_chain_subset table name r hr)
  have hdel := delete_missing table name hnone
  refine ⟨hdel, update_missing table name salary hnone, search_missing table name hnone, ?_, ?_⟩
  · intro calloc_ok
    rw [hdel]
  · rw [hdel]
    exact hdel

set_option maxRecDepth 100000 in
theorem sample_table_records :
    hash_table_records sample_table =
      [{ hash := jenkins_one_at_a_time_hash alice, name := alice, salary := 100 }] := by
  decide

theorem sample_table_lacks_bob : ∀ r ∈ hash_table_records sample_table, r.name ≠ bob := by
  intro r hr
  rw [sample_table_records, List.mem_singleton] at hr
  rw [hr]
  decide

theorem missing_name_is_not_found_witness :
    (∀ r ∈ hash_table_records sample_table, r.name ≠ bob) ∧
      hash_table_delete sample_table bob =
        { ret := 0, table := sample_table, out_record := none } ∧
      hash_table_update sample_table bob 7 =
        { ret := 0, table := sample_table, out_record := none,
          out_previous_salary := none } ∧
      hash_table_search sample_table bob = (0, none) ∧
      (∀ calloc_ok, hash_table_snapshot (hash_table_delete sample_table bob).table calloc_ok =
        hash_table_snapshot sample_table calloc_ok) ∧
      hash_table_delete (hash_table_delete sample_table bob).table bob =
        hash_table_delete sample_table bob :=
  ⟨sample_table_lacks_bob, missing_name_is_not_found sample_table bob 7 sample_table_lacks_bob⟩

/-! ## Tables built with short names -/

theorem table_inv_init : table_inv hash_table_init := by
  constructor
  · intro i r hr; exact absurd hr (List.not_mem_nil r)
  · intro i r hr; exact absurd hr (List.not_mem_nil r)
  · intro i r hr; exact absurd hr (List.not_mem_nil r)
  · intro i; exact List.nodup_nil

/-- Replacing the chain of one bucket by a chain that is in order keeps the
table in order. -/
theorem table_inv_update (table : hash_table_t) (a : Nat) (b : List hash_record_t)
    (hinv : table_inv table)
    (hplaced : ∀ r ∈ b, bucket_index (jenkins_one_at_a_time_hash r.name) = a)
    (hhashed : ∀ r ∈ b, r.hash = jenkins_one_at_a_time_hash r.name)
    (hshort : ∀ r ∈ b, r.name.length < HASH_NAME_MAX)
    (hunique : (b.map hash_record_t.name).Nodup) :
    table_inv { buckets := Function.update table.buckets a b } := by
  have hcase : ∀ i,
      ({ buckets := Function.update table.buckets a b } : hash_table_t).buckets i = b ∧ i = a ∨
      ({ buckets := Function.update table.buckets a b } : hash_table_t).buckets i =
        table.buckets i := by
    intro i
    by_cases hi : i = a
    · left
      subst hi
      exact ⟨Function.update_same _ _ _, rfl⟩
    · right
      exact Function.update_noteq hi _ _
  constructor
  · intro i r hr
    rcases hcase i with ⟨h, hi⟩ | h
    · rw [h] at hr; rw [hi]; exact hplaced r hr
    · rw [h] at hr; exact hinv.placed i r hr
  · intro i r hr
    rcases hcase i with ⟨h, _⟩ | h
    · rw [h] at hr; exact hhashed r hr
    · rw [h] at hr; exact hinv.hashed i r hr
  · intro i r hr
    rcases hcase i with ⟨h, _⟩ | h
    · rw [h] at hr; exact hshort r hr
    · rw [h] at hr; exact hinv.short i r hr
  · intro i
    rcases hcase i with ⟨h, _⟩ | h
    · rw [h]; exact hunique
    · rw [h]; exact hinv.unique i

theorem insert_preserves_inv (table : hash_table_t) (name : List Nat) (salary : Nat)
    (calloc_ok : Bool) (hinv : table_inv table) (hshort : name.length < HASH_NAME_MAX) :
    table_inv (hash_table_insert table name salary calloc_ok).table := by
  have hidx := hinv.placed (bucket_index (jenkins_one_at_a_time_hash name))
  have hhash := hinv.hashed (bucket_index (jenkins_one_at_a_time_hash name))
  have hlen := hinv.short (bucket_index (jenkins_one_at_a_time_hash name))
  have hnd := hinv.unique (bucket_index (jenkins_one_at_a_time_hash name))
  rcases chain_split name (name_chain table name) with hnone | ⟨l1, cur, l2, hsplit, h1, hcur⟩
  · cases calloc_ok with
    | false =>
      rw [insert_failed table name salary hnone]
      exact hinv
    | true =>
      rw [insert_fresh table name salary hnone, take_short name hshort]
      unfold name_chain at hnone ⊢
      refine table_inv_update table _ _ hinv ?_ ?_ ?_ ?_
      · intro r hr
        rcases List.mem_cons.mp hr with h | h
        · rw [h]
        · exact hidx r h
      · intro r hr
        rcases List.mem_cons.mp hr with h | h
        · rw [h]
        · exact hhash r h
      · intro r hr
        rcases List.mem_cons.mp hr with h | h
        · rw [h]; exact hshort
        · exact hlen r h
      · rw [List.map_cons, List.nodup_cons]
        refine ⟨?_, hnd⟩
        intro hmem
        obtain ⟨r, hr, hrn⟩ := List.mem_map.mp hmem
        exact hnone r hr hrn
  · rw [insert_found table name salary calloc_ok l1 l2 cur hsplit h1 hcur]
    unfold name_chain at hsplit
    rw [hsplit] at hidx hhash hlen hnd
    refine table_inv_update table _ _ hinv ?_ ?_ ?_ ?_
    · intro r hr
      rcases List.mem_append.mp hr with h | h
      · exact hidx r (List.mem_append_left _ h)
      · rcases List.mem_cons.mp h with h | h
        · rw [h]
          exact hidx cur (List.mem_append_right _ (List.mem_cons_self _ _))
        · exact hidx r (List.mem_append_right _ (List.mem_cons_of_mem _ h))
    · intro r hr
      rcases List.mem_append.mp hr with h | h
      · exact hhash r (List.mem_append_left _ h)
      · rcases List.mem_cons.mp h with h | h
        · rw [h]
          exact hhash cur (List.mem_append_right _ (List.mem_cons_self _ _))
        · exact hhash r (List.mem_append_right _ (List.mem_cons_of_mem _ h))
    · intro r hr
      rcases List.mem_append.mp hr with h | h
      · exact hlen r (List.mem_append_left _ h)
      · rcases List.mem_cons.mp h with h | h
        · rw [h]
          exact hlen cur (List.mem_append_right _ (List.mem_cons_self _ _))
        · exact hlen r (List.mem_append_right _ (List.mem_cons_of_mem _ h))
    · simpa only [List.map_append, List.map_cons] using hnd

theorem update_preserves_inv (table : hash_table_t) (name : List Nat) (salary : Nat)
    (hinv : table_inv table) : table_inv (hash_table_update table name salary).table := by
  have hidx := hinv.placed (bucket_index (jenkins_one_at_a_time_hash name))
  have hhash := hinv.hashed (bucket_index (jenkins_one_at_a_time_hash name))
  have hlen := hinv.short (bucket_index (jenkins_one_at_a_time_hash name))
  have hnd := hinv.unique (bucket_index (jenkins_one_at_a_time_hash name))
  rcases chain_split name (name_chain table name) with hnone | ⟨l1, cur, l2, hsplit, h1, hcur⟩
  · rw [update_missing table name salary hnone]
    exact hinv
  · rw [update_found table name salary l1 l2 cur hsplit h1 hcur]
    unfold name_chain at hsplit
    rw [hsplit] at hidx hhash hlen hnd
    refine table_inv_update table _ _ hinv ?_ ?_ ?_ ?_
    · intro r hr
      rcases List.mem_append.mp hr with h | h
      · exact hidx r (List.mem_append_left _ h)
      · rcases List.mem_cons.mp h with h | h
        · rw [h]
          exact hidx cur (List.mem_append_right _ (List.mem_cons_self _ _))
        · exact hidx r (List.mem_append_right _ (List.mem_cons_of_mem _ h))
    · intro r hr
      rcases List.mem_append.mp hr with h | h
      · exact hhash r (List.mem_append_left _ h)
      · rcases List.mem_cons.mp h with h | h
        · rw [h, hcur]
        · exact hhash r (List.mem_append_right _ (List.mem_cons_of_mem _ h))
    · intro r hr
      rcases List.mem_append.mp hr with h | h
      · exact hlen r (List.mem_append_left _ h)
      · rcases List.mem_cons.mp h with h | h
        · rw [h]
          exact hlen cur (List.mem_append_right _ (List.mem_cons_self _ _))
        · exact hlen r (List.mem_append_right _ (List.mem_cons_of_mem _ h))
    · simpa only [List.map_append, List.map_cons] using hnd

theorem delete_preserves_inv (table : hash_table_t) (name : List Nat)
    (hinv : table_inv table) : table_inv (hash_table_delete table name).table := by
  have hidx := hinv.placed (bucket_index (jenkins_one_at_a_time_hash name))
  have hhash := hinv.hashed (bucket_index (jenkins_one_at_a_time_hash name))
  have hlen := hinv.short (bucket_index (jenkins_one_at_a_time_hash name))
  have hnd := hinv.unique (bucket_index (jenkins_one_at_a_time_hash name))
  rcases chain_split name (name_chain table name) with hnone | ⟨l1, cur, l2, hsplit, h1, hcur⟩
  · rw [delete_missing table name hnone]
    exact hinv
  · rw [delete_found table name l1 l2 cur hsplit h1 hcur]
    unfold name_chain at hsplit
    rw [hsplit] at hidx hhash hlen hnd
    have hsub : ∀ r ∈ l1 ++ l2, r ∈ l1 ++ cur :: l2 := by
      intro r hr
      rcases List.mem_append.mp hr with h | h
      · exact List.mem_append_left _ h
      · exact List.mem_append_right _ (List.mem_cons_of_mem _ h)
    refine table_inv_update table _ _ hinv (fun r hr => hidx r (hsub r hr))
      (fun r hr => hhash r (hsub r hr)) (fun r hr => hlen r (hsub r hr)) ?_
    rw [List.map_append, List.map_cons] at hnd
    rw [List.map_append]
    exact hnd.sublist (List.Sublist.append_left (List.sublist_cons_self _ _) _)

theorem build_table_inv (ops : List store_op)
    (hshort : ∀ op ∈ ops, op.name.length < HASH_NAME_MAX) : table_inv (build_table ops) := by
  unfold build_table
  have key : ∀ (ops : List store_op) (table : hash_table_t), table_inv table →
      (∀ op ∈ ops, op.name.length < HASH_NAME_MAX) → table_inv (ops.foldl apply_op table) := by
    intro ops
    induction ops with
    | nil => intro table h _; exact h
    | cons op ops ih =>
      intro table h hs
      refine ih _ ?_ (fun o ho => hs o (List.mem_cons_of_mem _ ho))
      have hop := hs op (List.mem_cons_self _ _)
      cases op with
      | insert name salary calloc_ok => exact insert_preserves_inv table name salary calloc_ok h hop
      | update name salary => exact update_preserves_inv table name salary h
      | delete name => exact delete_preserves_inv table name h
  exact key ops _ table_inv_init hshort

theorem reachable_table_inv (table : hash_table_t) (hr : reachable_table table) :
    table_inv table := by
  obtain ⟨ops, hshort, rfl⟩ := hr
  exact build_table_inv ops hshort

/-! ## Claims: deleting a record -/

theorem mem_records_update (table : hash_table_t) (hash : Nat) (b : List hash_record_t)
    (r : hash_record_t) :
    r ∈ hash_table_records { buckets := Function.update table.buckets (bucket_index hash) b } ↔
      r ∈ b ∨ ∃ i, i < HASH_TABLE_SIZE ∧ i ≠ bucket_index hash ∧ r ∈ table.buckets i := by
  rw [mem_records]
  constructor
  · rintro ⟨i, hi, hr⟩
    by_cases hia : i = bucket_index hash
    · left
      subst hia
      have h : ({ buckets := Function.update table.buckets (bucket_index hash) b } :
          hash_table_t).buckets (bucket_index hash) = b := Function.update_same _ _ _
      rw [h] at hr
      exact hr
    · right
      rw [buckets_update_ne _ _ _ _ hia] at hr
      exact ⟨i, hi, hia, hr⟩
  · rintro (hr | ⟨i, hi, hia, hr⟩)
    · refine ⟨bucket_index hash, bucket_index_lt hash, ?_⟩
      have h : ({ buckets := Function.update table.buckets (bucket_index hash) b } :
          hash_table_t).buckets (bucket_index hash) = b := Function.update_same _ _ _
      rw [h]
      exact hr
    · refine ⟨i, hi, ?_⟩
      rw [buckets_update_ne _ _ _ _ hia]
      exact hr

/-- In a table that is in order, a record of the name lies in the chain where
the store looks the name up. -/
theorem present_in_name_chain (table : hash_table_t) (name : List Nat) (r : hash_record_t)
    (hinv : table_inv table) (hr : r ∈ hash_table_records table) (hname : r.name = name) :
    r ∈ name_chain table name := by
  obtain ⟨i, _, hi⟩ := (mem_records table r).mp hr
  have hp := hinv.placed i r hi
  unfold name_chain
  rw [← hname, hp]
  exact hi

/-- C18: for every store built from the empty store by insert, update and
delete with names shorter than 64 bytes, `hash_table_delete(name)` on a present
name returns 1 and a copy of the removed record as stored, after which
`hash_table_search(name)` returns not-found and no record of the name is left,
the number of records has decreased by exactly one, and every record of
another name is unchanged: the chain of the name keeps its other records in
order and the other buckets are untouched. -/
theorem delete_present_record (table : hash_table_t) (name : List Nat)
    (hr : reachable_table table)
    (hpresent : ∃ r ∈ hash_table_records table, r.name = name) :
    ∃ l1 cur l2, name_chain table name = l1 ++ cur :: l2 ∧ cur.name = name ∧
      cur ∈ hash_table_records table ∧
      (hash_table_delete table name).ret = 1 ∧
      (hash_table_delete table name).out_record = some cur ∧
      hash_table_search (hash_table_delete table name).table name = (0, none) ∧
      (∀ r ∈ hash_table_records (hash_table_delete table name).table, r.name ≠ name) ∧
      hash_table_count (hash_table_delete table name).table + 1 = hash_table_count table ∧
      name_chain (hash_table_delete table name).table name = l1 ++ l2 ∧
      (∀ i, i ≠ bucket_index (jenkins_one_at_a_time_hash name) →
        (hash_table_delete table name).table.buckets i = table.buckets i) ∧
      (∀ r, r.name ≠ name →
        (r ∈ hash_table_records (hash_table_delete table name).table ↔
          r ∈ hash_table_records table)) := by
  have hinv := reachable_table_inv table hr
  have hinv' := delete_preserves_inv table name hinv
  obtain ⟨r0, hr0, hr0n⟩ := hpresent
  have hin := present_in_name_chain table name r0 hinv hr0 hr0n
  rcases chain_split name (name_chain table name) with hnone | ⟨l1, cur, l2, hsplit, h1, hcur⟩
  · exact absurd hr0n (hnone r0 hin)
  · have hnd := hinv.unique (bucket_index (jenkins_one_at_a_time_hash name))
    have hsplit' := hsplit
    unfold name_chain at hsplit'
    rw [hsplit', List.map_append, List.map_cons] at hnd
    have h2 : ∀ r ∈ l2, r.name ≠ name := by
      intro r hr2 hrn
      have hcons := (List.nodup_append.mp hnd).2.1
      rw [List.nodup_cons] at hcons
      apply hcons.1
      rw [hcur, ← hrn]
      exact List.mem_map_of_mem _ hr2
    have h12 : ∀ r ∈ l1 ++ l2, r.name ≠ name := by
      intro r hr12
      rcases List.mem_append.mp hr12 with h | h
      · exact h1 r h
      · exact h2 r h
    have hcurmem : cur ∈ hash_table_records table := by
      apply name_chain_subset table name
      rw [hsplit]
      exact List.mem_append_right _ (List.mem_cons_self _ _)
    refine ⟨l1, cur, l2, hsplit, hcur, hcurmem, ?_⟩
    rw [delete_found table name l1 l2 cur hsplit h1 hcur] at hinv' ⊢
    refine ⟨rfl, rfl, ?_, ?_, ?_, name_chain_update _ _ _, ?_, ?_⟩
    · apply search_missing
      rw [name_chain_update]
      exact h12
    · intro r hrm hrn
      obtain ⟨i, _, hi⟩ := (mem_records _ r).mp hrm
      have hp := hinv'.placed i r hi
      rw [hrn] at hp
      rw [← hp] at hi
      have hch := name_chain_update table name (l1 ++ l2)
      unfold name_chain at hch
      rw [hch] at hi
      exact h12 r hi hrn
    · exact count_update_erase table _ l1 l2 cur hsplit'
    · intro i hi
      exact buckets_update_ne _ _ _ _ hi
    · intro r hrn
      rw [mem_records_update, mem_records]
      constructor
      · rintro (h | ⟨i, hi, _, hri⟩)
        · refine ⟨bucket_index (jenkins_one_at_a_time_hash name), bucket_index_lt _, ?_⟩
          rw [hsplit']
          rcases List.mem_append.mp h with h | h
          · exact List.mem_append_left _ h
          · exact List.mem_append_right _ (List.mem_cons_of_mem _ h)
        · exact ⟨i, hi, hri⟩
      · rintro ⟨i, hi, hri⟩
        by_cases hia : i = bucket_index (jenkins_one_at_a_time_hash name)
        · left
          rw [hia, hsplit'] at hri
          rcases List.mem_append.mp hri with h | h
          · exact List.mem_append_left _ h
          · rcases List.mem_cons.mp h with h | h
            · rw [h] at hrn
              exact absurd hcur hrn
            · exact List.mem_append_right _ h
        · exact Or.inr ⟨i, hi, hia, hri⟩

theorem sample_table_reachable : reachable_table sample_table :=
  ⟨[store_op.insert alice 100 true], by
    intro op hop
    rw [List.mem_singleton] at hop
    rw [hop]
    decide, rfl⟩

theorem delete_present_record_witness :
    reachable_table sample_table ∧
      (∃ r ∈ hash_table_records sample_table, r.name = alice) ∧
      (hash_table_delete sample_table alice).ret = 1 ∧
      (hash_table_delete sample_table alice).out_record =
        some { hash := jenkins_one_at_a_time_hash alice, name := alice, salary := 100 } ∧
      ∃ l1 cur l2, name_chain sample_table alice = l1 ++ cur :: l2 ∧ cur.name = alice ∧
        cur ∈ hash_table_records sample_table ∧
        (hash_table_delete sample_table alice).ret = 1 ∧
        (hash_table_delete sample_table alice).out_record = some cur ∧
        hash_table_search (hash_table_delete sample_table alice).table alice = (0, none) ∧
        (∀ r ∈ hash_table_records (hash_table_delete sample_table alice).table,
          r.name ≠ alice) ∧
        hash_table_count (hash_table_delete sample_table alice).table + 1 =
          hash_table_count sample_table ∧
        name_chain (hash_table_delete sample_table alice).table alice = l1 ++ l2 ∧
        (∀ i, i ≠ bucket_index (jenkins_one_at_a_time_hash alice) →
          (hash_table_delete sample_table alice).table.buckets i =
            sample_table.buckets i) ∧
        (∀ r, r.name ≠ alice →
          (r ∈ hash_table_records (hash_table_delete sample_table alice).table ↔
            r ∈ hash_table_records sample_table)) :=
  have hpresent : ∃ r ∈ hash_table_records sample_table, r.name = alice :=
    ⟨{ hash := jenkins_one_at_a_time_hash alice, name := alice, salary := 100 },
      by rw [sample_table_records]; exact List.mem_singleton_self _, rfl⟩
  ⟨sample_table_reachable, hpresent, by decide, by decide,
    delete_present_record sample_table alice sample_table_reachable hpresent⟩

/-! ## The order of the snapshot -/

theorem strcmp_le_iff (s1 s2 : List Nat) : strcmp s1 s2 ≤ 0 ↔ bytes_le s1 s2 := by
  induction s1 generalizing s2 with
  | nil =>
    cases s2 with
    | nil => simp [strcmp, bytes_le]
    | cons b s2 => simp [strcmp, bytes_le]
  | cons a s1 ih =>
    cases s2 with
    | nil => simp [strcmp, bytes_le]
    | cons b s2 =>
      simp only [strcmp, bytes_le]
      split_ifs with h1 h2
      · constructor
        · intro _; exact Or.inl h1
        · intro _; decide
      · constructor
        · intro h; exact absurd h (by decide)
        · rintro (h | ⟨h, _⟩) <;> omega
      · rw [ih s2]
        constructor
        · intro h; exact Or.inr ⟨by omega, h⟩
        · rintro (h | ⟨_, h⟩)
          · omega
          · exact h

theorem bytes_le_total (s1 s2 : List Nat) : bytes_le s1 s2 ∨ bytes_le s2 s1 := by
  induction s1 generalizing s2 with
  | nil => left; simp [bytes_le]
  | cons a s1 ih =>
    cases s2 with
    | nil => right; simp [bytes_le]
    | cons b s2 =>
      simp only [bytes_le]
      rcases Nat.lt_trichotomy a b with h | h | h
      · exact Or.inl (Or.inl h)
      · rcases ih s2 with h2 | h2
        · exact Or.inl (Or.inr ⟨h, h2⟩)
        · exact Or.inr (Or.inr ⟨h.symm, h2⟩)
      · exact Or.inr (Or.inl h)

theorem bytes_le_trans (s1 s2 s3 : List Nat) (h12 : bytes_le s1 s2) (h23 : bytes_le s2 s3) :
    bytes_le s1 s3 := by
  induction s1 generalizing s2 s3 with
  | nil => simp [bytes_le]
  | cons a s1 ih =>
    cases s2 with
    | nil => simp [bytes_le] at h12
    | cons b s2 =>
      cases s3 with
      | nil => simp [bytes_le] at h23
      | cons c s3 =>
        simp only [bytes_le] at h12 h23 ⊢
        rcases h12 with h | ⟨h, h12'⟩
        · rcases h23 with h' | ⟨h', _⟩
          · exact Or.inl (by omega)
          · exact Or.inl (by omega)
        · rcases h23 with h' | ⟨h', h23'⟩
          · exact Or.inl (by omega)
          · exact Or.inr ⟨by omega, ih s2 s3 h12' h23'⟩

theorem compare_records_le_iff (ra rb : hash_record_t) :
    compare_records ra rb ≤ 0 ↔ record_order ra rb := by
  unfold compare_records record_order
  split_ifs with h1 h2
  · constructor
    · intro _; exact Or.inl h1
    · intro _; decide
  · constructor
    · intro h; exact absurd h (by decide)
    · rintro (h | ⟨h, _⟩) <;> omega
  · rw [strcmp_le_iff]
    constructor
    · intro h; exact Or.inr ⟨by omega, h⟩
    · rintro (h | ⟨_, h⟩)
      · omega
      · exact h

theorem record_order_total (ra rb : hash_record_t) :
    record_order ra rb ∨ record_order rb ra := by
  unfold record_order
  rcases Nat.lt_trichotomy ra.hash rb.hash with h | h | h
  · exact Or.inl (Or.inl h)
  · rcases bytes_le_total ra.name rb.name with h2 | h2
    · exact Or.inl (Or.inr ⟨h, h2⟩)
    · exact Or.inr (Or.inr ⟨h.symm, h2⟩)
  · exact Or.inr (Or.inl h)

theorem record_order_trans (ra rb rc : hash_record_t) (hab : record_order ra rb)
    (hbc : record_order rb rc) : record_order ra rc := by
  unfold record_order at hab hbc ⊢
  rcases hab with h | ⟨h, hab'⟩
  · rcases hbc with h' | ⟨h', _⟩
    · exact Or.inl (by omega)
    · exact Or.inl (by omega)
  · rcases hbc with h' | ⟨h', hbc'⟩
    · exact Or.inl (by omega)
    · exact Or.inr ⟨by omega, bytes_le_trans _ _ _ hab' hbc'⟩

theorem qsort_sorted (base : List hash_record_t) :
    List.Sorted record_order (qsort base compare_records) := by
  haveI : IsTotal hash_record_t (fun a b => compare_records a b ≤ 0) :=
    ⟨fun a b => by
      rw [compare_records_le_iff, compare_records_le_iff]
      exact record_order_total a b⟩
  haveI : IsTrans hash_record_t (fun a b => compare_records a b ≤ 0) :=
    ⟨fun a b c hab hbc => by
      rw [compare_records_le_iff] at hab hbc ⊢
      exact record_order_trans a b c hab hbc⟩
  have h := List.sorted_insertionSort (fun a b => compare_records a b ≤ 0) base
  unfold qsort
  exact List.Pairwise.imp (fun {a b} hab => (compare_records_le_iff a b).mp hab) h

/-- C20: for every store, the sequence returned by `hash_table_snapshot` is
sorted ascending by record hash (compared as unsigned 32-bit numbers), with ties
broken by name in the byte-lexicographic order of `strcmp`. -/
theorem snapshot_is_sorted (table : hash_table_t) (calloc_ok : Bool)
    (records : List hash_record_t) (count : Nat)
    (hsnap : hash_table_snapshot table calloc_ok = (some records, count)) :
    List.Sorted record_order records := by
  unfold hash_table_snapshot at hsnap
  simp only at hsnap
  split_ifs at hsnap with h1 h2
  · exact absurd (Prod.mk.inj hsnap).1 (by simp)
  · exact absurd (Prod.mk.inj hsnap).1 (by simp)
  · have h := Option.some.inj (Prod.mk.inj hsnap).1
    rw [← h]
    exact qsort_sorted _

set_option maxRecDepth 100000 in
theorem two_record_snapshot :
    hash_table_snapshot two_record_table true =
      (some [{ hash := 1031422857, name := alice, salary := 100 },
        { hash := 4065264892, name := bob, salary := 200 }], 2) := by
  decide

theorem snapshot_is_sorted_witness :
    hash_table_snapshot two_record_table true =
        (some [{ hash := 1031422857, name := alice, salary := 100 },
          { hash := 4065264892, name := bob, salary := 200 }], 2) ∧
      List.Sorted record_order
        [{ hash := 1031422857, name := alice, salary := 100 },
          { hash := 4065264892, name := bob, salary := 200 }] :=
  ⟨two_record_snapshot, snapshot_is_sorted two_record_table true _ 2 two_record_snapshot⟩

/-! ## Claims: the wake-all of `scheduler_finish_turn` and the worker -/

theorem finish_broadcasts_zero (s : scheduler_t) (i : Nat) (c : command_t)
    (hc : s.command_list[i]? = some c) (h : s.active_threads - 1 = 0) :
    (scheduler_finish_turn s i).broadcasts = s.broadcasts + 1 := by
  unfold scheduler_finish_turn
  rw [hc]
  simp only [pthread_cond_broadcast]
  split_ifs
  all_goals simp only at *
  all_goals first | rfl | omega

theorem finish_quiet_pos (s : scheduler_t) (i : Nat) (c : command_t)
    (hc : s.command_list[i]? = some c) (h : s.active_threads - 1 ≠ 0) :
    (scheduler_finish_turn s i).broadcasts = s.broadcasts ∧
      (scheduler_finish_turn s i).cond = s.cond := by
  have hpos : s.active_threads > 0 := by omega
  unfold scheduler_finish_turn
  rw [hc]
  simp only [hpos, if_true, h, if_false, and_self]

/-- C11 as stated fails: in the state where the two commands of priority 5 are
ACTIVE (`active_threads` is 2) and the command of priority 3 is WAITING,
blocked with no pending wake-up, `scheduler_finish_turn` of command 0 leaves
`active_threads` at 1 and makes no call of `pthread_cond_broadcast`: the count
of broadcasts stays 1 and no waiter is released. -/
theorem finish_turn_without_broadcast :
    sample_busy_state.active_threads = 2 ∧
      sample_busy_state.broadcasts = 1 ∧
      sample_busy_state.command_list.map command_t.state =
        [CMD_STATE_ACTIVE, CMD_STATE_ACTIVE, CMD_STATE_WAITING] ∧
      (scheduler_finish_turn sample_busy_state 0).active_threads = 1 ∧
      (scheduler_finish_turn sample_busy_state 0).broadcasts = 1 ∧
      (scheduler_finish_turn sample_busy_state 0).cond = [] := by
  decide

/-- C11 (amended): a call of `scheduler_finish_turn` with non-null arguments
issues a wake-all (`pthread_cond_broadcast`) exactly when `active_threads` is
zero after its decrement, and the wake-all then releases every WAITING command;
when `active_threads` stays positive it issues none and releases no waiter. -/
theorem finish_turn_broadcast (s : scheduler_t) (i : Nat) (c : command_t)
    (hc : s.command_list[i]? = some c) :
    ((scheduler_finish_turn s i).active_threads = 0 →
        (scheduler_finish_turn s i).broadcasts = s.broadcasts + 1 ∧
          ∀ j d, (scheduler_finish_turn s i).command_list[j]? = some d →
            d.state = CMD_STATE_WAITING → j ∈ (scheduler_finish_turn s i).cond) ∧
      ((scheduler_finish_turn s i).active_threads ≠ 0 →
        (scheduler_finish_turn s i).broadcasts = s.broadcasts ∧
          (scheduler_finish_turn s i).cond = s.cond) := by
  have hat := finish_active_threads s i c hc
  constructor
  · intro h0
    rw [hat] at h0
    refine ⟨finish_broadcasts_zero s i c hc h0, ?_⟩
    intro j d hd hw
    rw [finish_cond_zero s i j c hc h0]
    rw [finish_command_list s i c hc] at hd
    refine ⟨?_, d, hd, hw⟩
    intro hji
    subst hji
    rw [getElem?_set_self_some _ _ c _ hc] at hd
    have := Option.some.inj hd
    subst this
    exact absurd hw (by simp)
  · intro h0
    rw [hat] at h0
    exact finish_quiet_pos s i c hc h0

theorem finish_turn_broadcast_witness :
    sample_state.command_list[0]? =
        some { mk_command COMMAND_INSERT 5 with state := CMD_STATE_ACTIVE } ∧
      (scheduler_finish_turn sample_state 0).active_threads = 0 ∧
      (scheduler_finish_turn sample_state 0).broadcasts = sample_state.broadcasts + 1 ∧
      (∀ j d, (scheduler_finish_turn sample_state 0).command_list[j]? = some d →
        d.state = CMD_STATE_WAITING → j ∈ (scheduler_finish_turn sample_state 0).cond) ∧
      sample_busy_state.command_list[0]? =
        some { mk_command COMMAND_INSERT 5 with state := CMD_STATE_ACTIVE } ∧
      (scheduler_finish_turn sample_busy_state 0).active_threads ≠ 0 ∧
      (scheduler_finish_turn sample_busy_state 0).broadcasts = sample_busy_state.broadcasts ∧
      (scheduler_finish_turn sample_busy_state 0).cond = sample_busy_state.cond :=
  have h1 := finish_turn_broadcast sample_state 0
    { mk_command COMMAND_INSERT 5 with state := CMD_STATE_ACTIVE } (by decide)
  have h2 := finish_turn_broadcast sample_busy_state 0
    { mk_command COMMAND_INSERT 5 with state := CMD_STATE_ACTIVE } (by decide)
  ⟨by decide, by decide, (h1.1 (by decide)).1, (h1.1 (by decide)).2, by decide, by decide,
    (h2.2 (by decide)).1, (h2.2 (by decide)).2⟩

/-- C12: for every command of one of the five kinds the parser keeps, the calls
of `command_worker` other than logging calls are exactly, in this order:
`scheduler_wait_for_turn` (which returns when the command is admitted), the
acquisition of the table lock, the store operation of the command's kind, the
release of the lock, `scheduler_finish_turn`; and the lock is taken in reader
mode if and only if the command type is SEARCH or PRINT, in writer mode for
INSERT, UPDATE and DELETE. -/
theorem command_worker_sequence (command : command_t)
    (hknown : command.type ≠ COMMAND_UNKNOWN) :
    ∃ lock operation,
      (command_worker command).filter (fun e => !is_logging e) =
        [worker_event.scheduler_wait_for_turn, lock, operation,
          worker_event.pthread_rwlock_unlock, worker_event.scheduler_finish_turn] ∧
      (lock = worker_event.pthread_rwlock_rdlock ↔
        (command.type = COMMAND_SEARCH ∨ command.type = COMMAND_PRINT)) ∧
      (lock = worker_event.pthread_rwlock_wrlock ↔
        (command.type = COMMAND_INSERT ∨ command.type = COMMAND_UPDATE ∨
          command.type = COMMAND_DELETE)) ∧
      (command.type = COMMAND_INSERT → operation = worker_event.perform_insert) ∧
      (command.type = COMMAND_UPDATE → operation = worker_event.perform_update) ∧
      (command.type = COMMAND_DELETE → operation = worker_event.perform_delete) ∧
      (command.type = COMMAND_SEARCH → operation = worker_event.perform_search) ∧
      (command.type = COMMAND_PRINT → operation = worker_event.perform_print) := by
  cases ht : command.type with
  | COMMAND_INSERT =>
    exact ⟨worker_event.pthread_rwlock_wrlock, worker_event.perform_insert,
      by simp [command_worker, is_read_operation, is_logging, ht], by simp, by simp,
      by simp, by simp, by simp, by simp, by simp⟩
  | COMMAND_UPDATE =>
    exact ⟨worker_event.pthread_rwlock_wrlock, worker_event.perform_update,
      by simp [command_worker, is_read_operation, is_logging, ht], by simp, by simp,
      by simp, by simp, by simp, by simp, by simp⟩
  | COMMAND_DELETE =>
    exact ⟨worker_event.pthread_rwlock_wrlock, worker_event.perform_delete,
      by simp [command_worker, is_read_operation, is_logging, ht], by simp, by simp,
      by simp, by simp, by simp, by simp, by simp⟩
  | COMMAND_SEARCH =>
    exact ⟨worker_event.pthread_rwlock_rdlock, worker_event.perform_search,
      by simp [command_worker, is_read_operation, is_logging, ht], by simp, by simp,
      by simp, by simp, by simp, by simp, by simp⟩
  | COMMAND_PRINT =>
    exact ⟨worker_event.pthread_rwlock_rdlock, worker_event.perform_print,
      by simp [command_worker, is_read_operation, is_logging, ht], by simp, by simp,
      by simp, by simp, by simp, by simp, by simp⟩
  | COMMAND_UNKNOWN => exact absurd ht hknown

theorem command_worker_sequence_witness :
    (mk_command COMMAND_SEARCH 4).type ≠ COMMAND_UNKNOWN ∧
      (command_worker (mk_command COMMAND_SEARCH 4)).filter (fun e => !is_logging e) =
        [worker_event.scheduler_wait_for_turn, worker_event.pthread_rwlock_rdlock,
          worker_event.perform_search, worker_event.pthread_rwlock_unlock,
          worker_event.scheduler_finish_turn] ∧
      ∃ lock operation,
        (command_worker (mk_command COMMAND_SEARCH 4)).filter (fun e => !is_logging e) =
          [worker_event.scheduler_wait_for_turn, lock, operation,
            worker_event.pthread_rwlock_unlock, worker_event.scheduler_finish_turn] ∧
        (lock = worker_event.pthread_rwlock_rdlock ↔
          ((mk_command COMMAND_SEARCH 4).type = COMMAND_SEARCH ∨
            (mk_command COMMAND_SEARCH 4).type = COMMAND_PRINT)) ∧
        (lock = worker_event.pthread_rwlock_wrlock ↔
          ((mk_command COMMAND_SEARCH 4).type = COMMAND_INSERT ∨
            (mk_command COMMAND_SEARCH 4).type = COMMAND_UPDATE ∨
            (mk_command COMMAND_SEARCH 4).type = COMMAND_DELETE)) ∧
        ((mk_command COMMAND_SEARCH 4).type = COMMAND_INSERT →
          operation = worker_event.perform_insert) ∧
        ((mk_command COMMAND_SEARCH 4).type = COMMAND_UPDATE →
          operation = worker_event.perform_update) ∧
        ((mk_command COMMAND_SEARCH 4).type = COMMAND_DELETE →
          operation = worker_event.perform_delete) ∧
        ((mk_command COMMAND_SEARCH 4).type = COMMAND_SEARCH →
          operation = worker_event.perform_search) ∧
        ((mk_command COMMAND_SEARCH 4).type = COMMAND_PRINT →
          operation = worker_event.perform_print) :=
  ⟨by decide, by decide, command_worker_sequence (mk_command COMMAND_SEARCH 4) (by decide)⟩

/-! ## The hash function -/

theorem uint32_mod_eq : UINT32_MOD = 2 ^ 32 := by decide

theorem xor_shift_lt (h n : Nat) (hh : h < 2 ^ 32) : h ^^^ (h >>> n) < 2 ^ 32 := by
  apply Nat.xor_lt_two_pow hh
  rw [Nat.shiftRight_eq_div_pow]
  exact lt_of_le_of_lt (Nat.div_le_self _ _) hh

theorem wrap_add_shift (h n : Nat) :
    (h + (h <<< n) % UINT32_MOD) % UINT32_MOD = (h + h * 2 ^ n) % 2 ^ 32 := by
  rw [uint32_mod_eq, Nat.shiftLeft_eq, Nat.add_mod_mod]

theorem xor_shift_eq (h n : Nat) (hh : h < 2 ^ 32) :
    h ^^^ (h >>> n) = Nat.xor h (h / 2 ^ n) % 2 ^ 32 := by
  have hlt := xor_shift_lt h n hh
  rw [Nat.shiftRight_eq_div_pow] at hlt ⊢
  exact (Nat.mod_eq_of_lt hlt).symm

theorem jenkins_step_eq_mix (h b : Nat) : jenkins_step h b = one_at_a_time_mix h b := by
  unfold jenkins_step one_at_a_time_mix
  simp only []
  rw [wrap_add_shift, uint32_mod_eq]
  exact xor_shift_eq _ 6 (Nat.mod_lt _ (by decide))

theorem foldl_jenkins_eq_loop (key : List Nat) :
    ∀ h : Nat, (∀ b ∈ key, b < 256) →
      key.foldl jenkins_step h = one_at_a_time_loop h key := by
  induction key with
  | nil => intro h _; rfl
  | cons b rest ih =>
    intro h hb
    have hlt : b < 256 := hb b (List.mem_cons_self _ _)
    rw [List.foldl_cons, one_at_a_time_loop, Nat.mod_eq_of_lt hlt, jenkins_step_eq_mix]
    exact ih _ (fun c hc => hb c (List.mem_cons_of_mem _ hc))

theorem jenkins_lt (key : List Nat) : jenkins_one_at_a_time_hash key < 2 ^ 32 := by
  unfold jenkins_one_at_a_time_hash
  simp only []
  rw [uint32_mod_eq]
  exact Nat.mod_lt _ (by decide)

/-- C26: for every byte string, `jenkins_one_at_a_time_hash` is the
one-at-a-time reference of the specification (start at 0; per byte `h += b`,
`h += h<<10`, `h ^= h>>6`; then `h += h<<3`, `h ^= h>>11`, `h += h<<15`; every
operation modulo 2^32), and its value is an unsigned 32-bit value. -/
theorem jenkins_refines_reference (key : List Nat) (hbytes : ∀ b ∈ key, b < 256) :
    jenkins_one_at_a_time_hash key = one_at_a_time_reference key ∧
      jenkins_one_at_a_time_hash key < 2 ^ 32 := by
  refine ⟨?_, jenkins_lt key⟩
  unfold jenkins_one_at_a_time_hash one_at_a_time_reference
  simp only []
  rw [foldl_jenkins_eq_loop key 0 hbytes, wrap_add_shift, wrap_add_shift]
  rw [xor_shift_eq _ 11 (Nat.mod_lt _ (by decide))]

theorem jenkins_refines_reference_witness :
    (∀ b ∈ alice, b < 256) ∧
      jenkins_one_at_a_time_hash alice = one_at_a_time_reference alice ∧
      jenkins_one_at_a_time_hash alice < 2 ^ 32 :=
  ⟨by decide, jenkins_refines_reference alice (by decide)⟩

/-- C27: the hash of the one-byte string "a" is 0xCA2E9442, that is
3392050242, the published test vector of the one-at-a-time hash. -/
theorem jenkins_test_vector_a :
    jenkins_one_at_a_time_hash name_a = 3392050242 ∧ (3392050242 : Nat) = 0xCA2E9442 := by
  decide

/-! ## The snapshot holds the live records -/

set_option maxRecDepth 100000 in
/-- C25: after insert("alice",100), insert("bob",200), update("alice",150)
and delete("bob") on the empty store, the search of "alice" finds the salary
150, the search of "bob" finds nothing, and the snapshot is the one record
(hash of "alice", "alice", 150). -/
theorem scenario_alice_bob :
    hash_table_search scenario_table alice =
        (1, some { hash := jenkins_one_at_a_time_hash alice, name := alice, salary := 150 }) ∧
      hash_table_search scenario_table bob = (0, none) ∧
      hash_table_snapshot scenario_table true =
        (some [{ hash := jenkins_one_at_a_time_hash alice, name := alice, salary := 150 }], 1) := by
  decide

theorem count_init : hash_table_count hash_table_init = 0 := by
  unfold hash_table_count hash_table_init
  simp

theorem qsort_perm (base : List hash_record_t)
    (compar : hash_record_t → hash_record_t → Int) : (qsort base compar).Perm base :=
  List.perm_insertionSort _ base

theorem insert_count (table : hash_table_t) (name : List Nat) (salary : Nat)
    (calloc_ok : Bool) :
    hash_table_count (hash_table_insert table name salary calloc_ok).table =
      hash_table_count table +
        (if (hash_table_insert table name salary calloc_ok).status = HASH_INSERTED
          then 1 else 0) := by
  rcases chain_split name (name_chain table name) with hnone | ⟨l1, cur, l2, hsplit, h1, hcur⟩
  · cases calloc_ok with
    | true =>
      rw [insert_fresh table name salary hnone]
      simp only [if_true]
      exact count_update_cons table (jenkins_one_at_a_time_hash name) _
    | false =>
      rw [insert_failed table name salary hnone]
      simp
  · rw [insert_found table name salary calloc_ok l1 l2 cur hsplit h1 hcur]
    simp only [reduceCtorEq, if_false, Nat.add_zero]
    exact count_update_found table (jenkins_one_at_a_time_hash name) l1 l2 cur _ hsplit

theorem update_count (table : hash_table_t) (name : List Nat) (salary : Nat) :
    hash_table_count (hash_table_update table name salary).table = hash_table_count table := by
  rcases chain_split name (name_chain table name) with hnone | ⟨l1, cur, l2, hsplit, h1, hcur⟩
  · rw [update_missing table name salary hnone]
  · rw [update_found table name salary l1 l2 cur hsplit h1 hcur]
    exact count_update_found table (jenkins_one_at_a_time_hash name) l1 l2 cur _ hsplit

theorem delete_count (table : hash_table_t) (name : List Nat) :
    hash_table_count (hash_table_delete table name).table +
        (if (hash_table_delete table name).ret = 1 then 1 else 0) =
      hash_table_count table := by
  rcases chain_split name (name_chain table name) with hnone | ⟨l1, cur, l2, hsplit, h1, hcur⟩
  · rw [delete_missing table name hnone]
    simp
  · rw [delete_found table name l1 l2 cur hsplit h1 hcur]
    simp only [if_true]
    exact count_update_erase table (jenkins_one_at_a_time_hash name) l1 l2 cur hsplit

theorem apply_op_count (table : hash_table_t) (op : store_op) :
    hash_table_count (apply_op table op) + op_deleted table op =
      hash_table_count table + op_inserted table op := by
  cases op with
  | insert name salary calloc_ok =>
    simp only [apply_op, op_deleted, op_inserted, Nat.add_zero]
    exact insert_count table name salary calloc_ok
  | update name salary =>
    simp only [apply_op, op_deleted, op_inserted, Nat.add_zero]
    exact update_count table name salary
  | delete name =>
    simp only [apply_op, op_deleted, op_inserted, Nat.add_zero]
    exact delete_count table name

theorem history_count (ops : List store_op) :
    ∀ table : hash_table_t,
      hash_table_count (ops.foldl apply_op table) + count_deleted table ops =
        hash_table_count table + count_inserted table ops := by
  induction ops with
  | nil => intro table; rfl
  | cons op ops ih =>
    intro table
    have h1 := ih (apply_op table op)
    have h2 := apply_op_count table op
    simp only [List.foldl_cons, count_deleted, count_inserted]
    omega

theorem snapshot_count (table : hash_table_t) :
    (hash_table_snapshot table true).2 = hash_table_count table := by
  unfold hash_table_snapshot
  by_cases h : hash_table_count table = 0
  · simp [h]
  · simp [h]

theorem snapshot_perm (table : hash_table_t) :
    (snapshot_sequence (hash_table_snapshot table true)).Perm (hash_table_records table) := by
  unfold hash_table_snapshot snapshot_sequence
  by_cases h : hash_table_count table = 0
  · have hnil : hash_table_records table = [] :=
      List.length_eq_zero.mp ((length_records table).trans h)
    simp [h, hnil]
  · simp only [h, if_false, Bool.true_eq_false]
    exact qsort_perm _ _

/-- C21: with the allocation succeeding, `hash_table_snapshot` returns the
live records: `*out_count` is the number of records over all buckets, the
returned sequence is a permutation of those records, and for every sequence of
insert, update and delete calls on the empty store the snapshot is empty
exactly when as many records have been deleted as have been inserted. -/
theorem snapshot_holds_live_records :
    (∀ table : hash_table_t,
      (hash_table_snapshot table true).2 = hash_table_count table ∧
        (hash_table_snapshot table true).2 = (hash_table_records table).length ∧
        (snapshot_sequence (hash_table_snapshot table true)).Perm
          (hash_table_records table)) ∧
      ∀ ops : List store_op,
        (snapshot_sequence (hash_table_snapshot (build_table ops) true) = [] ↔
          count_inserted hash_table_init ops = count_deleted hash_table_init ops) := by
  refine ⟨fun table => ⟨snapshot_count table, ?_, snapshot_perm table⟩, ?_⟩
  · rw [snapshot_count, length_records]
  · intro ops
    have hperm := snapshot_perm (build_table ops)
    have hlen := length_records (build_table ops)
    have hhist := history_count ops hash_table_init
    rw [count_init] at hhist
    have hb : build_table ops = ops.foldl apply_op hash_table_init := rfl
    rw [← hb] at hhist
    constructor
    · intro hnil
      rw [hnil] at hperm
      have : hash_table_records (build_table ops) = [] := List.Perm.nil_eq hperm |>.symm
      rw [this] at hlen
      simp only [List.length_nil] at hlen
      omega
    · intro heq
      have hz : hash_table_count (build_table ops) = 0 := by omega
      have : hash_table_records (build_table ops) = [] :=
        List.length_eq_zero.mp (hlen.trans hz)
      rw [this] at hperm
      exact List.Perm.eq_nil hperm

theorem snapshot_alloc_failure (table : hash_table_t) :
    hash_table_snapshot table false = (none, 0) := by
  unfold hash_table_snapshot
  by_cases h : hash_table_count table = 0
  · simp [h]
  · simp [h]

theorem snapshot_no_records (table : hash_table_t) (calloc_ok : Bool)
    (h : hash_table_count table = 0) : hash_table_snapshot table calloc_ok = (none, 0) := by
  unfold hash_table_snapshot
  simp [h]

/-- C22 as stated fails: the snapshot of the empty root store is
NULL with `*out_count = 0`, which is also what a failed allocation gives on a
store that holds a record; the snapshot of the empty alternate store stores
NULL in `*records_out` as well. -/
theorem empty_snapshot_counterexample :
    hash_table_snapshot hash_table_init true = (none, 0) ∧
      hash_table_snapshot sample_table false = (none, 0) ∧
      Alt.hash_table_snapshot Alt.hash_table_init true = (0, none) :=
  ⟨snapshot_no_records _ _ count_init, snapshot_alloc_failure _, by decide⟩

/-- C22 (amended): on a store with no records `hash_table_snapshot` returns
NULL.  In the root store it writes 0 to `*out_count`, which is exactly the
result of a failed allocation, so the two cannot be told apart.  In the
alternate store it returns the count 0 with a NULL array, and a failed
allocation returns `SIZE_MAX` instead, so there the count tells them apart. -/
theorem empty_snapshot_is_null (table : hash_table_t) (alt : Alt.hash_table_t)
    (calloc_ok : Bool) (hroot : hash_table_count table = 0) (halt : alt.head = []) :
    hash_table_snapshot table calloc_ok = (none, 0) ∧
      (∀ other : hash_table_t, hash_table_snapshot other false = (none, 0)) ∧
      Alt.hash_table_snapshot alt calloc_ok = (0, none) ∧
      (∀ other : Alt.hash_table_t, other.head ≠ [] →
        Alt.hash_table_snapshot other false = (SIZE_MAX, none)) ∧
      SIZE_MAX ≠ 0 := by
  refine ⟨snapshot_no_records table calloc_ok hroot, snapshot_alloc_failure, ?_, ?_, by decide⟩
  · unfold Alt.hash_table_snapshot
    simp [halt]
  · intro other hne
    unfold Alt.hash_table_snapshot
    have hpos : other.head.length > 0 := List.length_pos.mpr hne
    simp [hpos]

theorem empty_snapshot_is_null_witness :
    hash_table_count hash_table_init = 0 ∧ Alt.hash_table_init.head = [] ∧
      hash_table_snapshot hash_table_init true = (none, 0) ∧
      (∀ other : hash_table_t, hash_table_snapshot other false = (none, 0)) ∧
      Alt.hash_table_snapshot Alt.hash_table_init true = (0, none) ∧
      (∀ other : Alt.hash_table_t, other.head ≠ [] →
        Alt.hash_table_snapshot other false = (SIZE_MAX, none)) ∧
      SIZE_MAX ≠ 0 :=
  ⟨count_init, rfl, empty_snapshot_is_null hash_table_init Alt.hash_table_init true count_init rfl⟩

/-! ## One record per name -/

theorem names_nodup (table : hash_table_t) (hinv : table_inv table) :
    ((hash_table_records table).map hash_record_t.name).Nodup := by
  unfold hash_table_records
  rw [List.map_flatMap, List.nodup_flatMap]
  refine ⟨fun i _ => hinv.unique i, ?_⟩
  refine (List.nodup_range HASH_TABLE_SIZE).imp ?_
  intro i j hij
  show List.Disjoint _ _
  intro n hi hj
  rw [List.mem_map] at hi hj
  obtain ⟨r1, hr1, hn1⟩ := hi
  obtain ⟨r2, hr2, hn2⟩ := hj
  have h1 := hinv.placed i r1 hr1
  have h2 := hinv.placed j r2 hr2
  rw [hn1] at h1
  rw [hn2] at h2
  exact hij (h1.symm.trans h2)

theorem two_record_table_reachable : reachable_table two_record_table :=
  ⟨[store_op.insert alice 100 true, store_op.insert bob 200 true], by
    intro op hop
    simp only [List.mem_cons, List.mem_singleton, List.not_mem_nil, or_false] at hop
    rcases hop with h | h <;> rw [h] <;> decide, rfl⟩

set_option maxRecDepth 100000 in
/-- C23 as stated fails: two calls of `hash_table_insert` with the
same name of 64 bytes leave two live records that both carry the first 63
bytes of that name. -/
theorem long_name_stored_twice :
    (hash_table_records twice_long_table).map hash_record_t.name =
        [long_name.take 63, long_name.take 63] ∧
      ¬ ((hash_table_records twice_long_table).map hash_record_t.name).Nodup := by
  decide

/-- C23 (amended): in every store built from the empty store by calls of
`hash_table_insert`, `hash_table_update` and `hash_table_delete` with names
shorter than 64 bytes, no two live records have the same stored name. -/
theorem stored_names_unique (table : hash_table_t) (hr : reachable_table table) :
    ((hash_table_records table).map hash_record_t.name).Nodup :=
  names_nodup table (reachable_table_inv table hr)

theorem stored_names_unique_witness :
    reachable_table two_record_table ∧
      ((hash_table_records two_record_table).map hash_record_t.name).Nodup :=
  ⟨two_record_table_reachable, stored_names_unique two_record_table two_record_table_reachable⟩

/-! ## Records are keyed by name -/

theorem search_chain_skip (name : List Nat) (l1 l2 : List hash_record_t) (x : hash_record_t)
    (hx : x.name ≠ name) :
    search_chain name (l1 ++ x :: l2) = search_chain name (l1 ++ l2) := by
  induction l1 with
  | nil =>
    have hc : ¬ strcmp x.name name = 0 := by rw [strcmp_eq_zero_iff]; exact hx
    simp only [List.nil_append, search_chain, if_neg hc]
  | cons c l1 ih =>
    simp only [List.cons_append, search_chain, List.append_eq, ih]

theorem search_update_frame (table : hash_table_t) (hash : Nat) (b : List hash_record_t)
    (name : List Nat)
    (h : search_chain name b = search_chain name (table.buckets (bucket_index hash))) :
    hash_table_search { buckets := Function.update table.buckets (bucket_index hash) b } name =
      hash_table_search table name := by
  unfold hash_table_search
  simp only []
  generalize bucket_index (jenkins_one_at_a_time_hash name) = i
  generalize bucket_index hash = a at h ⊢
  by_cases hi : i = a
  · subst hi
    simp only [Function.update_same, h]
  · simp only [Function.update_noteq hi]

theorem insert_frame (table : hash_table_t) (other name : List Nat) (salary : Nat)
    (calloc_ok : Bool) (hne : other ≠ name) (hshort : other.length < HASH_NAME_MAX) :
    hash_table_search (hash_table_insert table other salary calloc_ok).table name =
      hash_table_search table name := by
  rcases chain_split other (name_chain table other) with
    hnone | ⟨l1, cur, l2, hsplit, h1, hcur⟩
  · cases calloc_ok with
    | true =>
      rw [insert_fresh table other salary hnone]
      apply search_update_frame
      have hc : ¬ strcmp (other.take (HASH_NAME_MAX - 1)) name = 0 := by
        rw [strcmp_eq_zero_iff, take_short other hshort]; exact hne
      simp only [search_chain, if_neg hc]
      rfl
    | false => rw [insert_failed table other salary hnone]
  · rw [insert_found table other salary calloc_ok l1 l2 cur hsplit h1 hcur]
    apply search_update_frame
    unfold name_chain at hsplit
    rw [hsplit, search_chain_skip name l1 l2 _ (by rw [hcur]; exact hne),
      search_chain_skip name l1 l2 _ (by simp only [hcur]; exact hne)]

theorem update_frame (table : hash_table_t) (other name : List Nat) (salary : Nat)
    (hne : other ≠ name) :
    hash_table_search (hash_table_update table other salary).table name =
      hash_table_search table name := by
  rcases chain_split other (name_chain table other) with
    hnone | ⟨l1, cur, l2, hsplit, h1, hcur⟩
  · rw [update_missing table other salary hnone]
  · rw [update_found table other salary l1 l2 cur hsplit h1 hcur]
    apply search_update_frame
    unfold name_chain at hsplit
    rw [hsplit, search_chain_skip name l1 l2 _ (by rw [hcur]; exact hne),
      search_chain_skip name l1 l2 _ (by simp only [hcur]; exact hne)]

theorem delete_frame (table : hash_table_t) (other name : List Nat) (hne : other ≠ name) :
    hash_table_search (hash_table_delete table other).table name =
      hash_table_search table name := by
  rcases chain_split other (name_chain table other) with
    hnone | ⟨l1, cur, l2, hsplit, h1, hcur⟩
  · rw [delete_missing table other hnone]
  · rw [delete_found table other l1 l2 cur hsplit h1 hcur]
    apply search_update_frame
    unfold name_chain at hsplit
    rw [hsplit, search_chain_skip name l1 l2 _ (by rw [hcur]; exact hne)]

theorem search_some_split (table : hash_table_t) (name : List Nat) (r : hash_record_t)
    (h : hash_table_search table name = (1, some r)) :
    ∃ l1 l2, name_chain table name = l1 ++ r :: l2 ∧ (∀ x ∈ l1, x.name ≠ name) ∧
      r.name = name := by
  rcases chain_split name (name_chain table name) with
    hnone | ⟨l1, cur, l2, hsplit, h1, hcur⟩
  · rw [search_missing table name hnone] at h
    exact absurd (congrArg Prod.fst h) (by simp)
  · rw [search_found table name l1 l2 cur hsplit h1 hcur] at h
    have hr : cur = r := Option.some.inj (congrArg Prod.snd h)
    subst hr
    exact ⟨l1, l2, hsplit, h1, hcur⟩

theorem search_after_insert (table : hash_table_t) (name : List Nat) (salary : Nat)
    (hshort : name.length < HASH_NAME_MAX) :
    ∃ r, hash_table_search (hash_table_insert table name salary true).table name =
        (1, some r) ∧ r.name = name ∧ r.salary = salary := by
  rcases chain_split name (name_chain table name) with
    hnone | ⟨l1, cur, l2, hsplit, h1, hcur⟩
  · rw [insert_fresh table name salary hnone]
    refine ⟨⟨jenkins_one_at_a_time_hash name, name.take (HASH_NAME_MAX - 1), salary⟩,
      search_found _ name [] (name_chain table name) _ ?_ (by simp) ?_, ?_, rfl⟩
    · rw [name_chain_update]; rfl
    · exact take_short name hshort
    · exact take_short name hshort
  · rw [insert_found table name salary true l1 l2 cur hsplit h1 hcur]
    refine ⟨_, search_found _ name l1 l2 { cur with salary := salary } ?_ h1 hcur, hcur, rfl⟩
    rw [name_chain_update]

theorem calls_on_other_name (table : hash_table_t) (name other : List Nat)
    (r u : hash_record_t) (hne : other ≠ name)
    (hr : hash_table_search table name = (1, some r))
    (hu : hash_table_search table other = (1, some u)) :
    (∀ v, (hash_table_update table other v).out_record =
          some { u with salary := v, hash := jenkins_one_at_a_time_hash other } ∧
        hash_table_search (hash_table_update table other v).table name = (1, some r)) ∧
      (hash_table_delete table other).out_record = some u ∧
      hash_table_search (hash_table_delete table other).table name = (1, some r) := by
  obtain ⟨l1, l2, hsplit, h1, hcur⟩ := search_some_split table other u hu
  refine ⟨fun v => ⟨?_, ?_⟩, ?_, ?_⟩
  · rw [update_found table other v l1 l2 u hsplit h1 hcur]
  · rw [update_frame table other name v hne]; exact hr
  · rw [delete_found table other l1 l2 u hsplit h1 hcur]
  · rw [delete_frame table other name hne]; exact hr

theorem search_in_chain (table : hash_table_t) (name : List Nat) (r : hash_record_t)
    (h : hash_table_search table name = (1, some r)) : r ∈ name_chain table name := by
  obtain ⟨l1, l2, hsplit, _, _⟩ := search_some_split table name r h
  rw [hsplit]
  exact List.mem_append_right _ (List.mem_cons_self _ _)

/-- C24: the store keys its records by name.  For two distinct names shorter
than 64 bytes whose hashes fall in the same bucket (equal hashes included),
inserting both leaves two records in that one chain, each found by the search
of its own name with its own salary; `hash_table_update` and
`hash_table_delete` on one of the names hand back the record of that name, and
the search of the other name finds the other record as before. -/
theorem store_keyed_by_name (table : hash_table_t) (name1 name2 : List Nat) (v1 v2 : Nat)
    (h1 : name1.length < HASH_NAME_MAX) (h2 : name2.length < HASH_NAME_MAX)
    (hne : name1 ≠ name2)
    (hbucket : bucket_index (jenkins_one_at_a_time_hash name1) =
      bucket_index (jenkins_one_at_a_time_hash name2)) :
    ∃ r1 r2 : hash_record_t,
      r1 ∈ name_chain
          (hash_table_insert (hash_table_insert table name1 v1 true).table name2 v2 true).table
          name1 ∧
      r2 ∈ name_chain
          (hash_table_insert (hash_table_insert table name1 v1 true).table name2 v2 true).table
          name1 ∧
      r1.name = name1 ∧ r1.salary = v1 ∧ r2.name = name2 ∧ r2.salary = v2 ∧
      hash_table_search
          (hash_table_insert (hash_table_insert table name1 v1 true).table name2 v2 true).table
          name1 = (1, some r1) ∧
      hash_table_search
          (hash_table_insert (hash_table_insert table name1 v1 true).table name2 v2 true).table
          name2 = (1, some r2) ∧
      (∀ t : hash_table_t,
        t = (hash_table_insert (hash_table_insert table name1 v1 true).table
          name2 v2 true).table →
        (∀ v, (hash_table_update t name2 v).out_record =
              some { r2 with salary := v, hash := jenkins_one_at_a_time_hash name2 } ∧
            hash_table_search (hash_table_update t name2 v).table name1 = (1, some r1)) ∧
        (hash_table_delete t name2).out_record = some r2 ∧
        hash_table_search (hash_table_delete t name2).table name1 = (1, some r1) ∧
        (∀ v, (hash_table_update t name1 v).out_record =
              some { r1 with salary := v, hash := jenkins_one_at_a_time_hash name1 } ∧
            hash_table_search (hash_table_update t name1 v).table name2 = (1, some r2)) ∧
        (hash_table_delete t name1).out_record = some r1 ∧
        hash_table_search (hash_table_delete t name1).table name2 = (1, some r2)) := by
  obtain ⟨r1, hs1, hn1, hv1⟩ := search_after_insert table name1 v1 h1
  obtain ⟨r2, hs2, hn2, hv2⟩ :=
    search_after_insert (hash_table_insert table name1 v1 true).table name2 v2 h2
  have hs1b : hash_table_search
      (hash_table_insert (hash_table_insert table name1 v1 true).table name2 v2 true).table
      name1 = (1, some r1) := by
    rw [insert_frame _ name2 name1 v2 true (Ne.symm hne) h2]; exact hs1
  refine ⟨r1, r2, search_in_chain _ _ _ hs1b, ?_, hn1, hv1, hn2, hv2, hs1b, hs2, ?_⟩
  · have hmem := search_in_chain _ _ _ hs2
    unfold name_chain at hmem ⊢
    rw [hbucket]
    exact hmem
  · intro t ht
    subst ht
    have ha := calls_on_other_name _ name1 name2 r1 r2 (Ne.symm hne) hs1b hs2
    have hb := calls_on_other_name _ name2 name1 r2 r1 hne hs2 hs1b
    exact ⟨ha.1, ha.2.1, ha.2.2, hb.1, hb.2.1, hb.2.2⟩

theorem store_keyed_by_name_witness :
    name_a.length < HASH_NAME_MAX ∧ name_ba.length < HASH_NAME_MAX ∧ name_a ≠ name_ba ∧
      bucket_index (jenkins_one_at_a_time_hash name_a) =
        bucket_index (jenkins_one_at_a_time_hash name_ba) ∧
      ∃ r1 r2 : hash_record_t,
        r1 ∈ name_chain collision_table name_a ∧ r2 ∈ name_chain collision_table name_a ∧
        r1.name = name_a ∧ r1.salary = 1 ∧ r2.name = name_ba ∧ r2.salary = 2 ∧
        hash_table_search collision_table name_a = (1, some r1) ∧
        hash_table_search collision_table name_ba = (1, some r2) ∧
        (∀ t : hash_table_t, t = collision_table →
          (∀ v, (hash_table_update t name_ba v).out_record =
                some { r2 with salary := v, hash := jenkins_one_at_a_time_hash name_ba } ∧
              hash_table_search (hash_table_update t name_ba v).table name_a = (1, some r1)) ∧
          (hash_table_delete t name_ba).out_record = some r2 ∧
          hash_table_search (hash_table_delete t name_ba).table name_a = (1, some r1) ∧
          (∀ v, (hash_table_update t name_a v).out_record =
                some { r1 with salary := v, hash := jenkins_one_at_a_time_hash name_a } ∧
              hash_table_search (hash_table_update t name_a v).table name_ba = (1, some r2)) ∧
          (hash_table_delete t name_a).out_record = some r1 ∧
          hash_table_search (hash_table_delete t name_a).table name_ba = (1, some r2)) :=
  ⟨by decide, by decide, by decide, by decide,
    store_keyed_by_name hash_table_init name_a name_ba 1 2 (by decide) (by decide) (by decide)
      (by decide)⟩

/-! ## The alternate store: `hash_table_insert` -/

theorem alt_create_record_ok (hash : Nat) (name : List Nat) (salary : Nat) :
    Alt.create_record hash name salary true =
      some ⟨hash, name.take (Alt.MAX_NAME_LEN - 1), salary⟩ := rfl

theorem alt_create_record_failed (hash : Nat) (name : List Nat) (salary : Nat) :
    Alt.create_record hash name salary false = none := rfl

theorem alt_insert_list_duplicate (hash : Nat) (name : List Nat) (salary : Nat)
    (malloc_ok : Bool) :
    ∀ l : List Alt.hash_record_t,
      (Alt.insert_list hash name salary malloc_ok l).1 = Alt.table_status_t.TABLE_DUPLICATE →
        (∃ r ∈ l, r.hash = hash) ∧ (Alt.insert_list hash name salary malloc_ok l).2 = l := by
  intro l
  induction l with
  | nil =>
    intro h
    cases malloc_ok <;> simp [Alt.insert_list, Alt.create_record] at h
  | cons c rest ih =>
    intro h
    by_cases hlt : c.hash < hash
    · simp only [Alt.insert_list, if_pos hlt] at h ⊢
      obtain ⟨⟨r, hr, hrh⟩, hsame⟩ := ih h
      exact ⟨⟨r, List.mem_cons_of_mem _ hr, hrh⟩, by rw [hsame]⟩
    · by_cases heq : c.hash = hash
      · simp only [Alt.insert_list, if_neg hlt, if_pos heq]
        exact ⟨⟨c, List.mem_cons_self _ _, heq⟩, trivial⟩
      · exfalso
        cases malloc_ok <;>
          simp [Alt.insert_list, if_neg hlt, if_neg heq, Alt.create_record] at h

theorem alt_insert_list_present (hash : Nat) (name : List Nat) (salary : Nat)
    (malloc_ok : Bool) :
    ∀ l : List Alt.hash_record_t, Alt.ascending l → (∃ r ∈ l, r.hash = hash) →
      (Alt.insert_list hash name salary malloc_ok l).1 =
        Alt.table_status_t.TABLE_DUPLICATE := by
  intro l
  induction l with
  | nil =>
    intro _ h
    obtain ⟨r, hr, _⟩ := h
    exact absurd hr (List.not_mem_nil r)
  | cons c rest ih =>
    intro hasc h
    have hrest : Alt.ascending rest := (List.pairwise_cons.mp hasc).2
    have hhead : ∀ r ∈ rest, c.hash ≤ r.hash := (List.pairwise_cons.mp hasc).1
    by_cases hlt : c.hash < hash
    · simp only [Alt.insert_list, if_pos hlt]
      apply ih hrest
      obtain ⟨r, hr, hrh⟩ := h
      rcases List.mem_cons.mp hr with hc | hin
      · subst hc; omega
      · exact ⟨r, hin, hrh⟩
    · by_cases heq : c.hash = hash
      · simp only [Alt.insert_list, if_neg hlt, if_pos heq]
      · exfalso
        obtain ⟨r, hr, hrh⟩ := h
        rcases List.mem_cons.mp hr with hc | hin
        · subst hc; exact heq hrh
        · have := hhead r hin
          omega

theorem alt_insert_list_absent (hash : Nat) (name : List Nat) (salary : Nat) :
    ∀ l : List Alt.hash_record_t, (¬ ∃ r ∈ l, r.hash = hash) →
      (Alt.insert_list hash name salary true l).1 = Alt.table_status_t.TABLE_OK ∧
        ∃ l1 l2, l = l1 ++ l2 ∧
          (Alt.insert_list hash name salary true l).2 =
            l1 ++ ⟨hash, name.take (Alt.MAX_NAME_LEN - 1), salary⟩ :: l2 := by
  intro l
  induction l with
  | nil =>
    intro _
    exact ⟨rfl, [], [], rfl, rfl⟩
  | cons c rest ih =>
    intro h
    have hc : c.hash ≠ hash := fun heq => h ⟨c, List.mem_cons_self _ _, heq⟩
    have hrest : ¬ ∃ r ∈ rest, r.hash = hash :=
      fun ⟨r, hr, hrh⟩ => h ⟨r, List.mem_cons_of_mem _ hr, hrh⟩
    by_cases hlt : c.hash < hash
    · obtain ⟨hst, l1, l2, hsplit, hres⟩ := ih hrest
      simp only [Alt.insert_list, if_pos hlt]
      refine ⟨hst, c :: l1, l2, by rw [hsplit]; rfl, ?_⟩
      rw [hres]; rfl
    · simp only [Alt.insert_list, if_neg hlt, if_neg hc, alt_create_record_ok]
      exact ⟨trivial, [], c :: rest, rfl, rfl⟩

theorem alt_insert_list_failed (hash : Nat) (name : List Nat) (salary : Nat) :
    ∀ l : List Alt.hash_record_t, (Alt.insert_list hash name salary false l).2 = l := by
  intro l
  induction l with
  | nil => rfl
  | cons c rest ih =>
    by_cases hlt : c.hash < hash
    · simp only [Alt.insert_list, if_pos hlt, ih]
    · by_cases heq : c.hash = hash
      · simp only [Alt.insert_list, if_neg hlt, if_pos heq]
      · simp only [Alt.insert_list, if_neg hlt, if_neg heq, alt_create_record_failed]

/-- C30: on a list in ascending order of hash, `hash_table_insert` of the
alternate store returns `TABLE_DUPLICATE` exactly when a record with the same
hash is present, whatever the name of that record, and then leaves the list
unchanged; when no such record is present and the allocation succeeds it
returns `TABLE_OK` and the list gains exactly one record, made of the hash, the
first 49 bytes of the name and the value. -/
theorem alt_insert_duplicate_iff (table : Alt.hash_table_t) (hash : Nat) (name : List Nat)
    (v : Nat) (malloc_ok : Bool) (hsorted : Alt.ascending table.head) :
    ((Alt.hash_table_insert table hash name v malloc_ok).1 =
          Alt.table_status_t.TABLE_DUPLICATE ↔ ∃ r ∈ table.head, r.hash = hash) ∧
      ((Alt.hash_table_insert table hash name v malloc_ok).1 =
          Alt.table_status_t.TABLE_DUPLICATE →
        (Alt.hash_table_insert table hash name v malloc_ok).2.head = table.head) ∧
      ((¬ ∃ r ∈ table.head, r.hash = hash) →
        (Alt.hash_table_insert table hash name v true).1 = Alt.table_status_t.TABLE_OK ∧
          ∃ l1 l2, table.head = l1 ++ l2 ∧
            (Alt.hash_table_insert table hash name v true).2.head =
              l1 ++ ⟨hash, name.take 49, v⟩ :: l2) := by
  refine ⟨⟨fun h => (alt_insert_list_duplicate hash name v malloc_ok table.head h).1,
    fun h => alt_insert_list_present hash name v malloc_ok table.head hsorted h⟩,
    fun h => (alt_insert_list_duplicate hash name v malloc_ok table.head h).2,
    fun h => alt_insert_list_absent hash name v table.head h⟩

theorem alt_insert_duplicate_iff_witness :
    Alt.ascending Alt.sample_list ∧
      ((Alt.hash_table_insert ⟨Alt.sample_list⟩ 20 alice 7 true).1 =
            Alt.table_status_t.TABLE_DUPLICATE ↔ ∃ r ∈ Alt.sample_list, r.hash = 20) ∧
      ((Alt.hash_table_insert ⟨Alt.sample_list⟩ 20 alice 7 true).1 =
            Alt.table_status_t.TABLE_DUPLICATE →
        (Alt.hash_table_insert ⟨Alt.sample_list⟩ 20 alice 7 true).2.head = Alt.sample_list) ∧
      ((¬ ∃ r ∈ Alt.sample_list, r.hash = 20) →
        (Alt.hash_table_insert ⟨Alt.sample_list⟩ 20 alice 7 true).1 =
            Alt.table_status_t.TABLE_OK ∧
          ∃ l1 l2, Alt.sample_list = l1 ++ l2 ∧
            (Alt.hash_table_insert ⟨Alt.sample_list⟩ 20 alice 7 true).2.head =
              l1 ++ ⟨20, alice.take 49, 7⟩ :: l2) :=
  ⟨by unfold Alt.ascending Alt.sample_list; decide,
    alt_insert_duplicate_iff ⟨Alt.sample_list⟩ 20 alice 7 true
      (by unfold Alt.ascending Alt.sample_list; decide)⟩

/-! ## The alternate scheduler: the turn gate of `worker_main` -/

theorem alt_count_set_done (l : List Alt.worker_phase) (i : Nat) (a : Alt.worker_phase)
    (h : l[i]? = some a) (ha : a ≠ Alt.worker_phase.done) :
    (l.set i Alt.worker_phase.done).count Alt.worker_phase.done =
      l.count Alt.worker_phase.done + 1 := by
  induction l generalizing i with
  | nil => simp at h
  | cons d l ih =>
    cases i with
    | zero =>
      simp only [List.getElem?_cons_zero, Option.some.injEq] at h
      subst h
      simp only [List.set_cons_zero, List.count_cons_self]
      rw [List.count_cons_of_ne (Ne.symm ha)]
    | succ i =>
      simp only [List.getElem?_cons_succ] at h
      simp only [List.set_cons_succ, List.count_cons, ih i h]
      omega

theorem alt_count_set_other (l : List Alt.worker_phase) (i : Nat) (a b : Alt.worker_phase)
    (h : l[i]? = some a) (ha : a ≠ Alt.worker_phase.done) (hb : b ≠ Alt.worker_phase.done) :
    (l.set i b).count Alt.worker_phase.done = l.count Alt.worker_phase.done := by
  induction l generalizing i with
  | nil => simp at h
  | cons d l ih =>
    cases i with
    | zero =>
      simp only [List.getElem?_cons_zero, Option.some.injEq] at h
      subst h
      simp only [List.set_cons_zero]
      rw [List.count_cons_of_ne (Ne.symm ha), List.count_cons_of_ne (Ne.symm hb)]
    | succ i =>
      simp only [List.getElem?_cons_succ] at h
      simp only [List.set_cons_succ, List.count_cons, ih i h]

theorem alt_lt_length (l : List Alt.worker_phase) (i : Nat) (a : Alt.worker_phase)
    (h : l[i]? = some a) : i < l.length :=
  (List.getElem?_eq_some.mp h).1

theorem alt_gate_workers (app : Alt.app_context_t) (c : Alt.command_t) (i : Nat) :
    (Alt.turn_gate app c i).workers =
        app.workers.set i
          (if c.priority ≠ app.next_priority then Alt.worker_phase.blocked
            else Alt.worker_phase.running) ∧
      (Alt.turn_gate app c i).next_priority = app.next_priority ∧
      (Alt.turn_gate app c i).sched_cond = app.sched_cond := by
  unfold Alt.turn_gate
  split_ifs <;> exact ⟨rfl, rfl, rfl⟩

theorem alt_finish_fields (app : Alt.app_context_t) (i : Nat) :
    (Alt.worker_main_finish app i).workers = app.workers.set i Alt.worker_phase.done ∧
      (Alt.worker_main_finish app i).next_priority = app.next_priority + 1 ∧
      (Alt.worker_main_finish app i).sched_cond =
        (List.range (app.workers.set i Alt.worker_phase.done).length).filter
          (fun j => decide ((app.workers.set i Alt.worker_phase.done)[j]? =
            some Alt.worker_phase.blocked)) :=
  ⟨rfl, rfl, rfl⟩

theorem alt_step_run_idle (commands : List Alt.command_t) (app : Alt.app_context_t)
    (i : Nat) (c : Alt.command_t) (hc : commands[i]? = some c)
    (hw : app.workers[i]? = some Alt.worker_phase.idle) :
    Alt.worker_step commands app (sched_event.run i) = Alt.turn_gate app c i := by
  simp only [Alt.worker_step, hc, hw, Alt.worker_main_enter]

theorem alt_step_run_blocked (commands : List Alt.command_t) (app : Alt.app_context_t)
    (i : Nat) (c : Alt.command_t) (hc : commands[i]? = some c)
    (hw : app.workers[i]? = some Alt.worker_phase.blocked) :
    Alt.worker_step commands app (sched_event.run i) =
      if i ∈ app.sched_cond then
        Alt.turn_gate
          { app with sched_cond := app.sched_cond.filter (fun j => decide (j ≠ i)) } c i
      else app := by
  simp only [Alt.worker_step, hc, hw, Alt.worker_main_wake]

theorem alt_step_run_running (commands : List Alt.command_t) (app : Alt.app_context_t)
    (i : Nat) (c : Alt.command_t) (hc : commands[i]? = some c)
    (hw : app.workers[i]? = some Alt.worker_phase.running) :
    Alt.worker_step commands app (sched_event.run i) = Alt.worker_main_finish app i := by
  simp only [Alt.worker_step, hc, hw]

theorem alt_step_run_done (commands : List Alt.command_t) (app : Alt.app_context_t)
    (i : Nat) (hw : app.workers[i]? = some Alt.worker_phase.done) :
    Alt.worker_step commands app (sched_event.run i) = app := by
  cases hc : commands[i]? <;> simp only [Alt.worker_step, hc, hw]

theorem alt_step_no_worker (commands : List Alt.command_t) (app : Alt.app_context_t)
    (i : Nat) (e : sched_event) (he : e = sched_event.run i ∨ e = sched_event.spurious i)
    (h : commands[i]? = none ∨ app.workers[i]? = none) :
    Alt.worker_step commands app e = app := by
  rcases he with he | he <;> subst he <;> rcases h with h | h
  · simp only [Alt.worker_step, h]
  · cases hc : commands[i]? <;> simp only [Alt.worker_step, hc, h]
  · simp only [Alt.worker_step, h]
  · cases hc : commands[i]? <;> simp only [Alt.worker_step, hc, h]

theorem alt_step_spurious (commands : List Alt.command_t) (app : Alt.app_context_t)
    (i : Nat) (c : Alt.command_t) (ph : Alt.worker_phase) (hc : commands[i]? = some c)
    (hw : app.workers[i]? = some ph) :
    Alt.worker_step commands app (sched_event.spurious i) =
      if ph = Alt.worker_phase.blocked then
        Alt.turn_gate
          { app with sched_cond := app.sched_cond.filter (fun j => decide (j ≠ i)) } c i
      else app := by
  cases ph <;> simp only [Alt.worker_step, hc, hw, Alt.worker_main_wake, reduceCtorEq, if_true,
    if_false]

/-- Every step is one of three: nothing changes, a worker that is idle or
blocked tests the gate (after its wake-up was used up, when it was blocked),
or a worker that executes its command finishes. -/
theorem alt_step_cases (commands : List Alt.command_t) (app : Alt.app_context_t)
    (e : sched_event) :
    Alt.worker_step commands app e = app ∨
      (∃ i c, commands[i]? = some c ∧ app.workers[i]? = some Alt.worker_phase.idle ∧
        Alt.worker_step commands app e = Alt.turn_gate app c i) ∨
      (∃ i c, commands[i]? = some c ∧ app.workers[i]? = some Alt.worker_phase.blocked ∧
        Alt.worker_step commands app e =
          Alt.turn_gate
            { app with sched_cond := app.sched_cond.filter (fun j => decide (j ≠ i)) } c i) ∨
      (∃ i c, commands[i]? = some c ∧ app.workers[i]? = some Alt.worker_phase.running ∧
        Alt.worker_step commands app e = Alt.worker_main_finish app i) := by
  have hidx : ∃ i, e = sched_event.run i ∨ e = sched_event.spurious i := by
    cases e with
    | run i => exact ⟨i, Or.inl rfl⟩
    | spurious i => exact ⟨i, Or.inr rfl⟩
  obtain ⟨i, he⟩ := hidx
  cases hc : commands[i]? with
  | none => exact Or.inl (alt_step_no_worker commands app i e he (Or.inl hc))
  | some c =>
    cases hw : app.workers[i]? with
    | none => exact Or.inl (alt_step_no_worker commands app i e he (Or.inr hw))
    | some ph =>
      rcases he with he | he
      · subst he
        cases ph with
        | idle => exact Or.inr (Or.inl ⟨i, c, hc, hw, alt_step_run_idle commands app i c hc hw⟩)
        | blocked =>
          rw [alt_step_run_blocked commands app i c hc hw]
          by_cases hin : i ∈ app.sched_cond
          · rw [if_pos hin]
            exact Or.inr (Or.inr (Or.inl ⟨i, c, hc, hw, rfl⟩))
          · rw [if_neg hin]
            exact Or.inl rfl
        | running =>
          exact Or.inr (Or.inr (Or.inr
            ⟨i, c, hc, hw, alt_step_run_running commands app i c hc hw⟩))
        | done => exact Or.inl (alt_step_run_done commands app i hw)
      · subst he
        rw [alt_step_spurious commands app i c ph hc hw]
        by_cases hb : ph = Alt.worker_phase.blocked
        · rw [if_pos hb]
          subst hb
          exact Or.inr (Or.inr (Or.inl ⟨i, c, hc, hw, rfl⟩))
        · rw [if_neg hb]
          exact Or.inl rfl

theorem alt_gate_phase_ne_done (c : Alt.command_t) (np : Int) :
    (if c.priority ≠ np then Alt.worker_phase.blocked else Alt.worker_phase.running) ≠
      Alt.worker_phase.done := by
  split_ifs <;> simp

theorem alt_gate_preserves_gate_inv (commands : List Alt.command_t)
    (app : Alt.app_context_t) (c : Alt.command_t) (i : Nat)
    (hc : commands[i]? = some c)
    (hph : app.workers[i]? = some Alt.worker_phase.idle ∨
      app.workers[i]? = some Alt.worker_phase.blocked)
    (hsize : app.workers.length = commands.length)
    (hcount : app.next_priority = (Alt.completed app : Int))
    (hwoken : ∀ (j : Nat) (d : Alt.command_t), j ≠ i → commands[j]? = some d →
      app.workers[j]? = some Alt.worker_phase.blocked → j ∉ app.sched_cond →
      d.priority ≠ app.next_priority) :
    Alt.gate_inv commands (Alt.turn_gate app c i) := by
  obtain ⟨hw, hn, hcnd⟩ := alt_gate_workers app c i
  refine ⟨?_, ?_, ?_⟩
  · rw [hw, List.length_set]; exact hsize
  · rw [hn, hcount]
    unfold Alt.completed
    rw [hw]
    rcases hph with h | h
    · rw [alt_count_set_other _ i _ _ h (by simp) (alt_gate_phase_ne_done c _)]
    · rw [alt_count_set_other _ i _ _ h (by simp) (alt_gate_phase_ne_done c _)]
  · intro j d hd hj hnin
    rw [hw] at hj
    rw [hcnd] at hnin
    rw [hn]
    by_cases hji : j = i
    · subst hji
      have hdc : d = c := by rw [hc] at hd; exact (Option.some.inj hd).symm
      subst hdc
      by_cases hp : d.priority ≠ app.next_priority
      · exact hp
      · exfalso
        rw [if_neg hp, List.getElem?_set] at hj
        simp only [if_true] at hj
        split_ifs at hj
        simp at hj
    · rw [List.getElem?_set_ne (Ne.symm hji)] at hj
      exact hwoken j d hji hd hj hnin

theorem alt_gate_preserves_turn_inv (commands : List Alt.command_t)
    (app : Alt.app_context_t) (c : Alt.command_t) (i : Nat)
    (hc : commands[i]? = some c)
    (hph : app.workers[i]? = some Alt.worker_phase.idle ∨
      app.workers[i]? = some Alt.worker_phase.blocked)
    (hrun : ∀ (j : Nat) (d : Alt.command_t), commands[j]? = some d →
      app.workers[j]? = some Alt.worker_phase.running → d.priority = app.next_priority)
    (hdone : ∀ (j : Nat) (d : Alt.command_t), commands[j]? = some d →
      (app.workers[j]? = some Alt.worker_phase.done ↔ d.priority < app.next_priority)) :
    Alt.turn_inv commands (Alt.turn_gate app c i) := by
  obtain ⟨hw, hn, _⟩ := alt_gate_workers app c i
  have hlt : i < app.workers.length := by
    rcases hph with h | h <;> exact alt_lt_length _ _ _ h
  have hself : (Alt.turn_gate app c i).workers[i]? =
      some (if c.priority ≠ app.next_priority then Alt.worker_phase.blocked
        else Alt.worker_phase.running) := by
    rw [hw, List.getElem?_set, if_pos rfl, if_pos hlt]
  refine ⟨?_, ?_⟩
  · intro j d hd hj
    rw [hn]
    by_cases hji : j = i
    · subst hji
      have hdc : d = c := by rw [hc] at hd; exact (Option.some.inj hd).symm
      subst hdc
      rw [hself] at hj
      by_cases hp : d.priority ≠ app.next_priority
      · rw [if_pos hp] at hj; simp at hj
      · exact not_not.mp hp
    · rw [hw, List.getElem?_set_ne (Ne.symm hji)] at hj
      exact hrun j d hd hj
  · intro j d hd
    rw [hn]
    by_cases hji : j = i
    · subst hji
      have hdc : d = c := by rw [hc] at hd; exact (Option.some.inj hd).symm
      subst hdc
      rw [hself]
      have hold := hdone j d hd
      constructor
      · intro h
        exact absurd (Option.some.inj h) (alt_gate_phase_ne_done d _)
      · intro h
        have := hold.mpr h
        rcases hph with h2 | h2 <;> rw [h2] at this <;> simp at this
    · rw [hw, List.getElem?_set_ne (Ne.symm hji)]
      exact hdone j d hd

theorem alt_finish_preserves_gate_inv (commands : List Alt.command_t)
    (app : Alt.app_context_t) (i : Nat)
    (hw : app.workers[i]? = some Alt.worker_phase.running)
    (hinv : Alt.gate_inv commands app) :
    Alt.gate_inv commands (Alt.worker_main_finish app i) := by
  obtain ⟨hws, hn, hcnd⟩ := alt_finish_fields app i
  refine ⟨?_, ?_, ?_⟩
  · rw [hws, List.length_set]; exact hinv.size
  · rw [hn, hinv.count]
    unfold Alt.completed
    rw [hws, alt_count_set_done _ i _ hw (by simp)]
    push_cast
    rfl
  · intro j d _ hj hnin
    exfalso
    apply hnin
    rw [hcnd, List.mem_filter, List.mem_range]
    rw [hws] at hj
    exact ⟨alt_lt_length _ _ _ hj, by simp only [hj, decide_True]⟩

theorem alt_distinct_index (commands : List Alt.command_t)
    (hnd : (commands.map Alt.command_t.priority).Nodup) (i j : Nat) (c d : Alt.command_t)
    (hc : commands[i]? = some c) (hd : commands[j]? = some d)
    (hp : d.priority = c.priority) : j = i := by
  have hci : (commands.map Alt.command_t.priority)[i]? = some c.priority := by
    rw [List.getElem?_map, hc]; rfl
  have hdj : (commands.map Alt.command_t.priority)[j]? = some c.priority := by
    rw [List.getElem?_map, hd, ← hp]; rfl
  have hil : i < (commands.map Alt.command_t.priority).length :=
    (List.getElem?_eq_some.mp hci).1
  have hjl : j < (commands.map Alt.command_t.priority).length :=
    (List.getElem?_eq_some.mp hdj).1
  by_contra hne
  rcases Nat.lt_or_gt_of_ne hne with h | h
  · exact List.nodup_iff_getElem?_ne_getElem?.mp hnd j i h hil (by rw [hci, hdj])
  · exact List.nodup_iff_getElem?_ne_getElem?.mp hnd i j h hjl (by rw [hci, hdj])

theorem alt_finish_preserves_turn_inv (commands : List Alt.command_t)
    (app : Alt.app_context_t) (i : Nat) (c : Alt.command_t)
    (hc : commands[i]? = some c)
    (hw : app.workers[i]? = some Alt.worker_phase.running)
    (hdist : Alt.distinct_priorities commands)
    (hinv : Alt.turn_inv commands app) :
    Alt.turn_inv commands (Alt.worker_main_finish app i) := by
  obtain ⟨hws, hn, _⟩ := alt_finish_fields app i
  have hlt : i < app.workers.length := alt_lt_length _ _ _ hw
  have hci : c.priority = app.next_priority := hinv.running i c hc hw
  refine ⟨?_, ?_⟩
  · intro j d hd hj
    exfalso
    rw [hws] at hj
    by_cases hji : j = i
    · subst hji
      rw [List.getElem?_set, if_pos rfl, if_pos hlt] at hj
      simp at hj
    · rw [List.getElem?_set_ne (Ne.symm hji)] at hj
      have hdp := hinv.running j d hd hj
      exact hji (alt_distinct_index commands hdist.1 i j c d hc hd (hdp.trans hci.symm))
  · intro j d hd
    rw [hws, hn]
    by_cases hji : j = i
    · subst hji
      have hdc : d = c := by rw [hc] at hd; exact (Option.some.inj hd).symm
      subst hdc
      rw [List.getElem?_set, if_pos rfl, if_pos hlt]
      constructor
      · intro _; omega
      · intro _; rfl
    · rw [List.getElem?_set_ne (Ne.symm hji)]
      rw [hinv.done j d hd]
      constructor
      · intro h; omega
      · intro h
        by_contra hnot
        have heq : d.priority = c.priority := by omega
        exact hji (alt_distinct_index commands hdist.1 i j c d hc hd heq)

theorem alt_step_preserves_gate_inv (commands : List Alt.command_t)
    (app : Alt.app_context_t) (e : sched_event) (hinv : Alt.gate_inv commands app) :
    Alt.gate_inv commands (Alt.worker_step commands app e) := by
  rcases alt_step_cases commands app e with h | ⟨i, c, hc, hw, h⟩ | ⟨i, c, hc, hw, h⟩ |
    ⟨i, c, hc, hw, h⟩
  · rw [h]; exact hinv
  · rw [h]
    exact alt_gate_preserves_gate_inv commands app c i hc (Or.inl hw) hinv.size hinv.count
      (fun j d _ hd hj hnin => hinv.woken j d hd hj hnin)
  · rw [h]
    refine alt_gate_preserves_gate_inv commands _ c i hc (Or.inr hw) hinv.size hinv.count ?_
    intro j d hji hd hj hnin
    refine hinv.woken j d hd hj ?_
    intro hin
    apply hnin
    show j ∈ app.sched_cond.filter (fun k => decide (k ≠ i))
    rw [List.mem_filter]
    exact ⟨hin, by simp only [ne_eq, hji, not_false_eq_true, decide_True]⟩
  · rw [h]
    exact alt_finish_preserves_gate_inv commands app i hw hinv

theorem alt_step_preserves_turn_inv (commands : List Alt.command_t)
    (app : Alt.app_context_t) (e : sched_event) (hdist : Alt.distinct_priorities commands)
    (hinv : Alt.turn_inv commands app) :
    Alt.turn_inv commands (Alt.worker_step commands app e) := by
  rcases alt_step_cases commands app e with h | ⟨i, c, hc, hw, h⟩ | ⟨i, c, hc, hw, h⟩ |
    ⟨i, c, hc, hw, h⟩
  · rw [h]; exact hinv
  · rw [h]
    exact alt_gate_preserves_turn_inv commands app c i hc (Or.inl hw) hinv.running hinv.done
  · rw [h]
    exact alt_gate_preserves_turn_inv commands _ c i hc (Or.inr hw) hinv.running hinv.done
  · rw [h]
    exact alt_finish_preserves_turn_inv commands app i c hc hw hdist hinv

theorem alt_init_workers (commands : List Alt.command_t) (i : Nat) (ph : Alt.worker_phase)
    (h : (Alt.app_init commands).workers[i]? = some ph) : ph = Alt.worker_phase.idle := by
  unfold Alt.app_init at h
  simp only [List.getElem?_replicate] at h
  split_ifs at h
  exact (Option.some.inj h).symm

theorem alt_init_gate_inv (commands : List Alt.command_t) :
    Alt.gate_inv commands (Alt.app_init commands) := by
  refine ⟨?_, ?_, ?_⟩
  · simp [Alt.app_init]
  · simp [Alt.app_init, Alt.completed, List.count_replicate]
  · intro i c _ hw _
    exact absurd (alt_init_workers commands i _ hw) (by simp)

theorem alt_init_turn_inv (commands : List Alt.command_t)
    (hdist : Alt.distinct_priorities commands) :
    Alt.turn_inv commands (Alt.app_init commands) := by
  refine ⟨?_, ?_⟩
  · intro i c _ hw
    exact absurd (alt_init_workers commands i _ hw) (by simp)
  · intro i c hc
    have hmem : c ∈ commands := List.mem_iff_getElem?.mpr ⟨i, hc⟩
    have hnn := hdist.2 c hmem
    constructor
    · intro hw
      exact absurd (alt_init_workers commands i _ hw) (by simp)
    · intro h
      have : (Alt.app_init commands).next_priority = 0 := rfl
      omega

theorem alt_run_gate_inv (commands : List Alt.command_t) (events : List sched_event) :
    ∀ app : Alt.app_context_t, Alt.gate_inv commands app →
      Alt.gate_inv commands (Alt.run_workers commands app events) := by
  induction events with
  | nil => intro app h; exact h
  | cons e events ih =>
    intro app h
    exact ih _ (alt_step_preserves_gate_inv commands app e h)

theorem alt_run_turn_inv (commands : List Alt.command_t) (events : List sched_event)
    (hdist : Alt.distinct_priorities commands) :
    ∀ app : Alt.app_context_t, Alt.turn_inv commands app →
      Alt.turn_inv commands (Alt.run_workers commands app events) := by
  induction events with
  | nil => intro app h; exact h
  | cons e events ih =>
    intro app h
    exact ih _ (alt_step_preserves_turn_inv commands app e hdist h)

theorem alt_permutation_facts (commands : List Alt.command_t)
    (hperm : Alt.permutation_priorities commands) :
    Alt.distinct_priorities commands ∧
      (∀ c ∈ commands, c.priority < commands.length) ∧
      ∀ k : Nat, k < commands.length →
        ∃ (j : Nat) (c : Alt.command_t), commands[j]? = some c ∧ c.priority = k := by
  unfold Alt.permutation_priorities at hperm
  refine ⟨⟨?_, ?_⟩, ?_, ?_⟩
  · rw [hperm.nodup_iff]
    exact (List.nodup_range _).map (fun a b h => Int.ofNat.inj h)
  · intro c hc
    have h1 : c.priority ∈ commands.map Alt.command_t.priority := List.mem_map_of_mem _ hc
    rw [hperm.mem_iff] at h1
    obtain ⟨k, _, hkp⟩ := List.mem_map.mp h1
    rw [← hkp]
    exact Int.ofNat_nonneg k
  · intro c hc
    have h1 : c.priority ∈ commands.map Alt.command_t.priority := List.mem_map_of_mem _ hc
    rw [hperm.mem_iff] at h1
    obtain ⟨k, hk, hkp⟩ := List.mem_map.mp h1
    rw [List.mem_range] at hk
    rw [← hkp]
    exact Int.ofNat_lt.mpr hk
  · intro k hk
    have h1 : (Int.ofNat k) ∈ (List.range commands.length).map Int.ofNat :=
      List.mem_map_of_mem _ (List.mem_range.mpr hk)
    rw [← hperm.mem_iff] at h1
    obtain ⟨c, hc, hcp⟩ := List.mem_map.mp h1
    obtain ⟨j, hj⟩ := List.mem_iff_getElem?.mp hc
    exact ⟨j, c, hj, hcp⟩

theorem alt_reachable_inv (commands : List Alt.command_t) (events : List sched_event)
    (hperm : Alt.permutation_priorities commands) :
    Alt.gate_inv commands (Alt.run_workers commands (Alt.app_init commands) events) ∧
      Alt.turn_inv commands (Alt.run_workers commands (Alt.app_init commands) events) :=
  ⟨alt_run_gate_inv commands events _ (alt_init_gate_inv commands),
    alt_run_turn_inv commands events (alt_permutation_facts commands hperm).1 _
      (alt_init_turn_inv commands (alt_permutation_facts commands hperm).1)⟩

theorem alt_worker_has_command (commands : List Alt.command_t) (app : Alt.app_context_t)
    (hsize : app.workers.length = commands.length) (i : Nat) (ph : Alt.worker_phase)
    (hw : app.workers[i]? = some ph) : ∃ c, commands[i]? = some c := by
  have hlt : i < commands.length := by rw [← hsize]; exact alt_lt_length _ _ _ hw
  exact ⟨commands[i], List.getElem?_eq_getElem hlt⟩

theorem alt_gate_passed (commands : List Alt.command_t) (app : Alt.app_context_t)
    (e : sched_event) (i : Nat) (c : Alt.command_t) (hc : commands[i]? = some c)
    (hbefore : app.workers[i]? ≠ some Alt.worker_phase.running)
    (hafter : (Alt.worker_step commands app e).workers[i]? = some Alt.worker_phase.running) :
    c.priority = app.next_priority := by
  have hgate : ∀ (app1 : Alt.app_context_t) (k : Nat) (d : Alt.command_t),
      app1.workers = app.workers → app1.next_priority = app.next_priority →
      commands[k]? = some d →
      (Alt.turn_gate app1 d k).workers[i]? = some Alt.worker_phase.running →
      c.priority = app.next_priority := by
    intro app1 k d hws hnp hd hi
    rw [(alt_gate_workers app1 d k).1, hws, hnp] at hi
    by_cases hki : k = i
    · subst hki
      have hdc : d = c := by rw [hc] at hd; exact (Option.some.inj hd).symm
      subst hdc
      by_cases hp : d.priority ≠ app.next_priority
      · rw [if_pos hp, List.getElem?_set] at hi
        simp only [if_true] at hi
        split_ifs at hi
        simp at hi
      · exact not_not.mp hp
    · rw [List.getElem?_set_ne hki] at hi
      exact absurd hi hbefore
  rcases alt_step_cases commands app e with h | ⟨k, d, hd, _, h⟩ | ⟨k, d, hd, _, h⟩ |
    ⟨k, d, _, _, h⟩
  · rw [h] at hafter; exact absurd hafter hbefore
  · rw [h] at hafter; exact hgate app k d rfl rfl hd hafter
  · rw [h] at hafter
    exact hgate { app with sched_cond := app.sched_cond.filter (fun j => decide (j ≠ k)) }
      k d rfl rfl hd hafter
  · rw [h, (alt_finish_fields app k).1] at hafter
    by_cases hki : k = i
    · subst hki
      rw [List.getElem?_set] at hafter
      simp only [if_true] at hafter
      split_ifs at hafter
      simp at hafter
    · rw [List.getElem?_set_ne hki] at hafter
      exact absurd hafter hbefore

/-- C28: in the alternate program, for a command list whose priorities are a
permutation of 0..N-1 and every interleaving, `next_priority` is the number of
completed commands (at most N), a worker passes the turn gate only in a step
in which `next_priority` is its priority, a worker that executes its command
has the priority `next_priority`, at most one worker executes at a time, and
the completed commands are exactly those of a lower priority than
`next_priority`: the commands execute one at a time in ascending priority
order. -/
theorem alt_strict_priority_order (commands : List Alt.command_t)
    (events : List sched_event) (app : Alt.app_context_t)
    (hperm : Alt.permutation_priorities commands)
    (happ : app = Alt.run_workers commands (Alt.app_init commands) events) :
    app.next_priority = (Alt.completed app : Int) ∧
      Alt.completed app ≤ commands.length ∧
      (∀ (e : sched_event) (i : Nat) (c : Alt.command_t), commands[i]? = some c →
        app.workers[i]? ≠ some Alt.worker_phase.running →
        (Alt.worker_step commands app e).workers[i]? = some Alt.worker_phase.running →
        c.priority = app.next_priority) ∧
      (∀ (i : Nat) (c : Alt.command_t), commands[i]? = some c →
        app.workers[i]? = some Alt.worker_phase.running →
        c.priority = app.next_priority) ∧
      (∀ i j : Nat, app.workers[i]? = some Alt.worker_phase.running →
        app.workers[j]? = some Alt.worker_phase.running → i = j) ∧
      (∀ (i : Nat) (c : Alt.command_t), commands[i]? = some c →
        (app.workers[i]? = some Alt.worker_phase.done ↔ c.priority < app.next_priority)) := by
  subst happ
  obtain ⟨hg, ht⟩ := alt_reachable_inv commands events hperm
  refine ⟨hg.count, ?_, ?_, ht.running, ?_, ht.done⟩
  · rw [← hg.size]
    exact List.count_le_length _ _
  · intro e i c hc hb ha
    exact alt_gate_passed commands _ e i c hc hb ha
  · intro i j hi hj
    obtain ⟨ci, hci⟩ := alt_worker_has_command commands _ hg.size i _ hi
    obtain ⟨cj, hcj⟩ := alt_worker_has_command commands _ hg.size j _ hj
    have h1 := ht.running i ci hci hi
    have h2 := ht.running j cj hcj hj
    exact alt_distinct_index commands (alt_permutation_facts commands hperm).1.1 j i cj ci
      hcj hci (h1.trans h2.symm)

theorem alt_sample_permutation : Alt.permutation_priorities Alt.sample_commands := by
  unfold Alt.permutation_priorities
  decide

theorem alt_strict_priority_order_witness :
    Alt.permutation_priorities Alt.sample_commands ∧
      Alt.sample_app =
        Alt.run_workers Alt.sample_commands (Alt.app_init Alt.sample_commands)
          [sched_event.run 0, sched_event.run 2, sched_event.run 2, sched_event.run 0] ∧
      Alt.sample_app.next_priority = (Alt.completed Alt.sample_app : Int) ∧
      Alt.completed Alt.sample_app ≤ Alt.sample_commands.length ∧
      (∀ (e : sched_event) (i : Nat) (c : Alt.command_t), Alt.sample_commands[i]? = some c →
        Alt.sample_app.workers[i]? ≠ some Alt.worker_phase.running →
        (Alt.worker_step Alt.sample_commands Alt.sample_app e).workers[i]? =
          some Alt.worker_phase.running →
        c.priority = Alt.sample_app.next_priority) ∧
      (∀ (i : Nat) (c : Alt.command_t), Alt.sample_commands[i]? = some c →
        Alt.sample_app.workers[i]? = some Alt.worker_phase.running →
        c.priority = Alt.sample_app.next_priority) ∧
      (∀ i j : Nat, Alt.sample_app.workers[i]? = some Alt.worker_phase.running →
        Alt.sample_app.workers[j]? = some Alt.worker_phase.running → i = j) ∧
      (∀ (i : Nat) (c : Alt.command_t), Alt.sample_commands[i]? = some c →
        (Alt.sample_app.workers[i]? = some Alt.worker_phase.done ↔
          c.priority < Alt.sample_app.next_priority)) :=
  ⟨alt_sample_permutation, rfl,
    alt_strict_priority_order Alt.sample_commands
      [sched_event.run 0, sched_event.run 2, sched_event.run 2, sched_event.run 0]
      Alt.sample_app alt_sample_permutation rfl⟩

/-- C29 as stated fails: with the priorities 0 and 2, and with the
priorities 0 and 0, the interleaving in which the first worker completes before
the second reaches the gate ends in a state where the second command is
unfinished and no worker can take a step. -/
theorem alt_gap_or_repeat_gets_stuck :
    (∀ c ∈ Alt.gap_commands, 0 ≤ c.priority) ∧
      Alt.gate_stuck
        (Alt.run_workers Alt.gap_commands (Alt.app_init Alt.gap_commands)
          Alt.first_then_second) ∧
      (∀ c ∈ Alt.repeated_commands, 0 ≤ c.priority) ∧
      Alt.gate_stuck
        (Alt.run_workers Alt.repeated_commands (Alt.app_init Alt.repeated_commands)
          Alt.first_then_second) := by
  unfold Alt.gate_stuck Alt.can_step
  decide

/-- C29 (amended): in the alternate program the priorities have to be a
permutation of 0..N-1; for every such command list and every interleaving, no
reachable state has an unfinished command while no worker can take a step. -/
theorem alt_permutation_never_stuck (commands : List Alt.command_t)
    (events : List sched_event) (hperm : Alt.permutation_priorities commands) :
    ¬ Alt.gate_stuck (Alt.run_workers commands (Alt.app_init commands) events) := by
  obtain ⟨hg, ht⟩ := alt_reachable_inv commands events hperm
  obtain ⟨_, hbound, honto⟩ := alt_permutation_facts commands hperm
  intro hstuck
  obtain ⟨⟨i, hi, hnd⟩, hno⟩ := hstuck
  have hic : i < commands.length := by rw [← hg.size]; exact hi
  have hci : commands[i]? = some commands[i] := List.getElem?_eq_getElem hic
  have h1 : ¬ (commands[i]).priority <
      (Alt.run_workers commands (Alt.app_init commands) events).next_priority :=
    fun h => hnd ((ht.done i _ hci).mpr h)
  have h2 := hbound _ (List.mem_iff_getElem?.mpr ⟨i, hci⟩)
  have hcount := hg.count
  have hk : Alt.completed (Alt.run_workers commands (Alt.app_init commands) events) <
      commands.length := by omega
  obtain ⟨j, c, hj, hcp⟩ := honto _ hk
  have hjc : j < commands.length := (List.getElem?_eq_some.mp hj).1
  have hjw : j < (Alt.run_workers commands (Alt.app_init commands) events).workers.length := by
    rw [hg.size]; exact hjc
  have hcnp : c.priority =
      (Alt.run_workers commands (Alt.app_init commands) events).next_priority := by
    rw [hcp, hcount]
  have hph := List.getElem?_eq_getElem hjw
  generalize hphase :
    (Alt.run_workers commands (Alt.app_init commands) events).workers[j] = ph at hph
  cases ph with
  | idle => exact hno j hjw (Or.inl hph)
  | running => exact hno j hjw (Or.inr (Or.inl hph))
  | done =>
    have := (ht.done j c hj).mp hph
    omega
  | blocked =>
    by_cases hin : j ∈ (Alt.run_workers commands (Alt.app_init commands) events).sched_cond
    · exact hno j hjw (Or.inr (Or.inr ⟨hph, hin⟩))
    · exact hg.woken j c hj hph hin hcnp

theorem alt_permutation_never_stuck_witness :
    Alt.permutation_priorities Alt.sample_commands ∧
      ¬ Alt.gate_stuck
        (Alt.run_workers Alt.sample_commands (Alt.app_init Alt.sample_commands)
          [sched_event.run 0, sched_event.run 1, sched_event.run 2]) :=
  ⟨alt_sample_permutation,
    alt_permutation_never_stuck Alt.sample_commands
      [sched_event.run 0, sched_event.run 1, sched_event.run 2] alt_sample_permutation⟩

/-! ## The names of the command kinds -/

theorem strcasecmp_eq_zero_iff (s1 s2 : List Nat) :
    strcasecmp s1 s2 = 0 ↔ lower_case s1 = lower_case s2 := by
  induction s1 generalizing s2 with
  | nil =>
    cases s2 with
    | nil => simp [strcasecmp, lower_case]
    | cons b s2 => simp [strcasecmp, lower_case]
  | cons a s1 ih =>
    cases s2 with
    | nil => simp [strcasecmp, lower_case]
    | cons b s2 =>
      have ih2 := ih s2
      unfold lower_case at ih2 ⊢
      simp only [strcasecmp, List.map_cons, List.cons.injEq]
      by_cases h1 : tolower a < tolower b
      · simp only [if_pos h1]
        constructor
        · intro h; exact absurd h (by decide)
        · intro h; omega
      · by_cases h2 : tolower b < tolower a
        · simp only [if_neg h1, if_pos h2]
          constructor
          · intro h; exact absurd h (by decide)
          · intro h; omega
        · simp only [if_neg h1, if_neg h2, ih2]
          constructor
          · intro h; exact ⟨by omega, h⟩
          · intro h; exact h.2

theorem from_string_of_lower (str : List Nat) :
    command_type_from_string (some str) =
      if lower_case str = str_insert then COMMAND_INSERT
      else if lower_case str = str_update ∨ lower_case str = str_updatesalary then
        COMMAND_UPDATE
      else if lower_case str = str_delete then COMMAND_DELETE
      else if lower_case str = str_search then COMMAND_SEARCH
      else if lower_case str = str_print then COMMAND_PRINT
      else COMMAND_UNKNOWN := by
  have hl : ∀ name ∈ known_names, lower_case name = name := by decide
  unfold command_type_from_string
  simp only [strcasecmp_eq_zero_iff]
  rw [hl str_insert (by decide), hl str_update (by decide), hl str_updatesalary (by decide),
    hl str_delete (by decide), hl str_search (by decide), hl str_print (by decide)]

/-- C37: the names of the command kinds round-trip, that is
`command_type_from_string(command_type_to_string(t)) = t` for each of the six
values of `command_type_t`; `command_type_from_string` depends only on the
string in lower case, it maps insert, update, updatesalary, delete, search and
print in any letter case to their kinds, and every other string (and NULL) to
`COMMAND_UNKNOWN`. -/
theorem command_type_names_round_trip :
    (∀ t : command_type_t, command_type_from_string (some (command_type_to_string t)) = t) ∧
      (∀ s1 s2 : List Nat, lower_case s1 = lower_case s2 →
        command_type_from_string (some s1) = command_type_from_string (some s2)) ∧
      (∀ str : List Nat,
        (lower_case str = str_insert → command_type_from_string (some str) = COMMAND_INSERT) ∧
        (lower_case str = str_update → command_type_from_string (some str) = COMMAND_UPDATE) ∧
        (lower_case str = str_updatesalary →
          command_type_from_string (some str) = COMMAND_UPDATE) ∧
        (lower_case str = str_delete → command_type_from_string (some str) = COMMAND_DELETE) ∧
        (lower_case str = str_search → command_type_from_string (some str) = COMMAND_SEARCH) ∧
        (lower_case str = str_print → command_type_from_string (some str) = COMMAND_PRINT) ∧
        (lower_case str ∉ known_names →
          command_type_from_string (some str) = COMMAND_UNKNOWN)) ∧
      command_type_from_string none = COMMAND_UNKNOWN ∧
      command_type_from_string (some str_mixed_case) = COMMAND_UPDATE := by
  refine ⟨?_, ?_, ?_, rfl, by decide⟩
  · intro t
    cases t <;> decide
  · intro s1 s2 h
    rw [from_string_of_lower, from_string_of_lower, h]
  · intro str
    rw [from_string_of_lower]
    refine ⟨?_, ?_, ?_, ?_, ?_, ?_, ?_⟩
    · intro h; rw [h]; decide
    · intro h; rw [h]; decide
    · intro h; rw [h]; decide
    · intro h; rw [h]; decide
    · intro h; rw [h]; decide
    · intro h; rw [h]; decide
    · intro h
      simp only [known_names, List.mem_cons, List.mem_singleton, List.not_mem_nil, or_false,
        not_or] at h
      obtain ⟨h1, h2, h3, h4, h5, h6⟩ := h
      simp only [if_neg h1, h2, h3, h4, h5, h6, or_self, if_false]

/-! ## The two hash functions -/

theorem alt_jenkins_loop_eq_foldl (key : List Nat) :
    ∀ hash : Nat, Alt.jenkins_hash_loop hash key = key.foldl jenkins_step hash := by
  induction key with
  | nil => intro hash; rfl
  | cons byte key ih =>
    intro hash
    rw [Alt.jenkins_hash_loop, List.foldl_cons]
    exact ih _

/-- C34: the two hash implementations are the same function: for every byte
string, `jenkins_hash` of `src/src/chash.c` equals
`jenkins_one_at_a_time_hash` of `src/hash_table.c`. -/
theorem alt_jenkins_hash_eq (key : List Nat) :
    Alt.jenkins_hash key = jenkins_one_at_a_time_hash key := by
  unfold Alt.jenkins_hash jenkins_one_at_a_time_hash
  rw [alt_jenkins_loop_eq_foldl]

/-! ## The bookkeeping of the root scheduler -/

theorem set_state_forward (l : List command_t) (i k : Nat) (d d' c c' : command_t)
    (hd : l[k]? = some d) (hc : l[i]? = some c) (hc' : (l.set k d')[i]? = some c')
    (hrank : state_rank d'.state ≤ state_rank d.state) :
    state_rank c'.state ≤ state_rank c.state := by
  by_cases hik : k = i
  · subst hik
    rw [getElem?_set_self_some l k d d' hd] at hc'
    rw [hd] at hc
    have h1 : d' = c' := Option.some.inj hc'
    have h2 : d = c := Option.some.inj hc
    rw [← h1, ← h2]
    exact hrank
  · rw [List.getElem?_set_ne hik, hc] at hc'
    rw [← Option.some.inj hc']

theorem step_state_forward (s : scheduler_t) (e : sched_event) (i : Nat) (c c' : command_t)
    (hc : s.command_list[i]? = some c)
    (hc' : (command_worker_step s e).command_list[i]? = some c') :
    state_rank c'.state ≤ state_rank c.state := by
  rcases step_cases s e with h | ⟨k, d, _, hd, h | h | h⟩
  · rw [h, hc] at hc'
    rw [← Option.some.inj hc']
  · obtain ⟨hst, hstep⟩ := h
    rw [hstep] at hc'
    by_cases hg : d.priority = (wait_for_turn_entry s k d).current_priority
    · rw [enter_admitted s k d hd hg] at hc'
      exact set_state_forward _ i k d _ c c' hd hc hc' (by rw [hst]; simp [state_rank])
    · rw [enter_blocked s k d hd hg] at hc'
      simp only [entry_command_list] at hc'
      exact set_state_forward _ i k d _ c c' hd hc hc' (by rw [hst]; simp [state_rank])
  · obtain ⟨hst, hstep⟩ := h
    rw [hstep] at hc'
    by_cases hg : d.priority = (wait_for_turn_recheck s k).current_priority
    · rw [wake_admitted s k d hd hg] at hc'
      exact set_state_forward _ i k d _ c c' hd hc hc' (by rw [hst]; simp [state_rank])
    · rw [wake_blocked s k d hd hg] at hc'
      simp only [recheck_command_list] at hc'
      rw [hc] at hc'
      rw [← Option.some.inj hc']
  · obtain ⟨hst, hstep⟩ := h
    rw [hstep, finish_command_list s k d hd] at hc'
    exact set_state_forward _ i k d _ c c' hd hc hc' (by rw [hst]; simp [state_rank])

theorem step_length (s : scheduler_t) (e : sched_event) :
    (command_worker_step s e).command_list.length = s.command_list.length := by
  have h := congrArg List.length (step_map_priority s e)
  simpa using h

theorem run_events_state_forward (events : List sched_event) :
    ∀ (s : scheduler_t) (i : Nat) (c c' : command_t), s.command_list[i]? = some c →
      (run_events s events).command_list[i]? = some c' →
      state_rank c'.state ≤ state_rank c.state := by
  induction events with
  | nil =>
    intro s i c c' hc hc'
    have : (run_events s []).command_list = s.command_list := rfl
    rw [this, hc] at hc'
    rw [← Option.some.inj hc']
  | cons e events ih =>
    intro s i c c' hc hc'
    have hlt : i < (command_worker_step s e).command_list.length := by
      rw [step_length]; exact lt_length_of_getElem? _ i c hc
    have hmid := List.getElem?_eq_getElem hlt
    have h1 := step_state_forward s e i c _ hc hmid
    have h2 := ih (command_worker_step s e) i _ c' hmid hc'
    omega

/-- C35: in every state reachable from `scheduler_init` on a parsed command
list, where each worker calls `scheduler_wait_for_turn` once and then
`scheduler_finish_turn` once, `active_threads` is the number of commands whose
state is ACTIVE, and the state of each command only moves forward along
PENDING, WAITING, ACTIVE, FINISHED: in no step and in no continuation of the
run does a command go back to an earlier state. -/
theorem scheduler_bookkeeping (command_list : List command_t) (events : List sched_event)
    (hp : parsed command_list) (hi : int_priorities command_list)
    (hsz : command_list.length ≤ SIZE_MAX) :
    (run_events (scheduler_init command_list) events).active_threads =
        active_count (run_events (scheduler_init command_list) events).command_list ∧
      (∀ (e : sched_event) (i : Nat) (c c' : command_t),
        (run_events (scheduler_init command_list) events).command_list[i]? = some c →
        (command_worker_step (run_events (scheduler_init command_list) events)
          e).command_list[i]? = some c' →
        state_rank c'.state ≤ state_rank c.state) ∧
      (∀ (more : List sched_event) (i : Nat) (c c' : command_t),
        (run_events (scheduler_init command_list) events).command_list[i]? = some c →
        (run_events (run_events (scheduler_init command_list) events)
          more).command_list[i]? = some c' →
        state_rank c'.state ≤ state_rank c.state) ∧
      (∀ a b : command_state_t, state_rank a = state_rank b → a = b) := by
  refine ⟨(reachable_inv command_list _ hp hi hsz ⟨events, rfl⟩).count, ?_, ?_, ?_⟩
  · intro e i c c' hc hc'
    exact step_state_forward _ e i c c' hc hc'
  · intro more i c c' hc hc'
    exact run_events_state_forward more _ i c c' hc hc'
  · intro a b h
    cases a <;> cases b <;> first | rfl | exact absurd h (by decide)

theorem scheduler_bookkeeping_witness :
    parsed sample_commands ∧ int_priorities sample_commands ∧
      sample_commands.length ≤ SIZE_MAX ∧
      (run_events (scheduler_init sample_commands)
          [sched_event.run 0, sched_event.run 1, sched_event.run 2]).active_threads =
        active_count (run_events (scheduler_init sample_commands)
          [sched_event.run 0, sched_event.run 1, sched_event.run 2]).command_list :=
  ⟨sample_commands_valid.1, sample_commands_valid.2.1, sample_commands_valid.2.2,
    (scheduler_bookkeeping sample_commands
      [sched_event.run 0, sched_event.run 1, sched_event.run 2]
      sample_commands_valid.1 sample_commands_valid.2.1 sample_commands_valid.2.2).1⟩

/-! ## The alternate store: the sorted list -/

/-- Where the scans of the alternate store stop on a strictly ascending list:
either no record has the hash, and the list splits into the records below and
the records above it, or one record has it, between those two parts. -/
theorem alt_scan_split (hash : Nat) (l : List Alt.hash_record_t)
    (hs : Alt.strictly_ascending l) :
    (∃ l1 l2, l = l1 ++ l2 ∧ (∀ r ∈ l1, r.hash < hash) ∧ (∀ r ∈ l2, hash < r.hash)) ∨
      (∃ l1 cur l2, l = l1 ++ cur :: l2 ∧ (∀ r ∈ l1, r.hash < hash) ∧ cur.hash = hash ∧
        (∀ r ∈ l2, hash < r.hash)) := by
  induction l with
  | nil => exact Or.inl ⟨[], [], rfl, by simp, by simp⟩
  | cons c rest ih =>
    have hrest : Alt.strictly_ascending rest := (List.pairwise_cons.mp hs).2
    have hhead : ∀ r ∈ rest, c.hash < r.hash := (List.pairwise_cons.mp hs).1
    by_cases hlt : c.hash < hash
    · rcases ih hrest with ⟨l1, l2, hl, h1, h2⟩ | ⟨l1, cur, l2, hl, h1, hc, h2⟩
      · refine Or.inl ⟨c :: l1, l2, by rw [hl]; rfl, ?_, h2⟩
        intro r hr
        rcases List.mem_cons.mp hr with h | h
        · rw [h]; exact hlt
        · exact h1 r h
      · refine Or.inr ⟨c :: l1, cur, l2, by rw [hl]; rfl, ?_, hc, h2⟩
        intro r hr
        rcases List.mem_cons.mp hr with h | h
        · rw [h]; exact hlt
        · exact h1 r h
    · by_cases heq : c.hash = hash
      · refine Or.inr ⟨[], c, rest, rfl, by simp, heq, ?_⟩
        intro r hr
        have := hhead r hr
        omega
      · refine Or.inl ⟨[], c :: rest, rfl, by simp, ?_⟩
        intro r hr
        rcases List.mem_cons.mp hr with h | h
        · rw [h]; omega
        · have := hhead r h
          omega

theorem alt_insert_list_skip (hash : Nat) (name : List Nat) (salary : Nat) (malloc_ok : Bool)
    (l1 l2 : List Alt.hash_record_t) (h1 : ∀ r ∈ l1, r.hash < hash) :
    Alt.insert_list hash name salary malloc_ok (l1 ++ l2) =
      ((Alt.insert_list hash name salary malloc_ok l2).1,
        l1 ++ (Alt.insert_list hash name salary malloc_ok l2).2) := by
  induction l1 with
  | nil => rfl
  | cons c l1 ih =>
    have hc : c.hash < hash := h1 c (List.mem_cons_self _ _)
    have hrest := ih (fun r hr => h1 r (List.mem_cons_of_mem _ hr))
    simp only [List.cons_append, Alt.insert_list, if_pos hc, List.append_eq, hrest]

theorem alt_insert_list_above (hash : Nat) (name : List Nat) (salary : Nat)
    (l2 : List Alt.hash_record_t) (h2 : ∀ r ∈ l2, hash < r.hash) :
    Alt.insert_list hash name salary true l2 =
      (Alt.table_status_t.TABLE_OK,
        ⟨hash, name.take (Alt.MAX_NAME_LEN - 1), salary⟩ :: l2) := by
  cases l2 with
  | nil => rfl
  | cons c rest =>
    have hc : hash < c.hash := h2 c (List.mem_cons_self _ _)
    have h1 : ¬ c.hash < hash := by omega
    have h3 : ¬ c.hash = hash := by omega
    simp only [Alt.insert_list, if_neg h1, if_neg h3, alt_create_record_ok]

theorem alt_update_list_skip (hash salary : Nat) (l1 l2 : List Alt.hash_record_t)
    (h1 : ∀ r ∈ l1, r.hash < hash) :
    Alt.update_list hash salary (l1 ++ l2) =
      match Alt.update_list hash salary l2 with
      | none => none
      | some (found, rest) => some (found, l1 ++ rest) := by
  induction l1 with
  | nil =>
    simp only [List.nil_append]
    cases Alt.update_list hash salary l2 with
    | none => rfl
    | some p => rfl
  | cons c l1 ih =>
    have hc : c.hash < hash := h1 c (List.mem_cons_self _ _)
    have hrest := ih (fun r hr => h1 r (List.mem_cons_of_mem _ hr))
    simp only [List.cons_append, Alt.update_list, if_pos hc, List.append_eq, hrest]
    cases Alt.update_list hash salary l2 with
    | none => rfl
    | some p => rfl

theorem alt_delete_list_skip (hash : Nat) (l1 l2 : List Alt.hash_record_t)
    (h1 : ∀ r ∈ l1, r.hash < hash) :
    Alt.delete_list hash (l1 ++ l2) =
      match Alt.delete_list hash l2 with
      | none => none
      | some (found, rest) => some (found, l1 ++ rest) := by
  induction l1 with
  | nil =>
    simp only [List.nil_append]
    cases Alt.delete_list hash l2 with
    | none => rfl
    | some p => rfl
  | cons c l1 ih =>
    have hc : c.hash < hash := h1 c (List.mem_cons_self _ _)
    have hrest := ih (fun r hr => h1 r (List.mem_cons_of_mem _ hr))
    simp only [List.cons_append, Alt.delete_list, if_pos hc, List.append_eq, hrest]
    cases Alt.delete_list hash l2 with
    | none => rfl
    | some p => rfl

theorem alt_find_list_skip (hash : Nat) (l1 l2 : List Alt.hash_record_t)
    (h1 : ∀ r ∈ l1, r.hash < hash) :
    Alt.find_list hash (l1 ++ l2) = Alt.find_list hash l2 := by
  induction l1 with
  | nil => rfl
  | cons c l1 ih =>
    have hc : c.hash < hash := h1 c (List.mem_cons_self _ _)
    simp only [List.cons_append, Alt.find_list, if_pos hc, List.append_eq,
      ih (fun r hr => h1 r (List.mem_cons_of_mem _ hr))]

theorem alt_scan_above (hash salary : Nat) (l2 : List Alt.hash_record_t)
    (h2 : ∀ r ∈ l2, hash < r.hash) :
    Alt.update_list hash salary l2 = none ∧ Alt.delete_list hash l2 = none ∧
      Alt.find_list hash l2 = none := by
  cases l2 with
  | nil => exact ⟨rfl, rfl, rfl⟩
  | cons c rest =>
    have hc : hash < c.hash := h2 c (List.mem_cons_self _ _)
    have h1 : ¬ c.hash < hash := by omega
    have h3 : c.hash ≠ hash := by omega
    simp only [Alt.update_list, Alt.delete_list, Alt.find_list, if_neg h1, if_pos h3, and_self]

theorem alt_scan_at (hash salary : Nat) (name : List Nat) (v : Nat) (malloc_ok : Bool)
    (cur : Alt.hash_record_t) (l2 : List Alt.hash_record_t) (hc : cur.hash = hash) :
    Alt.insert_list hash name v malloc_ok (cur :: l2) =
        (Alt.table_status_t.TABLE_DUPLICATE, cur :: l2) ∧
      Alt.update_list hash salary (cur :: l2) =
        some (cur, { cur with salary := salary } :: l2) ∧
      Alt.delete_list hash (cur :: l2) = some (cur, l2) ∧
      Alt.find_list hash (cur :: l2) = some cur := by
  have h1 : ¬ cur.hash < hash := by omega
  have h3 : ¬ cur.hash ≠ hash := by omega
  simp only [Alt.insert_list, Alt.update_list, Alt.delete_list, Alt.find_list, if_neg h1,
    if_neg h3, if_pos hc, and_self]

/-- The four functions on a list with no record of the hash. -/
theorem alt_calls_absent (hash salary : Nat) (name : List Nat) (v : Nat)
    (l1 l2 : List Alt.hash_record_t) (h1 : ∀ r ∈ l1, r.hash < hash)
    (h2 : ∀ r ∈ l2, hash < r.hash) :
    Alt.insert_list hash name v true (l1 ++ l2) =
        (Alt.table_status_t.TABLE_OK,
          l1 ++ ⟨hash, name.take (Alt.MAX_NAME_LEN - 1), v⟩ :: l2) ∧
      Alt.update_list hash salary (l1 ++ l2) = none ∧
      Alt.delete_list hash (l1 ++ l2) = none ∧
      Alt.find_list hash (l1 ++ l2) = none := by
  obtain ⟨hu, hd, hf⟩ := alt_scan_above hash salary l2 h2
  refine ⟨?_, ?_, ?_, ?_⟩
  · rw [alt_insert_list_skip hash name v true l1 l2 h1, alt_insert_list_above hash name v l2 h2]
  · rw [alt_update_list_skip hash salary l1 l2 h1, hu]
  · rw [alt_delete_list_skip hash l1 l2 h1, hd]
  · rw [alt_find_list_skip hash l1 l2 h1, hf]

/-- The four functions on a list that holds a record of the hash. -/
theorem alt_calls_present (hash salary : Nat) (name : List Nat) (v : Nat) (malloc_ok : Bool)
    (l1 l2 : List Alt.hash_record_t) (cur : Alt.hash_record_t)
    (h1 : ∀ r ∈ l1, r.hash < hash) (hc : cur.hash = hash) :
    Alt.insert_list hash name v malloc_ok (l1 ++ cur :: l2) =
        (Alt.table_status_t.TABLE_DUPLICATE, l1 ++ cur :: l2) ∧
      Alt.update_list hash salary (l1 ++ cur :: l2) =
        some (cur, l1 ++ { cur with salary := salary } :: l2) ∧
      Alt.delete_list hash (l1 ++ cur :: l2) = some (cur, l1 ++ l2) ∧
      Alt.find_list hash (l1 ++ cur :: l2) = some cur := by
  obtain ⟨hi, hu, hd, hf⟩ := alt_scan_at hash salary name v malloc_ok cur l2 hc
  refine ⟨?_, ?_, ?_, ?_⟩
  · rw [alt_insert_list_skip hash name v malloc_ok l1 _ h1, hi]
  · rw [alt_update_list_skip hash salary l1 _ h1, hu]
  · rw [alt_delete_list_skip hash l1 _ h1, hd]
  · rw [alt_find_list_skip hash l1 _ h1, hf]

theorem alt_ascending_insert (hash : Nat) (rec : Alt.hash_record_t)
    (l1 l2 : List Alt.hash_record_t) (hs : Alt.strictly_ascending (l1 ++ l2))
    (h1 : ∀ r ∈ l1, r.hash < hash) (h2 : ∀ r ∈ l2, hash < r.hash) (hr : rec.hash = hash) :
    Alt.strictly_ascending (l1 ++ rec :: l2) := by
  unfold Alt.strictly_ascending at hs ⊢
  rw [List.pairwise_append] at hs ⊢
  obtain ⟨p1, p2, _⟩ := hs
  refine ⟨p1, List.pairwise_cons.mpr ⟨fun b hb => by rw [hr]; exact h2 b hb, p2⟩, ?_⟩
  intro a ha b hb
  rcases List.mem_cons.mp hb with h | h
  · rw [h, hr]; exact h1 a ha
  · have := h1 a ha
    have := h2 b h
    omega

theorem alt_ascending_replace (cur new : Alt.hash_record_t)
    (l1 l2 : List Alt.hash_record_t) (hs : Alt.strictly_ascending (l1 ++ cur :: l2))
    (hr : new.hash = cur.hash) : Alt.strictly_ascending (l1 ++ new :: l2) := by
  unfold Alt.strictly_ascending at hs ⊢
  have hmap : (l1 ++ new :: l2).map Alt.hash_record_t.hash =
      (l1 ++ cur :: l2).map Alt.hash_record_t.hash := by
    simp only [List.map_append, List.map_cons, hr]
  have h1 : ((l1 ++ cur :: l2).map Alt.hash_record_t.hash).Pairwise (fun a b => a < b) :=
    List.pairwise_map.mpr hs
  rw [← hmap] at h1
  exact List.pairwise_map.mp h1

theorem alt_ascending_remove (cur : Alt.hash_record_t) (l1 l2 : List Alt.hash_record_t)
    (hs : Alt.strictly_ascending (l1 ++ cur :: l2)) : Alt.strictly_ascending (l1 ++ l2) := by
  unfold Alt.strictly_ascending at hs ⊢
  exact hs.sublist
    (List.Sublist.append (List.Sublist.refl l1) (List.sublist_cons_self cur l2))

theorem alt_insert_preserves_inv (table : Alt.hash_table_t) (hash : Nat) (name : List Nat)
    (v : Nat) (malloc_ok : Bool) (hinv : Alt.list_inv table.head) :
    Alt.list_inv (Alt.hash_table_insert table hash name v malloc_ok).2.head := by
  show Alt.list_inv (Alt.insert_list hash name v malloc_ok table.head).2
  cases malloc_ok with
  | false => rw [alt_insert_list_failed]; exact hinv
  | true =>
    rcases alt_scan_split hash table.head hinv.sorted with
      ⟨l1, l2, hl, h1, h2⟩ | ⟨l1, cur, l2, hl, h1, hc, _⟩
    · rw [hl, (alt_calls_absent hash 0 name v l1 l2 h1 h2).1]
      refine ⟨alt_ascending_insert hash _ l1 l2 (hl ▸ hinv.sorted) h1 h2 rfl, ?_⟩
      intro r hr
      rcases List.mem_append.mp hr with h | h
      · exact hinv.short r (by rw [hl]; exact List.mem_append_left _ h)
      · rcases List.mem_cons.mp h with h | h
        · rw [h]
          exact List.length_take_le _ _
        · exact hinv.short r (by rw [hl]; exact List.mem_append_right _ h)
    · rw [hl, (alt_calls_present hash 0 name v true l1 l2 cur h1 hc).1]
      exact hl ▸ hinv

theorem alt_update_preserves_inv (table : Alt.hash_table_t) (hash salary : Nat)
    (hinv : Alt.list_inv table.head) :
    Alt.list_inv (Alt.hash_table_update table hash salary).2.1.head := by
  unfold Alt.hash_table_update
  rcases alt_scan_split hash table.head hinv.sorted with
    ⟨l1, l2, hl, h1, h2⟩ | ⟨l1, cur, l2, hl, h1, hc, _⟩
  · rw [hl, (alt_calls_absent hash salary [] 0 l1 l2 h1 h2).2.1]
    exact hl ▸ hinv
  · rw [hl, (alt_calls_present hash salary [] 0 true l1 l2 cur h1 hc).2.1]
    refine ⟨alt_ascending_replace cur _ l1 l2 (hl ▸ hinv.sorted) rfl, ?_⟩
    intro r hr
    rcases List.mem_append.mp hr with h | h
    · exact hinv.short r (by rw [hl]; exact List.mem_append_left _ h)
    · rcases List.mem_cons.mp h with h | h
      · rw [h]
        exact hinv.short cur
          (by rw [hl]; exact List.mem_append_right _ (List.mem_cons_self _ _))
      · exact hinv.short r
          (by rw [hl]; exact List.mem_append_right _ (List.mem_cons_of_mem _ h))

theorem alt_delete_preserves_inv (table : Alt.hash_table_t) (hash : Nat)
    (hinv : Alt.list_inv table.head) :
    Alt.list_inv (Alt.hash_table_delete table hash).2.1.head := by
  unfold Alt.hash_table_delete
  rcases alt_scan_split hash table.head hinv.sorted with
    ⟨l1, l2, hl, h1, h2⟩ | ⟨l1, cur, l2, hl, h1, hc, _⟩
  · rw [hl, (alt_calls_absent hash 0 [] 0 l1 l2 h1 h2).2.2.1]
    exact hl ▸ hinv
  · rw [hl, (alt_calls_present hash 0 [] 0 true l1 l2 cur h1 hc).2.2.1]
    refine ⟨alt_ascending_remove cur l1 l2 (hl ▸ hinv.sorted), ?_⟩
    intro r hr
    rcases List.mem_append.mp hr with h | h
    · exact hinv.short r (by rw [hl]; exact List.mem_append_left _ h)
    · exact hinv.short r
        (by rw [hl]; exact List.mem_append_right _ (List.mem_cons_of_mem _ h))

theorem alt_apply_op_inv (table : Alt.hash_table_t) (op : Alt.table_op)
    (hinv : Alt.list_inv table.head) : Alt.list_inv (Alt.apply_op table op).head := by
  cases op with
  | insert hash name salary malloc_ok =>
    exact alt_insert_preserves_inv table hash name salary malloc_ok hinv
  | update hash salary => exact alt_update_preserves_inv table hash salary hinv
  | delete hash => exact alt_delete_preserves_inv table hash hinv

theorem alt_foldl_inv (ops : List Alt.table_op) :
    ∀ table : Alt.hash_table_t, Alt.list_inv table.head →
      Alt.list_inv (ops.foldl Alt.apply_op table).head := by
  induction ops with
  | nil => intro table h; exact h
  | cons op ops ih =>
    intro table h
    exact ih _ (alt_apply_op_inv table op h)

theorem alt_build_table_inv (ops : List Alt.table_op) :
    Alt.list_inv (Alt.build_table ops).head :=
  alt_foldl_inv ops Alt.hash_table_init ⟨List.Pairwise.nil, fun r hr => by cases hr⟩

theorem alt_copy_record_short (r : Alt.hash_record_t)
    (h : r.name.length ≤ Alt.MAX_NAME_LEN - 1) :
    Alt.copy_record r = ⟨r.hash, r.name, r.salary⟩ := by
  unfold Alt.copy_record
  have hlen : r.name.length ≤ Alt.MAX_NAME_LEN := by
    have : Alt.MAX_NAME_LEN = 50 := rfl
    omega
  rw [List.take_of_length_le hlen]

theorem alt_snapshot_eq (table : Alt.hash_table_t) (hinv : Alt.list_inv table.head) :
    (Alt.hash_table_snapshot table true).1 = table.head.length ∧
      Alt.snapshot_sequence (Alt.hash_table_snapshot table true) =
        table.head.map (fun r => (⟨r.hash, r.name, r.salary⟩ : Alt.record_snapshot_t)) := by
  have hmap : table.head.map Alt.copy_record =
      table.head.map (fun r => (⟨r.hash, r.name, r.salary⟩ : Alt.record_snapshot_t)) := by
    apply List.map_congr_left
    intro r hr
    exact alt_copy_record_short r (hinv.short r hr)
  unfold Alt.hash_table_snapshot Alt.snapshot_sequence
  cases hh : table.head with
  | nil => simp
  | cons c rest =>
    rw [hh] at hmap
    simp only [List.length_cons, Nat.succ_ne_zero, if_false, gt_iff_lt, Nat.zero_lt_succ,
      Bool.true_eq_false, and_false, true_and]
    exact hmap

/-- C31: in every state of the alternate store reached from `hash_table_init`
by calls of `hash_table_insert`, `hash_table_update` and `hash_table_delete`,
the list is strictly ascending by hash, so no two records share a hash; and
`hash_table_snapshot` (its allocation succeeding) returns the length of the
list as count and the records of the list, each with its hash, name and
salary, in the order of the list, that is in strictly ascending order of
hash. -/
theorem alt_list_strictly_ascending (ops : List Alt.table_op) :
    Alt.strictly_ascending (Alt.build_table ops).head ∧
      ((Alt.build_table ops).head.map Alt.hash_record_t.hash).Nodup ∧
      (Alt.hash_table_snapshot (Alt.build_table ops) true).1 =
        (Alt.build_table ops).head.length ∧
      Alt.snapshot_sequence (Alt.hash_table_snapshot (Alt.build_table ops) true) =
        (Alt.build_table ops).head.map
          (fun r => (⟨r.hash, r.name, r.salary⟩ : Alt.record_snapshot_t)) ∧
      (Alt.snapshot_sequence (Alt.hash_table_snapshot (Alt.build_table ops) true)).Pairwise
        (fun a b => a.hash < b.hash) := by
  have hinv := alt_build_table_inv ops
  obtain ⟨hcount, hseq⟩ := alt_snapshot_eq (Alt.build_table ops) hinv
  have hsorted : Alt.strictly_ascending (Alt.build_table ops).head := hinv.sorted
  refine ⟨hsorted, ?_, hcount, hseq, ?_⟩
  · have h1 : ((Alt.build_table ops).head.map Alt.hash_record_t.hash).Pairwise
        (fun a b => a < b) := List.pairwise_map.mpr hsorted
    exact h1.imp (fun h => Nat.ne_of_lt h)
  · rw [hseq]
    exact List.pairwise_map.mpr hsorted

/-! ## The root store refines a finite map -/

theorem reference_search_some (m : AList (fun _ : List Nat => Nat)) (name : List Nat)
    (value : Nat) (h : m.lookup name = some value) :
    reference_search m name = (1, some ⟨jenkins_one_at_a_time_hash name, name, value⟩) := by
  unfold reference_search
  rw [h]

theorem reference_search_none (m : AList (fun _ : List Nat => Nat)) (name : List Nat)
    (h : m.lookup name = none) : reference_search m name = (0, none) := by
  unfold reference_search
  rw [h]

/-- A split of a chain of a table with the invariant at the first record of a
name leaves no record of that name after it. -/
theorem chain_split_unique (table : hash_table_t) (name : List Nat)
    (l1 l2 : List hash_record_t) (cur : hash_record_t) (hinv : table_inv table)
    (hsplit : name_chain table name = l1 ++ cur :: l2) (hcur : cur.name = name) :
    ∀ r ∈ l2, r.name ≠ name := by
  have hnd := hinv.unique (bucket_index (jenkins_one_at_a_time_hash name))
  unfold name_chain at hsplit
  rw [hsplit, List.map_append, List.map_cons] at hnd
  intro r hr2 hrn
  have hcons := (List.nodup_append.mp hnd).2.1
  rw [List.nodup_cons] at hcons
  apply hcons.1
  rw [hcur, ← hrn]
  exact List.mem_map_of_mem _ hr2

theorem search_of_mem (table : hash_table_t) (r : hash_record_t) (name : List Nat)
    (hinv : table_inv table) (hr : r ∈ hash_table_records table) (hname : r.name = name) :
    hash_table_search table name = (1, some r) := by
  have hin := present_in_name_chain table name r hinv hr hname
  rcases chain_split name (name_chain table name) with
    hnone | ⟨l1, cur, l2, hsplit, h1, hcur⟩
  · exact absurd hname (hnone r hin)
  · have h2 := chain_split_unique table name l1 l2 cur hinv hsplit hcur
    rw [hsplit] at hin
    have hrc : r = cur := by
      rcases List.mem_append.mp hin with h | h
      · exact absurd hname (h1 r h)
      · rcases List.mem_cons.mp h with h | h
        · exact h
        · exact absurd hname (h2 r h)
    rw [hrc]
    exact search_found table name l1 l2 cur hsplit h1 hcur

/-- What the map says about a name decides the chain of the name. -/
theorem abstracts_chain (table : hash_table_t) (m : AList (fun _ : List Nat => Nat))
    (name : List Nat) (habs : abstracts table m) :
    (m.lookup name = none ∧ ∀ r ∈ name_chain table name, r.name ≠ name) ∨
      (∃ value l1 l2, m.lookup name = some value ∧
        name_chain table name =
          l1 ++ (⟨jenkins_one_at_a_time_hash name, name, value⟩ : hash_record_t) :: l2 ∧
        ∀ r ∈ l1, r.name ≠ name) := by
  have hs := habs name
  cases hl : m.lookup name with
  | none =>
    left
    refine ⟨rfl, ?_⟩
    rw [reference_search_none m name hl] at hs
    rcases chain_split name (name_chain table name) with
      hnone | ⟨l1, cur, l2, hsplit, h1, hcur⟩
    · exact hnone
    · rw [search_found table name l1 l2 cur hsplit h1 hcur] at hs
      exact absurd (congrArg Prod.fst hs) (by simp)
  | some value =>
    right
    rw [reference_search_some m name value hl] at hs
    obtain ⟨l1, l2, hsplit, h1, _⟩ := search_some_split table name _ hs
    exact ⟨value, l1, l2, rfl, hsplit, h1⟩

theorem abstracts_of_frame (table table2 : hash_table_t)
    (m m2 : AList (fun _ : List Nat => Nat)) (name : List Nat) (habs : abstracts table m)
    (hself : hash_table_search table2 name = reference_search m2 name)
    (hframe : ∀ other, other ≠ name →
      hash_table_search table2 other = hash_table_search table other)
    (hmap : ∀ other, other ≠ name → m2.lookup other = m.lookup other) :
    abstracts table2 m2 := by
  intro other
  by_cases h : other = name
  · rw [h]; exact hself
  · rw [hframe other h, habs other]
    unfold reference_search
    rw [hmap other h]

theorem insert_refines (table : hash_table_t) (m : AList (fun _ : List Nat => Nat))
    (name : List Nat) (salary : Nat) (habs : abstracts table m)
    (hshort : name.length < HASH_NAME_MAX) :
    (hash_table_insert table name salary true).status =
        (if (m.lookup name).isSome then HASH_UPDATED else HASH_INSERTED) ∧
      abstracts (hash_table_insert table name salary true).table (m.insert name salary) := by
  have hmap : ∀ other, other ≠ name →
      (m.insert name salary).lookup other = m.lookup other :=
    fun other h => AList.lookup_insert_ne h
  have hframe : ∀ other, other ≠ name →
      hash_table_search (hash_table_insert table name salary true).table other =
        hash_table_search table other :=
    fun other h => insert_frame table name other salary true (Ne.symm h) hshort
  have hlook : (m.insert name salary).lookup name = some salary := AList.lookup_insert m
  rcases abstracts_chain table m name habs with
    ⟨hl, hnone⟩ | ⟨value, l1, l2, hl, hsplit, h1⟩
  · refine ⟨?_, abstracts_of_frame table _ m _ name habs ?_ hframe hmap⟩
    · rw [insert_fresh table name salary hnone, hl]
      rfl
    · rw [reference_search_some _ name salary hlook]
      rw [insert_fresh table name salary hnone, take_short name hshort]
      exact search_found _ name [] (name_chain table name) _
        (by rw [name_chain_update]; rfl) (by simp) rfl
  · refine ⟨?_, abstracts_of_frame table _ m _ name habs ?_ hframe hmap⟩
    · rw [insert_found table name salary true l1 l2 _ hsplit h1 rfl, hl]
      rfl
    · rw [reference_search_some _ name salary hlook]
      rw [insert_found table name salary true l1 l2 _ hsplit h1 rfl]
      exact search_found _ name l1 l2 _ (by rw [name_chain_update]) h1 rfl

theorem update_refines (table : hash_table_t) (m : AList (fun _ : List Nat => Nat))
    (name : List Nat) (salary : Nat) (habs : abstracts table m) :
    (hash_table_update table name salary).ret = (if (m.lookup name).isSome then 1 else 0) ∧
      (hash_table_update table name salary).out_previous_salary = m.lookup name ∧
      (hash_table_update table name salary).out_record =
        (m.lookup name).map
          (fun _ => (⟨jenkins_one_at_a_time_hash name, name, salary⟩ : hash_record_t)) ∧
      abstracts (hash_table_update table name salary).table
        (if (m.lookup name).isSome then m.insert name salary else m) := by
  rcases abstracts_chain table m name habs with
    ⟨hl, hnone⟩ | ⟨value, l1, l2, hl, hsplit, h1⟩
  · rw [update_missing table name salary hnone, hl]
    exact ⟨rfl, rfl, rfl, habs⟩
  · have hmap : ∀ other, other ≠ name →
        (m.insert name salary).lookup other = m.lookup other :=
      fun other h => AList.lookup_insert_ne h
    have hframe : ∀ other, other ≠ name →
        hash_table_search (hash_table_update table name salary).table other =
          hash_table_search table other :=
      fun other h => update_frame table name other salary (Ne.symm h)
    have hlook : (m.insert name salary).lookup name = some salary := AList.lookup_insert m
    have hself : hash_table_search (hash_table_update table name salary).table name =
        reference_search (m.insert name salary) name := by
      rw [reference_search_some _ name salary hlook]
      rw [update_found table name salary l1 l2 _ hsplit h1 rfl]
      exact search_found _ name l1 l2 _ (by rw [name_chain_update]) h1 rfl
    have habs2 := abstracts_of_frame table _ m _ name habs hself hframe hmap
    rw [hl]
    refine ⟨?_, ?_, ?_, habs2⟩
    · rw [update_found table name salary l1 l2 _ hsplit h1 rfl]; rfl
    · rw [update_found table name salary l1 l2 _ hsplit h1 rfl]
    · rw [update_found table name salary l1 l2 _ hsplit h1 rfl]; rfl

theorem delete_refines (table : hash_table_t) (m : AList (fun _ : List Nat => Nat))
    (name : List Nat) (hinv : table_inv table) (habs : abstracts table m) :
    (hash_table_delete table name).ret = (if (m.lookup name).isSome then 1 else 0) ∧
      (hash_table_delete table name).out_record =
        (m.lookup name).map
          (fun value => (⟨jenkins_one_at_a_time_hash name, name, value⟩ : hash_record_t)) ∧
      abstracts (hash_table_delete table name).table (m.erase name) := by
  have hmap : ∀ other, other ≠ name → (m.erase name).lookup other = m.lookup other :=
    fun other h => AList.lookup_erase_ne h
  have hframe : ∀ other, other ≠ name →
      hash_table_search (hash_table_delete table name).table other =
        hash_table_search table other :=
    fun other h => delete_frame table name other (Ne.symm h)
  have hlook : (m.erase name).lookup name = none := AList.lookup_erase name m
  rcases abstracts_chain table m name habs with
    ⟨hl, hnone⟩ | ⟨value, l1, l2, hl, hsplit, h1⟩
  · rw [hl]
    refine ⟨?_, ?_, abstracts_of_frame table _ m _ name habs ?_ hframe hmap⟩
    · rw [delete_missing table name hnone]; rfl
    · rw [delete_missing table name hnone]; rfl
    · rw [reference_search_none _ name hlook, delete_missing table name hnone]
      exact search_missing table name hnone
  · have h2 := chain_split_unique table name l1 l2 _ hinv hsplit rfl
    rw [hl]
    refine ⟨?_, ?_, abstracts_of_frame table _ m _ name habs ?_ hframe hmap⟩
    · rw [delete_found table name l1 l2 _ hsplit h1 rfl]; rfl
    · rw [delete_found table name l1 l2 _ hsplit h1 rfl]; rfl
    · rw [reference_search_none _ name hlook, delete_found table name l1 l2 _ hsplit h1 rfl]
      apply search_missing
      rw [name_chain_update]
      intro r hr
      rcases List.mem_append.mp hr with h | h
      · exact h1 r h
      · exact h2 r h

theorem apply_op_inv (table : hash_table_t) (op : store_op) (hinv : table_inv table)
    (hshort : op.name.length < HASH_NAME_MAX) : table_inv (apply_op table op) := by
  cases op with
  | insert name salary calloc_ok =>
    exact insert_preserves_inv table name salary calloc_ok hinv hshort
  | update name salary => exact update_preserves_inv table name salary hinv
  | delete name => exact delete_preserves_inv table name hinv

theorem apply_op_refines (table : hash_table_t) (m : AList (fun _ : List Nat => Nat))
    (op : store_op) (hinv : table_inv table) (habs : abstracts table m)
    (hshort : op.name.length < HASH_NAME_MAX) (halloc : op_allocates op) :
    store_result table op = reference_result m op ∧
      abstracts (apply_op table op) (reference_apply m op) := by
  cases op with
  | insert name salary calloc_ok =>
    have hok : calloc_ok = true := halloc
    subst hok
    obtain ⟨h1, h2⟩ := insert_refines table m name salary habs hshort
    exact ⟨congrArg op_result.inserted h1, h2⟩
  | update name salary =>
    obtain ⟨h1, _, _, h2⟩ := update_refines table m name salary habs
    exact ⟨congrArg op_result.updated h1, h2⟩
  | delete name =>
    obtain ⟨h1, _, h2⟩ := delete_refines table m name hinv habs
    exact ⟨congrArg op_result.deleted h1, h2⟩

theorem run_refines (ops : List store_op) :
    ∀ (table : hash_table_t) (m : AList (fun _ : List Nat => Nat)),
      table_inv table → abstracts table m →
      (∀ op ∈ ops, op.name.length < HASH_NAME_MAX) → (∀ op ∈ ops, op_allocates op) →
      store_results table ops = reference_results m ops ∧
        abstracts (ops.foldl apply_op table) (ops.foldl reference_apply m) := by
  induction ops with
  | nil => intro table m _ habs _ _; exact ⟨rfl, habs⟩
  | cons op ops ih =>
    intro table m hinv habs hshort halloc
    have hs := hshort op (List.mem_cons_self _ _)
    obtain ⟨h1, h2⟩ := apply_op_refines table m op hinv habs hs
      (halloc op (List.mem_cons_self _ _))
    obtain ⟨h3, h4⟩ := ih (apply_op table op) (reference_apply m op)
      (apply_op_inv table op hinv hs) h2
      (fun o ho => hshort o (List.mem_cons_of_mem _ ho))
      (fun o ho => halloc o (List.mem_cons_of_mem _ ho))
    refine ⟨?_, h4⟩
    simp only [store_results, reference_results, h1, h3]

theorem abstracts_init : abstracts hash_table_init ∅ := by
  intro name
  rw [reference_search_none ∅ name (AList.lookup_empty name)]
  apply search_missing
  intro r hr
  exact absurd hr (List.not_mem_nil r)

theorem reference_entries_nodup (m : AList (fun _ : List Nat => Nat)) :
    (reference_entries m).Nodup := by
  unfold reference_entries
  apply List.Nodup.map_on _ m.nodupKeys.nodup
  intro x _ y _ h
  have h1 : x.1 = y.1 := congrArg hash_record_t.name h
  have h2 : x.2 = y.2 := congrArg hash_record_t.salary h
  cases x
  cases y
  simp only at h1 h2
  subst h1
  subst h2
  rfl

theorem mem_reference_entries (m : AList (fun _ : List Nat => Nat)) (r : hash_record_t) :
    r ∈ reference_entries m ↔
      (m.lookup r.name = some r.salary ∧ r.hash = jenkins_one_at_a_time_hash r.name) := by
  unfold reference_entries
  rw [List.mem_map]
  constructor
  · rintro ⟨e, he, hr⟩
    rw [← hr]
    refine ⟨?_, rfl⟩
    have : e.2 ∈ m.lookup e.1 := AList.mem_lookup_iff.mpr (by cases e; exact he)
    exact this
  · rintro ⟨hl, hh⟩
    refine ⟨⟨r.name, r.salary⟩, AList.mem_lookup_iff.mp hl, ?_⟩
    cases r
    simp only at hh ⊢
    rw [hh]

theorem records_perm_entries (table : hash_table_t) (m : AList (fun _ : List Nat => Nat))
    (hinv : table_inv table) (habs : abstracts table m) :
    (hash_table_records table).Perm (reference_entries m) := by
  rw [List.perm_ext_iff_of_nodup (List.Nodup.of_map _ (names_nodup table hinv))
    (reference_entries_nodup m)]
  intro r
  rw [mem_reference_entries]
  constructor
  · intro hr
    have hs := search_of_mem table r r.name hinv hr rfl
    rw [habs r.name] at hs
    unfold reference_search at hs
    cases hl : m.lookup r.name with
    | none =>
      rw [hl] at hs
      exact absurd (congrArg Prod.fst hs) (by simp)
    | some value =>
      rw [hl] at hs
      have hrec : (⟨jenkins_one_at_a_time_hash r.name, r.name, value⟩ : hash_record_t) = r :=
        Option.some.inj (congrArg Prod.snd hs)
      have h1 : value = r.salary := congrArg hash_record_t.salary hrec
      have h2 : jenkins_one_at_a_time_hash r.name = r.hash := congrArg hash_record_t.hash hrec
      exact ⟨by rw [h1], h2.symm⟩
  · rintro ⟨hl, hh⟩
    have hs := habs r.name
    rw [reference_search_some m r.name r.salary hl] at hs
    have hr : (⟨jenkins_one_at_a_time_hash r.name, r.name, r.salary⟩ : hash_record_t) = r := by
      cases r
      simp only at hh ⊢
      rw [hh]
    rw [hr] at hs
    exact name_chain_subset table r.name r (search_in_chain table r.name r hs)

theorem snapshot_sequence_sorted (table : hash_table_t) :
    List.Sorted record_order (snapshot_sequence (hash_table_snapshot table true)) := by
  unfold hash_table_snapshot snapshot_sequence
  by_cases h : hash_table_count table = 0
  · simp [h]
  · simp only [h, if_false, Bool.true_eq_false]
    exact qsort_sorted _

/-- C32: the root store refines a finite map.  For every sequence of
`hash_table_insert`, `hash_table_update` and `hash_table_delete` calls with
names shorter than 64 bytes and every allocation succeeding, applied to the
empty store, and the same sequence applied to the reference map (insert is
set, update is set if present, delete is erase): every return status agrees;
the search of any name is found, with the hash of the name, the name and the
value of the map, exactly when the map holds the name; and the snapshot is the
entries of the map, as records, sorted by hash and then name. -/
theorem store_refines_finite_map (ops : List store_op)
    (hshort : ∀ op ∈ ops, op.name.length < HASH_NAME_MAX)
    (halloc : ∀ op ∈ ops, op_allocates op) :
    store_results hash_table_init ops = reference_results ∅ ops ∧
      (∀ name : List Nat,
        hash_table_search (build_table ops) name =
          reference_search (reference_build ops) name) ∧
      (∀ name : List Nat,
        ((hash_table_search (build_table ops) name).1 = 1 ↔
          (reference_build ops).lookup name ≠ none)) ∧
      List.Sorted record_order
        (snapshot_sequence (hash_table_snapshot (build_table ops) true)) ∧
      (snapshot_sequence (hash_table_snapshot (build_table ops) true)).Perm
        (reference_entries (reference_build ops)) := by
  obtain ⟨h1, h2⟩ := run_refines ops hash_table_init ∅ table_inv_init abstracts_init
    hshort halloc
  have hinv := build_table_inv ops hshort
  refine ⟨h1, h2, ?_, snapshot_sequence_sorted _, ?_⟩
  · intro name
    have hs : hash_table_search (build_table ops) name =
        reference_search (reference_build ops) name := h2 name
    rw [hs]
    unfold reference_search
    cases (reference_build ops).lookup name with
    | none => simp
    | some value => simp
  · exact (snapshot_perm (build_table ops)).trans
      (records_perm_entries (build_table ops) (reference_build ops) hinv h2)

theorem scenario_ops_short : ∀ op ∈ scenario_ops, op.name.length < HASH_NAME_MAX := by
  intro op hop
  simp only [scenario_ops, List.mem_cons, List.mem_singleton, List.not_mem_nil,
    or_false] at hop
  rcases hop with h | h | h | h <;> rw [h] <;> decide

theorem scenario_ops_allocate : ∀ op ∈ scenario_ops, op_allocates op := by
  intro op hop
  simp only [scenario_ops, List.mem_cons, List.mem_singleton, List.not_mem_nil,
    or_false] at hop
  rcases hop with h | h | h | h <;> rw [h] <;> simp [op_allocates]

theorem store_refines_finite_map_witness :
    (∀ op ∈ scenario_ops, op.name.length < HASH_NAME_MAX) ∧
      (∀ op ∈ scenario_ops, op_allocates op) ∧
      store_results hash_table_init scenario_ops = reference_results ∅ scenario_ops ∧
      (∀ name : List Nat,
        hash_table_search (build_table scenario_ops) name =
          reference_search (reference_build scenario_ops) name) ∧
      (∀ name : List Nat,
        ((hash_table_search (build_table scenario_ops) name).1 = 1 ↔
          (reference_build scenario_ops).lookup name ≠ none)) ∧
      List.Sorted record_order
        (snapshot_sequence (hash_table_snapshot (build_table scenario_ops) true)) ∧
      (snapshot_sequence (hash_table_snapshot (build_table scenario_ops) true)).Perm
        (reference_entries (reference_build scenario_ops)) :=
  ⟨scenario_ops_short, scenario_ops_allocate,
    store_refines_finite_map scenario_ops scenario_ops_short scenario_ops_allocate⟩

/-! ## The two stores on collision-free workloads -/

theorem alt_mem_without (hash : Nat) (l1 l2 : List Alt.hash_record_t)
    (cur a : Alt.hash_record_t) (h1 : ∀ r ∈ l1, r.hash < hash) (hc : cur.hash = hash)
    (h2 : ∀ r ∈ l2, hash < r.hash) :
    a ∈ l1 ++ l2 ↔ (a ∈ l1 ++ cur :: l2 ∧ a.hash ≠ hash) := by
  constructor
  · intro h
    rcases List.mem_append.mp h with h | h
    · exact ⟨List.mem_append_left _ h, by have := h1 a h; omega⟩
    · exact ⟨List.mem_append_right _ (List.mem_cons_of_mem _ h), by have := h2 a h; omega⟩
  · rintro ⟨h, hne⟩
    rcases List.mem_append.mp h with h | h
    · exact List.mem_append_left _ h
    · rcases List.mem_cons.mp h with h | h
      · rw [h] at hne; exact absurd hc hne
      · exact List.mem_append_right _ h

theorem alt_mem_replace (hash : Nat) (l1 l2 : List Alt.hash_record_t)
    (cur new a : Alt.hash_record_t) (h1 : ∀ r ∈ l1, r.hash < hash) (hc : cur.hash = hash)
    (h2 : ∀ r ∈ l2, hash < r.hash) :
    a ∈ l1 ++ new :: l2 ↔ ((a ∈ l1 ++ cur :: l2 ∧ a.hash ≠ hash) ∨ a = new) := by
  rw [← alt_mem_without hash l1 l2 cur a h1 hc h2]
  simp only [List.mem_append, List.mem_cons]
  tauto

theorem alt_record_ext (a : Alt.hash_record_t) (hash : Nat) (name : List Nat) (salary : Nat)
    (h1 : a.hash = hash) (h2 : a.name = name) (h3 : a.salary = salary) :
    a = ⟨hash, name, salary⟩ := by
  cases a
  simp only at h1 h2 h3
  rw [h1, h2, h3]

theorem alt_mem_insert (l1 l2 : List Alt.hash_record_t) (new a : Alt.hash_record_t) :
    a ∈ l1 ++ new :: l2 ↔ (a ∈ l1 ++ l2 ∨ a = new) := by
  simp only [List.mem_append, List.mem_cons]
  tauto

/-- Where the scan for the hash of a name stops, told by the map: on a list
that holds what the map holds, with names whose hashes are distinct. -/
theorem alt_abstracts_split (names : List (List Nat)) (l : List Alt.hash_record_t)
    (m : AList (fun _ : List Nat => Nat)) (name : List Nat)
    (hinj : ∀ n1 ∈ names, ∀ n2 ∈ names,
      jenkins_one_at_a_time_hash n1 = jenkins_one_at_a_time_hash n2 → n1 = n2)
    (hkeys : ∀ k, m.lookup k ≠ none → k ∈ names) (hname : name ∈ names)
    (hinv : Alt.list_inv l) (habs : Alt.list_abstracts l m) :
    (m.lookup name = none ∧ ∃ l1 l2, l = l1 ++ l2 ∧
        (∀ r ∈ l1, r.hash < jenkins_one_at_a_time_hash name) ∧
        (∀ r ∈ l2, jenkins_one_at_a_time_hash name < r.hash)) ∨
      (∃ value l1 l2, m.lookup name = some value ∧
        l = l1 ++ (⟨jenkins_one_at_a_time_hash name, name, value⟩ : Alt.hash_record_t) :: l2 ∧
        (∀ r ∈ l1, r.hash < jenkins_one_at_a_time_hash name) ∧
        (∀ r ∈ l2, jenkins_one_at_a_time_hash name < r.hash)) := by
  have hcur : ∀ cur ∈ l, cur.hash = jenkins_one_at_a_time_hash name →
      m.lookup name = some cur.salary ∧
        cur = (⟨jenkins_one_at_a_time_hash name, name, cur.salary⟩ : Alt.hash_record_t) := by
    intro cur hc hh
    obtain ⟨hl, hhash⟩ := (habs cur).mp hc
    have hk : cur.name ∈ names := hkeys cur.name (by rw [hl]; simp)
    have hn : cur.name = name := hinj _ hk _ hname (by rw [← hhash, hh])
    exact ⟨by rw [← hn]; exact hl, alt_record_ext cur _ _ _ hh hn rfl⟩
  rcases alt_scan_split (jenkins_one_at_a_time_hash name) l hinv.sorted with
    ⟨l1, l2, hl, h1, h2⟩ | ⟨l1, cur, l2, hl, h1, hc, h2⟩
  · cases hlook : m.lookup name with
    | none => exact Or.inl ⟨rfl, l1, l2, hl, h1, h2⟩
    | some value =>
      exfalso
      have hmem : (⟨jenkins_one_at_a_time_hash name, name, value⟩ : Alt.hash_record_t) ∈ l :=
        (habs _).mpr ⟨hlook, rfl⟩
      rw [hl] at hmem
      rcases List.mem_append.mp hmem with h | h
      · have := h1 _ h
        simp only at this
        omega
      · have := h2 _ h
        simp only at this
        omega
  · have hcl : cur ∈ l := by
      rw [hl]; exact List.mem_append_right _ (List.mem_cons_self _ _)
    obtain ⟨hlook, heq⟩ := hcur cur hcl hc
    refine Or.inr ⟨cur.salary, l1, l2, hlook, ?_, h1, h2⟩
    rw [← heq]
    exact hl

theorem alt_insert_abstracts (l1 l2 : List Alt.hash_record_t)
    (m : AList (fun _ : List Nat => Nat)) (name : List Nat) (value : Nat)
    (hlook : m.lookup name = none) (habs : Alt.list_abstracts (l1 ++ l2) m) :
    Alt.list_abstracts
      (l1 ++ (⟨jenkins_one_at_a_time_hash name, name, value⟩ : Alt.hash_record_t) :: l2)
      (m.insert name value) := by
  intro a
  have hold := habs a
  rw [alt_mem_insert, hold]
  by_cases hn : a.name = name
  · rw [hn, AList.lookup_insert, hlook]
    constructor
    · rintro (⟨h, _⟩ | h)
      · exact absurd h (by simp)
      · rw [h]; exact ⟨rfl, rfl⟩
    · rintro ⟨h1, h2⟩
      exact Or.inr (alt_record_ext a _ _ _ h2 hn (Option.some.inj h1).symm)
  · rw [AList.lookup_insert_ne hn]
    constructor
    · rintro (h | h)
      · exact h
      · rw [h] at hn; exact absurd rfl hn
    · intro h; exact Or.inl h

theorem alt_update_abstracts (names : List (List Nat)) (l1 l2 : List Alt.hash_record_t)
    (m : AList (fun _ : List Nat => Nat)) (name : List Nat) (old value : Nat)
    (hinj : ∀ n1 ∈ names, ∀ n2 ∈ names,
      jenkins_one_at_a_time_hash n1 = jenkins_one_at_a_time_hash n2 → n1 = n2)
    (hkeys : ∀ k, m.lookup k ≠ none → k ∈ names) (hname : name ∈ names)
    (h1 : ∀ r ∈ l1, r.hash < jenkins_one_at_a_time_hash name)
    (h2 : ∀ r ∈ l2, jenkins_one_at_a_time_hash name < r.hash)
    (habs : Alt.list_abstracts
      (l1 ++ (⟨jenkins_one_at_a_time_hash name, name, old⟩ : Alt.hash_record_t) :: l2) m) :
    Alt.list_abstracts
        (l1 ++ (⟨jenkins_one_at_a_time_hash name, name, value⟩ : Alt.hash_record_t) :: l2)
        (m.insert name value) ∧
      Alt.list_abstracts (l1 ++ l2) (m.erase name) := by
  have hkey : ∀ a : Alt.hash_record_t,
      a ∈ l1 ++ (⟨jenkins_one_at_a_time_hash name, name, old⟩ : Alt.hash_record_t) :: l2 →
      (a.hash ≠ jenkins_one_at_a_time_hash name ↔ a.name ≠ name) := by
    intro a ha
    obtain ⟨hl, hh⟩ := (habs a).mp ha
    have hk : a.name ∈ names := hkeys a.name (by rw [hl]; simp)
    constructor
    · intro hne hn
      apply hne
      rw [hh, hn]
    · intro hne hheq
      apply hne
      exact hinj _ hk _ hname (by rw [← hh, hheq])
  constructor
  · intro a
    rw [alt_mem_replace (jenkins_one_at_a_time_hash name) l1 l2
      ⟨jenkins_one_at_a_time_hash name, name, old⟩ _ a h1 rfl h2]
    by_cases hn : a.name = name
    · rw [hn, AList.lookup_insert]
      constructor
      · rintro (⟨hmem, hne⟩ | h)
        · exact absurd hn ((hkey a hmem).mp hne)
        · rw [h]; exact ⟨rfl, rfl⟩
      · rintro ⟨h3, h4⟩
        exact Or.inr (alt_record_ext a _ _ _ h4 hn (Option.some.inj h3).symm)
    · rw [AList.lookup_insert_ne hn]
      constructor
      · rintro (⟨hmem, _⟩ | h)
        · exact (habs a).mp hmem
        · rw [h] at hn; exact absurd rfl hn
      · intro h
        have hmem := (habs a).mpr h
        exact Or.inl ⟨hmem, (hkey a hmem).mpr hn⟩
  · intro a
    rw [alt_mem_without (jenkins_one_at_a_time_hash name) l1 l2
      ⟨jenkins_one_at_a_time_hash name, name, old⟩ a h1 rfl h2]
    by_cases hn : a.name = name
    · rw [hn, AList.lookup_erase]
      constructor
      · rintro ⟨hmem, hne⟩
        exact absurd hn ((hkey a hmem).mp hne)
      · rintro ⟨h3, _⟩
        exact absurd h3 (by simp)
    · rw [AList.lookup_erase_ne hn]
      constructor
      · rintro ⟨hmem, _⟩
        exact (habs a).mp hmem
      · intro h
        have hmem := (habs a).mpr h
        exact ⟨hmem, (hkey a hmem).mpr hn⟩

theorem alt_jenkins_hash_unfold (key : List Nat) :
    Alt.jenkins_hash key = jenkins_one_at_a_time_hash key := by
  unfold Alt.jenkins_hash jenkins_one_at_a_time_hash
  rw [alt_jenkins_loop_eq_foldl]

theorem alt_take_short (name : List Nat) (h : name.length < Alt.MAX_NAME_LEN) :
    name.take (Alt.MAX_NAME_LEN - 1) = name ∧ name.take Alt.MAX_NAME_LEN = name := by
  have h50 : Alt.MAX_NAME_LEN = 50 := rfl
  rw [h50] at h ⊢
  exact ⟨List.take_of_length_le (by omega), List.take_of_length_le (by omega)⟩

theorem collision_free_short (names : List (List Nat)) (name : List Nat)
    (hfree : collision_free names) (hn : name ∈ names) : name.length < HASH_NAME_MAX := by
  have h := hfree.1 name hn
  have h50 : Alt.MAX_NAME_LEN = 50 := rfl
  have h64 : HASH_NAME_MAX = 64 := rfl
  omega

theorem lookup_of_search_missing (table : hash_table_t)
    (m : AList (fun _ : List Nat => Nat)) (name : List Nat) (habs : abstracts table m)
    (h : hash_table_search table name = (0, none)) : m.lookup name = none := by
  have hs := habs name
  rw [h] at hs
  unfold reference_search at hs
  cases hl : m.lookup name with
  | none => rfl
  | some value =>
    rw [hl] at hs
    exact absurd (congrArg Prod.fst hs) (by simp)

theorem agree_insert (names : List (List Nat)) (table : hash_table_t)
    (alt : Alt.hash_table_t) (m : AList (fun _ : List Nat => Nat)) (name : List Nat)
    (value : Nat) (hfree : collision_free names) (hag : stores_agree names table alt m)
    (hn : name ∈ names) (hfresh : hash_table_search table name = (0, none)) :
    (root_command table (store_command.insert name value)).2 =
        (Alt.perform_command alt (store_command.insert name value)).2 ∧
      stores_agree names (root_command table (store_command.insert name value)).1
        (Alt.perform_command alt (store_command.insert name value)).1
        (m.insert name value) := by
  have hlook := lookup_of_search_missing table m name hag.root_abs hfresh
  have hshort := collision_free_short names name hfree hn
  obtain ⟨hst, habs2⟩ := insert_refines table m name value hag.root_abs hshort
  rw [hlook] at hst
  have hst2 : (hash_table_insert table name value true).status = HASH_INSERTED := hst
  rcases alt_abstracts_split names alt.head m name hfree.2 hag.keys hn hag.alt_inv hag.alt_abs
    with ⟨_, l1, l2, hl, h1, h2⟩ | ⟨w, _, _, hw, _⟩
  · have hins : Alt.insert_list (Alt.jenkins_hash name) name value true alt.head =
        (Alt.table_status_t.TABLE_OK,
          l1 ++ (⟨jenkins_one_at_a_time_hash name, name, value⟩ : Alt.hash_record_t) :: l2) := by
      rw [alt_jenkins_hash_unfold, hl,
        (alt_calls_absent (jenkins_one_at_a_time_hash name) 0 name value l1 l2 h1 h2).1,
        (alt_take_short name (hfree.1 name hn)).1]
    have hinv2 := alt_insert_preserves_inv alt (Alt.jenkins_hash name) name value true
      hag.alt_inv
    refine ⟨?_, ?_⟩
    · simp only [root_command, Alt.perform_command, Alt.hash_table_insert, hst2, hins,
        decide_True]
    · refine ⟨insert_preserves_inv table name value true hag.root_inv hshort, habs2, hinv2,
        ?_, ?_⟩
      · show Alt.list_abstracts
          (Alt.insert_list (Alt.jenkins_hash name) name value true alt.head).2 _
        rw [hins]
        exact alt_insert_abstracts l1 l2 m name value hlook (hl ▸ hag.alt_abs)
      · intro k hk
        by_cases hkn : k = name
        · rw [hkn]; exact hn
        · rw [AList.lookup_insert_ne hkn] at hk
          exact hag.keys k hk
  · rw [hlook] at hw
    exact absurd hw (by simp)

theorem erase_absent (m : AList (fun _ : List Nat => Nat)) (name : List Nat)
    (h : m.lookup name = none) : m.erase name = m := by
  apply AList.ext
  have hnot : name ∉ m.entries.keys := AList.lookup_eq_none.mp h
  exact List.kerase_of_not_mem_keys hnot

theorem agree_keys_insert (names : List (List Nat)) (m : AList (fun _ : List Nat => Nat))
    (name : List Nat) (value : Nat) (hn : name ∈ names)
    (hkeys : ∀ k : List Nat, m.lookup k ≠ none → k ∈ names) :
    ∀ k : List Nat, (m.insert name value).lookup k ≠ none → k ∈ names := by
  intro k hk
  by_cases hkn : k = name
  · rw [hkn]; exact hn
  · rw [AList.lookup_insert_ne hkn] at hk
    exact hkeys k hk

theorem agree_keys_erase (names : List (List Nat)) (m : AList (fun _ : List Nat => Nat))
    (name : List Nat) (hkeys : ∀ k : List Nat, m.lookup k ≠ none → k ∈ names) :
    ∀ k : List Nat, (m.erase name).lookup k ≠ none → k ∈ names := by
  intro k hk
  by_cases hkn : k = name
  · rw [hkn, AList.lookup_erase] at hk
    exact absurd rfl hk
  · rw [AList.lookup_erase_ne hkn] at hk
    exact hkeys k hk

theorem agree_update (names : List (List Nat)) (table : hash_table_t)
    (alt : Alt.hash_table_t) (m : AList (fun _ : List Nat => Nat)) (name : List Nat)
    (value : Nat) (hfree : collision_free names) (hag : stores_agree names table alt m)
    (hn : name ∈ names) :
    (root_command table (store_command.update name value)).2 =
        (Alt.perform_command alt (store_command.update name value)).2 ∧
      stores_agree names (root_command table (store_command.update name value)).1
        (Alt.perform_command alt (store_command.update name value)).1
        (if (m.lookup name).isSome then m.insert name value else m) := by
  obtain ⟨hret, hprev, hrec, habs2⟩ := update_refines table m name value hag.root_abs
  have hinv2 := update_preserves_inv table name value hag.root_inv
  have hainv2 := alt_update_preserves_inv alt (Alt.jenkins_hash name) value hag.alt_inv
  rcases alt_abstracts_split names alt.head m name hfree.2 hag.keys hn hag.alt_inv hag.alt_abs
    with ⟨hlook, l1, l2, hl, h1, h2⟩ | ⟨w, l1, l2, hlook, hl, h1, h2⟩
  · have hupd : Alt.update_list (Alt.jenkins_hash name) value alt.head = none := by
      rw [alt_jenkins_hash_unfold, hl]
      exact (alt_calls_absent (jenkins_one_at_a_time_hash name) value [] 0 l1 l2 h1 h2).2.1
    rw [hlook] at hret hprev hrec habs2 ⊢
    have hret2 : (hash_table_update table name value).ret = 0 := hret
    refine ⟨?_, ?_⟩
    · simp only [root_command, Alt.perform_command, Alt.hash_table_update, hupd, hret2, hprev,
        hrec, Option.map_none']
      rfl
    · refine ⟨hinv2, habs2, ?_, ?_, hag.keys⟩
      · simp only [Alt.perform_command, Alt.hash_table_update, hupd]
        exact hag.alt_inv
      · simp only [Alt.perform_command, Alt.hash_table_update, hupd]
        exact hag.alt_abs
  · have hupd : Alt.update_list (Alt.jenkins_hash name) value alt.head =
        some ((⟨jenkins_one_at_a_time_hash name, name, w⟩ : Alt.hash_record_t),
          l1 ++ (⟨jenkins_one_at_a_time_hash name, name, value⟩ : Alt.hash_record_t) :: l2) := by
      rw [alt_jenkins_hash_unfold, hl]
      exact (alt_calls_present (jenkins_one_at_a_time_hash name) value [] 0 true l1 l2
        ⟨jenkins_one_at_a_time_hash name, name, w⟩ h1 rfl).2.1
    rw [hlook] at hret hprev hrec habs2 ⊢
    have hret2 : (hash_table_update table name value).ret = 1 := hret
    have htake := (alt_take_short name (hfree.1 name hn)).2
    refine ⟨?_, ?_⟩
    · simp only [root_command, Alt.perform_command, Alt.hash_table_update, hupd, hret2, hprev,
        hrec, Option.map_some', Alt.copy_record, htake, record_triple, Alt.snapshot_triple]
    · refine ⟨hinv2, habs2, ?_, ?_, agree_keys_insert names m name value hn hag.keys⟩
      · simp only [Alt.perform_command]
        exact hainv2
      · simp only [Alt.perform_command, Alt.hash_table_update, hupd]
        exact (alt_update_abstracts names l1 l2 m name w value hfree.2 hag.keys hn h1 h2
          (hl ▸ hag.alt_abs)).1

theorem agree_delete (names : List (List Nat)) (table : hash_table_t)
    (alt : Alt.hash_table_t) (m : AList (fun _ : List Nat => Nat)) (name : List Nat)
    (hfree : collision_free names) (hag : stores_agree names table alt m)
    (hn : name ∈ names) :
    (root_command table (store_command.delete name)).2 =
        (Alt.perform_command alt (store_command.delete name)).2 ∧
      stores_agree names (root_command table (store_command.delete name)).1
        (Alt.perform_command alt (store_command.delete name)).1 (m.erase name) := by
  obtain ⟨hret, hrec, habs2⟩ := delete_refines table m name hag.root_inv hag.root_abs
  have hinv2 := delete_preserves_inv table name hag.root_inv
  have hainv2 := alt_delete_preserves_inv alt (Alt.jenkins_hash name) hag.alt_inv
  have hkeys2 := agree_keys_erase names m name hag.keys
  rcases alt_abstracts_split names alt.head m name hfree.2 hag.keys hn hag.alt_inv hag.alt_abs
    with ⟨hlook, l1, l2, hl, h1, h2⟩ | ⟨w, l1, l2, hlook, hl, h1, h2⟩
  · have hdel : Alt.delete_list (Alt.jenkins_hash name) alt.head = none := by
      rw [alt_jenkins_hash_unfold, hl]
      exact (alt_calls_absent (jenkins_one_at_a_time_hash name) 0 [] 0 l1 l2 h1 h2).2.2.1
    rw [hlook] at hret hrec
    have hret2 : (hash_table_delete table name).ret = 0 := hret
    refine ⟨?_, ?_⟩
    · simp only [root_command, Alt.perform_command, Alt.hash_table_delete, hdel, hret2, hrec,
        Option.map_none']
      rfl
    · refine ⟨hinv2, habs2, ?_, ?_, hkeys2⟩
      · simp only [Alt.perform_command, Alt.hash_table_delete, hdel]
        exact hag.alt_inv
      · simp only [Alt.perform_command, Alt.hash_table_delete, hdel]
        rw [erase_absent m name hlook]
        exact hag.alt_abs
  · have hdel : Alt.delete_list (Alt.jenkins_hash name) alt.head =
        some ((⟨jenkins_one_at_a_time_hash name, name, w⟩ : Alt.hash_record_t), l1 ++ l2) := by
      rw [alt_jenkins_hash_unfold, hl]
      exact (alt_calls_present (jenkins_one_at_a_time_hash name) 0 [] 0 true l1 l2
        ⟨jenkins_one_at_a_time_hash name, name, w⟩ h1 rfl).2.2.1
    rw [hlook] at hret hrec
    have hret2 : (hash_table_delete table name).ret = 1 := hret
    have htake := (alt_take_short name (hfree.1 name hn)).2
    refine ⟨?_, ?_⟩
    · simp only [root_command, Alt.perform_command, Alt.hash_table_delete, hdel, hret2, hrec,
        Option.map_some', Alt.copy_record, htake, record_triple, Alt.snapshot_triple]
    · refine ⟨hinv2, habs2, ?_, ?_, hkeys2⟩
      · simp only [Alt.perform_command]
        exact hainv2
      · simp only [Alt.perform_command, Alt.hash_table_delete, hdel]
        exact (alt_update_abstracts names l1 l2 m name w 0 hfree.2 hag.keys hn h1 h2
          (hl ▸ hag.alt_abs)).2

theorem agree_find (names : List (List Nat)) (table : hash_table_t)
    (alt : Alt.hash_table_t) (m : AList (fun _ : List Nat => Nat)) (name : List Nat)
    (hfree : collision_free names) (hag : stores_agree names table alt m)
    (hn : name ∈ names) :
    (root_command table (store_command.find name)).2 =
      (Alt.perform_command alt (store_command.find name)).2 := by
  have hs := hag.root_abs name
  rcases alt_abstracts_split names alt.head m name hfree.2 hag.keys hn hag.alt_inv hag.alt_abs
    with ⟨hlook, l1, l2, hl, h1, h2⟩ | ⟨w, l1, l2, hlook, hl, h1, h2⟩
  · have hfind : Alt.find_list (Alt.jenkins_hash name) alt.head = none := by
      rw [alt_jenkins_hash_unfold, hl]
      exact (alt_calls_absent (jenkins_one_at_a_time_hash name) 0 [] 0 l1 l2 h1 h2).2.2.2
    rw [reference_search_none m name hlook] at hs
    simp only [root_command, Alt.perform_command, Alt.hash_table_find, hfind, hs,
      Option.map_none']
    rfl
  · have hfind : Alt.find_list (Alt.jenkins_hash name) alt.head =
        some (⟨jenkins_one_at_a_time_hash name, name, w⟩ : Alt.hash_record_t) := by
      rw [alt_jenkins_hash_unfold, hl]
      exact (alt_calls_present (jenkins_one_at_a_time_hash name) 0 [] 0 true l1 l2
        ⟨jenkins_one_at_a_time_hash name, name, w⟩ h1 rfl).2.2.2
    have htake := (alt_take_short name (hfree.1 name hn)).2
    rw [reference_search_some m name w hlook] at hs
    simp only [root_command, Alt.perform_command, Alt.hash_table_find, hfind, hs,
      Option.map_some', Alt.copy_record, htake, record_triple, Alt.snapshot_triple]
    rfl

theorem alt_list_perm_entries (l : List Alt.hash_record_t)
    (m : AList (fun _ : List Nat => Nat)) (hinv : Alt.list_inv l)
    (habs : Alt.list_abstracts l m) :
    (l.map (fun a => (⟨a.hash, a.name, a.salary⟩ : hash_record_t))).Perm
      (reference_entries m) := by
  have hnd : l.Nodup := by
    have hs : l.Pairwise (fun a b => a.hash < b.hash) := hinv.sorted
    exact hs.imp (fun h heq => by rw [heq] at h; exact Nat.lt_irrefl _ h)
  have hnd2 : (l.map (fun a => (⟨a.hash, a.name, a.salary⟩ : hash_record_t))).Nodup := by
    apply List.Nodup.map_on _ hnd
    intro x _ y _ h
    have h1 : x.hash = y.hash := congrArg hash_record_t.hash h
    have h2 : x.name = y.name := congrArg hash_record_t.name h
    have h3 : x.salary = y.salary := congrArg hash_record_t.salary h
    rw [alt_record_ext x _ _ _ h1 h2 h3]
  rw [List.perm_ext_iff_of_nodup hnd2 (reference_entries_nodup m)]
  intro r
  rw [mem_reference_entries, List.mem_map]
  constructor
  · rintro ⟨a, ha, hr⟩
    rw [← hr]
    exact (habs a).mp ha
  · rintro ⟨h1, h2⟩
    exact ⟨⟨r.hash, r.name, r.salary⟩, (habs _).mpr ⟨h1, h2⟩, rfl⟩

theorem root_snapshot_ascending (names : List (List Nat)) (table : hash_table_t)
    (m : AList (fun _ : List Nat => Nat)) (hfree : collision_free names)
    (hinv : table_inv table) (habs : abstracts table m)
    (hkeys : ∀ k : List Nat, m.lookup k ≠ none → k ∈ names) :
    (snapshot_sequence (hash_table_snapshot table true)).Pairwise
      (fun a b => a.hash < b.hash) := by
  have hperm := snapshot_perm table
  have hsorted : (snapshot_sequence (hash_table_snapshot table true)).Pairwise record_order :=
    snapshot_sequence_sorted table
  have hnames : (snapshot_sequence (hash_table_snapshot table true)).Pairwise
      (fun a b => a.name ≠ b.name) := by
    have hnd : ((snapshot_sequence (hash_table_snapshot table true)).map
        hash_record_t.name).Nodup :=
      (hperm.map hash_record_t.name).nodup_iff.mpr (names_nodup table hinv)
    exact List.pairwise_map.mp hnd
  have hentry : ∀ r ∈ snapshot_sequence (hash_table_snapshot table true),
      r.name ∈ names ∧ r.hash = jenkins_one_at_a_time_hash r.name := by
    intro r hr
    have hr2 : r ∈ reference_entries m :=
      (records_perm_entries table m hinv habs).subset (hperm.subset hr)
    obtain ⟨hl, hh⟩ := (mem_reference_entries m r).mp hr2
    exact ⟨hkeys r.name (by rw [hl]; simp), hh⟩
  refine (hsorted.and hnames).imp_of_mem ?_
  intro a b ha hb hab
  obtain ⟨hord, hne⟩ := hab
  rcases hord with h | ⟨heq, _⟩
  · exact h
  · exfalso
    obtain ⟨han, hah⟩ := hentry a ha
    obtain ⟨hbn, hbh⟩ := hentry b hb
    exact hne (hfree.2 _ han _ hbn (by rw [← hah, ← hbh, heq]))

theorem agree_snapshot (names : List (List Nat)) (table : hash_table_t)
    (alt : Alt.hash_table_t) (m : AList (fun _ : List Nat => Nat))
    (hfree : collision_free names) (hag : stores_agree names table alt m) :
    (root_command table store_command.snapshot).2 =
      (Alt.perform_command alt store_command.snapshot).2 := by
  have hroot := root_snapshot_ascending names table m hfree hag.root_inv hag.root_abs hag.keys
  have hrperm := (snapshot_perm table).trans
    (records_perm_entries table m hag.root_inv hag.root_abs)
  have haperm := alt_list_perm_entries alt.head m hag.alt_inv hag.alt_abs
  have hseq := (alt_snapshot_eq alt hag.alt_inv).2
  have hlist : (snapshot_sequence (hash_table_snapshot table true)).map record_triple =
      (Alt.snapshot_sequence (Alt.hash_table_snapshot alt true)).map Alt.snapshot_triple := by
    rw [hseq, List.map_map]
    have hconv : alt.head.map (Alt.snapshot_triple ∘
        (fun r => (⟨r.hash, r.name, r.salary⟩ : Alt.record_snapshot_t))) =
        (alt.head.map (fun a => (⟨a.hash, a.name, a.salary⟩ : hash_record_t))).map
          record_triple := by
      rw [List.map_map]
      rfl
    rw [hconv]
    refine @List.Perm.eq_of_sorted _ (fun x y => x.1 < y.1) _ _ ?_ ?_ ?_ ?_
    · intro a b _ _ h1 h2
      exact absurd h1 (by omega)
    · exact List.pairwise_map.mpr hroot
    · rw [List.pairwise_map, List.pairwise_map]
      exact hag.alt_inv.sorted
    · exact (hrperm.trans haperm.symm).map record_triple
  simp only [root_command, Alt.perform_command, hlist]

theorem agree_command (names : List (List Nat)) (table : hash_table_t)
    (alt : Alt.hash_table_t) (m : AList (fun _ : List Nat => Nat)) (command : store_command)
    (hfree : collision_free names) (hag : stores_agree names table alt m)
    (hn : ∀ n ∈ command_names [command], n ∈ names)
    (hfresh : fresh_inserts table [command]) :
    (root_command table command).2 = (Alt.perform_command alt command).2 ∧
      ∃ m2 : AList (fun _ : List Nat => Nat),
        stores_agree names (root_command table command).1
          (Alt.perform_command alt command).1 m2 := by
  cases command with
  | insert name value =>
    have hname : name ∈ names := hn name (by simp [command_names])
    obtain ⟨h1, h2⟩ := agree_insert names table alt m name value hfree hag hname hfresh.1
    exact ⟨h1, _, h2⟩
  | update name value =>
    have hname : name ∈ names := hn name (by simp [command_names])
    obtain ⟨h1, h2⟩ := agree_update names table alt m name value hfree hag hname
    exact ⟨h1, _, h2⟩
  | delete name =>
    have hname : name ∈ names := hn name (by simp [command_names])
    obtain ⟨h1, h2⟩ := agree_delete names table alt m name hfree hag hname
    exact ⟨h1, _, h2⟩
  | find name =>
    have hname : name ∈ names := hn name (by simp [command_names])
    exact ⟨agree_find names table alt m name hfree hag hname, m, hag⟩
  | snapshot => exact ⟨agree_snapshot names table alt m hfree hag, m, hag⟩

theorem command_names_cons (command : store_command) (rest : List store_command)
    (n : List Nat) :
    n ∈ command_names (command :: rest) ↔
      (n ∈ command_names [command] ∨ n ∈ command_names rest) := by
  cases command <;> simp [command_names]

theorem fresh_inserts_cons (table : hash_table_t) (command : store_command)
    (rest : List store_command) (h : fresh_inserts table (command :: rest)) :
    fresh_inserts table [command] ∧ fresh_inserts (root_command table command).1 rest := by
  cases command with
  | insert name value => exact ⟨⟨h.1, trivial⟩, h.2⟩
  | update name value => exact ⟨trivial, h⟩
  | delete name => exact ⟨trivial, h⟩
  | find name => exact ⟨trivial, h⟩
  | snapshot => exact ⟨trivial, h⟩

theorem agree_run (names : List (List Nat)) (hfree : collision_free names)
    (commands : List store_command) :
    ∀ (table : hash_table_t) (alt : Alt.hash_table_t)
      (m : AList (fun _ : List Nat => Nat)),
      stores_agree names table alt m → (∀ n ∈ command_names commands, n ∈ names) →
      fresh_inserts table commands →
      root_observations table commands = Alt.perform_observations alt commands := by
  induction commands with
  | nil => intro _ _ _ _ _ _; rfl
  | cons command rest ih =>
    intro table alt m hag hn hfresh
    obtain ⟨hf1, hf2⟩ := fresh_inserts_cons table command rest hfresh
    obtain ⟨hobs, m2, hag2⟩ := agree_command names table alt m command hfree hag
      (fun n h => hn n ((command_names_cons command rest n).mpr (Or.inl h))) hf1
    have hrest := ih _ _ m2 hag2
      (fun n h => hn n ((command_names_cons command rest n).mpr (Or.inr h))) hf2
    simp only [root_observations, Alt.perform_observations, hobs, hrest]

theorem agree_init (names : List (List Nat)) :
    stores_agree names hash_table_init Alt.hash_table_init ∅ := by
  refine ⟨table_inv_init, abstracts_init, ⟨List.Pairwise.nil, fun r hr => by cases hr⟩, ?_, ?_⟩
  · intro a
    constructor
    · intro h; exact absurd h (List.not_mem_nil a)
    · rintro ⟨h, _⟩
      rw [AList.lookup_empty] at h
      exact absurd h (by simp)
  · intro k hk
    rw [AList.lookup_empty] at hk
    exact absurd rfl hk

/-- C33: the two stores agree on collision-free workloads.  For every sequence
of insert, update, delete, find and snapshot commands whose names are shorter
than 50 bytes, in which no two distinct names have the same hash and no insert
targets a name that is present, the root store (keyed by name) and the
alternate store (keyed by `jenkins_hash` of the name) show the same results:
the same found or not found, the same values and records, and the same
snapshot sequence of (hash, name, value). -/
theorem stores_agree_collision_free (commands : List store_command)
    (hfree : collision_free (command_names commands))
    (hfresh : fresh_inserts hash_table_init commands) :
    root_observations hash_table_init commands =
      Alt.perform_observations Alt.hash_table_init commands :=
  agree_run (command_names commands) hfree commands hash_table_init Alt.hash_table_init ∅
    (agree_init _) (fun _ h => h) hfresh

set_option maxRecDepth 100000 in
theorem sample_store_commands_free :
    collision_free (command_names sample_store_commands) := by
  unfold collision_free
  decide

set_option maxRecDepth 100000 in
theorem sample_store_commands_fresh :
    fresh_inserts hash_table_init sample_store_commands := by
  unfold sample_store_commands
  simp only [fresh_inserts, root_command, and_true]
  decide

theorem stores_agree_collision_free_witness :
    collision_free (command_names sample_store_commands) ∧
      fresh_inserts hash_table_init sample_store_commands ∧
      root_observations hash_table_init sample_store_commands =
        Alt.perform_observations Alt.hash_table_init sample_store_commands :=
  ⟨sample_store_commands_free, sample_store_commands_fresh,
    stores_agree_collision_free sample_store_commands sample_store_commands_free
      sample_store_commands_fresh⟩

/-! ## Claims: insert and update of a name the store holds -/

set_option maxRecDepth 100000 in
/-- C14 as stated fails: the store built by `hash_table_insert` of a name of 64
bytes holds a record for the 63-byte name `long_prefix` (the stored name), yet
`hash_table_insert` of `long_prefix` looks in the bucket of its own hash, finds
nothing, returns HASH_INSERTED and adds a second record: the count goes from 1
to 2. -/
theorem insert_of_stored_name_adds_record :
    (∃ r ∈ hash_table_records long_table, r.name = long_prefix) ∧
      (hash_table_insert long_table long_prefix 5 true).status = HASH_INSERTED ∧
      hash_table_count long_table = 1 ∧
      hash_table_count (hash_table_insert long_table long_prefix 5 true).table = 2 := by
  decide

/-- C14 (amended): on a store built from the empty store by calls with names
shorter than 64 bytes that already holds a record for the name,
`hash_table_insert(name, v)` is an update in place: it returns HASH_UPDATED,
sets `*out_previous_salary` to the old value of the record, changes the stored
value to v and adds no record: the chain keeps its other records and their
order, the other buckets are unchanged and so is the number of records. -/
theorem insert_existing_updates_in_place (table : hash_table_t) (name : List Nat)
    (salary : Nat) (calloc_ok : Bool) (hr : reachable_table table)
    (hholds : ∃ r ∈ hash_table_records table, r.name = name) :
    ∃ l1 cur l2, name_chain table name = l1 ++ cur :: l2 ∧
      (∀ r ∈ l1, r.name ≠ name) ∧ (∀ r ∈ l2, r.name ≠ name) ∧ cur.name = name ∧
      cur ∈ hash_table_records table ∧
      (hash_table_insert table name salary calloc_ok).status = HASH_UPDATED ∧
      (hash_table_insert table name salary calloc_ok).out_previous_salary =
        some cur.salary ∧
      name_chain (hash_table_insert table name salary calloc_ok).table name =
        l1 ++ { cur with salary := salary } :: l2 ∧
      (∀ i, i ≠ bucket_index (jenkins_one_at_a_time_hash name) →
        (hash_table_insert table name salary calloc_ok).table.buckets i =
          table.buckets i) ∧
      hash_table_count (hash_table_insert table name salary calloc_ok).table =
        hash_table_count table := by
  have hinv := reachable_table_inv table hr
  obtain ⟨r0, hr0, hr0n⟩ := hholds
  have hin := present_in_name_chain table name r0 hinv hr0 hr0n
  rcases chain_split name (name_chain table name) with hnone | ⟨l1, cur, l2, hsplit, h1, hcur⟩
  · exact absurd hr0n (hnone r0 hin)
  · have h2 := chain_split_unique table name l1 l2 cur hinv hsplit hcur
    have hcurmem : cur ∈ hash_table_records table := by
      apply name_chain_subset table name
      rw [hsplit]
      exact List.mem_append_right _ (List.mem_cons_self _ _)
    refine ⟨l1, cur, l2, hsplit, h1, h2, hcur, hcurmem, ?_⟩
    rw [insert_found table name salary calloc_ok l1 l2 cur hsplit h1 hcur]
    refine ⟨rfl, rfl, name_chain_update _ _ _, ?_, ?_⟩
    · intro i hi
      exact buckets_update_ne _ _ _ _ hi
    · exact count_update_found table _ l1 l2 cur _ hsplit

theorem sample_table_has_alice : ∃ r ∈ hash_table_records sample_table, r.name = alice := by
  obtain ⟨r, hr, hn⟩ := sample_table_holds_alice
  exact ⟨r, name_chain_subset sample_table alice r hr, hn⟩

theorem insert_existing_updates_in_place_witness :
    reachable_table sample_table ∧
      (∃ r ∈ hash_table_records sample_table, r.name = alice) ∧
      ∃ l1 cur l2, name_chain sample_table alice = l1 ++ cur :: l2 ∧
        (∀ r ∈ l1, r.name ≠ alice) ∧ (∀ r ∈ l2, r.name ≠ alice) ∧ cur.name = alice ∧
        cur ∈ hash_table_records sample_table ∧
        (hash_table_insert sample_table alice 150 true).status = HASH_UPDATED ∧
        (hash_table_insert sample_table alice 150 true).out_previous_salary =
          some cur.salary ∧
        name_chain (hash_table_insert sample_table alice 150 true).table alice =
          l1 ++ { cur with salary := 150 } :: l2 ∧
        (∀ i, i ≠ bucket_index (jenkins_one_at_a_time_hash alice) →
          (hash_table_insert sample_table alice 150 true).table.buckets i =
            sample_table.buckets i) ∧
        hash_table_count (hash_table_insert sample_table alice 150 true).table =
          hash_table_count sample_table :=
  ⟨sample_table_reachable, sample_table_has_alice,
    insert_existing_updates_in_place sample_table alice 150 true sample_table_reachable
      sample_table_has_alice⟩

set_option maxRecDepth 100000 in
/-- C17 as stated fails, in two ways.  The store built by `hash_table_insert`
of a name of 64 bytes holds a record for the 63-byte name `long_prefix`, yet
`hash_table_update` of `long_prefix` looks in the bucket of its own hash and
returns 0.  And on the store built by `hash_table_insert` of the 65-byte name
`colliding_long_name`, whose bucket is that of `long_prefix`,
`hash_table_update` of `long_prefix` finds the record and line 85 gives it the
hash of `long_prefix`: the record handed back has another hash than the record
had before the call. -/
theorem update_of_stored_name_fails :
    (∃ r ∈ hash_table_records long_table, r.name = long_prefix) ∧
      (hash_table_update long_table long_prefix 5).ret = 0 ∧
      hash_table_records colliding_long_table =
        [{ hash := 2149372752, name := long_prefix, salary := 1 }] ∧
      (hash_table_update colliding_long_table long_prefix 5).ret = 1 ∧
      (hash_table_update colliding_long_table long_prefix 5).out_record =
        some { hash := 1754392400, name := long_prefix, salary := 5 } := by
  decide

/-- C17 (amended): on a store built from the empty store by calls with names
shorter than 64 bytes that holds a record for the name,
`hash_table_update(name, v)` returns 1, sets `*out_previous_salary` to the
value before the call and writes to `*out_record` the record after the call:
salary v, the same name and the same hash.  Afterwards
`hash_table_search(name)` returns that record, with the salary v, and the
number of records is unchanged, as are the other records of the chain and the
other buckets. -/
theorem update_existing_record (table : hash_table_t) (name : List Nat) (salary : Nat)
    (hr : reachable_table table)
    (hholds : ∃ r ∈ hash_table_records table, r.name = name) :
    ∃ l1 cur l2, name_chain table name = l1 ++ cur :: l2 ∧
      (∀ r ∈ l1, r.name ≠ name) ∧ (∀ r ∈ l2, r.name ≠ name) ∧ cur.name = name ∧
      cur ∈ hash_table_records table ∧
      (hash_table_update table name salary).ret = 1 ∧
      (hash_table_update table name salary).out_previous_salary = some cur.salary ∧
      (hash_table_update table name salary).out_record =
        some { cur with salary := salary } ∧
      name_chain (hash_table_update table name salary).table name =
        l1 ++ { cur with salary := salary } :: l2 ∧
      hash_table_search (hash_table_update table name salary).table name =
        (1, some { cur with salary := salary }) ∧
      hash_table_count (hash_table_update table name salary).table =
        hash_table_count table ∧
      (∀ i, i ≠ bucket_index (jenkins_one_at_a_time_hash name) →
        (hash_table_update table name salary).table.buckets i = table.buckets i) := by
  have hinv := reachable_table_inv table hr
  obtain ⟨r0, hr0, hr0n⟩ := hholds
  have hin := present_in_name_chain table name r0 hinv hr0 hr0n
  rcases chain_split name (name_chain table name) with hnone | ⟨l1, cur, l2, hsplit, h1, hcur⟩
  · exact absurd hr0n (hnone r0 hin)
  · have h2 := chain_split_unique table name l1 l2 cur hinv hsplit hcur
    have hcurchain : cur ∈ table.buckets (bucket_index (jenkins_one_at_a_time_hash name)) := by
      have hs := hsplit
      unfold name_chain at hs
      rw [hs]
      exact List.mem_append_right _ (List.mem_cons_self _ _)
    have hcurmem : cur ∈ hash_table_records table :=
      (mem_records table cur).mpr ⟨_, bucket_index_lt _, hcurchain⟩
    have hhash : cur.hash = jenkins_one_at_a_time_hash name := by
      rw [hinv.hashed _ cur hcurchain, hcur]
    have hsame : ({ cur with salary := salary, hash := jenkins_one_at_a_time_hash name } :
        hash_record_t) = { cur with salary := salary } := by
      rw [← hhash]
    refine ⟨l1, cur, l2, hsplit, h1, h2, hcur, hcurmem, ?_⟩
    rw [update_found table name salary l1 l2 cur hsplit h1 hcur, hsame]
    refine ⟨rfl, rfl, rfl, name_chain_update _ _ _, ?_, ?_, ?_⟩
    · exact search_found _ name l1 l2 _ (name_chain_update _ _ _) h1 hcur
    · exact count_update_found table _ l1 l2 cur _ hsplit
    · intro i hi
      exact buckets_update_ne _ _ _ _ hi

theorem update_existing_record_witness :
    reachable_table sample_table ∧
      (∃ r ∈ hash_table_records sample_table, r.name = alice) ∧
      ∃ l1 cur l2, name_chain sample_table alice = l1 ++ cur :: l2 ∧
        (∀ r ∈ l1, r.name ≠ alice) ∧ (∀ r ∈ l2, r.name ≠ alice) ∧ cur.name = alice ∧
        cur ∈ hash_table_records sample_table ∧
        (hash_table_update sample_table alice 150).ret = 1 ∧
        (hash_table_update sample_table alice 150).out_previous_salary = some cur.salary ∧
        (hash_table_update sample_table alice 150).out_record =
          some { cur with salary := 150 } ∧
        name_chain (hash_table_update sample_table alice 150).table alice =
          l1 ++ { cur with salary := 150 } :: l2 ∧
        hash_table_search (hash_table_update sample_table alice 150).table alice =
          (1, some { cur with salary := 150 }) ∧
        hash_table_count (hash_table_update sample_table alice 150).table =
          hash_table_count sample_table ∧
        (∀ i, i ≠ bucket_index (jenkins_one_at_a_time_hash alice) →
          (hash_table_update sample_table alice 150).table.buckets i =
            sample_table.buckets i) :=
  ⟨sample_table_reachable, sample_table_has_alice,
    update_existing_record sample_table alice 150 sample_table_reachable
      sample_table_has_alice⟩


/-! ## The lock counters of the alternate program -/

theorem alt_command_steps_type (cmd : Alt.command_t) :
    Alt.command_steps cmd = Alt.type_steps cmd.type := by
  cases cmd with
  | mk type name value priority => cases type <;> rfl

theorem alt_type_steps_shape (type : Alt.command_type_t) :
    ∀ steps ∈ (Alt.type_steps type).tails, Alt.shape_ok steps = true := by
  cases type <;> decide

theorem alt_type_steps_head (type : Alt.command_type_t) (c : Alt.counter_id) :
    Alt.lock_of_todo (Alt.type_steps type) = Alt.rwlock_free ∧
      (Alt.type_steps type).head? ≠ some (Alt.thread_step.store c) := by
  cases type <;> cases c <;> decide

theorem alt_type_steps_count (type : Alt.command_type_t) :
    (Alt.type_steps type).count (Alt.thread_step.store Alt.counter_id.read_lock_acq) =
        (Alt.type_steps type).count (Alt.thread_step.store Alt.counter_id.read_lock_rel) ∧
      (Alt.type_steps type).count (Alt.thread_step.store Alt.counter_id.write_lock_acq) =
        (Alt.type_steps type).count (Alt.thread_step.store Alt.counter_id.write_lock_rel) ∧
      (Alt.type_steps type).count (Alt.thread_step.store Alt.counter_id.read_lock_acq) +
        (Alt.type_steps type).count (Alt.thread_step.store Alt.counter_id.write_lock_acq) = 1 := by
  cases type <;> decide

theorem alt_type_steps_count_le (type : Alt.command_type_t) (c : Alt.counter_id) :
    (Alt.type_steps type).count (Alt.thread_step.store c) ≤ 1 := by
  cases type <;> cases c <;> decide

theorem alt_shape_step (cmd : Alt.command_t) (op : Alt.thread_step)
    (rest : List Alt.thread_step) (h : op :: rest ∈ (Alt.command_steps cmd).tails) :
    Alt.rwlock_step (Alt.lock_of_todo (op :: rest)) op = some (Alt.lock_of_todo rest) ∧
      (∀ (c : Alt.counter_id) (rest2 : List Alt.thread_step),
        rest = Alt.thread_step.store c :: rest2 → op = Alt.thread_step.load c) ∧
      rest ∈ (Alt.command_steps cmd).tails := by
  have hshape := alt_type_steps_shape cmd.type (op :: rest)
    (by rw [← alt_command_steps_type]; exact h)
  unfold Alt.shape_ok at hshape
  rw [Bool.and_eq_true, decide_eq_true_eq] at hshape
  refine ⟨hshape.1, ?_, ?_⟩
  · intro c rest2 hrest
    have h2 := hshape.2
    rw [hrest] at h2
    simpa using h2
  · rw [List.mem_tails] at h ⊢
    exact (List.suffix_cons op rest).trans h

theorem alt_get_set (counters : Alt.lock_counters) (c d : Alt.counter_id) (value : Nat) :
    (counters.set c value).get d = if d = c then value else counters.get d := by
  cases c <;> cases d <;> simp [Alt.lock_counters.get, Alt.lock_counters.set]

theorem alt_running_unique (commands : List Alt.command_t) (app : Alt.app_context_t)
    (hdist : Alt.distinct_priorities commands) (hsize : app.workers.length = commands.length)
    (hturn : Alt.turn_inv commands app) (i j : Nat)
    (hi : app.workers[i]? = some Alt.worker_phase.running)
    (hj : app.workers[j]? = some Alt.worker_phase.running) : j = i := by
  obtain ⟨c, hc⟩ := alt_worker_has_command commands app hsize i _ hi
  obtain ⟨d, hd⟩ := alt_worker_has_command commands app hsize j _ hj
  refine alt_distinct_index commands hdist.1 i j c d hc hd ?_
  rw [hturn.running i c hc hi, hturn.running j d hd hj]

theorem alt_pending_set (c : Alt.counter_id) (todo : List (List Alt.thread_step)) :
    ∀ (i : Nat) (old new : List Alt.thread_step), todo[i]? = some old →
      Alt.pending c (todo.set i new) + old.count (Alt.thread_step.store c) =
        Alt.pending c todo + new.count (Alt.thread_step.store c) := by
  induction todo with
  | nil => intro i old new h; simp at h
  | cons t todo ih =>
    intro i old new h
    cases i with
    | zero =>
      simp only [List.getElem?_cons_zero, Option.some.injEq] at h
      subst h
      simp only [Alt.pending, List.set_cons_zero, List.map_cons, List.sum_cons]
      omega
    | succ i =>
      simp only [List.getElem?_cons_succ] at h
      have := ih i old new h
      simp only [Alt.pending, List.set_cons_succ, List.map_cons, List.sum_cons] at this ⊢
      omega

theorem alt_pending_done (c : Alt.counter_id) (todo : List (List Alt.thread_step))
    (h : ∀ i : Nat, i < todo.length → todo[i]? = some []) : Alt.pending c todo = 0 := by
  induction todo with
  | nil => rfl
  | cons t todo ih =>
    have h0 := h 0 (by simp)
    simp only [List.getElem?_cons_zero, Option.some.injEq] at h0
    subst h0
    have := ih (fun i hi => by
      have := h (i + 1) (by simp; omega)
      simpa using this)
    simp only [Alt.pending, List.map_cons, List.sum_cons, List.count_nil] at this ⊢
    omega

theorem alt_pending_le (c : Alt.counter_id) (commands : List Alt.command_t) :
    Alt.pending c (commands.map Alt.command_steps) ≤ commands.length := by
  induction commands with
  | nil => simp [Alt.pending]
  | cons cmd commands ih =>
    have h1 := alt_type_steps_count_le cmd.type c
    rw [← alt_command_steps_type] at h1
    simp only [Alt.pending, List.map_cons, List.sum_cons, List.length_cons] at ih ⊢
    omega

theorem alt_pending_totals (commands : List Alt.command_t) :
    Alt.pending Alt.counter_id.read_lock_acq (commands.map Alt.command_steps) =
        Alt.pending Alt.counter_id.read_lock_rel (commands.map Alt.command_steps) ∧
      Alt.pending Alt.counter_id.write_lock_acq (commands.map Alt.command_steps) =
        Alt.pending Alt.counter_id.write_lock_rel (commands.map Alt.command_steps) ∧
      Alt.pending Alt.counter_id.read_lock_acq (commands.map Alt.command_steps) +
        Alt.pending Alt.counter_id.write_lock_acq (commands.map Alt.command_steps) =
          commands.length := by
  induction commands with
  | nil => simp [Alt.pending]
  | cons cmd commands ih =>
    have h1 := alt_type_steps_count cmd.type
    rw [← alt_command_steps_type] at h1
    simp only [Alt.pending, List.map_cons, List.sum_cons, List.length_cons] at ih ⊢
    omega

theorem alt_thread_step_fields (s : Alt.exec_state) (i : Nat) (op : Alt.thread_step)
    (rest : List Alt.thread_step) (lock : Alt.rwlock_t)
    (h : Alt.rwlock_step s.table_lock op = some lock) :
    (Alt.thread_step_run s i op rest).app = s.app ∧
      (Alt.thread_step_run s i op rest).table_lock = lock ∧
      (Alt.thread_step_run s i op rest).todo = s.todo.set i rest ∧
      (∀ c, op = Alt.thread_step.load c →
        (Alt.thread_step_run s i op rest).regs = s.regs.set i (s.counters.get c)) ∧
      ((Alt.thread_step_run s i op rest).regs.length = s.regs.length) ∧
      (∀ c, op = Alt.thread_step.store c →
        (Alt.thread_step_run s i op rest).counters =
          s.counters.set c ((s.regs[i]?.getD 0 + 1) % (SIZE_MAX + 1))) ∧
      ((∀ c, op ≠ Alt.thread_step.store c) →
        (Alt.thread_step_run s i op rest).counters = s.counters) := by
  unfold Alt.thread_step_run
  rw [h]
  cases op <;> simp

theorem alt_exec_step_cases (commands : List Alt.command_t) (s : Alt.exec_state)
    (e : sched_event) :
    (∃ i op rest, s.app.workers[i]? = some Alt.worker_phase.running ∧
        s.todo[i]? = some (op :: rest) ∧
        Alt.exec_step commands s e = Alt.thread_step_run s i op rest) ∨
      (Alt.exec_step commands s e = { s with app := Alt.worker_step commands s.app e } ∧
        (Alt.worker_step commands s.app e = s.app ∨
          (∃ i c, commands[i]? = some c ∧ s.app.workers[i]? = some Alt.worker_phase.idle ∧
            Alt.worker_step commands s.app e = Alt.turn_gate s.app c i) ∨
          (∃ i c, commands[i]? = some c ∧
            s.app.workers[i]? = some Alt.worker_phase.blocked ∧
            Alt.worker_step commands s.app e =
              Alt.turn_gate
                { s.app with
                  sched_cond := s.app.sched_cond.filter (fun j => decide (j ≠ i)) } c i) ∨
          (∃ i c, commands[i]? = some c ∧
            s.app.workers[i]? = some Alt.worker_phase.running ∧
            (∀ op rest, s.todo[i]? ≠ some (op :: rest)) ∧
            Alt.worker_step commands s.app e = Alt.worker_main_finish s.app i))) := by
  cases e with
  | spurious i =>
    refine Or.inr ⟨rfl, ?_⟩
    cases hc : commands[i]? with
    | none => exact Or.inl (alt_step_no_worker commands s.app i _ (Or.inr rfl) (Or.inl hc))
    | some c =>
      cases hw : s.app.workers[i]? with
      | none => exact Or.inl (alt_step_no_worker commands s.app i _ (Or.inr rfl) (Or.inr hw))
      | some ph =>
        rw [alt_step_spurious commands s.app i c ph hc hw]
        by_cases hb : ph = Alt.worker_phase.blocked
        · rw [if_pos hb]
          subst hb
          exact Or.inr (Or.inr (Or.inl ⟨i, c, hc, hw, rfl⟩))
        · rw [if_neg hb]
          exact Or.inl rfl
  | run i =>
    cases hw : s.app.workers[i]? with
    | none =>
      refine Or.inr ⟨by simp only [Alt.exec_step, hw], ?_⟩
      exact Or.inl (alt_step_no_worker commands s.app i _ (Or.inl rfl) (Or.inr hw))
    | some ph =>
      cases hc : commands[i]? with
      | none =>
        have hlt := alt_lt_length _ _ _ hw
        cases ph with
        | running =>
          cases ht : s.todo[i]? with
          | none =>
            refine Or.inr ⟨by simp only [Alt.exec_step, hw, ht], ?_⟩
            exact Or.inl (alt_step_no_worker commands s.app i _ (Or.inl rfl) (Or.inl hc))
          | some steps =>
            cases steps with
            | nil =>
              refine Or.inr ⟨by simp only [Alt.exec_step, hw, ht], ?_⟩
              exact Or.inl (alt_step_no_worker commands s.app i _ (Or.inl rfl) (Or.inl hc))
            | cons op rest =>
              exact Or.inl ⟨i, op, rest, hw, ht, by simp only [Alt.exec_step, hw, ht]⟩
        | idle =>
          refine Or.inr ⟨by simp only [Alt.exec_step, hw], ?_⟩
          exact Or.inl (alt_step_no_worker commands s.app i _ (Or.inl rfl) (Or.inl hc))
        | blocked =>
          refine Or.inr ⟨by simp only [Alt.exec_step, hw], ?_⟩
          exact Or.inl (alt_step_no_worker commands s.app i _ (Or.inl rfl) (Or.inl hc))
        | done =>
          refine Or.inr ⟨by simp only [Alt.exec_step, hw], ?_⟩
          exact Or.inl (alt_step_no_worker commands s.app i _ (Or.inl rfl) (Or.inl hc))
      | some c =>
        cases ph with
        | idle =>
          refine Or.inr ⟨by simp only [Alt.exec_step, hw], ?_⟩
          exact Or.inr (Or.inl ⟨i, c, hc, hw, alt_step_run_idle commands s.app i c hc hw⟩)
        | blocked =>
          refine Or.inr ⟨by simp only [Alt.exec_step, hw], ?_⟩
          rw [alt_step_run_blocked commands s.app i c hc hw]
          by_cases hin : i ∈ s.app.sched_cond
          · rw [if_pos hin]
            exact Or.inr (Or.inr (Or.inl ⟨i, c, hc, hw, rfl⟩))
          · rw [if_neg hin]
            exact Or.inl rfl
        | done =>
          refine Or.inr ⟨by simp only [Alt.exec_step, hw], ?_⟩
          exact Or.inl (alt_step_run_done commands s.app i hw)
        | running =>
          cases ht : s.todo[i]? with
          | none =>
            refine Or.inr ⟨by simp only [Alt.exec_step, hw, ht], ?_⟩
            refine Or.inr (Or.inr (Or.inr ⟨i, c, hc, hw, ?_,
              alt_step_run_running commands s.app i c hc hw⟩))
            intro op rest h
            rw [ht] at h
            exact Option.noConfusion h
          | some steps =>
            cases steps with
            | nil =>
              refine Or.inr ⟨by simp only [Alt.exec_step, hw, ht], ?_⟩
              refine Or.inr (Or.inr (Or.inr ⟨i, c, hc, hw, ?_,
                alt_step_run_running commands s.app i c hc hw⟩))
              intro op rest h
              rw [ht] at h
              simp at h
            | cons op rest =>
              exact Or.inl ⟨i, op, rest, hw, ht, by simp only [Alt.exec_step, hw, ht]⟩


theorem alt_set_self (l : List Alt.worker_phase) (k : Nat) (ph : Alt.worker_phase)
    (hk : k < l.length) : (l.set k ph)[k]? = some ph := by
  rw [List.getElem?_set, if_pos rfl, if_pos hk]

theorem alt_exec_thread_step (commands : List Alt.command_t) (s : Alt.exec_state) (i : Nat)
    (op : Alt.thread_step) (rest : List Alt.thread_step)
    (hdist : Alt.distinct_priorities commands) (hN : commands.length ≤ SIZE_MAX)
    (hinv : Alt.exec_inv commands s)
    (hw : s.app.workers[i]? = some Alt.worker_phase.running)
    (ht : s.todo[i]? = some (op :: rest)) :
    Alt.exec_inv commands (Alt.thread_step_run s i op rest) := by
  obtain ⟨cmd, hc⟩ := alt_worker_has_command commands s.app hinv.gate.size i _ hw
  obtain ⟨steps, hsteps, htails, hlock, hreg⟩ := hinv.executing i cmd hc hw
  have hst : steps = op :: rest := by
    rw [ht] at hsteps
    exact (Option.some.inj hsteps).symm
  rw [hst] at htails hlock hreg
  obtain ⟨hrw, hload, hrest⟩ := alt_shape_step cmd op rest htails
  rw [← hlock] at hrw
  obtain ⟨happ, hl, htodo, hregs, hrlen, hstore, hnostore⟩ :=
    alt_thread_step_fields s i op rest _ hrw
  have hilt : i < s.todo.length := (List.getElem?_eq_some.mp ht).1
  have hself : (s.todo.set i rest)[i]? = some rest := by
    rw [List.getElem?_set, if_pos rfl, if_pos hilt]
  have honly : ∀ j, s.app.workers[j]? = some Alt.worker_phase.running → j = i :=
    fun j hj => alt_running_unique commands s.app hdist hinv.gate.size hinv.turn i j hw hj
  refine ⟨?_, ?_, ?_, ?_, ?_, ?_, ?_, ?_, ?_⟩
  · rw [happ]; exact hinv.gate
  · rw [happ]; exact hinv.turn
  · rw [htodo, List.length_set]; exact hinv.todo_size
  · rw [hrlen]; exact hinv.regs_size
  · intro j d hd hj
    rw [happ] at hj
    have hji : j ≠ i := by
      intro hji
      rw [hji, hw] at hj
      rcases hj with h | h <;> simp at h
    rw [htodo, List.getElem?_set_ne (Ne.symm hji)]
    exact hinv.waiting j d hd hj
  · intro j hj
    rw [happ] at hj
    have hji : j ≠ i := by
      intro hji
      rw [hji, hw] at hj
      simp at hj
    rw [htodo, List.getElem?_set_ne (Ne.symm hji)]
    exact hinv.finished j hj
  · intro j d hd hj
    rw [happ] at hj
    have hji := honly j hj
    rw [hji] at hd ⊢
    have hdc : d = cmd := by rw [hc] at hd; exact (Option.some.inj hd).symm
    rw [hdc]
    refine ⟨rest, by rw [htodo]; exact hself, hrest, hl, ?_⟩
    intro c rest2 hr
    have hop := hload c rest2 hr
    have hns : ∀ c2, op ≠ Alt.thread_step.store c2 := by
      intro c2
      rw [hop]
      simp
    rw [hregs c hop, hnostore hns]
    have hlt : i < s.regs.length := by rw [hinv.regs_size, ← hinv.todo_size]; exact hilt
    rw [List.getElem?_set, if_pos rfl, if_pos hlt]
    rfl
  · intro hno
    rw [happ] at hno
    exact absurd hw (hno i)
  · intro c
    have hp := alt_pending_set c s.todo i (op :: rest) rest ht
    have hb := hinv.balance c
    rw [htodo]
    by_cases hop : op = Alt.thread_step.store c
    · rw [hop] at hp
      rw [hstore c hop, alt_get_set, if_pos rfl]
      have hr := hreg c rest (by rw [hop])
      rw [hr]
      have hle := alt_pending_le c commands
      rw [List.count_cons_self] at hp
      have hlt : s.counters.get c + 1 < SIZE_MAX + 1 := by omega
      rw [Nat.mod_eq_of_lt hlt]
      omega
    · have hcount : (op :: rest).count (Alt.thread_step.store c) =
          rest.count (Alt.thread_step.store c) := by
        rw [List.count_cons]
        simp [hop]
      have hget : (Alt.thread_step_run s i op rest).counters.get c = s.counters.get c := by
        by_cases hk : ∃ k, op = Alt.thread_step.store k
        · obtain ⟨k, hk⟩ := hk
          rw [hstore k hk, alt_get_set, if_neg]
          intro hck
          apply hop
          rw [hk, hck]
        · rw [hnostore (fun k hk2 => hk ⟨k, hk2⟩)]
      rw [hget]
      omega

theorem alt_exec_gate_step (commands : List Alt.command_t) (s : Alt.exec_state)
    (app2 : Alt.app_context_t) (k : Nat) (c : Alt.command_t) (ph : Alt.worker_phase)
    (hdist : Alt.distinct_priorities commands) (hinv : Alt.exec_inv commands s)
    (hc : commands[k]? = some c)
    (hw : s.app.workers[k]? = some Alt.worker_phase.idle ∨
      s.app.workers[k]? = some Alt.worker_phase.blocked)
    (hws : app2.workers = s.app.workers.set k ph)
    (hph : ph = Alt.worker_phase.blocked ∨ ph = Alt.worker_phase.running)
    (hg : Alt.gate_inv commands app2) (ht : Alt.turn_inv commands app2) :
    Alt.exec_inv commands { s with app := app2 } := by
  have hklt : k < s.app.workers.length := by
    rcases hw with h | h <;> exact alt_lt_length _ _ _ h
  have hself : app2.workers[k]? = some ph := by rw [hws]; exact alt_set_self _ k ph hklt
  have hother : ∀ j, j ≠ k → app2.workers[j]? = s.app.workers[j]? := by
    intro j hjk
    rw [hws, List.getElem?_set_ne (Ne.symm hjk)]
  have hkw := hinv.waiting k c hc hw
  have hknot : s.app.workers[k]? ≠ some Alt.worker_phase.running := by
    rcases hw with h | h <;> rw [h] <;> simp
  refine ⟨hg, ht, hinv.todo_size, hinv.regs_size, ?_, ?_, ?_, ?_, hinv.balance⟩
  · intro j d hd hj
    show s.todo[j]? = some (Alt.command_steps d)
    by_cases hjk : j = k
    · rw [hjk] at hd ⊢
      have hdc : d = c := by rw [hc] at hd; exact (Option.some.inj hd).symm
      rw [hdc]
      exact hkw
    · have hj2 : s.app.workers[j]? = some Alt.worker_phase.idle ∨
          s.app.workers[j]? = some Alt.worker_phase.blocked := by
        rw [← hother j hjk]
        exact hj
      exact hinv.waiting j d hd hj2
  · intro j hj
    show s.todo[j]? = some []
    have hj1 : app2.workers[j]? = some Alt.worker_phase.done := hj
    by_cases hjk : j = k
    · rw [hjk, hself] at hj1
      rcases hph with h | h <;> rw [h] at hj1 <;> simp at hj1
    · rw [hother j hjk] at hj1
      exact hinv.finished j hj1
  · intro j d hd hj
    have hj1 : app2.workers[j]? = some Alt.worker_phase.running := hj
    show ∃ steps, s.todo[j]? = some steps ∧ steps ∈ (Alt.command_steps d).tails ∧
      s.table_lock = Alt.lock_of_todo steps ∧
      ∀ (c : Alt.counter_id) (rest : List Alt.thread_step),
        steps = Alt.thread_step.store c :: rest → s.regs[j]?.getD 0 = s.counters.get c
    by_cases hjk : j = k
    · rw [hjk] at hd hj1 ⊢
      have hdc : d = c := by rw [hc] at hd; exact (Option.some.inj hd).symm
      rw [hdc]
      have hfree : s.table_lock = Alt.rwlock_free := by
        apply hinv.idle_lock
        intro m hm
        have hmk : m ≠ k := by
          intro hmk
          rw [hmk] at hm
          exact hknot hm
        have hm2 : app2.workers[m]? = some Alt.worker_phase.running := by
          rw [hother m hmk]; exact hm
        exact hmk (alt_running_unique commands app2 hdist hg.size ht k m hj1 hm2)
      refine ⟨Alt.command_steps c, hkw, ?_, ?_, ?_⟩
      · rw [List.mem_tails]
      · rw [hfree, alt_command_steps_type]
        exact (alt_type_steps_head c.type Alt.counter_id.read_lock_acq).1.symm
      · intro c2 rest hrest
        exfalso
        have hh := (alt_type_steps_head c.type c2).2
        rw [← alt_command_steps_type, hrest] at hh
        exact hh rfl
    · rw [hother j hjk] at hj1
      exact hinv.executing j d hd hj1
  · intro hno
    show s.table_lock = Alt.rwlock_free
    apply hinv.idle_lock
    intro m hm
    by_cases hmk : m = k
    · rw [hmk] at hm
      exact hknot hm
    · have := hno m
      apply this
      show app2.workers[m]? = some Alt.worker_phase.running
      rw [hother m hmk]
      exact hm

theorem alt_exec_finish_step (commands : List Alt.command_t) (s : Alt.exec_state)
    (k : Nat) (c : Alt.command_t) (hinv : Alt.exec_inv commands s)
    (hc : commands[k]? = some c)
    (hw : s.app.workers[k]? = some Alt.worker_phase.running)
    (hnone : ∀ op rest, s.todo[k]? ≠ some (op :: rest))
    (hg : Alt.gate_inv commands (Alt.worker_main_finish s.app k))
    (ht : Alt.turn_inv commands (Alt.worker_main_finish s.app k)) :
    Alt.exec_inv commands { s with app := Alt.worker_main_finish s.app k } := by
  have hws := (alt_finish_fields s.app k).1
  have hklt : k < s.app.workers.length := alt_lt_length _ _ _ hw
  have hself : (Alt.worker_main_finish s.app k).workers[k]? = some Alt.worker_phase.done := by
    rw [hws]; exact alt_set_self _ k _ hklt
  have hother : ∀ j, j ≠ k →
      (Alt.worker_main_finish s.app k).workers[j]? = s.app.workers[j]? := by
    intro j hjk
    rw [hws, List.getElem?_set_ne (Ne.symm hjk)]
  obtain ⟨steps, hsteps, _, hlock, _⟩ := hinv.executing k c hc hw
  have hnil : steps = [] := by
    cases steps with
    | nil => rfl
    | cons op rest => exact absurd hsteps (hnone op rest)
  rw [hnil] at hsteps hlock
  refine ⟨hg, ht, hinv.todo_size, hinv.regs_size, ?_, ?_, ?_, ?_, hinv.balance⟩
  · intro j d hd hj
    show s.todo[j]? = some (Alt.command_steps d)
    have hj1 : (Alt.worker_main_finish s.app k).workers[j]? = some Alt.worker_phase.idle ∨
        (Alt.worker_main_finish s.app k).workers[j]? = some Alt.worker_phase.blocked := hj
    by_cases hjk : j = k
    · rw [hjk, hself] at hj1
      rcases hj1 with h | h <;> simp at h
    · rw [hother j hjk] at hj1
      exact hinv.waiting j d hd hj1
  · intro j hj
    show s.todo[j]? = some []
    have hj1 : (Alt.worker_main_finish s.app k).workers[j]? =
        some Alt.worker_phase.done := hj
    by_cases hjk : j = k
    · rw [hjk]; exact hsteps
    · rw [hother j hjk] at hj1
      exact hinv.finished j hj1
  · intro j d hd hj
    have hj1 : (Alt.worker_main_finish s.app k).workers[j]? =
        some Alt.worker_phase.running := hj
    show ∃ steps, s.todo[j]? = some steps ∧ steps ∈ (Alt.command_steps d).tails ∧
      s.table_lock = Alt.lock_of_todo steps ∧
      ∀ (c : Alt.counter_id) (rest : List Alt.thread_step),
        steps = Alt.thread_step.store c :: rest → s.regs[j]?.getD 0 = s.counters.get c
    by_cases hjk : j = k
    · rw [hjk, hself] at hj1
      simp at hj1
    · rw [hother j hjk] at hj1
      exact hinv.executing j d hd hj1
  · intro _
    show s.table_lock = Alt.rwlock_free
    rw [hlock]
    rfl

theorem alt_exec_step_preserves (commands : List Alt.command_t) (s : Alt.exec_state)
    (e : sched_event) (hdist : Alt.distinct_priorities commands)
    (hN : commands.length ≤ SIZE_MAX) (hinv : Alt.exec_inv commands s) :
    Alt.exec_inv commands (Alt.exec_step commands s e) := by
  rcases alt_exec_step_cases commands s e with ⟨i, op, rest, hw, ht, h⟩ | ⟨h, hcases⟩
  · rw [h]
    exact alt_exec_thread_step commands s i op rest hdist hN hinv hw ht
  · rw [h]
    have hg := alt_step_preserves_gate_inv commands s.app e hinv.gate
    have ht := alt_step_preserves_turn_inv commands s.app e hdist hinv.turn
    rcases hcases with h2 | ⟨i, c, hc, hw, h2⟩ | ⟨i, c, hc, hw, h2⟩ | ⟨i, c, hc, hw, hnone, h2⟩
    · rw [h2]
      exact hinv
    · rw [h2] at hg ht ⊢
      refine alt_exec_gate_step commands s _ i c _ hdist hinv hc (Or.inl hw)
        (alt_gate_workers s.app c i).1 ?_ hg ht
      split_ifs
      · exact Or.inl rfl
      · exact Or.inr rfl
    · rw [h2] at hg ht ⊢
      refine alt_exec_gate_step commands s _ i c _ hdist hinv hc (Or.inr hw)
        (alt_gate_workers _ c i).1 ?_ hg ht
      split_ifs
      · exact Or.inl rfl
      · exact Or.inr rfl
    · rw [h2] at hg ht ⊢
      exact alt_exec_finish_step commands s i c hinv hc hw hnone hg ht

theorem alt_exec_init_inv (commands : List Alt.command_t)
    (hdist : Alt.distinct_priorities commands) :
    Alt.exec_inv commands (Alt.exec_init commands) := by
  refine ⟨alt_init_gate_inv commands, alt_init_turn_inv commands hdist, ?_, ?_, ?_, ?_, ?_,
    ?_, ?_⟩
  · simp [Alt.exec_init]
  · simp [Alt.exec_init]
  · intro i cmd hc _
    show (commands.map Alt.command_steps)[i]? = some (Alt.command_steps cmd)
    rw [List.getElem?_map, hc]
    rfl
  · intro i hw
    exact absurd (alt_init_workers commands i _ hw) (by simp)
  · intro i cmd _ hw
    exact absurd (alt_init_workers commands i _ hw) (by simp)
  · intro _
    rfl
  · intro c
    show Alt.lock_counters_init.get c + Alt.pending c (commands.map Alt.command_steps) = _
    have : Alt.lock_counters_init.get c = 0 := by cases c <;> rfl
    rw [this, Nat.zero_add]

theorem alt_exec_run_inv (commands : List Alt.command_t) (events : List sched_event)
    (hdist : Alt.distinct_priorities commands) (hN : commands.length ≤ SIZE_MAX) :
    Alt.exec_inv commands (Alt.exec_run commands events) := by
  have hgen : ∀ s : Alt.exec_state, Alt.exec_inv commands s →
      Alt.exec_inv commands (events.foldl (Alt.exec_step commands) s) := by
    induction events with
    | nil => intro s h; exact h
    | cons e events ih =>
      intro s h
      exact ih _ (alt_exec_step_preserves commands s e hdist hN h)
  exact hgen _ (alt_exec_init_inv commands hdist)


theorem alt_final_print_report (commands : List Alt.command_t) (s : Alt.exec_state)
    (hlock : s.table_lock = Alt.rwlock_free) :
    Alt.final_report commands s =
      some (Alt.log_final_summary
        ((s.counters.set Alt.counter_id.read_lock_acq
            ((s.counters.read_lock_acq + 1) % (SIZE_MAX + 1))).set
          Alt.counter_id.read_lock_rel ((s.counters.read_lock_rel + 1) % (SIZE_MAX + 1)))) := by
  unfold Alt.final_report
  rw [hlock]
  rfl

theorem alt_joined_counters (commands : List Alt.command_t) (s : Alt.exec_state)
    (hinv : Alt.exec_inv commands s) (hdone : Alt.all_joined s) :
    s.table_lock = Alt.rwlock_free ∧
      ∀ c : Alt.counter_id,
        s.counters.get c = Alt.pending c (commands.map Alt.command_steps) := by
  have hphase : ∀ (i : Nat) (ph : Alt.worker_phase), s.app.workers[i]? = some ph →
      ph = Alt.worker_phase.done := by
    intro i ph h
    exact hdone ph (List.mem_iff_getElem?.mpr ⟨i, h⟩)
  constructor
  · apply hinv.idle_lock
    intro i hi
    have := hphase i _ hi
    simp at this
  · intro c
    have hzero : Alt.pending c s.todo = 0 := by
      apply alt_pending_done
      intro i hi
      apply hinv.finished
      have hlt : i < s.app.workers.length := by
        rw [hinv.gate.size, ← hinv.todo_size]
        exact hi
      have hget : s.app.workers[i]? = some s.app.workers[i] := List.getElem?_eq_getElem hlt
      rw [hget, hphase i _ hget]
    have hb := hinv.balance c
    omega

theorem alt_mixed_permutation : Alt.permutation_priorities Alt.mixed_commands := by
  unfold Alt.permutation_priorities
  decide

/-! ## Claim: the lock counters after a run -/

set_option maxRecDepth 100000 in
/-- C36, the claim as stated fails: `racing_searches` is a list of two
searches that both have the priority 0.  Both workers pass the turn gate while
`next_priority` is 0 and execute together; each reads `read_lock_acq` as 0
before the other has written it, so one `++` is lost.  After both workers and
the final print have run, `log_final_summary` reports 2 acquisitions and 3
releases, not N + 1 = 3 of each. -/
theorem alt_racing_searches_lose_count :
    Alt.racing_searches.length + 1 = 3 ∧
      Alt.all_joined (Alt.exec_run Alt.racing_searches Alt.racing_events) ∧
      Alt.final_report Alt.racing_searches
        (Alt.exec_run Alt.racing_searches Alt.racing_events) = some (2, 3) := by
  decide

/-- C36, amended: in the alternate program every executed command acquires the
table lock exactly once and releases it exactly once, in reader mode for a
search or a print and in writer mode for an insert, a delete or an update.
When the priorities are a permutation of 0..N-1 (N below `SIZE_MAX`), then
for every interleaving of the steps of the workers, each `++` of a lock
counter taken as a read followed by a write, once all N workers have
returned: the counters of acquisitions and releases agree for each mode, the
table lock is free, the final print of `main` returns, and the two totals
`log_final_summary` reports are both N + 1. -/
theorem alt_lock_totals (commands : List Alt.command_t) (events : List sched_event)
    (hperm : Alt.permutation_priorities commands) (hsize : commands.length < SIZE_MAX)
    (hdone : Alt.all_joined (Alt.exec_run commands events)) :
    (∀ cmd : Alt.command_t,
      (cmd.type = Alt.command_type_t.CMD_SEARCH ∨ cmd.type = Alt.command_type_t.CMD_PRINT →
        Alt.lock_calls (Alt.execute_command cmd) =
          [Alt.app_call.acquire_read_lock, Alt.app_call.release_read_lock]) ∧
      (cmd.type = Alt.command_type_t.CMD_INSERT ∨ cmd.type = Alt.command_type_t.CMD_DELETE ∨
          cmd.type = Alt.command_type_t.CMD_UPDATE →
        Alt.lock_calls (Alt.execute_command cmd) =
          [Alt.app_call.acquire_write_lock, Alt.app_call.release_write_lock])) ∧
      (Alt.exec_run commands events).counters.read_lock_acq =
        (Alt.exec_run commands events).counters.read_lock_rel ∧
      (Alt.exec_run commands events).counters.write_lock_acq =
        (Alt.exec_run commands events).counters.write_lock_rel ∧
      (Alt.exec_run commands events).table_lock = Alt.rwlock_free ∧
      Alt.final_report commands (Alt.exec_run commands events) =
        some (commands.length + 1, commands.length + 1) := by
  refine ⟨?_, ?_⟩
  · intro cmd
    unfold Alt.execute_command Alt.lock_calls
    constructor
    · intro h
      rcases h with h | h <;> rw [h] <;> decide
    · intro h
      rcases h with h | h | h <;> rw [h] <;> decide
  · have hdist := (alt_permutation_facts commands hperm).1
    have hinv := alt_exec_run_inv commands events hdist (Nat.le_of_lt hsize)
    obtain ⟨hfree, hget⟩ := alt_joined_counters commands _ hinv hdone
    obtain ⟨t1, t2, t3⟩ := alt_pending_totals commands
    have g1 := hget Alt.counter_id.read_lock_acq
    have g2 := hget Alt.counter_id.read_lock_rel
    have g3 := hget Alt.counter_id.write_lock_acq
    have g4 := hget Alt.counter_id.write_lock_rel
    simp only [Alt.lock_counters.get] at g1 g2 g3 g4
    refine ⟨by omega, by omega, hfree, ?_⟩
    rw [alt_final_print_report commands _ hfree]
    simp only [Alt.log_final_summary, Alt.lock_counters.set, SIZE_MAX, Option.some.injEq,
      Prod.mk.injEq] at *
    omega

set_option maxRecDepth 100000 in
theorem alt_lock_totals_witness :
    Alt.permutation_priorities Alt.mixed_commands ∧
      Alt.mixed_commands.length < SIZE_MAX ∧
      Alt.all_joined (Alt.exec_run Alt.mixed_commands Alt.serial_events) ∧
      Alt.final_report Alt.mixed_commands
        (Alt.exec_run Alt.mixed_commands Alt.serial_events) =
          some (Alt.mixed_commands.length + 1, Alt.mixed_commands.length + 1) :=
  ⟨alt_mixed_permutation, by decide, by decide,
    (alt_lock_totals Alt.mixed_commands Alt.serial_events alt_mixed_permutation (by decide)
      (by decide)).2.2.2.2⟩

end ConcurrentHash
